import Mathlib

/-!
# Block storage of student records (tp1-aeds2): a shallow embedding

Embedding conventions.

* A Go `string` or `[]byte` is a `List Byte`, a byte being a `Fin 256`; `len` is `List.length`.
* Go `int` values are `Int` (record fields) or `Nat` (lengths, offsets, block numbers, which
  the program never makes negative), `int` being 64 bits wide so that `int(uint32)` is exact;
  `uint32(x)` and `uint64(x)` are taken modulo `2^32`, `2^64`.
* A `float64` is an `F64`: the finite values are the integer multiples `m * 2^(-1074)`, and every
  arithmetic operation rounds to nearest, ties to even, at 53 significant bits, as IEEE 754
  binary64 does. Negative zero is identified with zero (Go `==` does the same).
* A Go `error` result is an `Option` of an error value (`none` is `nil`); a `(value, error)`
  result is an `Except`.
* A file is the list of its bytes. Opening, creating and reading a file inside its bounds never
  fail in the model.
* Loops whose termination depends on the data carry a fuel argument and return `none` when the
  fuel is exhausted; a result `some _` is therefore a result the Go loop reaches.
-/

namespace Tp1

abbrev Byte := Fin 256

deriving instance DecidableEq for Except

/-! ## float64 arithmetic -/

/-- A binary64 value. `fin m` is the finite value `m * 2^(-1074)`. -/
inductive F64 where
  | fin (m : Int)
  | inf (neg : Bool)
  | nan
deriving DecidableEq, Repr

namespace F64

/-- The number one in grid units: `1 = unit * 2^(-1074)`. -/
@[irreducible] def unit : Nat := 2 ^ 1074

/-- Magnitudes from `2^1024` on (in grid units) overflow to infinity. -/
@[irreducible] def overflowAt : Nat := 2 ^ 2098

/-- The number of binary digits of `q`; the first argument is fuel, and `q` itself is
always enough. -/
def bitLength : Nat → Nat → Nat
  | 0, _ => 0
  | fuel + 1, q => if q = 0 then 0 else bitLength fuel (q / 2) + 1

/-- The quotient `n / d`, `d > 0`, rounded to the nearest value that has at most 53
significant bits, ties to even. -/
def roundDiv (n d : Nat) : Nat :=
  let s := bitLength (n / d) (n / d) - 53
  let D := d * 2 ^ s
  let q := n / D
  let r := n % D
  (if D < 2 * r ∨ (2 * r = D ∧ q % 2 = 1) then q + 1 else q) * 2 ^ s

/-- A sign and a rounded magnitude as a float, overflowing to infinity. -/
def ofMag (neg : Bool) (u : Nat) : F64 :=
  if overflowAt ≤ u then inf neg else fin (if neg then -(u : Int) else (u : Int))

/-- Sign of a finite value. -/
def isNeg (m : Int) : Bool := decide (m < 0)

/-- Conversion `float64(k)` of a non-negative integer. -/
def ofNat (k : Nat) : F64 := ofMag false (roundDiv (k * unit) 1)

/-- The float64 nearest to `k / 100`, which is the value of `float64(k) / 100.0` for
`k < 2^53` and of the decimal literal with those hundredths. -/
def ofHundredths (k : Nat) : F64 := ofMag false (roundDiv (k * unit) 100)

/-- The constant `100`. -/
def hundred : F64 := fin (100 * (unit : Int))

/-- The constant `10.0` (`CA_MAX`). -/
def ten : F64 := fin (10 * (unit : Int))

/-- The constant `0.0` (`CA_MIN`). -/
def zero : F64 := fin 0

/-- Float multiplication `x * y`. -/
def mul : F64 → F64 → F64
  | fin a, fin b => ofMag (isNeg a != isNeg b) (roundDiv (a.natAbs * b.natAbs) unit)
  | fin a, inf n => if a = 0 then nan else inf (isNeg a != n)
  | inf n, fin b => if b = 0 then nan else inf (n != isNeg b)
  | inf n, inf k => inf (n != k)
  | _, _ => nan

/-- Float division `x / y`. -/
def div : F64 → F64 → F64
  | fin a, fin b =>
      if b = 0 then (if a = 0 then nan else inf (isNeg a))
      else ofMag (isNeg a != isNeg b) (roundDiv (a.natAbs * unit) b.natAbs)
  | fin _, inf _ => fin 0
  | inf n, fin b => inf (n != isNeg b)
  | _, _ => nan

/-- Comparison `x < y`; false when either side is NaN. -/
def lt : F64 → F64 → Bool
  | fin a, fin b => decide (a < b)
  | fin _, inf n => !n
  | inf n, fin _ => n
  | inf n, inf k => n && !k
  | _, _ => false

/-- The function `math.Round`: nearest integer, halves away from zero. -/
def round : F64 → F64
  | fin m =>
      let t := m.natAbs / unit
      let r := m.natAbs % unit
      let t1 := if unit ≤ 2 * r then t + 1 else t
      fin (if m < 0 then -((t1 * unit : Nat) : Int) else ((t1 * unit : Nat) : Int))
  | x => x

/-- The conversion `uint64(x)`, as the code the Go compiler generates for amd64 computes it.
A value below `2^63` goes through the instruction that converts to a signed 64-bit integer:
the fraction is discarded, a negative result is kept in two's complement (`-150` gives
`2^64 - 150`), and when the truncated value does not fit in 64 signed bits, or `x` is NaN,
the instruction reports `2^63`. For a value from `2^63` on, `x - 2^63` is converted in the
same way and bit 63 is set, which gives the truncated value below `2^64` and `2^63` from
`2^64` on. -/
def toUint64 : F64 → Nat
  | fin m =>
      if m < 0 then
        if m.natAbs / unit = 0 then 0
        else if m.natAbs / unit ≤ 2 ^ 63 then 2 ^ 64 - m.natAbs / unit
        else 2 ^ 63
      else if m.natAbs / unit < 2 ^ 64 then m.natAbs / unit
      else 2 ^ 63
  | _ => 2 ^ 63

end F64

/-! ## Little-endian integers and slices -/

/-- The low byte of a number. -/
def byteOf (n : Nat) : Byte := ⟨n % 256, Nat.mod_lt n (by decide)⟩

/-- The `w`-byte little-endian encoding of `n` (`PutUint32`, `PutUint64`): the value is
taken modulo `256^w`. -/
def leEncode : Nat → Nat → List Byte
  | 0, _ => []
  | w + 1, n => byteOf n :: leEncode w (n / 256)

/-- The little-endian value of a byte slice (`Uint32` on 4 bytes, `Uint64` on 8). -/
def leDecode : List Byte → Nat
  | [] => 0
  | b :: rest => b.val + 256 * leDecode rest

/-- The conversion `uint32(x)` of a Go int. -/
def uint32 (x : Int) : Nat := (x % 4294967296).toNat

/-- The Go slice expression `data[lo:hi]`. -/
def slice (data : List Byte) (lo hi : Nat) : List Byte := (data.drop lo).take (hi - lo)

/-! ## entity/student.go -/

def MaxMatriculaDigits : Nat := 9
def MaxNomeLength : Nat := 50
def CPFLength : Nat := 11
def MaxCursoLength : Nat := 30
def MaxFiliacaoLength : Nat := 30
def AnoIngressoMin : Int := 1000
def AnoIngressoMax : Int := 9999
def CA_MIN : F64 := F64.zero
def CA_MAX : F64 := F64.ten

structure Student where
  Matricula : Int
  Nome : List Byte
  CPF : List Byte
  Curso : List Byte
  FiliacaoMae : List Byte
  FiliacaoPai : List Byte
  AnoIngresso : Int
  CA : F64
deriving DecidableEq, Repr

/-- The function `strconv.Itoa`: decimal digits, with a leading minus sign for negatives. -/
def itoa (n : Int) : List Char :=
  if n < 0 then '-' :: Nat.toDigits 10 n.natAbs else Nat.toDigits 10 n.natAbs

/-- The value of a run of decimal digits. -/
def digitsValue (cs : List Char) : Nat :=
  cs.foldl (fun acc c => 10 * acc + (c.toNat - 48)) 0

/-- The function `strconv.Atoi` on the strings the program gives it (an optional minus sign
followed by decimal digits); its error result is discarded by the caller. -/
def atoi : List Char → Int
  | '-' :: cs => -((digitsValue cs : Nat) : Int)
  | cs => ((digitsValue cs : Nat) : Int)

/-- The failures `Student.Validate` reports, one per message. -/
inductive ValidateError where
  | matricula
  | nome
  | cpfLength
  | cpfDigits
  | curso
  | filiacaoMae
  | filiacaoPai
  | anoIngresso
  | ca
deriving DecidableEq, Repr

/-- The loop over the runes of the CPF: every rune must lie in `'0'..'9'`. A byte of 0x80 or
more decodes to a rune above `'9'` (possibly the replacement rune), so the loop accepts
exactly the strings all of whose bytes are ASCII digits. -/
def cpfAllDigits (cpf : List Byte) : Bool := cpf.all (fun b => decide (48 ≤ b.val ∧ b.val ≤ 57))

/-- The method `Student.Validate`; `none` is the nil error. -/
def Student.Validate (s : Student) : Option ValidateError :=
  if s.Matricula < 1 ∨ (itoa s.Matricula).length > MaxMatriculaDigits then some .matricula
  else if s.Nome.length = 0 ∨ s.Nome.length > MaxNomeLength then some .nome
  else if s.CPF.length ≠ CPFLength then some .cpfLength
  else if ¬ cpfAllDigits s.CPF then some .cpfDigits
  else if s.Curso.length = 0 ∨ s.Curso.length > MaxCursoLength then some .curso
  else if s.FiliacaoMae.length = 0 ∨ s.FiliacaoMae.length > MaxFiliacaoLength then
    some .filiacaoMae
  else if s.FiliacaoPai.length = 0 ∨ s.FiliacaoPai.length > MaxFiliacaoLength then
    some .filiacaoPai
  else if s.AnoIngresso < AnoIngressoMin ∨ s.AnoIngresso > AnoIngressoMax then some .anoIngresso
  else if F64.lt s.CA CA_MIN ∨ F64.lt CA_MAX s.CA then some .ca
  else none

/-- Truncation of a text field to at most `n` bytes. -/
def truncText (n : Nat) (t : List Byte) : List Byte := if t.length > n then t.take n else t

/-- The CPF step of `TruncateFields`: cut to 11 bytes, or pad on the left with `'0'`. -/
def truncCPF (cpf : List Byte) : List Byte :=
  if cpf.length > CPFLength then cpf.take CPFLength
  else if cpf.length < CPFLength then List.replicate (CPFLength - cpf.length) (48 : Byte) ++ cpf
  else cpf

/-- The key step of `TruncateFields`: keep the first nine characters of the decimal form. -/
def truncMatricula (m : Int) : Int :=
  if (itoa m).length > MaxMatriculaDigits then atoi ((itoa m).take MaxMatriculaDigits) else m

/-- The score step of `TruncateFields`: `math.Round(CA*100)/100`, then clamping. -/
def truncCA (ca : F64) : F64 :=
  let c := F64.div (F64.round (F64.mul ca F64.hundred)) F64.hundred
  let c1 := if F64.lt c CA_MIN then CA_MIN else c
  if F64.lt CA_MAX c1 then CA_MAX else c1

/-- The method `Student.TruncateFields`, as a function returning the updated record. -/
def Student.TruncateFields (s : Student) : Student :=
  { Matricula := truncMatricula s.Matricula
    Nome := truncText MaxNomeLength s.Nome
    CPF := truncCPF s.CPF
    Curso := truncText MaxCursoLength s.Curso
    FiliacaoMae := truncText MaxFiliacaoLength s.FiliacaoMae
    FiliacaoPai := truncText MaxFiliacaoLength s.FiliacaoPai
    AnoIngresso := s.AnoIngresso
    CA := truncCA s.CA }

/-! ## The score field of both codecs -/

/-- The stored score integer `uint64(student.CA*100)`. -/
def encodeCA (ca : F64) : Nat := F64.toUint64 (F64.mul ca F64.hundred)

/-- The decoded score `float64(caValue) / 100.0`. -/
def decodeCA (caValue : Nat) : F64 := F64.div (F64.ofNat caValue) F64.hundred

/-- The record that the variable-width decoder gives back for the encoding of `r`: every
field of `r` except the score, which has gone through the stored integer and the rounding
of `TruncateFields`. -/
def storedVariable (r : Student) : Student :=
  { r with CA := truncCA (decodeCA (encodeCA r.CA)) }

/-! ## storage/variable.go: the variable-width codec -/

/-- The reasons `deserializeStudent` gives for failing. -/
inductive DecodeError where
  | insufficient
  | insufficientNome
  | insufficientCPF
  | insufficientCurso
  | insufficientMae
  | insufficientPai
  | insufficientAno
  | insufficientCA
  | offsetOutOfBounds
  | invalid (e : ValidateError)
deriving DecidableEq, Repr

/-- A length-prefixed text field: 4-byte little-endian length, then the bytes. -/
def lenPrefixed (t : List Byte) : List Byte := leEncode 4 (t.length % 4294967296) ++ t

/-- The function `serializeStudent` of `VariableStorage` (and, with the same text, of
`VariableFragmentedStorage`). -/
def serializeStudent (s : Student) : List Byte :=
  leEncode 4 (uint32 s.Matricula) ++
  lenPrefixed s.Nome ++
  s.CPF ++
  lenPrefixed s.Curso ++
  lenPrefixed s.FiliacaoMae ++
  lenPrefixed s.FiliacaoPai ++
  leEncode 4 (uint32 s.AnoIngresso) ++
  leEncode 8 (encodeCA s.CA)

/-- The function `deserializeStudent` of `VariableStorage` (and of
`VariableFragmentedStorage`). -/
def deserializeStudent (data : List Byte) : Except DecodeError Student :=
  if data.length < 4 then .error .insufficient else
  let matricula := leDecode (slice data 0 4)
  let offset := 4
  if offset + 4 > data.length then .error .insufficientNome else
  let nomeLen := leDecode (slice data offset (offset + 4))
  let offset := offset + 4
  if offset + nomeLen > data.length then .error .insufficientNome else
  let nome := slice data offset (offset + nomeLen)
  let offset := offset + nomeLen
  if offset + 11 > data.length then .error .insufficientCPF else
  let cpf := slice data offset (offset + 11)
  let offset := offset + 11
  if offset + 4 > data.length then .error .insufficientCurso else
  let cursoLen := leDecode (slice data offset (offset + 4))
  let offset := offset + 4
  if offset + cursoLen > data.length then .error .insufficientCurso else
  let curso := slice data offset (offset + cursoLen)
  let offset := offset + cursoLen
  if offset + 4 > data.length then .error .insufficientMae else
  let maeLen := leDecode (slice data offset (offset + 4))
  let offset := offset + 4
  if offset + maeLen > data.length then .error .insufficientMae else
  let filiacaoMae := slice data offset (offset + maeLen)
  let offset := offset + maeLen
  if offset + 4 > data.length then .error .insufficientPai else
  let paiLen := leDecode (slice data offset (offset + 4))
  let offset := offset + 4
  if offset + paiLen > data.length then .error .insufficientPai else
  let filiacaoPai := slice data offset (offset + paiLen)
  let offset := offset + paiLen
  if offset + 4 > data.length then .error .insufficientAno else
  let anoIngresso := leDecode (slice data offset (offset + 4))
  let offset := offset + 4
  if offset + 8 > data.length then .error .insufficientCA else
  let caValue := leDecode (slice data offset (offset + 8))
  let student : Student :=
    { Matricula := (matricula : Int)
      Nome := nome
      CPF := cpf
      Curso := curso
      FiliacaoMae := filiacaoMae
      FiliacaoPai := filiacaoPai
      AnoIngresso := (anoIngresso : Int)
      CA := decodeCA caValue }
  let student := student.TruncateFields
  match student.Validate with
  | some e => .error (.invalid e)
  | none => .ok student

/-! ## Statistics records and errors of the storage package -/

/-- Modelled from the spec: the declaration of `BlockStats` is not among the source files;
the fields are the ones the storage code assigns (block number, bytes used, bytes total,
occupancy = used/total*100, record count). -/
structure BlockStats where
  BlockNumber : Nat
  BytesUsed : Nat
  BytesTotal : Nat
  OccupancyRate : F64
  RecordsCount : Nat
deriving DecidableEq, Repr

/-- Modelled from the spec: the declaration of `StorageStats` is not among the source files;
the fields are the ones the storage code assigns (total block count, total bytes used and
available, count of partial blocks, overall efficiency, per-block entries). -/
structure StorageStats where
  TotalBlocks : Nat
  TotalBytesUsed : Nat
  TotalBytesTotal : Nat
  PartialBlocks : Nat
  EfficiencyRate : F64
  BlockStatsList : List BlockStats
deriving DecidableEq, Repr

/-- The statistics of a newly constructed storage object. -/
def StorageStats.empty : StorageStats :=
  { TotalBlocks := 0, TotalBytesUsed := 0, TotalBytesTotal := 0, PartialBlocks := 0,
    EfficiencyRate := F64.zero, BlockStatsList := [] }

/-- The expression `float64(used) / float64(total) * 100`. -/
def percentage (used total : Nat) : F64 :=
  F64.mul (F64.div (F64.ofNat used) (F64.ofNat total)) F64.hundred

/-- The errors the storage operations build with `fmt.Errorf`, with the values each message
is formatted from. -/
inductive StorageError where
  | blockSizeTooSmall (blockSize : Int) (minSize : Nat)
  | recordTooLarge (position : Nat) (matricula : Int) (size : Nat) (blockSize : Nat)
  | notFound (matricula : Int)
deriving DecidableEq, Repr

/-- The state the write loops thread through their helper: the block being filled, its
number and statistics, the statistics of the storage object, and the buffers handed to
`writeBlock` so far, in call order. -/
structure Writer where
  currentBlock : List Byte
  currentBlockNumber : Nat
  blockStats : BlockStats
  stats : StorageStats
  written : List (List Byte)
deriving DecidableEq, Repr

/-- The bytes `writeBlock` appends to the file for one buffer: a zeroed block of
`blockSize` bytes with the buffer copied over its start. -/
def writeBlock (blockSize : Nat) (block : List Byte) : List Byte :=
  block.take blockSize ++ List.replicate (blockSize - block.length) (0 : Byte)

/-- The content of a newly created file after the given `writeBlock` calls. -/
def fileOf (blockSize : Nat) (written : List (List Byte)) : List Byte :=
  (written.map (writeBlock blockSize)).flatten

/-- The state at the start of `WriteStudents`. -/
def Writer.init (blockSize : Nat) (stats : StorageStats) : Writer :=
  { currentBlock := []
    currentBlockNumber := 0
    blockStats := { BlockNumber := 0, BytesUsed := 0, BytesTotal := blockSize,
                    OccupancyRate := F64.zero, RecordsCount := 0 }
    stats := stats
    written := [] }

/-- Flushing the current block: its occupancy is computed, its entry appended to the block
list, the buffer handed to `writeBlock` and the totals updated. The partial-block counter is
incremented when `countPartial` is set and the occupancy is below 100. -/
def Writer.flush (w : Writer) (countPartial : Bool) : Writer :=
  let occ := percentage w.blockStats.BytesUsed w.blockStats.BytesTotal
  let entry := { w.blockStats with OccupancyRate := occ }
  { w with
    blockStats := entry
    stats :=
      { w.stats with
        PartialBlocks :=
          if countPartial && F64.lt occ F64.hundred then w.stats.PartialBlocks + 1
          else w.stats.PartialBlocks
        BlockStatsList := w.stats.BlockStatsList ++ [entry]
        TotalBlocks := w.stats.TotalBlocks + 1
        TotalBytesUsed := w.stats.TotalBytesUsed + w.blockStats.BytesUsed
        TotalBytesTotal := w.stats.TotalBytesTotal + w.blockStats.BytesTotal }
    written := w.written ++ [w.currentBlock] }

/-- Opening a new, empty block with the next block number. -/
def Writer.newBlock (w : Writer) (blockSize : Nat) : Writer :=
  { w with
    currentBlock := []
    currentBlockNumber := w.currentBlockNumber + 1
    blockStats := { BlockNumber := w.currentBlockNumber + 1, BytesUsed := 0,
                    BytesTotal := blockSize, OccupancyRate := F64.zero, RecordsCount := 0 } }

/-- The function `calculateFinalStats`. -/
def calculateFinalStats (stats : StorageStats) : StorageStats :=
  if stats.TotalBytesTotal > 0 then
    { stats with EfficiencyRate := percentage stats.TotalBytesUsed stats.TotalBytesTotal }
  else stats

/-- The function `writeContiguousRecord`, shared word for word by `FixedStorage` and
`VariableStorage`. -/
def writeContiguousRecord (blockSize : Nat) (w : Writer) (recordData : List Byte) : Writer :=
  let recordSize := recordData.length
  let w1 :=
    if w.currentBlock.length + recordSize > blockSize then
      (if w.currentBlock.length > 0 then w.flush true else w).newBlock blockSize
    else w
  { w1 with
    currentBlock := w1.currentBlock ++ recordData
    blockStats :=
      { w1.blockStats with
        BytesUsed := w1.blockStats.BytesUsed + recordSize
        RecordsCount := w1.blockStats.RecordsCount + 1 } }

/-- The tail of every `WriteStudents`: the last block is flushed when it is not empty (the
partial-block counter is not touched here) and the efficiency is computed. -/
def Writer.finish (w : Writer) : Writer :=
  let w1 := if w.currentBlock.length > 0 then w.flush false else w
  { w1 with stats := calculateFinalStats w1.stats }

/-- What a call of `WriteStudents` leaves behind: the file content, the buffers that were
handed to `writeBlock`, the statistics of the storage object and the returned error. -/
structure WriteResult where
  file : List Byte
  written : List (List Byte)
  stats : StorageStats
  err : Option StorageError
deriving DecidableEq, Repr

/-! ## storage/variable.go: VariableStorage -/

structure VariableStorage where
  blockSize : Nat
  stats : StorageStats
deriving DecidableEq, Repr

/-- The method `ValidateBlockSize` of `VariableStorage`. -/
def VariableStorage.ValidateBlockSize (blockSize : Int) : Option StorageError :=
  let minSize : Nat := 4 + 4 + MaxNomeLength + CPFLength + 4 + MaxCursoLength +
    4 + MaxFiliacaoLength + 4 + MaxFiliacaoLength + 4 + 8
  if blockSize < (minSize : Int) then some (.blockSizeTooSmall blockSize minSize) else none

/-- The constructor `NewVariableStorage`. An accepted block size is positive, so it is kept
as a natural number. -/
def NewVariableStorage (blockSize : Int) : Except StorageError VariableStorage :=
  match VariableStorage.ValidateBlockSize blockSize with
  | some e => .error e
  | none => .ok { blockSize := blockSize.toNat, stats := StorageStats.empty }

/-- The record loop of `VariableStorage.WriteStudents`; `i` is the index of the head of the
remaining records. -/
def VariableStorage.writeLoop (blockSize : Nat) :
    Nat → List Student → Writer → Writer × Option StorageError
  | _, [], w => (w, none)
  | i, student :: rest, w =>
      let recordData := serializeStudent student
      if recordData.length > blockSize then
        (w, some (.recordTooLarge (i + 1) student.Matricula recordData.length blockSize))
      else
        VariableStorage.writeLoop blockSize (i + 1) rest
          (writeContiguousRecord blockSize w recordData)

/-- The method `VariableStorage.WriteStudents` on a newly created file. -/
def VariableStorage.WriteStudents (vs : VariableStorage) (students : List Student) :
    WriteResult :=
  match VariableStorage.writeLoop vs.blockSize 0 students (Writer.init vs.blockSize vs.stats) with
  | (w, some e) =>
      { file := fileOf vs.blockSize w.written, written := w.written, stats := w.stats,
        err := some e }
  | (w, none) =>
      { file := fileOf vs.blockSize w.finish.written, written := w.finish.written,
        stats := w.finish.stats, err := none }

/-- The method `getRecordSize`. -/
def getRecordSize (student : Student) : Nat :=
  4 + (4 + student.Nome.length) + 11 + (4 + student.Curso.length) +
    (4 + student.FiliacaoMae.length) + (4 + student.FiliacaoPai.length) + 4 + 8

/-- The method `deserializeStudentFromBlock`. -/
def deserializeStudentFromBlock (block : List Byte) (offset : Nat) :
    Except DecodeError Student :=
  if offset + 4 > block.length then .error .offsetOutOfBounds
  else deserializeStudent (block.drop offset)

/-- The block `blockNum` of a file, as `file.ReadAt` fills it. -/
def readBlock (file : List Byte) (blockSize blockNum : Nat) : List Byte :=
  slice file (blockNum * blockSize) (blockNum * blockSize + blockSize)

/-- The inner loop of `VariableStorage.GetAllStudents` over one block, from `offset` on.
The first argument is fuel. -/
def VariableStorage.scanBlock (blockSize : Nat) (block : List Byte) :
    Nat → Nat → List Student → Option (List Student)
  | 0, _, _ => none
  | fuel + 1, offset, students =>
      if ¬ offset < blockSize then some students
      else if offset + 4 > blockSize then some students
      else
        match deserializeStudentFromBlock block offset with
        | .error _ => some students
        | .ok student =>
            VariableStorage.scanBlock blockSize block fuel (offset + getRecordSize student)
              (if student.Matricula > 0 then students ++ [student] else students)

/-- The block loop of `VariableStorage.GetAllStudents`: `n` blocks remain, starting with
block `blockNum`. -/
def VariableStorage.scanBlocks (blockSize : Nat) (file : List Byte) :
    Nat → Nat → List Student → Option (List Student)
  | 0, _, students => some students
  | n + 1, blockNum, students =>
      match VariableStorage.scanBlock blockSize (readBlock file blockSize blockNum)
          (blockSize + 1) 0 students with
      | none => none
      | some students1 => VariableStorage.scanBlocks blockSize file n (blockNum + 1) students1

/-- The method `VariableStorage.GetAllStudents`; `none` only if a loop ran out of fuel. -/
def VariableStorage.GetAllStudents (vs : VariableStorage) (file : List Byte) :
    Option (List Student) :=
  let totalBlocks := file.length / vs.blockSize
  VariableStorage.scanBlocks vs.blockSize file totalBlocks 0 []

/-- The method `VariableStorage.AddStudents`: read everything, append, write everything. -/
def VariableStorage.AddStudents (vs : VariableStorage) (file : List Byte)
    (students : List Student) : Option WriteResult :=
  match vs.GetAllStudents file with
  | none => none
  | some existingStudents =>
      let r := vs.WriteStudents (existingStudents ++ students)
      some { r with stats := if r.err = none then calculateFinalStats r.stats else r.stats }

/-- The inner loop of `findStudentContiguous` over one block: `some (some s)` when the loop
returns the record `s`, `some none` when the block is exhausted. The first argument is
fuel. -/
def VariableStorage.findInBlock (blockSize : Nat) (block : List Byte) (matricula : Int) :
    Nat → Nat → Option (Option Student)
  | 0, _ => none
  | fuel + 1, offset =>
      if ¬ offset < blockSize then some none
      else if offset + 4 > blockSize then some none
      else
        let readMatricula : Int := (leDecode (slice block offset (offset + 4)) : Nat)
        match (if readMatricula = matricula then
                 (deserializeStudentFromBlock block offset).toOption else none) with
        | some student => some (some student)
        | none =>
            match deserializeStudentFromBlock block offset with
            | .error _ => some none
            | .ok student =>
                VariableStorage.findInBlock blockSize block matricula fuel
                  (offset + getRecordSize student)

/-- The method `findStudentContiguous`: `n` blocks remain, starting with block `blockNum`. -/
def VariableStorage.findStudentContiguous (blockSize : Nat) (file : List Byte)
    (matricula : Int) : Nat → Nat → Option (Except StorageError Student)
  | 0, _ => some (.error (.notFound matricula))
  | n + 1, blockNum =>
      match VariableStorage.findInBlock blockSize (readBlock file blockSize blockNum) matricula
          (blockSize + 1) 0 with
      | none => none
      | some (some student) => some (.ok student)
      | some none =>
          VariableStorage.findStudentContiguous blockSize file matricula n (blockNum + 1)

/-- The method `VariableStorage.FindStudentByMatricula`; `none` only if a loop ran out of
fuel. -/
def VariableStorage.FindStudentByMatricula (vs : VariableStorage) (file : List Byte)
    (matricula : Int) : Option (Except StorageError Student) :=
  let totalBlocks := file.length / vs.blockSize
  VariableStorage.findStudentContiguous vs.blockSize file matricula totalBlocks 0

/-! ## storage/fixed.go: FixedStorage -/

structure FixedStorage where
  blockSize : Nat
  fixedRecordSize : Nat
  stats : StorageStats
deriving DecidableEq, Repr

/-- The method `ValidateBlockSize` of `FixedStorage`. -/
def FixedStorage.ValidateBlockSize (blockSize : Int) : Option StorageError :=
  let minSize : Nat := 4 + MaxNomeLength + CPFLength + MaxCursoLength +
    MaxFiliacaoLength + MaxFiliacaoLength + 4 + 8
  if blockSize < (minSize : Int) then some (.blockSizeTooSmall blockSize minSize) else none

/-- The constructor `NewFixedStorage`; the record size field keeps its zero value. -/
def NewFixedStorage (blockSize : Int) : Except StorageError FixedStorage :=
  match FixedStorage.ValidateBlockSize blockSize with
  | some e => .error e
  | none => .ok { blockSize := blockSize.toNat, fixedRecordSize := 0, stats := StorageStats.empty }

/-- The method `calculateFixedRecordSize`. -/
def FixedStorage.calculateFixedRecordSize (fs : FixedStorage) : FixedStorage :=
  { fs with fixedRecordSize := 4 + MaxNomeLength + CPFLength + MaxCursoLength +
      MaxFiliacaoLength + MaxFiliacaoLength + 4 + 8 }

/-- A text field cut to `n` bytes and filled up to `n` bytes with the padding byte. -/
def padField (n : Nat) (pad : Byte) (t : List Byte) : List Byte :=
  let cut := if t.length > n then t.take n else t
  cut ++ List.replicate (n - cut.length) pad

/-- The method `serializeStudentFixed`; `'#'` is byte 35 and `'0'` is byte 48. -/
def serializeStudentFixed (student : Student) : List Byte :=
  leEncode 4 (uint32 student.Matricula) ++
  padField MaxNomeLength 35 student.Nome ++
  padField CPFLength 48 student.CPF ++
  padField MaxCursoLength 35 student.Curso ++
  padField MaxFiliacaoLength 35 student.FiliacaoMae ++
  padField MaxFiliacaoLength 35 student.FiliacaoPai ++
  leEncode 4 (uint32 student.AnoIngresso) ++
  leEncode 8 (encodeCA student.CA)

/-- The loop that removes trailing `'#'` bytes from a decoded text field. -/
def trimHash (t : List Byte) : List Byte := t.rdropWhile (fun b => decide (b = 35))

/-- A Go byte slice as the decoder sees it: `cells` are the bytes from the start of the
slice up to its capacity, `len` is its length. A slice expression `data[lo:hi]` on it may
reach up to the capacity. -/
structure ByteSlice where
  cells : List Byte
  len : Nat
deriving DecidableEq, Repr

/-- A slice whose length is its capacity. -/
def ByteSlice.ofList (l : List Byte) : ByteSlice := { cells := l, len := l.length }

/-- The slice expression `block[lo:hi]` on a full block. -/
def ByteSlice.ofBlock (block : List Byte) (lo hi : Nat) : ByteSlice :=
  { cells := block.drop lo, len := hi - lo }

/-- The outcome of `deserializeStudentFixed`: a decode error, or the run-time panic of a
slice expression that reaches past the capacity. -/
inductive FixedDecodeError where
  | insufficient
  | sliceOutOfRange
  | invalid (e : ValidateError)
deriving DecidableEq, Repr

/-- The method `deserializeStudentFixed`. The record is not passed through
`TruncateFields`. -/
def deserializeStudentFixed (fixedRecordSize : Nat) (data : ByteSlice) :
    Except FixedDecodeError Student :=
  if data.len < fixedRecordSize then .error .insufficient
  else if data.cells.length < 4 + MaxNomeLength + CPFLength + MaxCursoLength +
      MaxFiliacaoLength + MaxFiliacaoLength + 4 + 8 then .error .sliceOutOfRange
  else
    let d := data.cells
    let offset := 0
    let matricula := leDecode (slice d offset (offset + 4))
    let offset := offset + 4
    let nome := trimHash (slice d offset (offset + MaxNomeLength))
    let offset := offset + MaxNomeLength
    let cpf := slice d offset (offset + CPFLength)
    let offset := offset + CPFLength
    let curso := trimHash (slice d offset (offset + MaxCursoLength))
    let offset := offset + MaxCursoLength
    let filiacaoMae := trimHash (slice d offset (offset + MaxFiliacaoLength))
    let offset := offset + MaxFiliacaoLength
    let filiacaoPai := trimHash (slice d offset (offset + MaxFiliacaoLength))
    let offset := offset + MaxFiliacaoLength
    let anoIngresso := leDecode (slice d offset (offset + 4))
    let offset := offset + 4
    let caValue := leDecode (slice d offset (offset + 8))
    let student : Student :=
      { Matricula := (matricula : Int)
        Nome := nome
        CPF := cpf
        Curso := curso
        FiliacaoMae := filiacaoMae
        FiliacaoPai := filiacaoPai
        AnoIngresso := (anoIngresso : Int)
        CA := decodeCA caValue }
    match student.Validate with
    | some e => .error (.invalid e)
    | none => .ok student

/-- The record loop of `FixedStorage.WriteStudents`. -/
def FixedStorage.writeLoop (blockSize : Nat) : List Student → Writer → Writer
  | [], w => w
  | student :: rest, w =>
      FixedStorage.writeLoop blockSize rest
        (writeContiguousRecord blockSize w (serializeStudentFixed student))

/-- The method `FixedStorage.WriteStudents` on a newly created file: the storage object
with its record size set, and the outcome. -/
def FixedStorage.WriteStudents (fs : FixedStorage) (students : List Student) :
    FixedStorage × WriteResult :=
  let fs1 := fs.calculateFixedRecordSize
  let w := (FixedStorage.writeLoop fs1.blockSize students
    (Writer.init fs1.blockSize fs1.stats)).finish
  ({ fs1 with stats := w.stats },
   { file := fileOf fs1.blockSize w.written, written := w.written, stats := w.stats,
     err := none })

/-! ## storage/variable_fragmented.go: VariableFragmentedStorage -/

structure VariableFragmentedStorage where
  blockSize : Nat
  stats : StorageStats
deriving DecidableEq, Repr

/-- The method `ValidateBlockSize` of `VariableFragmentedStorage`. -/
def VariableFragmentedStorage.ValidateBlockSize (blockSize : Int) : Option StorageError :=
  let minSize : Nat := 4 + 4 + MaxNomeLength + CPFLength + 4 + MaxCursoLength +
    4 + MaxFiliacaoLength + 4 + MaxFiliacaoLength + 4 + 8
  if blockSize < (minSize : Int) then some (.blockSizeTooSmall blockSize minSize) else none

/-- The constructor `NewVariableFragmentedStorage`. -/
def NewVariableFragmentedStorage (blockSize : Int) :
    Except StorageError VariableFragmentedStorage :=
  match VariableFragmentedStorage.ValidateBlockSize blockSize with
  | some e => .error e
  | none => .ok { blockSize := blockSize.toNat, stats := StorageStats.empty }

/-- The chunk loop of `writeFragmentedRecord` (`for len(remainingData) > 0`). Every
iteration opens a new block, writes one chunk (flag, 4-byte length, payload) into it and
hands it to `writeBlock` at once. The first argument is fuel. For a block size below 5 the
Go code stops with a negative slice bound; the model then makes no progress and runs out of
fuel. -/
def writeChunks (blockSize : Nat) : Nat → List Byte → Bool → Writer → Option Writer
  | 0, remainingData, _, w => if remainingData.length > 0 then none else some w
  | fuel + 1, remainingData, isFirstChunk, w =>
      if ¬ remainingData.length > 0 then some w
      else
        let w1 := w.newBlock blockSize
        let headerSize := 5
        let spaceAvailable := blockSize - headerSize
        let chunkSize :=
          if remainingData.length > spaceAvailable then spaceAvailable else remainingData.length
        let continuationFlag : Byte := if remainingData.length ≤ spaceAvailable then 0 else 1
        let w2 : Writer :=
          { w1 with
            currentBlock :=
              [continuationFlag] ++ leEncode 4 (chunkSize % 4294967296) ++
                remainingData.take chunkSize
            blockStats :=
              { w1.blockStats with
                BytesUsed := w1.blockStats.BytesUsed + (headerSize + chunkSize)
                RecordsCount :=
                  if isFirstChunk then w1.blockStats.RecordsCount + 1
                  else w1.blockStats.RecordsCount } }
        writeChunks blockSize fuel (remainingData.drop chunkSize) false (w2.flush true)

/-- The method `writeFragmentedRecord`; `none` only if the chunk loop ran out of fuel. -/
def writeFragmentedRecord (blockSize : Nat) (w : Writer) (recordData : List Byte) :
    Option Writer :=
  let recordSize := recordData.length
  let availableSpace := blockSize - w.currentBlock.length
  if recordSize ≤ availableSpace then
    some
      { w with
        currentBlock := w.currentBlock ++ recordData
        blockStats :=
          { w.blockStats with
            BytesUsed := w.blockStats.BytesUsed + recordSize
            RecordsCount := w.blockStats.RecordsCount + 1 } }
  else
    let w1 := if w.currentBlock.length > 0 then w.flush true else w
    writeChunks blockSize recordData.length recordData true w1

/-- The record loop of `VariableFragmentedStorage.WriteStudents`. -/
def VariableFragmentedStorage.writeLoop (blockSize : Nat) :
    List Student → Writer → Option Writer
  | [], w => some w
  | student :: rest, w =>
      match writeFragmentedRecord blockSize w (serializeStudent student) with
      | none => none
      | some w1 => VariableFragmentedStorage.writeLoop blockSize rest w1

/-- The method `VariableFragmentedStorage.WriteStudents` on a newly created file; `none`
only if the chunk loop ran out of fuel. -/
def VariableFragmentedStorage.WriteStudents (vfs : VariableFragmentedStorage)
    (students : List Student) : Option WriteResult :=
  match VariableFragmentedStorage.writeLoop vfs.blockSize students
      (Writer.init vfs.blockSize vfs.stats) with
  | none => none
  | some w =>
      some { file := fileOf vfs.blockSize w.finish.written, written := w.finish.written,
             stats := w.finish.stats, err := none }

/-- The loop `for currentContFlag == 1` of the fragmented readers: the payloads of the
following blocks are appended to `recordData` while the flag read last is 1 and blocks
remain. The first argument is fuel: every iteration moves to the next block and the loop
stops at `totalBlocks`, so the fuel `totalBlocks` the readers pass is never used up. -/
def followChain (blockSize : Nat) (file : List Byte) (totalBlocks : Nat) :
    Nat → Nat → Byte → List Byte → List Byte
  | 0, _, _, recordData => recordData
  | fuel + 1, currentBlockNum, currentContFlag, recordData =>
      if currentContFlag = 1 then
        let currentBlockNum := currentBlockNum + 1
        if currentBlockNum ≥ totalBlocks then recordData
        else
          let nextBlock := readBlock file blockSize currentBlockNum
          let nextContFlag := nextBlock.getD 0 0
          let nextChunkSize := leDecode (slice nextBlock 1 5)
          let recordData :=
            if 5 + nextChunkSize ≤ blockSize then recordData ++ slice nextBlock 5 (5 + nextChunkSize)
            else recordData
          followChain blockSize file totalBlocks fuel currentBlockNum nextContFlag recordData
      else recordData

/-- The chunk header read at `offset` of a block and the record bytes gathered from it by
following the continuation chain, as the fragmented readers do; `none` when the chunk does
not fit in the block (the readers then leave the block). The result is the continuation
flag, the chunk size and the reconstructed record bytes. -/
def readChain (blockSize : Nat) (file : List Byte) (totalBlocks blockNum offset : Nat) :
    Option (Byte × Nat × List Byte) :=
  let block := readBlock file blockSize blockNum
  let continuationFlag := block.getD offset 0
  let chunkSize := leDecode (slice block (offset + 1) (offset + 5))
  if offset + 5 + chunkSize > blockSize then none
  else
    let chunkData := slice block (offset + 5) (offset + 5 + chunkSize)
    some (continuationFlag, chunkSize,
      followChain blockSize file totalBlocks totalBlocks blockNum continuationFlag chunkData)

/-- The inner loop of `VariableFragmentedStorage.GetAllStudents` over block `blockNum`, from
`offset` on. The first argument is fuel. -/
def VariableFragmentedStorage.scanBlock (blockSize : Nat) (file : List Byte)
    (totalBlocks blockNum : Nat) : Nat → Nat → List Student → Option (List Student)
  | 0, _, _ => none
  | fuel + 1, offset, students =>
      if ¬ offset < blockSize then some students
      else if offset + 5 > blockSize then some students
      else
        match readChain blockSize file totalBlocks blockNum offset with
        | none => some students
        | some (continuationFlag, chunkSize, recordData) =>
            let students :=
              if recordData.length ≥ 4 then
                match deserializeStudent recordData with
                | .ok student => if student.Matricula > 0 then students ++ [student] else students
                | .error _ => students
              else students
            VariableFragmentedStorage.scanBlock blockSize file totalBlocks blockNum fuel
              (if continuationFlag = 0 then offset + (5 + chunkSize) else blockSize) students

/-- The block loop of `VariableFragmentedStorage.GetAllStudents`. -/
def VariableFragmentedStorage.scanBlocks (blockSize : Nat) (file : List Byte)
    (totalBlocks : Nat) : Nat → Nat → List Student → Option (List Student)
  | 0, _, students => some students
  | n + 1, blockNum, students =>
      match VariableFragmentedStorage.scanBlock blockSize file totalBlocks blockNum
          (blockSize + 1) 0 students with
      | none => none
      | some students1 =>
          VariableFragmentedStorage.scanBlocks blockSize file totalBlocks n (blockNum + 1)
            students1

/-- The method `VariableFragmentedStorage.GetAllStudents`; `none` only if a loop ran out of
fuel. -/
def VariableFragmentedStorage.GetAllStudents (vfs : VariableFragmentedStorage)
    (file : List Byte) : Option (List Student) :=
  let totalBlocks := file.length / vfs.blockSize
  VariableFragmentedStorage.scanBlocks vfs.blockSize file totalBlocks totalBlocks 0 []

/-- The method `VariableFragmentedStorage.AddStudents`. -/
def VariableFragmentedStorage.AddStudents (vfs : VariableFragmentedStorage)
    (file : List Byte) (students : List Student) : Option WriteResult :=
  match vfs.GetAllStudents file with
  | none => none
  | some existingStudents =>
      match vfs.WriteStudents (existingStudents ++ students) with
      | none => none
      | some r => some { r with stats := calculateFinalStats r.stats }

/-! ## Auxiliary notions used by the statements and proofs -/

/-- The bytes a group of records occupies when their variable-width encodings are laid end
to end. -/
def encGroup (g : List Student) : List Byte := (g.map serializeStudent).flatten

/-- One bounds check followed by the read of a 4-byte little-endian integer at `offset`, the
rest of the decoding being `k` applied to the integer and to the advanced offset. -/
def readUint32At (data : List Byte) (offset : Nat) (err : DecodeError)
    (k : Nat → Nat → Except DecodeError Student) : Except DecodeError Student :=
  if offset + 4 > data.length then .error err
  else k (leDecode (slice data offset (offset + 4))) (offset + 4)

/-- One bounds check followed by the read of `n` bytes at `offset`, the rest of the decoding
being `k` applied to the bytes and to the advanced offset. -/
def readBytesAt (data : List Byte) (offset n : Nat) (err : DecodeError)
    (k : List Byte → Nat → Except DecodeError Student) : Except DecodeError Student :=
  if offset + n > data.length then .error err
  else k (slice data offset (offset + n)) (offset + n)

/-- The last step of `deserializeStudent`: the record is built, truncated and validated. -/
def finishDecode (matricula : Nat) (nome cpf curso filiacaoMae filiacaoPai : List Byte)
    (anoIngresso caValue : Nat) : Except DecodeError Student :=
  match (Student.TruncateFields
      { Matricula := (matricula : Int), Nome := nome, CPF := cpf, Curso := curso,
        FiliacaoMae := filiacaoMae, FiliacaoPai := filiacaoPai,
        AnoIngresso := (anoIngresso : Int), CA := decodeCA caValue }).Validate with
  | some e => .error (.invalid e)
  | none =>
      .ok (Student.TruncateFields
        { Matricula := (matricula : Int), Nome := nome, CPF := cpf, Curso := curso,
          FiliacaoMae := filiacaoMae, FiliacaoPai := filiacaoPai,
          AnoIngresso := (anoIngresso : Int), CA := decodeCA caValue })

/-- The function `deserializeStudent` written as a chain of reads; it is the same function
(`deserializeStudent_eq_staged`) and serves to reason about one read at a time. -/
def deserializeStudentStaged (data : List Byte) : Except DecodeError Student :=
  if data.length < 4 then .error .insufficient else
  readUint32At data 4 .insufficientNome fun nomeLen offset =>
  readBytesAt data offset nomeLen .insufficientNome fun nome offset =>
  readBytesAt data offset 11 .insufficientCPF fun cpf offset =>
  readUint32At data offset .insufficientCurso fun cursoLen offset =>
  readBytesAt data offset cursoLen .insufficientCurso fun curso offset =>
  readUint32At data offset .insufficientMae fun maeLen offset =>
  readBytesAt data offset maeLen .insufficientMae fun filiacaoMae offset =>
  readUint32At data offset .insufficientPai fun paiLen offset =>
  readBytesAt data offset paiLen .insufficientPai fun filiacaoPai offset =>
  readUint32At data offset .insufficientAno fun anoIngresso offset =>
  readBytesAt data offset 8 .insufficientCA fun caBytes _ =>
  finishDecode (leDecode (slice data 0 4)) nome cpf curso filiacaoMae filiacaoPai anoIngresso
    (leDecode caBytes)

/-- The payload size of the chunk that the chunk loop cuts from the remaining bytes. -/
def chunkSizeOf (blockSize : Nat) (remainingData : List Byte) : Nat :=
  if remainingData.length > blockSize - 5 then blockSize - 5 else remainingData.length

/-- The buffer of the chunk that the chunk loop cuts from the remaining bytes: the
continuation flag, the 4-byte payload length and the payload. -/
def chunkOf (blockSize : Nat) (remainingData : List Byte) : List Byte :=
  [if remainingData.length ≤ blockSize - 5 then (0 : Byte) else 1] ++
    leEncode 4 (chunkSizeOf blockSize remainingData % 4294967296) ++
    remainingData.take (chunkSizeOf blockSize remainingData)

/-- The buffers the chunk loop hands to `writeBlock` for the remaining bytes, in order; the
first argument is the fuel of the loop. -/
def chunkBuffers (blockSize : Nat) : Nat → List Byte → List (List Byte)
  | 0, _ => []
  | fuel + 1, remainingData =>
      if remainingData.length > 0 then
        chunkOf blockSize remainingData ::
          chunkBuffers blockSize fuel
            (remainingData.drop (chunkSizeOf blockSize remainingData))
      else []

/-- The search of `findStudentContiguous` over a list of block buffers, each padded by
`writeBlock`: the list form of the block loop, used to reason about a written file. -/
def findInBuffers (blockSize : Nat) (matricula : Int) :
    List (List Byte) → Option (Except StorageError Student)
  | [] => some (.error (.notFound matricula))
  | b :: rest =>
      match VariableStorage.findInBlock blockSize (writeBlock blockSize b) matricula
          (blockSize + 1) 0 with
      | none => none
      | some (some student) => some (.ok student)
      | some none => findInBuffers blockSize matricula rest

/-- The scan of `VariableStorage.GetAllStudents` over a list of block buffers, each padded
by `writeBlock`: the list form of the block loop, used to reason about a written file. -/
def scanBuffers (blockSize : Nat) : List (List Byte) → List Student → Option (List Student)
  | [], students => some students
  | b :: rest, students =>
      match VariableStorage.scanBlock blockSize (writeBlock blockSize b) (blockSize + 1) 0
          students with
      | none => none
      | some students1 => scanBuffers blockSize rest students1

/-- The writer never holds nor has handed over more than a block of bytes. -/
def Writer.Bounded (blockSize : Nat) (w : Writer) : Prop :=
  w.currentBlock.length ≤ blockSize ∧ ∀ buf ∈ w.written, buf.length ≤ blockSize

/-- What the capacity invariant says of one completed write. -/
def WriteResult.WithinCapacity (blockSize : Nat) (r : WriteResult) : Prop :=
  (∀ buf ∈ r.written, buf.length ≤ blockSize ∧ (writeBlock blockSize buf).length = blockSize) ∧
  r.file.length = blockSize * r.written.length ∧
  blockSize ∣ r.file.length

/-! ## Sample records -/

/-- A valid record: key 100000001, name "Ana", score 7.50. -/
def sampleA : Student :=
  { Matricula := 100000001
    Nome := [65, 110, 97]
    CPF := [49, 50, 51, 52, 53, 54, 55, 56, 57, 48, 49]
    Curso := [68, 105, 114, 101, 105, 116, 111]
    FiliacaoMae := [77, 97, 114, 105, 97]
    FiliacaoPai := [74, 111, 115, 101]
    AnoIngresso := 2020
    CA := F64.ofHundredths 750 }

/-- A second valid record, with key 100000002. -/
def sampleB : Student := { sampleA with Matricula := 100000002, Nome := [66, 105, 97] }

/-- The record `sampleA` with the score 0.29 (the float64 nearest to 29/100). -/
def sample029 : Student := { sampleA with CA := F64.ofHundredths 29 }

/-- The record `sampleA` with the name "Ana#", which ends with the padding byte. -/
def sampleHash : Student := { sampleA with Nome := [65, 110, 97, 35] }

/-- A valid record whose variable-width encoding has 178 bytes. -/
def sample178 : Student :=
  { sampleA with
    Nome := List.replicate 45 65
    Curso := List.replicate 30 66
    FiliacaoMae := List.replicate 30 67
    FiliacaoPai := List.replicate 30 68 }

/-- A valid record whose variable-width encoding has 100 bytes. -/
def sample100 : Student := { sampleA with Nome := List.replicate 41 65 }

/-- A record with a name of 191 bytes, whose variable-width encoding has 250 bytes. -/
def sample250 : Student := { sampleA with Matricula := 100000003, Nome := List.replicate 191 65 }

/-- A record with a name of 297 bytes, whose variable-width encoding has 356 bytes. -/
def sample356 : Student := { sampleA with Nome := List.replicate 297 65 }

/-- A record with a name of 920 bytes, whose variable-width encoding has 979 bytes. -/
def sample979 : Student := { sampleA with Nome := List.replicate 920 65 }

/-- The record `sample029` with the key 100000009. -/
def sample029b : Student := { sample029 with Matricula := 100000009 }

/-! ## Statistics re-derived from the file (`GetStats`) -/

/-- The per-block tail of `recalculateStatsFromFile`, the same in the three layouts: the
occupancy is computed, the entry is built, the partial-block counter is incremented when
the occupancy is below 100 and above 0, and the entry is appended. -/
def StorageStats.addBlock (stats : StorageStats) (blockSize blockNum bytesUsed recordsCount : Nat) :
    StorageStats :=
  let occupancyRate := percentage bytesUsed blockSize
  let blockStats : BlockStats :=
    { BlockNumber := blockNum, BytesUsed := bytesUsed, BytesTotal := blockSize,
      OccupancyRate := occupancyRate, RecordsCount := recordsCount }
  { stats with
    PartialBlocks :=
      if F64.lt occupancyRate F64.hundred && F64.lt F64.zero occupancyRate then
        stats.PartialBlocks + 1
      else stats.PartialBlocks
    BlockStatsList := stats.BlockStatsList ++ [blockStats] }

/-- The block loop of `recalculateStatsFromFile`, the same in the three layouts: `n` blocks
remain, starting with block `blockNum`; `perBlock` is the inner loop of the layout, which
gives the bytes used and the record count of one block (`none` when it runs out of fuel).
The result is the running total of used bytes and the statistics. -/
def statsBlocks (blockSize : Nat) (file : List Byte)
    (perBlock : List Byte → Option (Nat × Nat)) :
    Nat → Nat → Nat → StorageStats → Option (Nat × StorageStats)
  | 0, _, totalUsed, stats => some (totalUsed, stats)
  | n + 1, blockNum, totalUsed, stats =>
      match perBlock (readBlock file blockSize blockNum) with
      | none => none
      | some (bytesUsed, recordsCount) =>
          statsBlocks blockSize file perBlock n (blockNum + 1) (totalUsed + bytesUsed)
            (stats.addBlock blockSize blockNum bytesUsed recordsCount)

/-- The function `recalculateStatsFromFile`, the same in the three layouts apart from the
inner loop `perBlock`: the statistics of the storage object are replaced by the ones derived
from the file. -/
def recalculateStats (blockSize : Nat) (file : List Byte)
    (perBlock : List Byte → Option (Nat × Nat)) : Option StorageStats :=
  let totalBlocks := file.length / blockSize
  let stats : StorageStats :=
    { TotalBlocks := totalBlocks, TotalBytesUsed := 0, TotalBytesTotal := totalBlocks * blockSize,
      PartialBlocks := 0, EfficiencyRate := F64.zero, BlockStatsList := [] }
  match statsBlocks blockSize file perBlock totalBlocks 0 0 stats with
  | none => none
  | some (totalUsed, stats1) =>
      let stats2 := { stats1 with TotalBytesUsed := totalUsed }
      some (if stats2.TotalBytesTotal > 0 then
        { stats2 with
          EfficiencyRate := percentage stats2.TotalBytesUsed stats2.TotalBytesTotal }
      else stats2)

/-- The inner loop of `VariableStorage.recalculateStatsFromFile` over one block: the bytes
used and the record count. The first argument is fuel. -/
def VariableStorage.statsBlock (blockSize : Nat) (block : List Byte) :
    Nat → Nat → Nat → Nat → Option (Nat × Nat)
  | 0, _, _, _ => none
  | fuel + 1, offset, bytesUsed, recordsCount =>
      if ¬ offset < blockSize then some (bytesUsed, recordsCount)
      else if offset + 4 > blockSize then some (bytesUsed, recordsCount)
      else
        match deserializeStudentFromBlock block offset with
        | .error _ => some (bytesUsed, recordsCount)
        | .ok student =>
            let recordSize := getRecordSize student
            VariableStorage.statsBlock blockSize block fuel (offset + recordSize)
              (bytesUsed + recordSize) (recordsCount + 1)

/-- The method `VariableStorage.GetStats`; `none` only if a loop ran out of fuel. The
result is also the new value of the statistics of the storage object. -/
def VariableStorage.GetStats (vs : VariableStorage) (file : List Byte) : Option StorageStats :=
  recalculateStats vs.blockSize file
    (fun block => VariableStorage.statsBlock vs.blockSize block (vs.blockSize + 1) 0 0 0)

/-- The method `VariableStorage.GetBlockSize`. -/
def VariableStorage.GetBlockSize (vs : VariableStorage) : Nat := vs.blockSize

/-- The inner loop of `FixedStorage.recalculateStatsFromFile` over one block: the number of
slots whose key is above 0. The first argument is fuel. -/
def FixedStorage.statsBlock (blockSize fixedRecordSize : Nat) (block : List Byte) :
    Nat → Nat → Nat → Option Nat
  | 0, _, _ => none
  | fuel + 1, offset, recordsCount =>
      if ¬ offset + fixedRecordSize ≤ blockSize then some recordsCount
      else if offset + 4 > blockSize then some recordsCount
      else
        let matricula := leDecode (slice block offset (offset + 4))
        FixedStorage.statsBlock blockSize fixedRecordSize block fuel (offset + fixedRecordSize)
          (if matricula > 0 then recordsCount + 1 else recordsCount)

/-- The method `FixedStorage.GetStats`; `none` when a loop does not come to an end within
its fuel. -/
def FixedStorage.GetStats (fs : FixedStorage) (file : List Byte) : Option StorageStats :=
  recalculateStats fs.blockSize file
    (fun block =>
      match FixedStorage.statsBlock fs.blockSize fs.fixedRecordSize block (fs.blockSize + 1) 0 0
        with
      | none => none
      | some recordsCount => some (recordsCount * fs.fixedRecordSize, recordsCount))

/-- The method `FixedStorage.GetBlockSize`. -/
def FixedStorage.GetBlockSize (fs : FixedStorage) : Nat := fs.blockSize

/-- The inner loop of `VariableFragmentedStorage.recalculateStatsFromFile` over one block.
The first argument is fuel. -/
def VariableFragmentedStorage.statsBlock (blockSize : Nat) (block : List Byte) :
    Nat → Nat → Nat → Nat → Option (Nat × Nat)
  | 0, _, _, _ => none
  | fuel + 1, offset, bytesUsed, recordsCount =>
      if ¬ offset < blockSize then some (bytesUsed, recordsCount)
      else if offset + 5 > blockSize then some (bytesUsed, recordsCount)
      else
        let continuationFlag := block.getD offset 0
        let chunkSize := leDecode (slice block (offset + 1) (offset + 5))
        if offset + 5 + chunkSize > blockSize then some (bytesUsed, recordsCount)
        else
          VariableFragmentedStorage.statsBlock blockSize block fuel
            (if continuationFlag = 0 then offset + (5 + chunkSize) else blockSize)
            (bytesUsed + (5 + chunkSize))
            (if continuationFlag = 0 then recordsCount + 1 else recordsCount)

/-- The method `VariableFragmentedStorage.GetStats`; `none` only if a loop ran out of
fuel. -/
def VariableFragmentedStorage.GetStats (vfs : VariableFragmentedStorage) (file : List Byte) :
    Option StorageStats :=
  recalculateStats vfs.blockSize file
    (fun block =>
      VariableFragmentedStorage.statsBlock vfs.blockSize block (vfs.blockSize + 1) 0 0 0)

/-- The method `VariableFragmentedStorage.GetBlockSize`. -/
def VariableFragmentedStorage.GetBlockSize (vfs : VariableFragmentedStorage) : Nat :=
  vfs.blockSize

/-! ## Point lookup and full scan of FixedStorage, point lookup of the fragmented layout -/

/-- The inner loop of `findStudentFixed` over one block: `some (some s)` when the loop
returns the record `s`, `some none` when the block is exhausted. The first argument is
fuel. -/
def FixedStorage.findInBlock (blockSize fixedRecordSize : Nat) (block : List Byte)
    (matricula : Int) : Nat → Nat → Option (Option Student)
  | 0, _ => none
  | fuel + 1, offset =>
      if ¬ offset + fixedRecordSize ≤ blockSize then some none
      else if offset + 4 > blockSize then some none
      else
        let readMatricula : Int := (leDecode (slice block offset (offset + 4)) : Nat)
        match (if readMatricula = matricula then
                 (deserializeStudentFixed fixedRecordSize
                    (ByteSlice.ofBlock block offset (offset + fixedRecordSize))).toOption
               else none) with
        | some student => some (some student)
        | none =>
            FixedStorage.findInBlock blockSize fixedRecordSize block matricula fuel
              (offset + fixedRecordSize)

/-- The method `findStudentFixed`: `n` blocks remain, starting with block `blockNum`. -/
def FixedStorage.findStudentFixed (blockSize fixedRecordSize : Nat) (file : List Byte)
    (matricula : Int) : Nat → Nat → Option (Except StorageError Student)
  | 0, _ => some (.error (.notFound matricula))
  | n + 1, blockNum =>
      match FixedStorage.findInBlock blockSize fixedRecordSize (readBlock file blockSize blockNum)
          matricula (blockSize + 1) 0 with
      | none => none
      | some (some student) => some (.ok student)
      | some none =>
          FixedStorage.findStudentFixed blockSize fixedRecordSize file matricula n (blockNum + 1)

/-- The method `FixedStorage.FindStudentByMatricula`; `none` when a loop does not come to
an end within its fuel. -/
def FixedStorage.FindStudentByMatricula (fs : FixedStorage) (file : List Byte)
    (matricula : Int) : Option (Except StorageError Student) :=
  let totalBlocks := file.length / fs.blockSize
  FixedStorage.findStudentFixed fs.blockSize fs.fixedRecordSize file matricula totalBlocks 0

/-- The inner loop of `FixedStorage.GetAllStudents` over one block. The first argument is
fuel. -/
def FixedStorage.scanBlock (blockSize fixedRecordSize : Nat) (block : List Byte) :
    Nat → Nat → List Student → Option (List Student)
  | 0, _, _ => none
  | fuel + 1, offset, students =>
      if ¬ offset + fixedRecordSize ≤ blockSize then some students
      else if offset + 4 > blockSize then some students
      else
        FixedStorage.scanBlock blockSize fixedRecordSize block fuel (offset + fixedRecordSize)
          (match deserializeStudentFixed fixedRecordSize
              (ByteSlice.ofBlock block offset (offset + fixedRecordSize)) with
            | .ok student => if student.Matricula > 0 then students ++ [student] else students
            | .error _ => students)

/-- The block loop of `FixedStorage.GetAllStudents`. -/
def FixedStorage.scanBlocks (blockSize fixedRecordSize : Nat) (file : List Byte) :
    Nat → Nat → List Student → Option (List Student)
  | 0, _, students => some students
  | n + 1, blockNum, students =>
      match FixedStorage.scanBlock blockSize fixedRecordSize (readBlock file blockSize blockNum)
          (blockSize + 1) 0 students with
      | none => none
      | some students1 =>
          FixedStorage.scanBlocks blockSize fixedRecordSize file n (blockNum + 1) students1

/-- The method `FixedStorage.GetAllStudents`; `none` when a loop does not come to an end
within its fuel. -/
def FixedStorage.GetAllStudents (fs : FixedStorage) (file : List Byte) :
    Option (List Student) :=
  let totalBlocks := file.length / fs.blockSize
  FixedStorage.scanBlocks fs.blockSize fs.fixedRecordSize file totalBlocks 0 []

/-- The inner loop of `findStudentFragmented` over block `blockNum`, from `offset` on:
`some (some s)` when the loop returns the record `s`, `some none` when the block is
exhausted. The first argument is fuel. -/
def VariableFragmentedStorage.findInBlock (blockSize : Nat) (file : List Byte)
    (totalBlocks blockNum : Nat) (matricula : Int) : Nat → Nat → Option (Option Student)
  | 0, _ => none
  | fuel + 1, offset =>
      if ¬ offset < blockSize then some none
      else if offset + 5 > blockSize then some none
      else
        match readChain blockSize file totalBlocks blockNum offset with
        | none => some none
        | some (continuationFlag, chunkSize, recordData) =>
            match (if recordData.length ≥ 4 ∧
                      ((leDecode (slice recordData 0 4) : Nat) : Int) = matricula then
                     (deserializeStudent recordData).toOption
                   else none) with
            | some student => some (some student)
            | none =>
                VariableFragmentedStorage.findInBlock blockSize file totalBlocks blockNum
                  matricula fuel
                  (if continuationFlag = 0 then offset + (5 + chunkSize) else blockSize)

/-- The method `findStudentFragmented`: `n` blocks remain, starting with block
`blockNum`. -/
def VariableFragmentedStorage.findStudentFragmented (blockSize : Nat) (file : List Byte)
    (totalBlocks : Nat) (matricula : Int) : Nat → Nat → Option (Except StorageError Student)
  | 0, _ => some (.error (.notFound matricula))
  | n + 1, blockNum =>
      match VariableFragmentedStorage.findInBlock blockSize file totalBlocks blockNum matricula
          (blockSize + 1) 0 with
      | none => none
      | some (some student) => some (.ok student)
      | some none =>
          VariableFragmentedStorage.findStudentFragmented blockSize file totalBlocks matricula n
            (blockNum + 1)

/-- The method `VariableFragmentedStorage.FindStudentByMatricula`; `none` only if a loop
ran out of fuel. -/
def VariableFragmentedStorage.FindStudentByMatricula (vfs : VariableFragmentedStorage)
    (file : List Byte) (matricula : Int) : Option (Except StorageError Student) :=
  let totalBlocks := file.length / vfs.blockSize
  VariableFragmentedStorage.findStudentFragmented vfs.blockSize file totalBlocks matricula
    totalBlocks 0

/-! ## Further sample records and inputs -/

/-- A valid record whose text fields all have their greatest length: its variable-width
encoding has 183 bytes. -/
def sample183 : Student :=
  { sampleA with
    Nome := List.replicate 50 65
    Curso := List.replicate 30 66
    FiliacaoMae := List.replicate 30 67
    FiliacaoPai := List.replicate 30 68 }

/-- The float64 nearest to `n / d`: the value of a decimal literal such as `9.999`
(`n = 9999`, `d = 1000`). -/
def F64.ofRatio (n d : Nat) : F64 := F64.ofMag false (F64.roundDiv (n * F64.unit) d)

/-- The record `sampleA` with the score 9.999, which `Validate` accepts. -/
def sample9999 : Student := { sampleA with CA := F64.ofRatio 9999 1000 }

/-- The record `sampleA` with a name of 51 bytes, one more than `MaxNomeLength`. -/
def sampleName51 : Student := { sampleA with Nome := List.replicate 51 65 }

/-- The record `sampleA` with the three-byte CPF "123". -/
def sampleCPF3 : Student := { sampleA with CPF := [49, 50, 51] }

/-- The record `sampleA` with the ten-digit key 1234567890, which fits in the four key
bytes. -/
def sampleKey10 : Student := { sampleA with Matricula := 1234567890 }

/-- The record `sampleA` with the score 50.0, stored as the integer 5000. -/
def sampleScore50 : Student := { sampleA with CA := F64.ofNat 50 }

/-! ## The variable-width decoder with the slice expressions checked -/

/-- The slice expression `data[lo:hi]` together with the check the Go run time makes on it,
for a slice whose capacity is its length: `none` is the panic of an expression that reaches
outside the slice. -/
def sliceChecked (data : List Byte) (lo hi : Nat) : Option (List Byte) :=
  if lo ≤ hi ∧ hi ≤ data.length then some (slice data lo hi) else none

/-- The bounds check of the decoder before a 4-byte integer, then the checked slice
expression that reads it; `k` is the rest of the decoding. -/
def readUint32Checked (data : List Byte) (offset : Nat) (err : DecodeError)
    (k : Nat → Nat → Option (Except DecodeError Student)) :
    Option (Except DecodeError Student) :=
  if offset + 4 > data.length then some (.error err)
  else
    match sliceChecked data offset (offset + 4) with
    | none => none
    | some bytes => k (leDecode bytes) (offset + 4)

/-- The bounds check of the decoder before a field of `n` bytes, then the checked slice
expression that reads it; `k` is the rest of the decoding. -/
def readBytesChecked (data : List Byte) (offset n : Nat) (err : DecodeError)
    (k : List Byte → Nat → Option (Except DecodeError Student)) :
    Option (Except DecodeError Student) :=
  if offset + n > data.length then some (.error err)
  else
    match sliceChecked data offset (offset + n) with
    | none => none
    | some bytes => k bytes (offset + n)

/-- The function `deserializeStudent` with every slice expression checked as the run time
checks it: `none` would be a panic, that is, a read outside the input. -/
def deserializeStudentChecked (data : List Byte) : Option (Except DecodeError Student) :=
  if data.length < 4 then some (.error .insufficient) else
  match sliceChecked data 0 4 with
  | none => none
  | some keyBytes =>
  readUint32Checked data 4 .insufficientNome fun nomeLen offset =>
  readBytesChecked data offset nomeLen .insufficientNome fun nome offset =>
  readBytesChecked data offset 11 .insufficientCPF fun cpf offset =>
  readUint32Checked data offset .insufficientCurso fun cursoLen offset =>
  readBytesChecked data offset cursoLen .insufficientCurso fun curso offset =>
  readUint32Checked data offset .insufficientMae fun maeLen offset =>
  readBytesChecked data offset maeLen .insufficientMae fun filiacaoMae offset =>
  readUint32Checked data offset .insufficientPai fun paiLen offset =>
  readBytesChecked data offset paiLen .insufficientPai fun filiacaoPai offset =>
  readUint32Checked data offset .insufficientAno fun anoIngresso offset =>
  readBytesChecked data offset 8 .insufficientCA fun caBytes _ =>
  some (finishDecode (leDecode keyBytes) nome cpf curso filiacaoMae filiacaoPai anoIngresso
    (leDecode caBytes))

/-- The method `deserializeStudentFromBlock` with the slice expression `block[offset:]`
checked, and the checked decoder. -/
def deserializeStudentFromBlockChecked (block : List Byte) (offset : Nat) :
    Option (Except DecodeError Student) :=
  if offset + 4 > block.length then some (.error .offsetOutOfBounds)
  else
    match sliceChecked block offset block.length with
    | none => none
    | some recordData => deserializeStudentChecked recordData

/-- The offsets at which the name, the course, the mother's name and the father's name end,
as the length prefixes found in `data` place them, and the offset just after the last
field (the score). -/
def fieldEnds (data : List Byte) : List Nat :=
  let nomeEnd := 8 + leDecode (slice data 4 8)
  let cursoEnd := nomeEnd + 11 + 4 + leDecode (slice data (nomeEnd + 11) (nomeEnd + 11 + 4))
  let maeEnd := cursoEnd + 4 + leDecode (slice data cursoEnd (cursoEnd + 4))
  let paiEnd := maeEnd + 4 + leDecode (slice data maeEnd (maeEnd + 4))
  [nomeEnd, cursoEnd, maeEnd, paiEnd, paiEnd + 4 + 8]

/-- The record `sampleA` with a CPF whose first byte is the letter "A": its encodings hold
the key of `sampleA` and fail to decode. -/
def sampleBadCPF : Student := { sampleA with CPF := [65, 50, 51, 52, 53, 54, 55, 56, 57, 48, 49] }

/-! ## What the aggregate statistics are derived from -/

/-- The partial-block test of `recalculateStatsFromFile` on the occupancy of an entry. -/
def BlockStats.isPartial (e : BlockStats) : Bool :=
  F64.lt e.OccupancyRate F64.hundred && F64.lt F64.zero e.OccupancyRate

/-- The aggregate fields of the statistics are derived from the file size and from the
per-block entries: the block count is the file size divided by the block size and is the
number of entries, the total capacity is the block count times the block size, the total
of used bytes is the sum over the entries, and the partial-block count is the number of
entries whose used bytes are above 0 and below their capacity. -/
def StorageStats.DerivedFrom (blockSize : Nat) (file : List Byte) (stats : StorageStats) : Prop :=
  stats.TotalBlocks = file.length / blockSize ∧
  stats.BlockStatsList.length = stats.TotalBlocks ∧
  stats.TotalBytesTotal = stats.TotalBlocks * blockSize ∧
  stats.TotalBytesUsed = (stats.BlockStatsList.map (fun e => e.BytesUsed)).sum ∧
  stats.PartialBlocks =
    (stats.BlockStatsList.filter
      (fun e => decide (0 < e.BytesUsed ∧ e.BytesUsed < e.BytesTotal))).length

/-! ## The encoder of variable_fragmented.go, statement by statement -/

/-- The method `serializeStudent` of `VariableFragmentedStorage`, one `append` at a time as
the source has it. It returns the same bytes as `serializeStudent`, which the model of the
fragmented writer uses. -/
def VariableFragmentedStorage.serializeStudent (student : Student) : List Byte :=
  let data : List Byte := []
  let matriculaBytes := leEncode 4 (uint32 student.Matricula)
  let data := data ++ matriculaBytes
  let nomeBytes := student.Nome
  let nomeLen := leEncode 4 (nomeBytes.length % 4294967296)
  let data := data ++ nomeLen
  let data := data ++ nomeBytes
  let cpfBytes := student.CPF
  let data := data ++ cpfBytes
  let cursoBytes := student.Curso
  let cursoLen := leEncode 4 (cursoBytes.length % 4294967296)
  let data := data ++ cursoLen
  let data := data ++ cursoBytes
  let maeBytes := student.FiliacaoMae
  let maeLen := leEncode 4 (maeBytes.length % 4294967296)
  let data := data ++ maeLen
  let data := data ++ maeBytes
  let paiBytes := student.FiliacaoPai
  let paiLen := leEncode 4 (paiBytes.length % 4294967296)
  let data := data ++ paiLen
  let data := data ++ paiBytes
  let anoBytes := leEncode 4 (uint32 student.AnoIngresso)
  let data := data ++ anoBytes
  let caBytes := leEncode 8 (F64.toUint64 (F64.mul student.CA F64.hundred))
  let data := data ++ caBytes
  data

/-- The record `sample100` with the key 100000002. -/
def sample100b : Student := { sample100 with Matricula := 100000002 }

/-- The record `sample100` with the key 100000003. -/
def sample100c : Student := { sample100 with Matricula := 100000003 }

/-! ## The greedy rule of the contiguous writer -/

/-- The greedy rule between two consecutive groups of records, each group being the
content of one block: the first record of the second group did not fit in the free space
left after the first group. -/
def StartsNewBlock (blockSize : Nat) (g g' : List Student) : Prop :=
  ∀ r ∈ g'.head?, blockSize < (encGroup g).length + (serializeStudent r).length

/-! ## The packing of the fixed-width writer -/

/-- The state of the fixed-width writer after the record encodings `done` have been handed
to `writeContiguousRecord`, with `k = blockSize / 167` records to a block: the blocks
written so far are full, the current block holds the records after them, and the record
with index `k * j + p`, `p < k`, lies at bytes `p * 167 .. p * 167 + 166` of block `j`. -/
def FixedPacked (blockSize : Nat) (done : List (List Byte)) (w : Writer) : Prop :=
  ((done = [] ∧ w.written = []) ∨ blockSize / 167 * w.written.length < done.length) ∧
  done.length ≤ blockSize / 167 * w.written.length + blockSize / 167 ∧
  w.currentBlock.length = (done.length - blockSize / 167 * w.written.length) * 167 ∧
  (∀ b ∈ w.written, b.length = blockSize / 167 * 167) ∧
  ∀ (j p : Nat) (e : List Byte), p < blockSize / 167 →
    done[blockSize / 167 * j + p]? = some e →
    slice ((w.written ++ [w.currentBlock]).getD j []) (p * 167) (p * 167 + 167) = e

/-! ## Slots of the fixed-width layout -/

/-- The outcome of `deserializeStudentFixed`, with the record size 167, on slot `p` of a
block, that is, on the 167 bytes from offset `p * 167` on; `none` when the decoder reports
an error. -/
def FixedStorage.decodeSlot (block : List Byte) (p : Nat) : Option Student :=
  (deserializeStudentFixed 167
    (ByteSlice.ofList (slice block (p * 167) (p * 167 + 167)))).toOption

/-- The successful decodes of the `blockSize / 167` slots of a block, in slot order. -/
def FixedStorage.decodedSlots (blockSize : Nat) (block : List Byte) : List Student :=
  (List.range (blockSize / 167)).filterMap (FixedStorage.decodeSlot block)

/-- The number of input bytes `deserializeStudent` has read when it returns a record: the
offset just after the score field, as the length prefixes found in `data` place it. -/
def bytesConsumed (data : List Byte) : Nat := (fieldEnds data).getLast?.getD 0

/-- The record `sample356`, whose encoding has 356 bytes, with the ten-digit key
1234567890. -/
def sampleKey10Long : Student := { sample356 with Matricula := 1234567890 }

/-- A record whose name holds 170 bytes "A" followed by the encoding of `sampleB`. Its
encoding has 291 bytes and, cut into chunks for blocks of 183 bytes, has the encoding of
`sampleB` at the start of the payload of its second chunk. -/
def sampleCarrier : Student :=
  { sampleA with Nome := List.replicate 170 65 ++ serializeStudent sampleB }

/-! ## The positions the lookups visit -/

/-- The outcome of a lookup that goes through the blocks `0 .. totalBlocks - 1` in order,
`perBlock` giving the record found in a block, if any: the record of the first block that
yields one, or the not-found error. -/
def firstHit (matricula : Int) (totalBlocks : Nat) (perBlock : Nat → Option Student) :
    Except StorageError Student :=
  match (List.range totalBlocks).findSome? perBlock with
  | some student => .ok student
  | none => .error (.notFound matricula)

/-- What the lookup of `matricula` finds at `offset` of a block of the contiguous layout:
the decoded record, when the key stored at `offset` is the requested key and the record
there decodes. -/
def VariableStorage.matchAt (block : List Byte) (matricula : Int) (offset : Nat) :
    Option Student :=
  if ((leDecode (slice block offset (offset + 4)) : Nat) : Int) = matricula then
    (deserializeStudentFromBlock block offset).toOption
  else none

/-- The offsets of a block at which the loops of the contiguous layout stand, in order, from
`offset` on: the loop moves past a record that decodes by its size, and the first position
where no record decodes is the last one. The first argument is fuel; a record has at least
43 bytes, so a fuel above the block size is never used up. -/
def VariableStorage.visitedOffsets (blockSize : Nat) (block : List Byte) : Nat → Nat → List Nat
  | 0, _ => []
  | fuel + 1, offset =>
      if ¬ offset < blockSize then []
      else if offset + 4 > blockSize then []
      else
        offset ::
          (match deserializeStudentFromBlock block offset with
            | .error _ => []
            | .ok student =>
                VariableStorage.visitedOffsets blockSize block fuel
                  (offset + getRecordSize student))

/-- What the lookup of `matricula` finds at slot `p` of a block of the fixed-width layout
(record size 167): the decoded record, when the key field of the slot is the requested key
and the slot decodes. -/
def FixedStorage.matchAt (block : List Byte) (matricula : Int) (p : Nat) : Option Student :=
  if ((leDecode (slice block (p * 167) (p * 167 + 4)) : Nat) : Int) = matricula then
    FixedStorage.decodeSlot block p
  else none

/-- What the lookup of `matricula` finds at the chunk at `offset` of block `blockNum` of the
fragmented layout: the decoded record, when the bytes gathered from the chunk and its
continuation chain start with the requested key and decode. -/
def VariableFragmentedStorage.matchAt (blockSize : Nat) (file : List Byte)
    (totalBlocks blockNum : Nat) (matricula : Int) (offset : Nat) : Option Student :=
  match readChain blockSize file totalBlocks blockNum offset with
  | none => none
  | some (_, _, recordData) =>
      if recordData.length ≥ 4 ∧
          ((leDecode (slice recordData 0 4) : Nat) : Int) = matricula then
        (deserializeStudent recordData).toOption
      else none

/-- The offsets of block `blockNum` at which the loops of the fragmented layout stand, in
order, from `offset` on: after a chunk with flag 0 the loop moves to the end of the chunk,
after a chunk with another flag it leaves the block, and it stops where the chunk does not
fit in the block. The first argument is fuel; a chunk takes at least 5 bytes, so a fuel
above the block size is never used up. -/
def VariableFragmentedStorage.visitedOffsets (blockSize : Nat) (file : List Byte)
    (totalBlocks blockNum : Nat) : Nat → Nat → List Nat
  | 0, _ => []
  | fuel + 1, offset =>
      if ¬ offset < blockSize then []
      else if offset + 5 > blockSize then []
      else
        match readChain blockSize file totalBlocks blockNum offset with
        | none => []
        | some (continuationFlag, chunkSize, _) =>
            offset ::
              VariableFragmentedStorage.visitedOffsets blockSize file totalBlocks blockNum fuel
                (if continuationFlag = 0 then offset + (5 + chunkSize) else blockSize)

/-! ## Little-endian integers and the variable-width codec -/

theorem leEncode_length (w n : Nat) : (leEncode w n).length = w := by
  induction w generalizing n with
  | zero => rfl
  | succ w ih => simp [leEncode, ih]

theorem leDecode_leEncode (w n : Nat) : leDecode (leEncode w n) = n % 256 ^ w := by
  induction w generalizing n with
  | zero => simp [leEncode, leDecode, Nat.mod_one]
  | succ w ih =>
    simp only [leEncode, leDecode, ih, byteOf]
    rw [pow_succ, Nat.mul_comm (256 ^ w) 256, Nat.mod_mul]

theorem leDecode_leEncode_of_lt (w n : Nat) (h : n < 256 ^ w) :
    leDecode (leEncode w n) = n := by
  rw [leDecode_leEncode, Nat.mod_eq_of_lt h]

theorem slice_mid (pre mid post : List Byte) (lo hi : Nat) (h1 : lo = pre.length)
    (h2 : hi = lo + mid.length) : slice (pre ++ (mid ++ post)) lo hi = mid := by
  subst h1 h2
  simp [slice]

theorem slice_head (mid post : List Byte) (hi : Nat) (h2 : hi = mid.length) :
    slice (mid ++ post) 0 hi = mid := by
  subst h2
  simp [slice]



theorem deserializeStudent_fields (m ano ca : Nat) (nome cpf curso mae pai rest : List Byte)
    (hn : nome.length < 4294967296) (hcpf : cpf.length = 11) (hc : curso.length < 4294967296)
    (hme : mae.length < 4294967296) (hp : pai.length < 4294967296)
    (hm : m < 4294967296) (ha : ano < 4294967296) (hca : ca < 18446744073709551616) :
    deserializeStudent
      (leEncode 4 m ++ (leEncode 4 nome.length ++ (nome ++ (cpf ++ (leEncode 4 curso.length ++
        (curso ++ (leEncode 4 mae.length ++ (mae ++ (leEncode 4 pai.length ++ (pai ++
          (leEncode 4 ano ++ (leEncode 8 ca ++ rest)))))))))))) =
    (match (Student.TruncateFields ⟨m, nome, cpf, curso, mae, pai, ano, decodeCA ca⟩).Validate with
      | some e => .error (.invalid e)
      | none => .ok (Student.TruncateFields ⟨m, nome, cpf, curso, mae, pai, ano, decodeCA ca⟩)) := by
  generalize hd : (leEncode 4 m ++ (leEncode 4 nome.length ++ (nome ++ (cpf ++
    (leEncode 4 curso.length ++ (curso ++ (leEncode 4 mae.length ++ (mae ++
      (leEncode 4 pai.length ++ (pai ++ (leEncode 4 ano ++ (leEncode 8 ca ++ rest)))))))))))) = data
  have hlen : data.length = 43 + nome.length + curso.length + mae.length + pai.length +
      rest.length := by
    subst hd; simp only [List.length_append, leEncode_length, hcpf]; omega
  have h1 : slice data 0 4 = leEncode 4 m := by
    subst hd; exact slice_head _ _ _ (by simp [leEncode_length])
  have h2 : slice data 4 (4 + 4) = leEncode 4 nome.length := by
    subst hd; exact slice_mid _ _ _ _ _ (by simp [leEncode_length]) (by simp [leEncode_length])
  have h3 : slice data (4 + 4) (4 + 4 + nome.length) = nome := by
    subst hd
    rw [← List.append_assoc]
    exact slice_mid _ _ _ _ _ (by simp [leEncode_length]) rfl
  have h4 : slice data (4 + 4 + nome.length) (4 + 4 + nome.length + 11) = cpf := by
    subst hd
    rw [← List.append_assoc, ← List.append_assoc]
    exact slice_mid _ _ _ _ _ (by simp [leEncode_length]; omega) (by rw [hcpf])
  have h5 : slice data (4 + 4 + nome.length + 11) (4 + 4 + nome.length + 11 + 4) =
      leEncode 4 curso.length := by
    subst hd
    rw [← List.append_assoc, ← List.append_assoc, ← List.append_assoc]
    exact slice_mid _ _ _ _ _ (by simp [leEncode_length, hcpf]; omega) (by simp [leEncode_length])
  have h6 : slice data (4 + 4 + nome.length + 11 + 4) (4 + 4 + nome.length + 11 + 4 + curso.length) =
      curso := by
    subst hd
    rw [← List.append_assoc, ← List.append_assoc, ← List.append_assoc, ← List.append_assoc]
    exact slice_mid _ _ _ _ _ (by simp [leEncode_length, hcpf]; omega) rfl
  have h7 : slice data (4 + 4 + nome.length + 11 + 4 + curso.length)
      (4 + 4 + nome.length + 11 + 4 + curso.length + 4) = leEncode 4 mae.length := by
    subst hd
    rw [← List.append_assoc, ← List.append_assoc, ← List.append_assoc, ← List.append_assoc,
      ← List.append_assoc]
    exact slice_mid _ _ _ _ _ (by simp [leEncode_length, hcpf]; omega) (by simp [leEncode_length])
  have h8 : slice data (4 + 4 + nome.length + 11 + 4 + curso.length + 4)
      (4 + 4 + nome.length + 11 + 4 + curso.length + 4 + mae.length) = mae := by
    subst hd
    rw [← List.append_assoc, ← List.append_assoc, ← List.append_assoc, ← List.append_assoc,
      ← List.append_assoc, ← List.append_assoc]
    exact slice_mid _ _ _ _ _ (by simp [leEncode_length, hcpf]; omega) rfl
  have h9 : slice data (4 + 4 + nome.length + 11 + 4 + curso.length + 4 + mae.length)
      (4 + 4 + nome.length + 11 + 4 + curso.length + 4 + mae.length + 4) =
      leEncode 4 pai.length := by
    subst hd
    rw [← List.append_assoc, ← List.append_assoc, ← List.append_assoc, ← List.append_assoc,
      ← List.append_assoc, ← List.append_assoc, ← List.append_assoc]
    exact slice_mid _ _ _ _ _ (by simp [leEncode_length, hcpf]; omega) (by simp [leEncode_length])
  have h10 : slice data (4 + 4 + nome.length + 11 + 4 + curso.length + 4 + mae.length + 4)
      (4 + 4 + nome.length + 11 + 4 + curso.length + 4 + mae.length + 4 + pai.length) = pai := by
    subst hd
    rw [← List.append_assoc, ← List.append_assoc, ← List.append_assoc, ← List.append_assoc,
      ← List.append_assoc, ← List.append_assoc, ← List.append_assoc, ← List.append_assoc]
    exact slice_mid _ _ _ _ _ (by simp [leEncode_length, hcpf]; omega) rfl
  have h11 : slice data
      (4 + 4 + nome.length + 11 + 4 + curso.length + 4 + mae.length + 4 + pai.length)
      (4 + 4 + nome.length + 11 + 4 + curso.length + 4 + mae.length + 4 + pai.length + 4) =
      leEncode 4 ano := by
    subst hd
    rw [← List.append_assoc, ← List.append_assoc, ← List.append_assoc, ← List.append_assoc,
      ← List.append_assoc, ← List.append_assoc, ← List.append_assoc, ← List.append_assoc,
      ← List.append_assoc]
    exact slice_mid _ _ _ _ _ (by simp [leEncode_length, hcpf]; omega) (by simp [leEncode_length])
  have h12 : slice data
      (4 + 4 + nome.length + 11 + 4 + curso.length + 4 + mae.length + 4 + pai.length + 4)
      (4 + 4 + nome.length + 11 + 4 + curso.length + 4 + mae.length + 4 + pai.length + 4 + 8) =
      leEncode 8 ca := by
    subst hd
    rw [← List.append_assoc, ← List.append_assoc, ← List.append_assoc, ← List.append_assoc,
      ← List.append_assoc, ← List.append_assoc, ← List.append_assoc, ← List.append_assoc,
      ← List.append_assoc, ← List.append_assoc]
    exact slice_mid _ _ _ _ _ (by simp [leEncode_length, hcpf]; omega) (by simp [leEncode_length])
  unfold deserializeStudent
  simp only [h1, h2, leDecode_leEncode_of_lt 4 _ hn, leDecode_leEncode_of_lt 4 _ hm, h3, h4, h5,
    leDecode_leEncode_of_lt 4 _ hc, h6, h7, leDecode_leEncode_of_lt 4 _ hme, h8, h9,
    leDecode_leEncode_of_lt 4 _ hp, h10, h11, leDecode_leEncode_of_lt 4 _ ha, h12,
    leDecode_leEncode_of_lt 8 _ hca]
  have hlen1 := hlen
  repeat rw [if_neg (not_lt.2 (by rw [hlen1]; omega))]

theorem toDigitsCore_length_ge (e : Nat) : ∀ (fuel n : Nat), n < fuel → 10 ^ e ≤ n →
    e + 1 ≤ (Nat.toDigitsCore 10 fuel n []).length := by
  induction e with
  | zero =>
    intro fuel n hf _
    cases fuel with
    | zero => omega
    | succ f =>
      simp only [Nat.toDigitsCore]
      split
      · simp
      · rw [Nat.toDigitsCore_lens_eq]; omega
  | succ e ih =>
    intro fuel n hf hn
    cases fuel with
    | zero => omega
    | succ f =>
      have h10 : 10 ^ e ≤ n / 10 := by
        rw [Nat.le_div_iff_mul_le (by decide)]
        rw [pow_succ] at hn; exact hn
      have hpos : 0 < 10 ^ e := by positivity
      simp only [Nat.toDigitsCore]
      rw [if_neg (by omega), Nat.toDigitsCore_lens_eq]
      have := ih f (n / 10) (by omega) h10
      omega

theorem itoa_length_le_nine (m : Int) (_h1 : 1 ≤ m) (h9 : (itoa m).length ≤ 9) :
    m < 1000000000 := by
  by_contra hge
  have hnn : ¬ m < 0 := by omega
  simp only [itoa, if_neg hnn, Nat.toDigits] at h9
  have := toDigitsCore_length_ge 9 (m.natAbs + 1) m.natAbs (by omega) (by omega)
  omega

theorem Student.Validate_eq_none_iff (s : Student) :
    s.Validate = none ↔
      (1 ≤ s.Matricula ∧ (itoa s.Matricula).length ≤ 9) ∧
      (1 ≤ s.Nome.length ∧ s.Nome.length ≤ 50) ∧
      s.CPF.length = 11 ∧ cpfAllDigits s.CPF = true ∧
      (1 ≤ s.Curso.length ∧ s.Curso.length ≤ 30) ∧
      (1 ≤ s.FiliacaoMae.length ∧ s.FiliacaoMae.length ≤ 30) ∧
      (1 ≤ s.FiliacaoPai.length ∧ s.FiliacaoPai.length ≤ 30) ∧
      (1000 ≤ s.AnoIngresso ∧ s.AnoIngresso ≤ 9999) ∧
      (F64.lt s.CA CA_MIN = false ∧ F64.lt CA_MAX s.CA = false) := by
  unfold Student.Validate
  simp only [MaxMatriculaDigits, MaxNomeLength, CPFLength, MaxCursoLength, MaxFiliacaoLength,
    AnoIngressoMin, AnoIngressoMax]
  constructor
  · intro h
    split_ifs at h with c1 c2 c3 c4 c5 c6 c7 c8 c9
    simp only [not_or, not_lt, not_not, Bool.not_eq_true] at c1 c2 c3 c4 c5 c6 c7 c8 c9
    refine ⟨⟨by omega, by omega⟩, ⟨by omega, by omega⟩, c3, c4, ⟨by omega, by omega⟩,
      ⟨by omega, by omega⟩, ⟨by omega, by omega⟩, ⟨by omega, by omega⟩, c9.1, c9.2⟩
  · rintro ⟨⟨a1, a2⟩, ⟨b1, b2⟩, c, d, ⟨e1, e2⟩, ⟨f1, f2⟩, ⟨g1, g2⟩, ⟨h1, h2⟩, i1, i2⟩
    rw [if_neg (by omega), if_neg (by omega), if_neg (by omega), if_neg (by simp [d]),
      if_neg (by omega), if_neg (by omega), if_neg (by omega), if_neg (by omega),
      if_neg (by simp [i1, i2])]

theorem clamp_valid (c : F64) :
    F64.lt (if F64.lt CA_MAX (if F64.lt c CA_MIN then CA_MIN else c) = true then CA_MAX
      else (if F64.lt c CA_MIN then CA_MIN else c)) CA_MIN = false ∧
    F64.lt CA_MAX (if F64.lt CA_MAX (if F64.lt c CA_MIN then CA_MIN else c) = true then CA_MAX
      else (if F64.lt c CA_MIN then CA_MIN else c)) = false := by
  simp only [CA_MIN, CA_MAX, F64.zero, F64.ten]
  have hu : (0 : Int) ≤ (F64.unit : Int) := Int.natCast_nonneg _
  generalize (F64.unit : Int) = u at hu
  cases c with
  | fin m =>
    by_cases h0 : m < 0
    · have h2 : ¬ (10 * u < 0) := by omega
      simp [F64.lt, h0, h2]
    · by_cases h1 : 10 * u < m
      · simp [F64.lt, h0, h1]
        omega
      · simp [F64.lt, h0, h1]
  | inf n =>
    have h2 : ¬ (10 * u < 0) := by omega
    cases n
    · simp [F64.lt]
      omega
    · simp [F64.lt, h2]
  | nan => simp [F64.lt]

theorem truncCA_valid (x : F64) :
    F64.lt (truncCA x) CA_MIN = false ∧ F64.lt CA_MAX (truncCA x) = false := by
  unfold truncCA
  exact clamp_valid _

theorem toUint64_lt (x : F64) : F64.toUint64 x < 18446744073709551616 := by
  unfold F64.toUint64
  split
  · rename_i m
    generalize m.natAbs / F64.unit = t
    have h63 : (2 : Nat) ^ 63 = 9223372036854775808 := by norm_num
    have h64 : (2 : Nat) ^ 64 = 18446744073709551616 := by norm_num
    rw [h63, h64]
    split_ifs <;> omega
  · norm_num

theorem encodeCA_lt (x : F64) : encodeCA x < 18446744073709551616 := toUint64_lt _

theorem uint32_lt (x : Int) : uint32 x < 4294967296 := by
  unfold uint32; omega

theorem uint32_of_range (x : Int) (h0 : 0 ≤ x) (h1 : x < 4294967296) :
    ((uint32 x : Nat) : Int) = x := by
  unfold uint32; omega


theorem truncText_of_le (n : Nat) (t : List Byte) (h : t.length ≤ n) : truncText n t = t := by
  unfold truncText; rw [if_neg (by omega)]

theorem truncCPF_of_eq (t : List Byte) (h : t.length = 11) : truncCPF t = t := by
  unfold truncCPF; simp only [CPFLength]; rw [if_neg (by omega), if_neg (by omega)]

theorem truncMatricula_of_le (m : Int) (h : (itoa m).length ≤ 9) : truncMatricula m = m := by
  unfold truncMatricula; simp only [MaxMatriculaDigits]; rw [if_neg (by omega)]

theorem serializeStudent_length (r : Student) :
    (serializeStudent r).length =
      32 + r.CPF.length + r.Nome.length + r.Curso.length + r.FiliacaoMae.length +
        r.FiliacaoPai.length := by
  simp only [serializeStudent, lenPrefixed, List.length_append, leEncode_length]
  omega

/-- The variable-width decoder on the encoding of a valid record, followed by any bytes. -/
theorem deserialize_serialize (r : Student) (rest : List Byte) (hv : r.Validate = none) :
    deserializeStudent (serializeStudent r ++ rest) = .ok (storedVariable r) := by
  have hv1 := (Student.Validate_eq_none_iff r).1 hv
  obtain ⟨⟨a1, a2⟩, ⟨b1, b2⟩, c, d, ⟨e1, e2⟩, ⟨f1, f2⟩, ⟨g1, g2⟩, ⟨h1, h2⟩, i1, i2⟩ := hv1
  have hM := itoa_length_le_nine r.Matricula a1 a2
  have e : serializeStudent r ++ rest =
      leEncode 4 (uint32 r.Matricula) ++ (leEncode 4 r.Nome.length ++ (r.Nome ++ (r.CPF ++
        (leEncode 4 r.Curso.length ++ (r.Curso ++ (leEncode 4 r.FiliacaoMae.length ++
          (r.FiliacaoMae ++ (leEncode 4 r.FiliacaoPai.length ++ (r.FiliacaoPai ++
            (leEncode 4 (uint32 r.AnoIngresso) ++ (leEncode 8 (encodeCA r.CA) ++ rest))))))))))) := by
    simp only [serializeStudent, lenPrefixed, List.append_assoc]
    rw [Nat.mod_eq_of_lt (by omega : r.Nome.length < 4294967296),
      Nat.mod_eq_of_lt (by omega : r.Curso.length < 4294967296),
      Nat.mod_eq_of_lt (by omega : r.FiliacaoMae.length < 4294967296),
      Nat.mod_eq_of_lt (by omega : r.FiliacaoPai.length < 4294967296)]
  rw [e, deserializeStudent_fields _ _ _ _ _ _ _ _ _ (by omega) c (by omega) (by omega) (by omega)
    (uint32_lt _) (uint32_lt _) (encodeCA_lt _)]
  have hs : Student.TruncateFields
      ⟨(uint32 r.Matricula : Nat), r.Nome, r.CPF, r.Curso, r.FiliacaoMae, r.FiliacaoPai,
        (uint32 r.AnoIngresso : Nat), decodeCA (encodeCA r.CA)⟩ = storedVariable r := by
    rw [uint32_of_range _ (by omega) (by omega), uint32_of_range _ (by omega) (by omega)]
    simp only [Student.TruncateFields, storedVariable, MaxNomeLength, MaxCursoLength,
      MaxFiliacaoLength]
    rw [truncText_of_le _ _ b2, truncText_of_le _ _ e2, truncText_of_le _ _ f2,
      truncText_of_le _ _ g2, truncCPF_of_eq _ c, truncMatricula_of_le _ a2]
  rw [hs]
  have hval : (storedVariable r).Validate = none := by
    rw [Student.Validate_eq_none_iff]
    exact ⟨⟨a1, a2⟩, ⟨b1, b2⟩, c, d, ⟨e1, e2⟩, ⟨f1, f2⟩, ⟨g1, g2⟩, ⟨h1, h2⟩, truncCA_valid _⟩
  rw [hval]

/-! ## The block writers -/

theorem writeBlock_length (bs : Nat) (block : List Byte) : (writeBlock bs block).length = bs := by
  simp only [writeBlock, List.length_append, List.length_take, List.length_replicate]
  omega

theorem fileOf_length (bs : Nat) (written : List (List Byte)) :
    (fileOf bs written).length = bs * written.length := by
  induction written with
  | nil => simp [fileOf]
  | cons b rest ih =>
    simp only [fileOf, List.map_cons, List.flatten_cons, List.length_append, List.length_cons,
      writeBlock_length] at ih ⊢
    rw [ih, Nat.mul_succ]; omega

theorem withinCapacity_of_bounded (bs : Nat) (written : List (List Byte)) (stats : StorageStats)
    (err : Option StorageError) (h : ∀ buf ∈ written, buf.length ≤ bs) :
    WriteResult.WithinCapacity bs
      { file := fileOf bs written, written := written, stats := stats, err := err } := by
  refine ⟨fun buf hb => ⟨h buf hb, writeBlock_length _ _⟩, fileOf_length _ _, ?_⟩
  simp only [fileOf_length]
  exact Dvd.intro _ rfl

theorem Writer.flush_written (w : Writer) (c : Bool) :
    (w.flush c).written = w.written ++ [w.currentBlock] := rfl

theorem Writer.flush_currentBlock (w : Writer) (c : Bool) :
    (w.flush c).currentBlock = w.currentBlock := rfl

theorem Writer.finish_written (w : Writer) :
    w.finish.written =
      if w.currentBlock.length > 0 then w.written ++ [w.currentBlock] else w.written := by
  unfold Writer.finish
  split_ifs <;> rfl

theorem writeContiguousRecord_written (bs : Nat) (w : Writer) (d : List Byte) :
    (writeContiguousRecord bs w d).written =
      if w.currentBlock.length + d.length > bs ∧ w.currentBlock.length > 0 then
        w.written ++ [w.currentBlock]
      else w.written := by
  unfold writeContiguousRecord
  by_cases h1 : w.currentBlock.length + d.length > bs
  · by_cases h2 : w.currentBlock.length > 0
    · simp [h1, h2, Writer.flush, Writer.newBlock]
    · simp [h1, h2, Writer.newBlock]
  · simp [h1]

theorem writeContiguousRecord_currentBlock (bs : Nat) (w : Writer) (d : List Byte) :
    (writeContiguousRecord bs w d).currentBlock =
      if w.currentBlock.length + d.length > bs then d else w.currentBlock ++ d := by
  unfold writeContiguousRecord
  by_cases h1 : w.currentBlock.length + d.length > bs
  · by_cases h2 : w.currentBlock.length > 0
    · simp [h1, h2, Writer.flush, Writer.newBlock]
    · simp [h1, h2, Writer.newBlock]
  · simp [h1]

theorem Writer.init_bounded (bs : Nat) (stats : StorageStats) :
    (Writer.init bs stats).Bounded bs := by
  simp [Writer.Bounded, Writer.init]

theorem Writer.finish_bounded (bs : Nat) (w : Writer) (h : w.Bounded bs) :
    ∀ buf ∈ w.finish.written, buf.length ≤ bs := by
  intro buf hb
  rw [Writer.finish_written] at hb
  split_ifs at hb
  · rcases List.mem_append.1 hb with h1 | h1
    · exact h.2 buf h1
    · rw [List.mem_singleton.1 h1]; exact h.1
  · exact h.2 buf hb

theorem writeContiguousRecord_bounded (bs : Nat) (w : Writer) (d : List Byte)
    (h : w.Bounded bs) (hd : d.length ≤ bs) : (writeContiguousRecord bs w d).Bounded bs := by
  refine ⟨?_, ?_⟩
  · rw [writeContiguousRecord_currentBlock]
    split_ifs with h1
    · exact hd
    · rw [List.length_append]; omega
  · intro buf hb
    rw [writeContiguousRecord_written] at hb
    split_ifs at hb
    · rcases List.mem_append.1 hb with h1 | h1
      · exact h.2 buf h1
      · rw [List.mem_singleton.1 h1]; exact h.1
    · exact h.2 buf hb

/-! ## VariableStorage.WriteStudents: the error path -/

theorem VariableStorage.writeLoop_none (bs : Nat) (students : List Student) :
    ∀ (i : Nat) (w : Writer), (∀ s ∈ students, (serializeStudent s).length ≤ bs) →
      VariableStorage.writeLoop bs i students w =
        (students.foldl (fun acc s => writeContiguousRecord bs acc (serializeStudent s)) w,
          none) := by
  induction students with
  | nil => intro i w _; rfl
  | cons s rest ih =>
    intro i w h
    have hs := h s (List.mem_cons_self _ _)
    simp only [VariableStorage.writeLoop, List.foldl_cons]
    rw [if_neg (by omega)]
    exact ih _ _ (fun x hx => h x (List.mem_cons_of_mem _ hx))

theorem VariableStorage.writeLoop_first_oversized (bs : Nat) (pre : List Student) (s : Student)
    (post : List Student) :
    ∀ (i : Nat) (w : Writer), (∀ p ∈ pre, (serializeStudent p).length ≤ bs) →
      (serializeStudent s).length > bs →
      (VariableStorage.writeLoop bs i (pre ++ s :: post) w).2 =
        some (.recordTooLarge (i + pre.length + 1) s.Matricula (serializeStudent s).length bs) := by
  induction pre with
  | nil =>
    intro i w _ hs
    simp only [List.nil_append, VariableStorage.writeLoop, List.length_nil, Nat.add_zero]
    rw [if_pos hs]
  | cons p rest ih =>
    intro i w h hs
    have hp := h p (List.mem_cons_self _ _)
    rw [List.cons_append, VariableStorage.writeLoop]
    simp only [List.length_cons]
    rw [if_neg (by omega), ih _ _ (fun x hx => h x (List.mem_cons_of_mem _ hx)) hs]
    congr 2
    omega

theorem VariableStorage.writeLoop_err_iff (bs : Nat) (students : List Student) :
    ∀ (i : Nat) (w : Writer),
      (VariableStorage.writeLoop bs i students w).2 ≠ none ↔
        ∃ s ∈ students, (serializeStudent s).length > bs := by
  induction students with
  | nil => intro i w; simp [VariableStorage.writeLoop]
  | cons s rest ih =>
    intro i w
    simp only [VariableStorage.writeLoop]
    by_cases hs : (serializeStudent s).length > bs
    · rw [if_pos hs]
      simp only [ne_eq, reduceCtorEq, not_false_eq_true, List.mem_cons, true_iff]
      exact ⟨s, Or.inl rfl, hs⟩
    · rw [if_neg hs, ih]
      constructor
      · rintro ⟨x, hx, hl⟩
        exact ⟨x, List.mem_cons_of_mem _ hx, hl⟩
      · rintro ⟨x, hx, hl⟩
        rcases List.mem_cons.1 hx with h1 | h1
        · subst h1; exact absurd hl hs
        · exact ⟨x, h1, hl⟩

theorem VariableStorage.WriteStudents_err (vs : VariableStorage) (students : List Student) :
    (vs.WriteStudents students).err =
      (VariableStorage.writeLoop vs.blockSize 0 students
        (Writer.init vs.blockSize vs.stats)).2 := by
  unfold VariableStorage.WriteStudents
  rcases h : VariableStorage.writeLoop vs.blockSize 0 students
    (Writer.init vs.blockSize vs.stats) with ⟨w, e⟩
  cases e <;> rfl

theorem VariableStorage.WriteStudents_err_iff (vs : VariableStorage) (students : List Student) :
    (vs.WriteStudents students).err ≠ none ↔
      ∃ s ∈ students, (serializeStudent s).length > vs.blockSize := by
  rw [VariableStorage.WriteStudents_err]
  exact VariableStorage.writeLoop_err_iff _ _ _ _

/-- C9. `VariableStorage.WriteStudents` returns an error exactly when some record encodes to
more bytes than the block size, and the error carries the 1-based position and the key of
the first such record, its encoded size and the block size. -/
theorem C9_variable_oversized_record (vs : VariableStorage) (students : List Student) :
    ((vs.WriteStudents students).err ≠ none ↔
      ∃ s ∈ students, (serializeStudent s).length > vs.blockSize) ∧
    (∀ (pre : List Student) (s : Student) (post : List Student),
      students = pre ++ s :: post →
      (∀ p ∈ pre, (serializeStudent p).length ≤ vs.blockSize) →
      (serializeStudent s).length > vs.blockSize →
      (vs.WriteStudents students).err =
        some (.recordTooLarge (pre.length + 1) s.Matricula (serializeStudent s).length
          vs.blockSize)) := by
  refine ⟨VariableStorage.WriteStudents_err_iff vs students, ?_⟩
  · intro pre s post hst hpre hs
    rw [VariableStorage.WriteStudents_err, hst,
      VariableStorage.writeLoop_first_oversized _ _ _ _ _ _ hpre hs]
    simp

/-- C9, witness: with block size 200, a valid record followed by a record of 250 encoded
bytes is refused with position 2, the key of that record, 250 and 200. -/
theorem C9_variable_oversized_record_witness :
    (serializeStudent sample250).length = 250 ∧
    (VariableStorage.WriteStudents ⟨200, StorageStats.empty⟩ [sampleA, sample250]).err =
      some (.recordTooLarge ([sampleA].length + 1) sample250.Matricula
        (serializeStudent sample250).length 200) :=
  ⟨by decide!,
   (C9_variable_oversized_record ⟨200, StorageStats.empty⟩ [sampleA, sample250]).2
     [sampleA] sample250 [] rfl (by decide!) (by decide!)⟩

/-! ## The capacity invariant -/

theorem padField_length (n : Nat) (pad : Byte) (t : List Byte) : (padField n pad t).length = n := by
  unfold padField
  split_ifs with h
  · simp only [List.length_append, List.length_take, List.length_replicate]; omega
  · simp only [List.length_append, List.length_replicate]; omega

theorem serializeStudentFixed_length (s : Student) : (serializeStudentFixed s).length = 167 := by
  simp only [serializeStudentFixed, List.length_append, leEncode_length, padField_length,
    MaxNomeLength, CPFLength, MaxCursoLength, MaxFiliacaoLength]

theorem fixed_writeLoop_bounded (bs : Nat) (hbs : 167 ≤ bs) (students : List Student) :
    ∀ w : Writer, w.Bounded bs → (FixedStorage.writeLoop bs students w).Bounded bs := by
  induction students with
  | nil => intro w h; exact h
  | cons s rest ih =>
    intro w h
    exact ih _ (writeContiguousRecord_bounded bs w _ h
      (by rw [serializeStudentFixed_length]; exact hbs))

theorem foldl_writeContiguous_bounded (bs : Nat) (students : List Student)
    (hs : ∀ s ∈ students, (serializeStudent s).length ≤ bs) :
    ∀ w : Writer, w.Bounded bs →
      (students.foldl (fun acc s => writeContiguousRecord bs acc (serializeStudent s)) w).Bounded
        bs := by
  induction students with
  | nil => intro w h; exact h
  | cons s rest ih =>
    intro w h
    exact ih (fun x hx => hs x (List.mem_cons_of_mem _ hx)) _
      (writeContiguousRecord_bounded bs w _ h (hs s (List.mem_cons_self _ _)))

theorem Writer.flush_bounded (bs : Nat) (w : Writer) (c : Bool) (h : w.Bounded bs) :
    (w.flush c).Bounded bs := by
  refine ⟨h.1, ?_⟩
  intro buf hb
  rw [Writer.flush_written] at hb
  rcases List.mem_append.1 hb with h1 | h1
  · exact h.2 buf h1
  · rw [List.mem_singleton.1 h1]; exact h.1

/-- The chunk loop returns whenever the block size exceeds the chunk header and the fuel
covers the remaining bytes, and it keeps every buffer within the block size. -/
theorem writeChunks_bounded (bs : Nat) (hbs : 5 < bs) :
    ∀ (fuel : Nat) (rem : List Byte) (first : Bool) (w : Writer), rem.length ≤ fuel →
      w.Bounded bs → ∃ w1, writeChunks bs fuel rem first w = some w1 ∧ w1.Bounded bs := by
  intro fuel
  induction fuel with
  | zero =>
    intro rem first w hf hw
    refine ⟨w, ?_, hw⟩
    simp only [writeChunks]
    rw [if_neg (by omega)]
  | succ f ih =>
    intro rem first w hf hw
    simp only [writeChunks]
    by_cases hr : rem.length > 0
    · rw [if_neg (by omega)]
      apply ih
      · simp only [List.length_drop]
        split_ifs <;> omega
      · apply Writer.flush_bounded
        refine ⟨?_, hw.2⟩
        simp only [List.length_append, List.length_cons, List.length_nil, leEncode_length,
          List.length_take]
        split_ifs <;> omega
    · rw [if_pos (by omega)]
      exact ⟨w, rfl, hw⟩

theorem writeFragmentedRecord_bounded (bs : Nat) (hbs : 5 < bs) (w : Writer) (d : List Byte)
    (hw : w.Bounded bs) : ∃ w1, writeFragmentedRecord bs w d = some w1 ∧ w1.Bounded bs := by
  unfold writeFragmentedRecord
  by_cases h : d.length ≤ bs - w.currentBlock.length
  · simp only [h, if_true]
    refine ⟨_, rfl, ?_, hw.2⟩
    simp only [List.length_append]
    have := hw.1
    omega
  · simp only [h, if_false]
    apply writeChunks_bounded bs hbs _ _ _ _ (le_refl _)
    split_ifs
    · exact Writer.flush_bounded bs w true hw
    · exact hw

theorem fragmented_writeLoop_bounded (bs : Nat) (hbs : 5 < bs)
    (students : List Student) :
    ∀ w : Writer, w.Bounded bs →
      ∃ w1, VariableFragmentedStorage.writeLoop bs students w = some w1 ∧ w1.Bounded bs := by
  induction students with
  | nil => intro w h; exact ⟨w, rfl, h⟩
  | cons s rest ih =>
    intro w h
    obtain ⟨w1, h1, hb1⟩ := writeFragmentedRecord_bounded bs hbs w (serializeStudent s) h
    obtain ⟨w2, h2, hb2⟩ := ih w1 hb1
    exact ⟨w2, by simp only [VariableFragmentedStorage.writeLoop, h1, h2], hb2⟩

/-- C6. For each of the three layouts, whenever the block size is one the constructor
accepts and `WriteStudents` succeeds (the fragmented writer always does), every buffer
handed to `writeBlock` has at most block-size bytes, every block written has exactly
block-size bytes, and the file length is the block size times the number of blocks
written, hence a multiple of the block size. -/
theorem C6_capacity_invariant :
    (∀ (fs : FixedStorage) (students : List Student),
      FixedStorage.ValidateBlockSize (fs.blockSize : Int) = none →
      (fs.WriteStudents students).2.err = none ∧
      (fs.WriteStudents students).2.WithinCapacity fs.blockSize) ∧
    (∀ (vs : VariableStorage) (students : List Student),
      VariableStorage.ValidateBlockSize (vs.blockSize : Int) = none →
      (vs.WriteStudents students).err = none →
      (vs.WriteStudents students).WithinCapacity vs.blockSize) ∧
    (∀ (vfs : VariableFragmentedStorage) (students : List Student),
      VariableFragmentedStorage.ValidateBlockSize (vfs.blockSize : Int) = none →
      ∃ r, vfs.WriteStudents students = some r ∧ r.err = none ∧
        r.WithinCapacity vfs.blockSize) := by
  refine ⟨?_, ?_, ?_⟩
  · intro fs students hv
    have hbs : 167 ≤ fs.blockSize := by
      simp only [FixedStorage.ValidateBlockSize, MaxNomeLength, CPFLength, MaxCursoLength,
        MaxFiliacaoLength] at hv
      split_ifs at hv
      omega
    refine ⟨rfl, ?_⟩
    simp only [FixedStorage.WriteStudents]
    apply withinCapacity_of_bounded
    apply Writer.finish_bounded
    exact fixed_writeLoop_bounded _ hbs _ _ (Writer.init_bounded _ _)
  · intro vs students _ herr
    have hall : ∀ s ∈ students, (serializeStudent s).length ≤ vs.blockSize := by
      intro s hs
      by_contra hc
      have := (VariableStorage.WriteStudents_err_iff vs students).2 ⟨s, hs, by omega⟩
      exact this herr
    unfold VariableStorage.WriteStudents
    rw [VariableStorage.writeLoop_none _ _ _ _ hall]
    apply withinCapacity_of_bounded
    apply Writer.finish_bounded
    exact foldl_writeContiguous_bounded _ _ hall _ (Writer.init_bounded _ _)
  · intro vfs students hv
    have hbs : 5 < vfs.blockSize := by
      simp only [VariableFragmentedStorage.ValidateBlockSize, MaxNomeLength, CPFLength,
        MaxCursoLength, MaxFiliacaoLength] at hv
      split_ifs at hv
      omega
    obtain ⟨w, hw, hb⟩ := fragmented_writeLoop_bounded vfs.blockSize hbs students
      _ (Writer.init_bounded vfs.blockSize vfs.stats)
    refine ⟨{ file := fileOf vfs.blockSize w.finish.written, written := w.finish.written,
              stats := w.finish.stats, err := none }, ?_, rfl, ?_⟩
    · simp only [VariableFragmentedStorage.WriteStudents, hw]
    · apply withinCapacity_of_bounded
      exact Writer.finish_bounded _ _ hb

/-- C6, witness: the invariant at block sizes 167 (fixed) and 183 (variable layouts) for a
list of two records. -/
theorem C6_capacity_invariant_witness :
    ((FixedStorage.WriteStudents ⟨167, 0, StorageStats.empty⟩ [sampleA, sampleB]).2.err = none ∧
      (FixedStorage.WriteStudents ⟨167, 0, StorageStats.empty⟩
        [sampleA, sampleB]).2.WithinCapacity 167) ∧
    (VariableStorage.WriteStudents ⟨183, StorageStats.empty⟩
      [sampleA, sampleB]).WithinCapacity 183 ∧
    (∃ r, VariableFragmentedStorage.WriteStudents ⟨183, StorageStats.empty⟩ [sampleA, sampleB] =
        some r ∧ r.err = none ∧ r.WithinCapacity 183) :=
  ⟨C6_capacity_invariant.1 ⟨167, 0, StorageStats.empty⟩ [sampleA, sampleB] (by decide),
   C6_capacity_invariant.2.1 ⟨183, StorageStats.empty⟩ [sampleA, sampleB] (by decide)
     (by decide!),
   C6_capacity_invariant.2.2 ⟨183, StorageStats.empty⟩ [sampleA, sampleB] (by decide)⟩

/-! ## Codec round trips -/

/-- C1 (code defect). The valid record `sample029` has the score 0.29, a whole number of
hundredths that `TruncateFields` leaves unchanged, yet the variable-width round trip does
not return it: `serializeStudent` stores `uint64(0.29*100) = 28` and `deserializeStudent`
returns the score 0.28. -/
theorem C1_variable_roundtrip_drops_hundredth :
    sample029.Validate = none ∧
    sample029.TruncateFields = sample029 ∧
    sample029.CA = F64.ofHundredths 29 ∧
    encodeCA sample029.CA = 28 ∧
    deserializeStudent (serializeStudent sample029) =
      .ok { sample029 with CA := F64.ofHundredths 28 } ∧
    deserializeStudent (serializeStudent sample029) ≠ .ok sample029 := by
  decide!

theorem trimHash_append_replicate (t : List Byte) (k : Nat) :
    trimHash (t ++ List.replicate k (35 : Byte)) = trimHash t := by
  induction k with
  | zero => simp
  | succ k ih =>
    rw [List.replicate_succ', ← List.append_assoc]
    unfold trimHash at ih ⊢
    rw [List.rdropWhile_concat_pos _ _ _ (by simp), ih]

theorem trimHash_of_getLast (t : List Byte) (h : t.getLast? ≠ some 35) : trimHash t = t := by
  unfold trimHash
  rw [List.rdropWhile_eq_self_iff]
  intro hl
  rw [List.getLast?_eq_getLast _ hl] at h
  simpa using h

theorem trimHash_padField (n : Nat) (t : List Byte) (hl : t.length ≤ n)
    (h : t.getLast? ≠ some 35) : trimHash (padField n 35 t) = t := by
  unfold padField
  rw [if_neg (by omega), trimHash_append_replicate, trimHash_of_getLast t h]

theorem padField_of_length (n : Nat) (pad : Byte) (t : List Byte) (hl : t.length = n) :
    padField n pad t = t := by
  unfold padField
  rw [if_neg (by omega)]
  simp [hl]

theorem deserializeStudentFixed_fields (frs m ano ca : Nat) (nome cpf curso mae pai : List Byte)
    (hfrs : frs ≤ 167)
    (hn : nome.length = 50) (hcpf : cpf.length = 11) (hc : curso.length = 30)
    (hme : mae.length = 30) (hp : pai.length = 30)
    (hm : m < 4294967296) (ha : ano < 4294967296) (hca : ca < 18446744073709551616) :
    deserializeStudentFixed frs (ByteSlice.ofList
      (leEncode 4 m ++ (nome ++ (cpf ++ (curso ++ (mae ++ (pai ++
        (leEncode 4 ano ++ leEncode 8 ca)))))))) =
    (match (Student.mk m (trimHash nome) cpf (trimHash curso) (trimHash mae) (trimHash pai) ano
        (decodeCA ca)).Validate with
      | some e => .error (.invalid e)
      | none => .ok ⟨m, trimHash nome, cpf, trimHash curso, trimHash mae, trimHash pai, ano,
          decodeCA ca⟩) := by
  generalize hd : (leEncode 4 m ++ (nome ++ (cpf ++ (curso ++ (mae ++ (pai ++
        (leEncode 4 ano ++ leEncode 8 ca))))))) = data
  have hlen : data.length = 167 := by
    subst hd; simp only [List.length_append, leEncode_length, hn, hcpf, hc, hme, hp]
  have h1 : slice data 0 (0 + 4) = leEncode 4 m := by
    subst hd; exact slice_head _ _ _ (by simp [leEncode_length])
  have h2 : slice data (0 + 4) (0 + 4 + 50) = nome := by
    subst hd; exact slice_mid _ _ _ _ _ (by simp [leEncode_length]) (by rw [hn])
  have h3 : slice data (0 + 4 + 50) (0 + 4 + 50 + 11) = cpf := by
    subst hd
    rw [← List.append_assoc]
    exact slice_mid _ _ _ _ _ (by simp [leEncode_length, hn]) (by rw [hcpf])
  have h4 : slice data (0 + 4 + 50 + 11) (0 + 4 + 50 + 11 + 30) = curso := by
    subst hd
    rw [← List.append_assoc, ← List.append_assoc]
    exact slice_mid _ _ _ _ _ (by simp [leEncode_length, hn, hcpf]) (by rw [hc])
  have h5 : slice data (0 + 4 + 50 + 11 + 30) (0 + 4 + 50 + 11 + 30 + 30) = mae := by
    subst hd
    rw [← List.append_assoc, ← List.append_assoc, ← List.append_assoc]
    exact slice_mid _ _ _ _ _ (by simp [leEncode_length, hn, hcpf, hc]) (by rw [hme])
  have h6 : slice data (0 + 4 + 50 + 11 + 30 + 30) (0 + 4 + 50 + 11 + 30 + 30 + 30) = pai := by
    subst hd
    rw [← List.append_assoc, ← List.append_assoc, ← List.append_assoc, ← List.append_assoc]
    exact slice_mid _ _ _ _ _ (by simp [leEncode_length, hn, hcpf, hc, hme]) (by rw [hp])
  have h7 : slice data (0 + 4 + 50 + 11 + 30 + 30 + 30) (0 + 4 + 50 + 11 + 30 + 30 + 30 + 4) =
      leEncode 4 ano := by
    subst hd
    rw [← List.append_assoc, ← List.append_assoc, ← List.append_assoc, ← List.append_assoc,
      ← List.append_assoc]
    exact slice_mid _ _ _ _ _ (by simp [leEncode_length, hn, hcpf, hc, hme, hp])
      (by simp [leEncode_length])
  have h8 : slice data (0 + 4 + 50 + 11 + 30 + 30 + 30 + 4)
      (0 + 4 + 50 + 11 + 30 + 30 + 30 + 4 + 8) = leEncode 8 ca := by
    subst hd
    rw [← List.append_assoc, ← List.append_assoc, ← List.append_assoc, ← List.append_assoc,
      ← List.append_assoc, ← List.append_assoc]
    have := slice_mid (leEncode 4 m ++ nome ++ cpf ++ curso ++ mae ++ pai ++ leEncode 4 ano)
      (leEncode 8 ca) [] (0 + 4 + 50 + 11 + 30 + 30 + 30 + 4)
      (0 + 4 + 50 + 11 + 30 + 30 + 30 + 4 + 8)
      (by simp [leEncode_length, hn, hcpf, hc, hme, hp]) (by simp [leEncode_length])
    simpa using this
  unfold deserializeStudentFixed
  simp only [ByteSlice.ofList, MaxNomeLength, CPFLength, MaxCursoLength, MaxFiliacaoLength, h1,
    h2, h3, h4, h5, h6, h7, h8, leDecode_leEncode_of_lt 4 _ hm, leDecode_leEncode_of_lt 4 _ ha,
    leDecode_leEncode_of_lt 8 _ hca]
  rw [if_neg (by omega), if_neg (by omega)]

/-- C2, counterexample. The valid record `sampleHash`, whose name "Ana#" ends with the
padding byte, does not survive the fixed-width round trip: the decoder returns the name
"Ana". -/
theorem C2_fixed_roundtrip_counterexample :
    sampleHash.Validate = none ∧
    sampleHash.TruncateFields = sampleHash ∧
    deserializeStudentFixed 167 (ByteSlice.ofList (serializeStudentFixed sampleHash)) =
      .ok sampleA ∧
    deserializeStudentFixed 167 (ByteSlice.ofList (serializeStudentFixed sampleHash)) ≠
      .ok sampleHash := by
  decide!

/-- C2, amended. For every record that passes `Validate`, none of whose padded text fields
(name, course, guardian names) ends with `'#'` and whose score is reproduced by the stored
integer (`float64(uint64(CA*100))/100 = CA`), the fixed-width decoder applied to the
fixed-width encoding succeeds and returns the record itself. The record size field may
hold any value up to 167 (it is 0 on a new storage object and 167 after a write). -/
theorem C2_fixed_roundtrip_amended (r : Student) (fixedRecordSize : Nat)
    (hfrs : fixedRecordSize ≤ 167) (hv : r.Validate = none)
    (hnome : r.Nome.getLast? ≠ some 35) (hcurso : r.Curso.getLast? ≠ some 35)
    (hmae : r.FiliacaoMae.getLast? ≠ some 35) (hpai : r.FiliacaoPai.getLast? ≠ some 35)
    (hscore : decodeCA (encodeCA r.CA) = r.CA) :
    deserializeStudentFixed fixedRecordSize (ByteSlice.ofList (serializeStudentFixed r)) =
      .ok r := by
  have hv1 := (Student.Validate_eq_none_iff r).1 hv
  obtain ⟨⟨a1, a2⟩, ⟨b1, b2⟩, c, d, ⟨e1, e2⟩, ⟨f1, f2⟩, ⟨g1, g2⟩, ⟨h1, h2⟩, i1, i2⟩ := hv1
  have hM := itoa_length_le_nine r.Matricula a1 a2
  unfold serializeStudentFixed
  simp only [List.append_assoc, MaxNomeLength, CPFLength, MaxCursoLength, MaxFiliacaoLength]
  rw [deserializeStudentFixed_fields _ _ _ _ _ _ _ _ _ hfrs (padField_length _ _ _)
    (padField_length _ _ _) (padField_length _ _ _) (padField_length _ _ _)
    (padField_length _ _ _) (uint32_lt _) (uint32_lt _) (encodeCA_lt _)]
  rw [trimHash_padField _ _ b2 hnome, trimHash_padField _ _ e2 hcurso,
    trimHash_padField _ _ f2 hmae, trimHash_padField _ _ g2 hpai, padField_of_length _ _ _ c,
    uint32_of_range _ (by omega) (by omega), uint32_of_range _ (by omega) (by omega), hscore]
  have e : (⟨r.Matricula, r.Nome, r.CPF, r.Curso, r.FiliacaoMae, r.FiliacaoPai, r.AnoIngresso,
      r.CA⟩ : Student) = r := rfl
  rw [e, hv]

/-- C2, witness: the amended round trip at the record `sampleA`. -/
theorem C2_fixed_roundtrip_amended_witness :
    deserializeStudentFixed 167 (ByteSlice.ofList (serializeStudentFixed sampleA)) =
      .ok sampleA :=
  C2_fixed_roundtrip_amended sampleA 167 (by decide) (by decide!) (by decide!) (by decide!)
    (by decide!) (by decide!) (by decide!)

/-! ## Greedy packing: the blocks of a written file hold whole records -/

theorem encGroup_nil : encGroup [] = [] := rfl

theorem encGroup_cons (r : Student) (g : List Student) :
    encGroup (r :: g) = serializeStudent r ++ encGroup g := by
  simp [encGroup]

theorem encGroup_concat (g : List Student) (s : Student) :
    encGroup (g ++ [s]) = encGroup g ++ serializeStudent s := by
  simp [encGroup]

theorem serializeStudent_ne_nil (s : Student) : serializeStudent s ≠ [] := by
  intro h
  have := serializeStudent_length s
  rw [h, List.length_nil] at this
  omega

theorem encGroup_eq_nil (g : List Student) (h : encGroup g = []) : g = [] := by
  cases g with
  | nil => rfl
  | cons r rest =>
    rw [encGroup_cons] at h
    exact absurd (List.append_eq_nil.1 h).1 (serializeStudent_ne_nil r)

theorem foldl_writeContiguous_groups (bs : Nat) (students : List Student) :
    ∀ (w : Writer) (groups : List (List Student)) (g : List Student),
      w.written = groups.map encGroup → w.currentBlock = encGroup g →
      ∃ (groups1 : List (List Student)) (g1 : List Student),
        (students.foldl (fun acc s => writeContiguousRecord bs acc (serializeStudent s))
          w).written = groups1.map encGroup ∧
        (students.foldl (fun acc s => writeContiguousRecord bs acc (serializeStudent s))
          w).currentBlock = encGroup g1 ∧
        groups1.flatten ++ g1 = groups.flatten ++ g ++ students := by
  induction students with
  | nil =>
    intro w groups g hw hc
    exact ⟨groups, g, hw, hc, by simp⟩
  | cons s rest ih =>
    intro w groups g hw hc
    simp only [List.foldl_cons]
    by_cases h1 : w.currentBlock.length + (serializeStudent s).length > bs
    · by_cases h2 : w.currentBlock.length > 0
      · obtain ⟨groups1, g1, e1, e2, e3⟩ :=
          ih (writeContiguousRecord bs w (serializeStudent s)) (groups ++ [g]) [s]
            (by rw [writeContiguousRecord_written, if_pos ⟨h1, h2⟩, hw, hc]; simp)
            (by rw [writeContiguousRecord_currentBlock, if_pos h1]; simp [encGroup])
        exact ⟨groups1, g1, e1, e2, by rw [e3]; simp⟩
      · have hg : g = [] := by
          apply encGroup_eq_nil
          rw [← hc]
          exact List.length_eq_zero.1 (by omega)
        obtain ⟨groups1, g1, e1, e2, e3⟩ :=
          ih (writeContiguousRecord bs w (serializeStudent s)) groups [s]
            (by rw [writeContiguousRecord_written, if_neg (by tauto), hw])
            (by rw [writeContiguousRecord_currentBlock, if_pos h1]; simp [encGroup])
        exact ⟨groups1, g1, e1, e2, by rw [e3, hg]; simp⟩
    · obtain ⟨groups1, g1, e1, e2, e3⟩ :=
        ih (writeContiguousRecord bs w (serializeStudent s)) groups (g ++ [s])
          (by rw [writeContiguousRecord_written, if_neg (by tauto), hw])
          (by rw [writeContiguousRecord_currentBlock, if_neg h1, hc, encGroup_concat])
      exact ⟨groups1, g1, e1, e2, by rw [e3]; simp⟩

/-- The buffers `VariableStorage.WriteStudents` hands to `writeBlock`, when no record is
oversized: the encodings of consecutive groups of the records, each within a block. -/
theorem VariableStorage.WriteStudents_groups (vs : VariableStorage) (students : List Student)
    (hall : ∀ s ∈ students, (serializeStudent s).length ≤ vs.blockSize) :
    ∃ groups : List (List Student),
      (vs.WriteStudents students).written = groups.map encGroup ∧
      (vs.WriteStudents students).file = fileOf vs.blockSize (groups.map encGroup) ∧
      (vs.WriteStudents students).err = none ∧
      groups.flatten = students ∧
      ∀ g ∈ groups, (encGroup g).length ≤ vs.blockSize := by
  have hb := foldl_writeContiguous_bounded vs.blockSize students hall _
    (Writer.init_bounded vs.blockSize vs.stats)
  obtain ⟨groups1, g1, e1, e2, e3⟩ := foldl_writeContiguous_groups vs.blockSize students
    (Writer.init vs.blockSize vs.stats) [] [] rfl rfl
  unfold VariableStorage.WriteStudents
  rw [VariableStorage.writeLoop_none _ _ _ _ hall]
  simp only
  generalize students.foldl (fun acc s => writeContiguousRecord vs.blockSize acc
    (serializeStudent s)) (Writer.init vs.blockSize vs.stats) = w at hb e1 e2
  have hfin := Writer.finish_bounded _ _ hb
  by_cases hc : w.currentBlock.length > 0
  · have hw : w.finish.written = (groups1 ++ [g1]).map encGroup := by
      rw [Writer.finish_written, if_pos hc, e1, e2]; simp
    refine ⟨groups1 ++ [g1], hw, by rw [hw], trivial, by simpa using e3, ?_⟩
    intro g hg
    apply hfin
    rw [hw]
    exact List.mem_map_of_mem _ hg
  · have hg : g1 = [] := by
      apply encGroup_eq_nil
      rw [← e2]
      exact List.length_eq_zero.1 (by omega)
    have hw : w.finish.written = groups1.map encGroup := by
      rw [Writer.finish_written, if_neg hc, e1]
    refine ⟨groups1, hw, by rw [hw], trivial, by simpa [hg] using e3, ?_⟩
    intro g hg
    apply hfin
    rw [hw]
    exact List.mem_map_of_mem _ hg

/-! ## Reading the blocks of a written file -/

theorem readBlock_fileOf_zero (bs : Nat) (b : List Byte) (rest : List (List Byte)) :
    readBlock (fileOf bs (b :: rest)) bs 0 = writeBlock bs b := by
  simp only [readBlock, fileOf, List.map_cons, List.flatten_cons, Nat.zero_mul, Nat.zero_add]
  exact slice_head _ _ _ (writeBlock_length _ _).symm

theorem readBlock_fileOf_succ (bs : Nat) (b : List Byte) (rest : List (List Byte)) (i : Nat) :
    readBlock (fileOf bs (b :: rest)) bs (i + 1) = readBlock (fileOf bs rest) bs i := by
  simp only [readBlock, fileOf, List.map_cons, List.flatten_cons, slice]
  have h : (i + 1) * bs = (writeBlock bs b).length + i * bs := by
    rw [writeBlock_length, Nat.succ_mul]; omega
  rw [h, List.drop_append]
  congr 1
  omega

theorem findStudentContiguous_congr (bs : Nat) (f1 f2 : List Byte) (k : Int) :
    ∀ (n b1 b2 : Nat), (∀ j, j < n → readBlock f1 bs (b1 + j) = readBlock f2 bs (b2 + j)) →
      VariableStorage.findStudentContiguous bs f1 k n b1 =
        VariableStorage.findStudentContiguous bs f2 k n b2 := by
  intro n
  induction n with
  | zero => intro b1 b2 _; rfl
  | succ n ih =>
    intro b1 b2 h
    simp only [VariableStorage.findStudentContiguous]
    have h0 := h 0 (by omega)
    simp only [Nat.add_zero] at h0
    rw [h0, ih (b1 + 1) (b2 + 1) (fun j hj => by
      have := h (j + 1) (by omega)
      rw [show b1 + 1 + j = b1 + (j + 1) by omega, show b2 + 1 + j = b2 + (j + 1) by omega]
      exact this)]

theorem findStudentContiguous_fileOf (bs : Nat) (k : Int) (written : List (List Byte)) :
    VariableStorage.findStudentContiguous bs (fileOf bs written) k written.length 0 =
      findInBuffers bs k written := by
  induction written with
  | nil => rfl
  | cons b rest ih =>
    simp only [List.length_cons, VariableStorage.findStudentContiguous, findInBuffers,
      readBlock_fileOf_zero]
    rw [findStudentContiguous_congr bs (fileOf bs (b :: rest)) (fileOf bs rest) k rest.length
      (0 + 1) 0 (fun j _ => by
        rw [show 0 + 1 + j = j + 1 by omega, Nat.zero_add]
        exact readBlock_fileOf_succ bs b rest j), ih]

theorem fileOf_totalBlocks (bs : Nat) (hbs : 0 < bs) (written : List (List Byte)) :
    (fileOf bs written).length / bs = written.length := by
  rw [fileOf_length, Nat.mul_div_cancel_left _ hbs]

/-! ## The point lookup of VariableStorage -/

theorem Validate_of_matricula_zero (s : Student) (h : s.Matricula = 0) :
    s.Validate = some .matricula := by
  unfold Student.Validate
  rw [if_pos (Or.inl (by omega))]

theorem deserializeStudent_eq_staged (data : List Byte) :
    deserializeStudent data = deserializeStudentStaged data := rfl

theorem readUint32At_ok (data : List Byte) (offset : Nat) (err : DecodeError)
    (k : Nat → Nat → Except DecodeError Student) (s : Student)
    (h : readUint32At data offset err k = .ok s) :
    ∃ v o, v = leDecode (slice data offset (offset + 4)) ∧ o = offset + 4 ∧
      o ≤ data.length ∧ k v o = .ok s := by
  unfold readUint32At at h
  split_ifs at h with hc
  exact ⟨_, _, rfl, rfl, by omega, h⟩

theorem readBytesAt_ok (data : List Byte) (offset n : Nat) (err : DecodeError)
    (k : List Byte → Nat → Except DecodeError Student) (s : Student)
    (h : readBytesAt data offset n err k = .ok s) :
    ∃ v o, v = slice data offset (offset + n) ∧ o = offset + n ∧
      o ≤ data.length ∧ k v o = .ok s := by
  unfold readBytesAt at h
  split_ifs at h with hc
  exact ⟨_, _, rfl, rfl, by omega, h⟩

theorem finishDecode_ok (m : Nat) (nome cpf curso mae pai : List Byte) (ano ca : Nat)
    (s : Student) (h : finishDecode m nome cpf curso mae pai ano ca = .ok s) :
    s = (Student.mk m nome cpf curso mae pai ano (decodeCA ca)).TruncateFields ∧
      s.Validate = none := by
  unfold finishDecode at h
  split at h
  · cases h
  · rename_i hval
    injection h with h
    exact ⟨h.symm, by rw [← h]; exact hval⟩

/-- A successful decode has passed `Validate`, and is the truncation of a record whose key
is the value of the first four bytes of the input. -/
theorem deserializeStudent_ok_key (data : List Byte) (s : Student)
    (h : deserializeStudent data = .ok s) :
    s.Validate = none ∧
    ∃ (nome cpf curso mae pai : List Byte) (ano ca : Nat),
      s = (Student.mk (leDecode (slice data 0 4)) nome cpf curso mae pai ano
        (decodeCA ca)).TruncateFields := by
  rw [deserializeStudent_eq_staged] at h
  unfold deserializeStudentStaged at h
  split_ifs at h
  obtain ⟨nomeLen, o1, -, -, -, h⟩ := readUint32At_ok _ _ _ _ _ h
  obtain ⟨nome, o2, -, -, -, h⟩ := readBytesAt_ok _ _ _ _ _ _ h
  obtain ⟨cpf, o3, -, -, -, h⟩ := readBytesAt_ok _ _ _ _ _ _ h
  obtain ⟨cursoLen, o4, -, -, -, h⟩ := readUint32At_ok _ _ _ _ _ h
  obtain ⟨curso, o5, -, -, -, h⟩ := readBytesAt_ok _ _ _ _ _ _ h
  obtain ⟨maeLen, o6, -, -, -, h⟩ := readUint32At_ok _ _ _ _ _ h
  obtain ⟨mae, o7, -, -, -, h⟩ := readBytesAt_ok _ _ _ _ _ _ h
  obtain ⟨paiLen, o8, -, -, -, h⟩ := readUint32At_ok _ _ _ _ _ h
  obtain ⟨pai, o9, -, -, -, h⟩ := readBytesAt_ok _ _ _ _ _ _ h
  obtain ⟨ano, o10, -, -, -, h⟩ := readUint32At_ok _ _ _ _ _ h
  obtain ⟨caBytes, o11, -, -, -, h⟩ := readBytesAt_ok _ _ _ _ _ _ h
  obtain ⟨h1, h2⟩ := finishDecode_ok _ _ _ _ _ _ _ _ _ h
  exact ⟨h2, nome, cpf, curso, mae, pai, ano, leDecode caBytes, h1⟩

theorem deserializeStudent_zero_key (data : List Byte) (h : leDecode (slice data 0 4) = 0) :
    ∃ e, deserializeStudent data = .error e := by
  cases hd : deserializeStudent data with
  | error e => exact ⟨e, rfl⟩
  | ok s =>
    obtain ⟨h3, nome, cpf, curso, mae, pai, ano, ca, h2⟩ := deserializeStudent_ok_key data s hd
    rw [h] at h2
    have : s.Matricula = 0 := by
      rw [h2]
      simp only [Student.TruncateFields]
      exact truncMatricula_of_le _ (by decide)
    rw [Validate_of_matricula_zero s this] at h3
    cases h3

theorem leDecode_replicate_zero (n : Nat) : leDecode (List.replicate n (0 : Byte)) = 0 := by
  induction n with
  | zero => rfl
  | succ n ih => simp [List.replicate_succ, leDecode, ih]

theorem slice_replicate_zero (n lo hi : Nat) :
    ∃ m, slice (List.replicate n (0 : Byte)) lo hi = List.replicate m 0 := by
  refine ⟨min (hi - lo) (n - lo), ?_⟩
  simp [slice]

theorem deserializeStudent_zeros (n : Nat) :
    ∃ e, deserializeStudent (List.replicate n (0 : Byte)) = .error e := by
  apply deserializeStudent_zero_key
  obtain ⟨m, hm⟩ := slice_replicate_zero n 0 4
  rw [hm, leDecode_replicate_zero]

theorem getRecordSize_storedVariable (r : Student) (h : r.CPF.length = 11) :
    getRecordSize (storedVariable r) = (serializeStudent r).length := by
  rw [serializeStudent_length]
  simp only [getRecordSize, storedVariable]
  omega

theorem serializeStudent_head (r : Student) :
    ∃ tail, serializeStudent r = leEncode 4 (uint32 r.Matricula) ++ tail :=
  ⟨lenPrefixed r.Nome ++ (r.CPF ++ (lenPrefixed r.Curso ++ (lenPrefixed r.FiliacaoMae ++
    (lenPrefixed r.FiliacaoPai ++ (leEncode 4 (uint32 r.AnoIngresso) ++
      leEncode 8 (encodeCA r.CA)))))), by simp only [serializeStudent, List.append_assoc]⟩

theorem deserializeStudentFromBlock_padding (pre : List Byte) (z : Nat) :
    ∃ e, deserializeStudentFromBlock (pre ++ List.replicate z (0 : Byte)) pre.length =
      .error e := by
  unfold deserializeStudentFromBlock
  split_ifs
  · exact ⟨_, rfl⟩
  · rw [List.drop_left]
    exact deserializeStudent_zeros z

theorem deserializeStudentFromBlock_record (pre rest : List Byte) (r : Student)
    (hr : r.Validate = none) :
    deserializeStudentFromBlock (pre ++ (serializeStudent r ++ rest)) pre.length =
      .ok (storedVariable r) := by
  unfold deserializeStudentFromBlock
  have hl := serializeStudent_length r
  rw [if_neg (by simp only [List.length_append]; omega), List.drop_left]
  exact deserialize_serialize r rest hr

theorem key_read_back (pre rest : List Byte) (r : Student) (hr : r.Validate = none) :
    ((leDecode (slice (pre ++ (serializeStudent r ++ rest)) pre.length (pre.length + 4)) : Nat)
      : Int) = r.Matricula := by
  obtain ⟨⟨a1, a2⟩, -⟩ := (Student.Validate_eq_none_iff r).1 hr
  have hM := itoa_length_le_nine r.Matricula a1 a2
  obtain ⟨tail, ht⟩ := serializeStudent_head r
  rw [ht, List.append_assoc,
    slice_mid pre (leEncode 4 (uint32 r.Matricula)) (tail ++ rest) _ _ rfl
      (by rw [leEncode_length]),
    leDecode_leEncode_of_lt 4 _ (uint32_lt _), uint32_of_range _ (by omega) (by omega)]

/-- The scan of `findStudentContiguous` over a block that holds the encodings of the valid
records `g` from `pre.length` on, followed by zero padding: the first record of `g` with the
requested key is returned, as decoded, or the block is exhausted. -/
theorem findInBlock_group (bs : Nat) (k : Int) (g : List Student) :
    ∀ (pre : List Byte) (z fuel : Nat), (∀ r ∈ g, r.Validate = none) →
      pre.length + (encGroup g).length + z = bs → g.length < fuel →
      VariableStorage.findInBlock bs (pre ++ (encGroup g ++ List.replicate z 0)) k fuel
          pre.length =
        some ((g.find? (fun r => decide (r.Matricula = k))).map storedVariable) := by
  induction g with
  | nil =>
    intro pre z fuel _ hlen hf
    obtain ⟨f, rfl⟩ : ∃ f, fuel = f + 1 := ⟨fuel - 1, by simp at hf; omega⟩
    simp only [encGroup_nil, List.nil_append, List.find?_nil, Option.map_none',
      VariableStorage.findInBlock]
    by_cases h1 : pre.length < bs
    · by_cases h2 : pre.length + 4 > bs
      · rw [if_neg (by omega), if_pos h2]
      · obtain ⟨e, he⟩ := deserializeStudentFromBlock_padding pre z
        rw [if_neg (by omega), if_neg h2, he]
        simp [Except.toOption]
    · rw [if_pos h1]
  | cons r g ih =>
    intro pre z fuel hv hlen hf
    obtain ⟨f, rfl⟩ : ∃ f, fuel = f + 1 := ⟨fuel - 1, by simp at hf; omega⟩
    have hr := hv r (List.mem_cons_self _ _)
    have hl := serializeStudent_length r
    rw [encGroup_cons, List.length_append] at hlen
    rw [encGroup_cons, List.append_assoc]
    simp only [VariableStorage.findInBlock]
    rw [if_neg (by omega), if_neg (by omega), key_read_back pre _ r hr,
      deserializeStudentFromBlock_record pre _ r hr]
    by_cases hk : r.Matricula = k
    · simp [hk, Except.toOption]
    · have hcpf := ((Student.Validate_eq_none_iff r).1 hr).2.2.1
      rw [List.find?_cons_of_neg _ (by simpa using hk)]
      simp only [hk, if_false]
      rw [getRecordSize_storedVariable r hcpf]
      have := ih (pre ++ serializeStudent r) z f
        (fun x hx => hv x (List.mem_cons_of_mem _ hx))
        (by rw [List.length_append]; omega) (by simp at hf; omega)
      rw [List.length_append, List.append_assoc] at this
      exact this

theorem length_le_encGroup_length (g : List Student) : g.length ≤ (encGroup g).length := by
  induction g with
  | nil => simp
  | cons r g ih =>
    have := serializeStudent_length r
    rw [encGroup_cons, List.length_append, List.length_cons]
    omega

theorem writeBlock_of_le (bs : Nat) (b : List Byte) (h : b.length ≤ bs) :
    writeBlock bs b = [] ++ (b ++ List.replicate (bs - b.length) 0) := by
  simp [writeBlock, List.take_of_length_le h]

theorem findInBuffers_groups (bs : Nat) (k : Int) (groups : List (List Student))
    (hv : ∀ g ∈ groups, ∀ r ∈ g, r.Validate = none)
    (hb : ∀ g ∈ groups, (encGroup g).length ≤ bs) :
    findInBuffers bs k (groups.map encGroup) =
      some (match groups.flatten.find? (fun r => decide (r.Matricula = k)) with
        | some r => .ok (storedVariable r)
        | none => .error (.notFound k)) := by
  induction groups with
  | nil => rfl
  | cons g rest ih =>
    have hg := hb g (List.mem_cons_self _ _)
    have hscan := findInBlock_group bs k g [] (bs - (encGroup g).length) (bs + 1)
      (hv g (List.mem_cons_self _ _)) (by simp only [List.length_nil]; omega)
      (by have := length_le_encGroup_length g; omega)
    simp only [List.map_cons, findInBuffers, List.flatten_cons, List.find?_append]
    rw [writeBlock_of_le bs _ hg]
    simp only [List.length_nil] at hscan
    rw [hscan]
    cases hf : g.find? (fun r => decide (r.Matricula = k)) with
    | some r => simp
    | none =>
      simp only [Option.map_none', Option.none_or]
      exact ih (fun x hx => hv x (List.mem_cons_of_mem _ hx))
        (fun x hx => hb x (List.mem_cons_of_mem _ hx))

theorem find?_key_of_nodup (students : List Student)
    (hkeys : (students.map (fun s => s.Matricula)).Nodup) (r : Student) (hr : r ∈ students) :
    students.find? (fun s => decide (s.Matricula = r.Matricula)) = some r := by
  induction students with
  | nil => cases hr
  | cons s rest ih =>
    rw [List.map_cons, List.nodup_cons] at hkeys
    rcases List.mem_cons.1 hr with h | h
    · subst h
      simp
    · have hne : s.Matricula ≠ r.Matricula := by
        intro he
        apply hkeys.1
        rw [he]
        exact List.mem_map_of_mem _ h
      rw [List.find?_cons_of_neg _ (by simpa using hne)]
      exact ih hkeys.2 h

theorem serializeStudent_length_le_of_valid (r : Student) (hr : r.Validate = none) :
    (serializeStudent r).length ≤ 183 := by
  obtain ⟨-, ⟨-, b2⟩, c, -, ⟨-, e2⟩, ⟨-, f2⟩, ⟨-, g2⟩, -⟩ := (Student.Validate_eq_none_iff r).1 hr
  rw [serializeStudent_length]
  omega

/-- The result of `VariableStorage.FindStudentByMatricula` on a file written from valid
records: the first record with the requested key, as the decoder returns it, or the
not-found error. -/
theorem VariableStorage.find_after_write (vs : VariableStorage) (students : List Student)
    (hbs : 183 ≤ vs.blockSize) (hvalid : ∀ s ∈ students, s.Validate = none) (k : Int) :
    (vs.WriteStudents students).err = none ∧
    vs.FindStudentByMatricula (vs.WriteStudents students).file k =
      some (match students.find? (fun r => decide (r.Matricula = k)) with
        | some r => .ok (storedVariable r)
        | none => .error (.notFound k)) := by
  have hall : ∀ s ∈ students, (serializeStudent s).length ≤ vs.blockSize := fun s hs =>
    le_trans (serializeStudent_length_le_of_valid s (hvalid s hs)) hbs
  obtain ⟨groups, -, hfile, herr, hflat, hbound⟩ := VariableStorage.WriteStudents_groups vs students hall
  refine ⟨herr, ?_⟩
  unfold VariableStorage.FindStudentByMatricula
  simp only
  rw [hfile, fileOf_totalBlocks _ (by omega), List.length_map]
  have := findStudentContiguous_fileOf vs.blockSize k (groups.map encGroup)
  rw [List.length_map] at this
  rw [this, findInBuffers_groups vs.blockSize k groups
    (fun g hg r hr => hvalid r (by rw [← hflat]; exact List.mem_flatten.2 ⟨g, hg, hr⟩)) hbound,
    hflat]

/-- For a `VariableStorage` whose block size the constructor accepts and a file written
by `WriteStudents` from valid records with pairwise distinct keys: the write succeeds;
`FindStudentByMatricula` with the key of a written record returns that record as the
decoder gives it back (`storedVariable`: all fields of the written record, the score having
passed through the codec), which has the requested key and is the written record itself
when its score is reproduced by the codec; with a key that no written record has, it returns
the not-found error. -/
theorem variable_point_lookup_of_distinct_keys (vs : VariableStorage) (students : List Student)
    (hbs : VariableStorage.ValidateBlockSize (vs.blockSize : Int) = none)
    (hvalid : ∀ s ∈ students, s.Validate = none)
    (hkeys : (students.map (fun s => s.Matricula)).Nodup) :
    (vs.WriteStudents students).err = none ∧
    (∀ r ∈ students,
      vs.FindStudentByMatricula (vs.WriteStudents students).file r.Matricula =
        some (.ok (storedVariable r)) ∧
      (storedVariable r).Matricula = r.Matricula ∧
      (truncCA (decodeCA (encodeCA r.CA)) = r.CA → storedVariable r = r)) ∧
    (∀ k : Int, (∀ r ∈ students, r.Matricula ≠ k) →
      vs.FindStudentByMatricula (vs.WriteStudents students).file k =
        some (.error (.notFound k))) := by
  have h183 : 183 ≤ vs.blockSize := by
    simp only [VariableStorage.ValidateBlockSize, MaxNomeLength, CPFLength, MaxCursoLength,
      MaxFiliacaoLength] at hbs
    split_ifs at hbs
    omega
  refine ⟨(VariableStorage.find_after_write vs students h183 hvalid 0).1, ?_, ?_⟩
  · intro r hr
    refine ⟨?_, rfl, ?_⟩
    · rw [(VariableStorage.find_after_write vs students h183 hvalid r.Matricula).2,
        find?_key_of_nodup students hkeys r hr]
    · intro hs
      simp only [storedVariable, hs]
  · intro k hk
    rw [(VariableStorage.find_after_write vs students h183 hvalid k).2]
    have : students.find? (fun r => decide (r.Matricula = k)) = none := by
      rw [List.find?_eq_none]
      intro r hr
      simpa using hk r hr
    rw [this]

/-- C10, evaluated on block size 183 and the valid records `sampleB` (score 7.50) and
`sample029b` (key 100000009, score 0.29), whose keys differ. `WriteStudents` succeeds. The
lookup of the key of `sample029b` returns a record with that key and the score 0.28, not
the record that was written: the encoder stored the integer 28 for the score. The lookup of
the key of `sampleB`, whose score the codec reproduces, returns `sampleB`, and the lookup of
a key that was not written reports not found. -/
theorem C10_variable_lookup_changes_score :
    NewVariableStorage 183 = .ok ⟨183, StorageStats.empty⟩ ∧
    sampleB.Validate = none ∧ sample029b.Validate = none ∧
    sampleB.Matricula ≠ sample029b.Matricula ∧
    sample029b.CA = F64.ofHundredths 29 ∧
    (VariableStorage.WriteStudents ⟨183, StorageStats.empty⟩ [sampleB, sample029b]).err = none ∧
    VariableStorage.FindStudentByMatricula ⟨183, StorageStats.empty⟩
      (VariableStorage.WriteStudents ⟨183, StorageStats.empty⟩ [sampleB, sample029b]).file
      100000009 = some (.ok { sample029b with CA := F64.ofHundredths 28 }) ∧
    VariableStorage.FindStudentByMatricula ⟨183, StorageStats.empty⟩
      (VariableStorage.WriteStudents ⟨183, StorageStats.empty⟩ [sampleB, sample029b]).file
      100000009 ≠ some (.ok sample029b) ∧
    VariableStorage.FindStudentByMatricula ⟨183, StorageStats.empty⟩
      (VariableStorage.WriteStudents ⟨183, StorageStats.empty⟩ [sampleB, sample029b]).file
      100000002 = some (.ok sampleB) ∧
    VariableStorage.FindStudentByMatricula ⟨183, StorageStats.empty⟩
      (VariableStorage.WriteStudents ⟨183, StorageStats.empty⟩ [sampleB, sample029b]).file
      5 = some (.error (.notFound 5)) := by
  refine ⟨by decide, by decide!, by decide!, by decide, by decide!, by decide!, by decide!,
    by decide!, by decide!, by decide!⟩

/-! ## The full scan of VariableStorage and appending -/

/-- The variable-width round trip for a valid record whose score the codec reproduces. -/
theorem deserialize_serialize_of_stable (r : Student) (hv : r.Validate = none)
    (hs : truncCA (decodeCA (encodeCA r.CA)) = r.CA) :
    deserializeStudent (serializeStudent r) = .ok r := by
  have h := deserialize_serialize r [] hv
  rw [List.append_nil] at h
  rw [h]
  simp only [storedVariable, hs]

theorem storedVariable_valid (r : Student) (hv : r.Validate = none) :
    (storedVariable r).Validate = none := by
  have h := (Student.Validate_eq_none_iff r).1 hv
  rw [Student.Validate_eq_none_iff]
  exact ⟨h.1, h.2.1, h.2.2.1, h.2.2.2.1, h.2.2.2.2.1, h.2.2.2.2.2.1, h.2.2.2.2.2.2.1,
    h.2.2.2.2.2.2.2.1, truncCA_valid _⟩

/-- The scan of `GetAllStudents` over a block that holds the encodings of the valid records
`g` from `pre.length` on, followed by zero padding: every record of `g` is appended, as
decoded, in order. -/
theorem scanBlock_group (bs : Nat) (g : List Student) :
    ∀ (pre : List Byte) (z fuel : Nat) (acc : List Student), (∀ r ∈ g, r.Validate = none) →
      pre.length + (encGroup g).length + z = bs → g.length < fuel →
      VariableStorage.scanBlock bs (pre ++ (encGroup g ++ List.replicate z 0)) fuel pre.length
          acc = some (acc ++ g.map storedVariable) := by
  induction g with
  | nil =>
    intro pre z fuel acc _ hlen hf
    obtain ⟨f, rfl⟩ : ∃ f, fuel = f + 1 := ⟨fuel - 1, by simp at hf; omega⟩
    simp only [encGroup_nil, List.nil_append, List.map_nil, List.append_nil,
      VariableStorage.scanBlock]
    by_cases h1 : pre.length < bs
    · by_cases h2 : pre.length + 4 > bs
      · rw [if_neg (by omega), if_pos h2]
      · obtain ⟨e, he⟩ := deserializeStudentFromBlock_padding pre z
        rw [if_neg (by omega), if_neg h2, he]
    · rw [if_pos h1]
  | cons r g ih =>
    intro pre z fuel acc hv hlen hf
    obtain ⟨f, rfl⟩ : ∃ f, fuel = f + 1 := ⟨fuel - 1, by simp at hf; omega⟩
    have hr := hv r (List.mem_cons_self _ _)
    have hl := serializeStudent_length r
    have hval := (Student.Validate_eq_none_iff r).1 hr
    rw [encGroup_cons, List.length_append] at hlen
    rw [encGroup_cons, List.append_assoc]
    simp only [VariableStorage.scanBlock]
    rw [if_neg (by omega), if_neg (by omega), deserializeStudentFromBlock_record pre _ r hr]
    simp only
    rw [getRecordSize_storedVariable r hval.2.2.1]
    have hpos : (storedVariable r).Matricula > 0 := by
      have := hval.1.1
      simp only [storedVariable]
      omega
    rw [if_pos hpos]
    have := ih (pre ++ serializeStudent r) z f (acc ++ [storedVariable r])
      (fun x hx => hv x (List.mem_cons_of_mem _ hx))
      (by rw [List.length_append]; omega) (by simp at hf; omega)
    rw [List.length_append, List.append_assoc] at this
    rw [this]
    simp

theorem scanBlocks_congr (bs : Nat) (f1 f2 : List Byte) :
    ∀ (n b1 b2 : Nat) (acc : List Student),
      (∀ j, j < n → readBlock f1 bs (b1 + j) = readBlock f2 bs (b2 + j)) →
      VariableStorage.scanBlocks bs f1 n b1 acc = VariableStorage.scanBlocks bs f2 n b2 acc := by
  intro n
  induction n with
  | zero => intro b1 b2 acc _; rfl
  | succ n ih =>
    intro b1 b2 acc h
    simp only [VariableStorage.scanBlocks]
    have h0 := h 0 (by omega)
    simp only [Nat.add_zero] at h0
    rw [h0]
    cases VariableStorage.scanBlock bs (readBlock f2 bs b2) (bs + 1) 0 acc with
    | none => rfl
    | some acc1 =>
      exact ih (b1 + 1) (b2 + 1) acc1 (fun j hj => by
        have := h (j + 1) (by omega)
        rw [show b1 + 1 + j = b1 + (j + 1) by omega, show b2 + 1 + j = b2 + (j + 1) by omega]
        exact this)

theorem scanBlocks_fileOf (bs : Nat) (written : List (List Byte)) :
    ∀ acc : List Student,
      VariableStorage.scanBlocks bs (fileOf bs written) written.length 0 acc =
        scanBuffers bs written acc := by
  induction written with
  | nil => intro acc; rfl
  | cons b rest ih =>
    intro acc
    simp only [List.length_cons, VariableStorage.scanBlocks, scanBuffers, readBlock_fileOf_zero]
    cases VariableStorage.scanBlock bs (writeBlock bs b) (bs + 1) 0 acc with
    | none => rfl
    | some acc1 =>
      simp only
      rw [scanBlocks_congr bs (fileOf bs (b :: rest)) (fileOf bs rest) rest.length (0 + 1) 0 acc1
        (fun j _ => by
          rw [show 0 + 1 + j = j + 1 by omega, Nat.zero_add]
          exact readBlock_fileOf_succ bs b rest j), ih]

theorem scanBuffers_groups (bs : Nat) (groups : List (List Student)) :
    ∀ acc : List Student, (∀ g ∈ groups, ∀ r ∈ g, r.Validate = none) →
      (∀ g ∈ groups, (encGroup g).length ≤ bs) →
      scanBuffers bs (groups.map encGroup) acc =
        some (acc ++ groups.flatten.map storedVariable) := by
  induction groups with
  | nil => intro acc _ _; simp [scanBuffers]
  | cons g rest ih =>
    intro acc hv hb
    have hg := hb g (List.mem_cons_self _ _)
    have hscan := scanBlock_group bs g [] (bs - (encGroup g).length) (bs + 1) acc
      (hv g (List.mem_cons_self _ _)) (by simp only [List.length_nil]; omega)
      (by have := length_le_encGroup_length g; omega)
    simp only [List.length_nil] at hscan
    simp only [List.map_cons, scanBuffers, List.flatten_cons, List.map_append]
    rw [writeBlock_of_le bs _ hg, hscan]
    simp only
    rw [ih _ (fun x hx => hv x (List.mem_cons_of_mem _ hx))
      (fun x hx => hb x (List.mem_cons_of_mem _ hx)), List.append_assoc]

/-- The result of `VariableStorage.GetAllStudents` on a file written from valid records:
the records in order, each as the decoder returns it. -/
theorem VariableStorage.getAll_after_write (vs : VariableStorage) (students : List Student)
    (hbs : 183 ≤ vs.blockSize) (hvalid : ∀ s ∈ students, s.Validate = none) :
    vs.GetAllStudents (vs.WriteStudents students).file = some (students.map storedVariable) := by
  have hall : ∀ s ∈ students, (serializeStudent s).length ≤ vs.blockSize := fun s hs =>
    le_trans (serializeStudent_length_le_of_valid s (hvalid s hs)) hbs
  obtain ⟨groups, -, hfile, -, hflat, hbound⟩ :=
    VariableStorage.WriteStudents_groups vs students hall
  unfold VariableStorage.GetAllStudents
  simp only
  rw [hfile, fileOf_totalBlocks _ (by omega), List.length_map]
  have := scanBlocks_fileOf vs.blockSize (groups.map encGroup) []
  rw [List.length_map] at this
  rw [this, scanBuffers_groups vs.blockSize groups []
    (fun g hg r hr => hvalid r (by rw [← hflat]; exact List.mem_flatten.2 ⟨g, hg, hr⟩)) hbound,
    hflat, List.nil_append]

/-- Appending with `VariableStorage.AddStudents` and reading everything back, for valid
records: the existing and the new records in order, each as the decoder returns it (the
existing ones have then been decoded twice). The result is `existing ++ new` itself when the
codec reproduces every score. -/
theorem VariableStorage.getAll_after_add (vs : VariableStorage) (existing new : List Student)
    (stats : StorageStats) (hbs : 183 ≤ vs.blockSize)
    (hexisting : ∀ s ∈ existing, s.Validate = none) (hnew : ∀ s ∈ new, s.Validate = none) :
    ∃ r, VariableStorage.AddStudents ⟨vs.blockSize, stats⟩ (vs.WriteStudents existing).file new =
        some r ∧ r.err = none ∧
      VariableStorage.GetAllStudents ⟨vs.blockSize, r.stats⟩ r.file =
        some ((existing.map storedVariable ++ new).map storedVariable) ∧
      ((∀ s ∈ existing ++ new, truncCA (decodeCA (encodeCA s.CA)) = s.CA) →
        VariableStorage.GetAllStudents ⟨vs.blockSize, r.stats⟩ r.file = some (existing ++ new)) := by
  have hread : VariableStorage.GetAllStudents ⟨vs.blockSize, stats⟩ (vs.WriteStudents existing).file =
      some (existing.map storedVariable) :=
    VariableStorage.getAll_after_write vs existing hbs hexisting
  have hall : ∀ s ∈ existing.map storedVariable ++ new, s.Validate = none := by
    intro s hs
    rcases List.mem_append.1 hs with h | h
    · obtain ⟨x, hx, rfl⟩ := List.mem_map.1 h
      exact storedVariable_valid x (hexisting x hx)
    · exact hnew s h
  have hw := VariableStorage.find_after_write ⟨vs.blockSize, stats⟩
    (existing.map storedVariable ++ new) hbs hall 0
  have hget : ∀ st : StorageStats,
      VariableStorage.GetAllStudents ⟨vs.blockSize, st⟩
        (VariableStorage.WriteStudents ⟨vs.blockSize, stats⟩
          (existing.map storedVariable ++ new)).file =
        some ((existing.map storedVariable ++ new).map storedVariable) := fun st =>
    VariableStorage.getAll_after_write ⟨vs.blockSize, stats⟩ _ hbs hall
  refine ⟨{ VariableStorage.WriteStudents ⟨vs.blockSize, stats⟩
      (existing.map storedVariable ++ new) with
      stats :=
        if (VariableStorage.WriteStudents ⟨vs.blockSize, stats⟩
            (existing.map storedVariable ++ new)).err = none then
          calculateFinalStats (VariableStorage.WriteStudents ⟨vs.blockSize, stats⟩
            (existing.map storedVariable ++ new)).stats
        else (VariableStorage.WriteStudents ⟨vs.blockSize, stats⟩
            (existing.map storedVariable ++ new)).stats },
    by simp only [VariableStorage.AddStudents, hread], hw.1, hget _, ?_⟩
  intro hs
  simp only
  rw [hget]
  congr 1
  have e1 : ∀ l : List Student, (∀ s ∈ l, truncCA (decodeCA (encodeCA s.CA)) = s.CA) →
      l.map storedVariable = l := by
    intro l hl
    conv_rhs => rw [← List.map_id l]
    apply List.map_congr_left
    intro s hs1
    simp only [storedVariable, hl s hs1, id]
  rw [e1 existing (fun s h => hs s (List.mem_append_left _ h)), e1 _ hs]

/-! ## Appending and the fragmented layout at concrete inputs -/

/-- C3 (code defect). With block size 183, the file written from the valid record `sampleB`
and then extended by `AddStudents` with the valid record `sample029b` (score 0.29, a whole
number of hundredths) does not read back as `[sampleB, sample029b]`: the appended record
comes back with the score 0.28. -/
theorem C3_variable_append_changes_score :
    NewVariableStorage 183 = .ok ⟨183, StorageStats.empty⟩ ∧
    sampleB.Validate = none ∧ sample029b.Validate = none ∧
    sample029b.CA = F64.ofHundredths 29 ∧ sample029b.TruncateFields = sample029b ∧
    (VariableStorage.AddStudents
        ⟨183, (VariableStorage.WriteStudents ⟨183, StorageStats.empty⟩ [sampleB]).stats⟩
        (VariableStorage.WriteStudents ⟨183, StorageStats.empty⟩ [sampleB]).file
        [sample029b]).bind
      (fun r => VariableStorage.GetAllStudents ⟨183, r.stats⟩ r.file) =
      some [sampleB, { sample029b with CA := F64.ofHundredths 28 }] ∧
    (VariableStorage.AddStudents
        ⟨183, (VariableStorage.WriteStudents ⟨183, StorageStats.empty⟩ [sampleB]).stats⟩
        (VariableStorage.WriteStudents ⟨183, StorageStats.empty⟩ [sampleB]).file
        [sample029b]).bind
      (fun r => VariableStorage.GetAllStudents ⟨183, r.stats⟩ r.file) ≠
      some ([sampleB] ++ [sample029b]) := by
  decide!

/-- C4 (code defect). With block size 183, the fragmented file written from the valid
record `sampleA` reads back as the empty list, and after `AddStudents` with the valid record
`sampleB` the file still reads back as the empty list instead of `[sampleA, sampleB]`:
records that fit in a block are written without a chunk header, which the reader expects. -/
theorem C4_fragmented_append_loses_records :
    NewVariableFragmentedStorage 183 = .ok ⟨183, StorageStats.empty⟩ ∧
    sampleA.Validate = none ∧ sampleB.Validate = none ∧
    (VariableFragmentedStorage.WriteStudents ⟨183, StorageStats.empty⟩ [sampleA]).bind
      (fun r0 => VariableFragmentedStorage.GetAllStudents ⟨183, r0.stats⟩ r0.file) = some [] ∧
    (VariableFragmentedStorage.WriteStudents ⟨183, StorageStats.empty⟩ [sampleA]).bind
      (fun r0 =>
        (VariableFragmentedStorage.AddStudents ⟨183, r0.stats⟩ r0.file [sampleB]).bind
          (fun r => VariableFragmentedStorage.GetAllStudents ⟨183, r.stats⟩ r.file)) =
      some [] := by
  decide!

set_option maxRecDepth 1000000 in
/-- C5 (code defect). With block size 183, the record `sample178` encodes to 178 = 183 - 5
bytes; after `WriteStudents` of that record alone, reading the chunk header at the start
of the first block yields no chunk (bytes 1..4 of the record, read as the chunk length, give
755365345, which exceeds the block), so the chain does not yield the record bytes and
`GetAllStudents` returns nothing. For the encodings of 356 = 2*178 and 979 = floor(5.5*178)
bytes, which are written by the chunk loop, the chain from block 0 does yield the encoded
bytes. -/
theorem C5_fragmented_single_block_record_unreadable :
    (serializeStudent sample178).length = 183 - 5 ∧
    (VariableFragmentedStorage.WriteStudents ⟨183, StorageStats.empty⟩ [sample178]).map
      (fun r => (r.file.length, leDecode (slice r.file 1 5))) = some (183, 755365345) ∧
    (VariableFragmentedStorage.WriteStudents ⟨183, StorageStats.empty⟩ [sample178]).map
      (fun r => readChain 183 r.file (r.file.length / 183) 0 0) = some none ∧
    (VariableFragmentedStorage.WriteStudents ⟨183, StorageStats.empty⟩ [sample178]).bind
      (fun r => VariableFragmentedStorage.GetAllStudents ⟨183, r.stats⟩ r.file) = some [] ∧
    (serializeStudent sample356).length = 2 * (183 - 5) ∧
    (VariableFragmentedStorage.WriteStudents ⟨183, StorageStats.empty⟩ [sample356]).map
      (fun r => (readChain 183 r.file (r.file.length / 183) 0 0).map (fun c => c.2.2)) =
      some (some (serializeStudent sample356)) ∧
    (serializeStudent sample979).length = 979 ∧
    (VariableFragmentedStorage.WriteStudents ⟨183, StorageStats.empty⟩ [sample979]).map
      (fun r => (readChain 183 r.file (r.file.length / 183) 0 0).map (fun c => c.2.2)) =
      some (some (serializeStudent sample979)) := by
  decide!

/-- C7 (code defect). With block size 183, `WriteStudents` of the record `sampleA` (62
encoded bytes, which fit in the block) hands `writeBlock` the bare encoding: the file is
the encoding followed by zero padding and starts with the first bytes of the key, not with
a chunk header of flag 0 and length 62. -/
theorem C7_fragmented_fitting_record_has_no_header :
    (serializeStudent sampleA).length = 62 ∧
    (VariableFragmentedStorage.WriteStudents ⟨183, StorageStats.empty⟩ [sampleA]).map
      (fun r => (r.written, r.file)) =
      some ([serializeStudent sampleA],
        serializeStudent sampleA ++ List.replicate 121 (0 : Byte)) ∧
    (serializeStudent sampleA).take 5 = [1, 225, 245, 5, 3] ∧
    (VariableFragmentedStorage.WriteStudents ⟨183, StorageStats.empty⟩ [sampleA]).map
      (fun r => r.file) ≠
      some ([0] ++ leEncode 4 62 ++ serializeStudent sampleA ++ List.replicate 116 (0 : Byte)) := by
  decide!

/-! ## Scenario C -/

/-- The chunk loop hands `writeBlock` exactly the buffers of `chunkBuffers`, and leaves the
last of them as the current block. -/
theorem writeChunks_written (bs : Nat) :
    ∀ (fuel : Nat) (rem : List Byte) (first : Bool) (w w1 : Writer),
      writeChunks bs fuel rem first w = some w1 →
      w1.written = w.written ++ chunkBuffers bs fuel rem ∧
      w1.currentBlock = ((chunkBuffers bs fuel rem).getLast?).getD w.currentBlock := by
  intro fuel
  induction fuel with
  | zero =>
    intro rem first w w1 h
    simp only [writeChunks] at h
    split_ifs at h
    injection h with h
    subst h
    simp [chunkBuffers]
  | succ f ih =>
    intro rem first w w1 h
    simp only [writeChunks] at h
    by_cases hr : rem.length > 0
    · rw [if_neg (by omega)] at h
      obtain ⟨h1, h2⟩ := ih _ _ _ _ h
      have hsize : (if rem.length > bs - 5 then bs - 5 else rem.length) = chunkSizeOf bs rem := rfl
      rw [hsize] at h1 h2
      simp only [chunkBuffers, if_pos hr]
      refine ⟨?_, ?_⟩
      · rw [h1, Writer.flush_written]
        simp [Writer.newBlock, chunkOf]
      · rw [h2, Writer.flush_currentBlock]
        cases hc : chunkBuffers bs f (List.drop (chunkSizeOf bs rem) rem) with
        | nil => simp [Writer.newBlock, chunkOf]
        | cons c cs =>
          simp only [List.getLast?_cons_cons]
          rw [List.getLast?_eq_getLast (c :: cs) (List.cons_ne_nil _ _)]
          rfl
    · rw [if_pos (by omega)] at h
      injection h with h
      subst h
      simp [chunkBuffers, hr]

/-- C8, counterexample. A `VariableFragmentedStorage` with block size 50 cannot be
constructed: the constructor refuses every block size below 183. -/
theorem C8_scenario_c_counterexample :
    NewVariableFragmentedStorage 50 = .error (.blockSizeTooSmall 50 183) := by
  decide

/-- C8, amended. The constructor refuses the block size 50 (it requires at least 183). When
the write algorithm is run on a storage value whose block size is 50 with one record whose
encoding has 100 bytes, it returns, and the first three buffers it hands to `writeBlock`,
which are the first three blocks of the file, carry chunks of 45, 45 and 10 payload bytes
(bytes 0..44, 45..89 and 90..99 of the encoding) with continuation flags 1, 1 and 0. -/
theorem C8_scenario_c_amended (s : Student) (stats : StorageStats)
    (hlen : (serializeStudent s).length = 100) :
    NewVariableFragmentedStorage 50 = .error (.blockSizeTooSmall 50 183) ∧
    ∃ r, VariableFragmentedStorage.WriteStudents ⟨50, stats⟩ [s] = some r ∧
      r.written.take 3 =
        [[1] ++ leEncode 4 45 ++ (serializeStudent s).take 45,
         [1] ++ leEncode 4 45 ++ ((serializeStudent s).drop 45).take 45,
         [0] ++ leEncode 4 10 ++ (serializeStudent s).drop 90] ∧
      (List.range 3).map (readBlock r.file 50) =
        [[1] ++ leEncode 4 45 ++ (serializeStudent s).take 45,
         [1] ++ leEncode 4 45 ++ ((serializeStudent s).drop 45).take 45,
         [0] ++ leEncode 4 10 ++ (serializeStudent s).drop 90 ++ List.replicate 35 (0 : Byte)] := by
  refine ⟨by decide, ?_⟩
  generalize hd : serializeStudent s = data at hlen
  have hbuf : chunkBuffers 50 100 data =
      [[1] ++ leEncode 4 45 ++ data.take 45, [1] ++ leEncode 4 45 ++ (data.drop 45).take 45,
       [0] ++ leEncode 4 10 ++ data.drop 90] := by
    simp [chunkBuffers, chunkOf, chunkSizeOf, hlen, List.length_drop]
  have hfit : ¬ data.length ≤ 50 - (Writer.init 50 stats).currentBlock.length := by
    simp [Writer.init, hlen]
  obtain ⟨w, hw, -⟩ := writeChunks_bounded 50 (by decide) data.length data true
    (Writer.init 50 stats) (le_refl _) (Writer.init_bounded 50 stats)
  obtain ⟨h1, h2⟩ := writeChunks_written 50 _ _ _ _ _ hw
  rw [hlen, hbuf] at h1 h2
  have hloop : VariableFragmentedStorage.writeLoop 50 [s] (Writer.init 50 stats) = some w := by
    simp only [VariableFragmentedStorage.writeLoop, writeFragmentedRecord, hd, if_neg hfit]
    have hcur : ¬ (Writer.init 50 stats).currentBlock.length > 0 := by simp [Writer.init]
    rw [if_neg hcur, hw]
  have hfin : w.finish.written =
      [[1] ++ leEncode 4 45 ++ data.take 45, [1] ++ leEncode 4 45 ++ (data.drop 45).take 45,
       [0] ++ leEncode 4 10 ++ data.drop 90, [0] ++ leEncode 4 10 ++ data.drop 90] := by
    rw [Writer.finish_written, h1, h2]
    simp [Writer.init, leEncode_length]
  refine ⟨{ file := fileOf 50 w.finish.written, written := w.finish.written,
            stats := w.finish.stats, err := none }, ?_, ?_, ?_⟩
  · simp only [VariableFragmentedStorage.WriteStudents, hloop]
  · simp only [hfin, List.take_succ_cons, List.take_zero]
  · simp only [hfin]
    have e3 : List.range 3 = [0, 1, 2] := rfl
    simp only [e3, List.map_cons, List.map_nil, readBlock_fileOf_succ, readBlock_fileOf_zero]
    simp [writeBlock, leEncode_length, hlen, List.length_take, List.length_drop,
      List.take_of_length_le]

/-- C8, witness: the amended scenario for the record `sample100`, whose encoding has 100
bytes. -/
theorem C8_scenario_c_amended_witness :
    (serializeStudent sample100).length = 100 ∧
    (NewVariableFragmentedStorage 50 = .error (.blockSizeTooSmall 50 183) ∧
    ∃ r, VariableFragmentedStorage.WriteStudents ⟨50, StorageStats.empty⟩ [sample100] = some r ∧
      r.written.take 3 =
        [[1] ++ leEncode 4 45 ++ (serializeStudent sample100).take 45,
         [1] ++ leEncode 4 45 ++ ((serializeStudent sample100).drop 45).take 45,
         [0] ++ leEncode 4 10 ++ (serializeStudent sample100).drop 90] ∧
      (List.range 3).map (readBlock r.file 50) =
        [[1] ++ leEncode 4 45 ++ (serializeStudent sample100).take 45,
         [1] ++ leEncode 4 45 ++ ((serializeStudent sample100).drop 45).take 45,
         [0] ++ leEncode 4 10 ++ (serializeStudent sample100).drop 90 ++
           List.replicate 35 (0 : Byte)]) :=
  ⟨by decide!, C8_scenario_c_amended sample100 StorageStats.empty (by decide!)⟩

/-! ## Constructors -/

/-- C17: `NewFixedStorage b` returns an error exactly when `b < 167`, and
`NewVariableStorage b` and `NewVariableFragmentedStorage b` exactly when `b < 183`; in every
other case the constructor returns a storage object whose `GetBlockSize` is `b`. The bound
167 is the length of every fixed-width encoding, and 183 is the greatest length of the
variable-width encoding of a record that passes `Validate`, reached by `sample183`. -/
theorem C17_constructor_validation (b : Int) :
    (b < 167 → NewFixedStorage b = .error (.blockSizeTooSmall b 167)) ∧
    (167 ≤ b → ∃ fs, NewFixedStorage b = .ok fs ∧ (fs.GetBlockSize : Int) = b) ∧
    (b < 183 → NewVariableStorage b = .error (.blockSizeTooSmall b 183)) ∧
    (183 ≤ b → ∃ vs, NewVariableStorage b = .ok vs ∧ (vs.GetBlockSize : Int) = b) ∧
    (b < 183 → NewVariableFragmentedStorage b = .error (.blockSizeTooSmall b 183)) ∧
    (183 ≤ b → ∃ vfs, NewVariableFragmentedStorage b = .ok vfs ∧ (vfs.GetBlockSize : Int) = b) ∧
    (∀ r : Student, (serializeStudentFixed r).length = 167) ∧
    (∀ r : Student, r.Validate = none → (serializeStudent r).length ≤ 183) ∧
    (sample183.Validate = none ∧ (serializeStudent sample183).length = 183) := by
  refine ⟨?_, ?_, ?_, ?_, ?_, ?_, serializeStudentFixed_length,
    serializeStudent_length_le_of_valid, by decide!, by decide!⟩
  · intro h
    simp only [NewFixedStorage, FixedStorage.ValidateBlockSize, MaxNomeLength, CPFLength,
      MaxCursoLength, MaxFiliacaoLength]
    rw [if_pos (by omega)]
  · intro h
    refine ⟨⟨b.toNat, 0, StorageStats.empty⟩, ?_, ?_⟩
    · simp only [NewFixedStorage, FixedStorage.ValidateBlockSize, MaxNomeLength, CPFLength,
        MaxCursoLength, MaxFiliacaoLength]
      rw [if_neg (by omega)]
    · simp only [FixedStorage.GetBlockSize]; omega
  · intro h
    simp only [NewVariableStorage, VariableStorage.ValidateBlockSize, MaxNomeLength, CPFLength,
      MaxCursoLength, MaxFiliacaoLength]
    rw [if_pos (by omega)]
  · intro h
    refine ⟨⟨b.toNat, StorageStats.empty⟩, ?_, ?_⟩
    · simp only [NewVariableStorage, VariableStorage.ValidateBlockSize, MaxNomeLength, CPFLength,
        MaxCursoLength, MaxFiliacaoLength]
      rw [if_neg (by omega)]
    · simp only [VariableStorage.GetBlockSize]; omega
  · intro h
    simp only [NewVariableFragmentedStorage, VariableFragmentedStorage.ValidateBlockSize,
      MaxNomeLength, CPFLength, MaxCursoLength, MaxFiliacaoLength]
    rw [if_pos (by omega)]
  · intro h
    refine ⟨⟨b.toNat, StorageStats.empty⟩, ?_, ?_⟩
    · simp only [NewVariableFragmentedStorage, VariableFragmentedStorage.ValidateBlockSize,
        MaxNomeLength, CPFLength, MaxCursoLength, MaxFiliacaoLength]
      rw [if_neg (by omega)]
    · simp only [VariableFragmentedStorage.GetBlockSize]; omega

theorem C17_constructor_validation_witness :
    (166 : Int) < 167 ∧ NewFixedStorage 166 = .error (.blockSizeTooSmall 166 167) ∧
    (183 : Int) ≤ 183 ∧
      ∃ vs, NewVariableStorage 183 = .ok vs ∧ (vs.GetBlockSize : Int) = 183 :=
  ⟨by decide, (C17_constructor_validation 166).1 (by decide), by decide,
    (C17_constructor_validation 183).2.2.2.1 (by decide)⟩

/-! ## What the decoders return -/

theorem deserializeStudentFixed_ok_valid (frs : Nat) (data : ByteSlice) (s : Student)
    (h : deserializeStudentFixed frs data = .ok s) : s.Validate = none := by
  unfold deserializeStudentFixed at h
  split_ifs at h
  simp only at h
  split at h
  · cases h
  · rename_i hv
    cases h
    exact hv

/-- C12: for every byte sequence (and, for the fixed-width decoder, every record size of the
storage object), a record returned by `deserializeStudentFixed` or by `deserializeStudent`
passes `Validate`. -/
theorem C12_decoded_records_valid :
    (∀ (frs : Nat) (data : ByteSlice) (s : Student),
      deserializeStudentFixed frs data = .ok s → s.Validate = none) ∧
    (∀ (data : List Byte) (s : Student),
      deserializeStudent data = .ok s → s.Validate = none) :=
  ⟨deserializeStudentFixed_ok_valid, fun data s h => (deserializeStudent_ok_key data s h).1⟩

theorem C12_decoded_records_valid_witness :
    deserializeStudentFixed 167 (ByteSlice.ofList (serializeStudentFixed sampleA)) = .ok sampleA ∧
    deserializeStudent (serializeStudent sampleA) = .ok sampleA ∧
    sampleA.Validate = none :=
  ⟨by decide!, by decide!,
    C12_decoded_records_valid.2 (serializeStudent sampleA) sampleA (by decide!)⟩

/-! ## The stored score integer -/

/-- C15, evaluated at the scores 9.999 and 0.29 of records that pass `Validate`: both
encoders store `uint64(CA*100)`, which discards the fraction of the product. For 9.999 the
product rounds to 1000 but the eight score bytes of both encodings hold 999; for 0.29 the
product rounds to 29 and the bytes hold 28. -/
theorem C15_score_encoding_truncates :
    sample9999.Validate = none ∧
    F64.round (F64.mul sample9999.CA F64.hundred) = F64.ofNat 1000 ∧
    encodeCA sample9999.CA = 999 ∧
    (serializeStudent sample9999).drop 54 = leEncode 8 999 ∧
    (serializeStudentFixed sample9999).drop 159 = leEncode 8 999 ∧
    sample029.Validate = none ∧
    F64.round (F64.mul sample029.CA F64.hundred) = F64.ofNat 29 ∧
    encodeCA sample029.CA = 28 ∧
    (serializeStudent sample029).drop 54 = leEncode 8 28 ∧
    (serializeStudentFixed sample029).drop 159 = leEncode 8 28 := by
  refine ⟨?_, ?_, ?_, ?_, ?_, ?_, ?_, ?_, ?_, ?_⟩ <;> decide!

/-! ## The encoders and `TruncateFields` -/

theorem padField_truncText (n : Nat) (pad : Byte) (t : List Byte) :
    padField n pad (truncText n t) = padField n pad t := by
  unfold truncText
  split_ifs with h
  · unfold padField
    rw [if_neg (by rw [List.length_take]; omega), if_pos h]
  · rfl

theorem padField_truncCPF (pad : Byte) (t : List Byte) (h : 11 ≤ t.length) :
    padField CPFLength pad (truncCPF t) = padField CPFLength pad t := by
  unfold truncCPF
  simp only [CPFLength]
  split_ifs with h1 h2
  · unfold padField
    rw [if_neg (by rw [List.length_take]; omega), if_pos h1]
  · omega
  · rfl

/-- C16, counterexample: neither encoder normalises its argument. The variable-width
encoding of a record with a name of 51 bytes differs from the encoding of the truncated
record, and the fixed-width encoding of a record with the CPF "123" (padded on the right by
the encoder, on the left by `TruncateFields`) differs from the encoding of the truncated
record; so do both encodings of the record with the score 9.999. -/
theorem C16_encoders_do_not_truncate :
    serializeStudent sampleName51 ≠ serializeStudent sampleName51.TruncateFields ∧
    serializeStudentFixed sampleCPF3 ≠ serializeStudentFixed sampleCPF3.TruncateFields ∧
    serializeStudent sample9999 ≠ serializeStudent sample9999.TruncateFields ∧
    serializeStudentFixed sample9999 ≠ serializeStudentFixed sample9999.TruncateFields := by
  refine ⟨?_, ?_, ?_, ?_⟩ <;> decide!

/-- C16, amended: for a record whose key has at most nine characters, whose CPF has at
least 11 bytes and whose score gives the same stored integer before and after the rounding
of `TruncateFields`, the fixed-width encoding equals the encoding of the truncated record,
whatever the lengths of the text fields (the encoder cuts them itself); the variable-width
encoding equals the encoding of the truncated record when in addition the CPF has 11 bytes
and no text field is longer than its limit. -/
theorem C16_encoders_on_normalised_records (r : Student)
    (hkey : (itoa r.Matricula).length ≤ 9) (hcpf : 11 ≤ r.CPF.length)
    (hca : encodeCA (truncCA r.CA) = encodeCA r.CA) :
    serializeStudentFixed r = serializeStudentFixed r.TruncateFields ∧
    (r.CPF.length = 11 → r.Nome.length ≤ 50 → r.Curso.length ≤ 30 →
      r.FiliacaoMae.length ≤ 30 → r.FiliacaoPai.length ≤ 30 →
      serializeStudent r = serializeStudent r.TruncateFields) := by
  constructor
  · simp only [serializeStudentFixed, Student.TruncateFields, padField_truncText,
      padField_truncCPF _ _ hcpf, truncMatricula_of_le _ hkey, hca]
  · intro h11 hn hc hm hp
    simp only [serializeStudent, Student.TruncateFields, truncMatricula_of_le _ hkey, hca,
      truncCPF_of_eq _ h11, MaxNomeLength, MaxCursoLength, MaxFiliacaoLength,
      truncText_of_le _ _ hn, truncText_of_le _ _ hc, truncText_of_le _ _ hm,
      truncText_of_le _ _ hp]

theorem C16_encoders_on_normalised_records_witness :
    serializeStudentFixed sample250 = serializeStudentFixed sample250.TruncateFields ∧
    serializeStudent sampleA = serializeStudent sampleA.TruncateFields :=
  ⟨(C16_encoders_on_normalised_records sample250 (by decide) (by decide) (by decide!)).1,
    (C16_encoders_on_normalised_records sampleA (by decide) (by decide) (by decide!)).2
      (by decide) (by decide) (by decide) (by decide) (by decide)⟩

/-! ## Decimal digits of the key -/

theorem toDigitsCore_acc : ∀ (f n : Nat) (ds : List Char),
    Nat.toDigitsCore 10 f n ds = Nat.toDigitsCore 10 f n [] ++ ds := by
  intro f
  induction f with
  | zero => intro n ds; simp [Nat.toDigitsCore]
  | succ f ih =>
    intro n ds
    simp only [Nat.toDigitsCore]
    split
    · simp
    · rw [ih (n / 10) (_ :: ds), ih (n / 10) [_]]
      simp

theorem toDigitsCore_fuel : ∀ (f1 f2 n : Nat), n < f1 → n < f2 →
    Nat.toDigitsCore 10 f1 n [] = Nat.toDigitsCore 10 f2 n [] := by
  intro f1
  induction f1 with
  | zero => intro f2 n h; omega
  | succ f1 ih =>
    intro f2 n h1 h2
    cases f2 with
    | zero => omega
    | succ f2 =>
      simp only [Nat.toDigitsCore]
      split
      · rfl
      · rw [toDigitsCore_acc f1, toDigitsCore_acc f2, ih f2 (n / 10) (by omega) (by omega)]

theorem toDigits_step (n : Nat) (h : 10 ≤ n) :
    Nat.toDigits 10 n = Nat.toDigits 10 (n / 10) ++ [Nat.digitChar (n % 10)] := by
  unfold Nat.toDigits
  rw [Nat.toDigitsCore]
  rw [if_neg (by omega), toDigitsCore_acc,
    toDigitsCore_fuel n (n / 10 + 1) (n / 10) (by omega) (by omega)]

theorem toDigits_small (n : Nat) (h : n < 10) : Nat.toDigits 10 n = [Nat.digitChar n] := by
  unfold Nat.toDigits
  rw [Nat.toDigitsCore]
  rw [if_pos (by omega), Nat.mod_eq_of_lt h]

theorem digitChar_value (d : Nat) (h : d < 10) :
    (Nat.digitChar d).toNat - 48 = d ∧ Nat.digitChar d ≠ '-' := by
  interval_cases d <;> exact ⟨rfl, by decide⟩

theorem digitsValue_concat (xs : List Char) (c : Char) :
    digitsValue (xs ++ [c]) = 10 * digitsValue xs + (c.toNat - 48) := by
  simp [digitsValue, List.foldl_append]

theorem digitsValue_toDigits (n : Nat) :
    digitsValue (Nat.toDigits 10 n) = n ∧ ∀ c ∈ Nat.toDigits 10 n, c ≠ '-' := by
  induction n using Nat.strong_induction_on with
  | _ n ih =>
    by_cases h : n < 10
    · rw [toDigits_small n h]
      refine ⟨?_, ?_⟩
      · have := (digitChar_value n h).1
        simp [digitsValue, this]
      · intro c hc
        rw [List.mem_singleton] at hc
        rw [hc]
        exact (digitChar_value n h).2
    · rw [toDigits_step n (by omega)]
      obtain ⟨i1, i2⟩ := ih (n / 10) (by omega)
      have hd := digitChar_value (n % 10) (Nat.mod_lt _ (by decide))
      refine ⟨?_, ?_⟩
      · rw [digitsValue_concat, i1, hd.1]
        omega
      · intro c hc
        rw [List.mem_append, List.mem_singleton] at hc
        rcases hc with hc | hc
        · exact i2 c hc
        · rw [hc]; exact hd.2

theorem atoi_toDigits (n : Nat) : atoi (Nat.toDigits 10 n) = (n : Int) := by
  obtain ⟨h1, h2⟩ := digitsValue_toDigits n
  generalize Nat.toDigits 10 n = xs at h1 h2
  unfold atoi
  split
  · rename_i cs
    exact absurd rfl (h2 '-' (by simp))
  · rw [h1]

/-- The key step of `TruncateFields` on a key of ten digits: the last digit is dropped. -/
theorem truncMatricula_ten_digits (n : Nat) (h1 : 1000000000 ≤ n) (h2 : n < 10000000000) :
    truncMatricula (n : Int) = ((n / 10 : Nat) : Int) := by
  have hlen : (Nat.toDigits 10 (n / 10)).length = 9 := by
    have a := toDigitsCore_length_ge 8 (n / 10 + 1) (n / 10) (by omega) (by omega)
    have b := Nat.toDigitsCore_length 10 (by decide) (n / 10 + 1) (n / 10) 9 (by omega)
      (by decide)
    unfold Nat.toDigits
    omega
  unfold truncMatricula
  have hi : itoa (n : Int) = Nat.toDigits 10 (n / 10) ++ [Nat.digitChar (n % 10)] := by
    unfold itoa
    rw [if_neg (by omega), Int.natAbs_ofNat, toDigits_step n (by omega)]
  rw [hi, if_pos (by simp [hlen, MaxMatriculaDigits]),
    show MaxMatriculaDigits = (Nat.toDigits 10 (n / 10)).length from hlen.symm,
    List.take_left, atoi_toDigits]

/-- After the key step of `TruncateFields`, a key read from four bytes passes the key check
of `Validate` unless it is zero. -/
theorem truncMatricula_uint32 (m : Nat) (h0 : 1 ≤ m) (h : m < 4294967296) :
    1 ≤ truncMatricula (m : Int) ∧ (itoa (truncMatricula (m : Int))).length ≤ 9 := by
  have hsmall : ∀ k : Nat, k < 1000000000 → (itoa (k : Int)).length ≤ 9 := by
    intro k hk
    unfold itoa
    rw [if_neg (by omega), Int.natAbs_ofNat]
    exact Nat.toDigitsCore_length 10 (by decide) (k + 1) k 9 (by omega) (by decide)
  by_cases hm : m < 1000000000
  · rw [truncMatricula_of_le _ (hsmall m hm)]
    exact ⟨by omega, hsmall m hm⟩
  · rw [truncMatricula_ten_digits m (by omega) (by omega)]
    exact ⟨by omega, hsmall (m / 10) (by omega)⟩

/-! ## What the variable-width decoder rejects -/

theorem truncText_length_le (n : Nat) (t : List Byte) : (truncText n t).length ≤ n := by
  unfold truncText
  split_ifs with h
  · rw [List.length_take]; omega
  · omega

theorem truncText_length_pos (n : Nat) (t : List Byte) (hn : 1 ≤ n) (ht : t ≠ []) :
    1 ≤ (truncText n t).length := by
  have : 1 ≤ t.length := List.length_pos.2 ht
  unfold truncText
  split_ifs with h
  · rw [List.length_take]; omega
  · omega

theorem truncText_nil (n : Nat) : truncText n [] = [] := by
  simp [truncText]

/-- C13, counterexample: the variable-width decoder accepts a ten-digit stored key (it
returns the record with the first nine digits), a name with the length prefix 51 (it
returns the first 50 bytes) and the stored score integer 5000 (it returns the score
10.0). -/
theorem C13_out_of_range_data_accepted :
    leDecode (slice (serializeStudent sampleKey10) 0 4) = 1234567890 ∧
    deserializeStudent (serializeStudent sampleKey10) =
      .ok { sampleA with Matricula := 123456789 } ∧
    leDecode (slice (serializeStudent sampleName51) 4 8) = 51 ∧
    deserializeStudent (serializeStudent sampleName51) =
      .ok { sampleA with Nome := List.replicate 50 65 } ∧
    leDecode ((serializeStudent sampleScore50).drop 54) = 5000 ∧
    deserializeStudent (serializeStudent sampleScore50) = .ok { sampleA with CA := F64.ten } := by
  refine ⟨?_, ?_, ?_, ?_, ?_, ?_⟩ <;> decide!

/-- C13, amended: on a byte sequence that holds all the fields (key `m`, the four text
fields with their length prefixes, 11 CPF bytes, year `ano`, score integer `ca`, then any
bytes), the variable-width decoder returns an error exactly when the stored key is 0, a
text field is empty, the CPF has a byte that is not a digit, or the year is outside
1000..9999. In every other case it returns the stored record passed through
`TruncateFields`: a key above nine digits, a name or another text field above its limit,
and a score integer above 1000 are cut or clamped, not rejected. -/
theorem C13_variable_decoder_rejections (m ano ca : Nat)
    (nome cpf curso mae pai rest : List Byte)
    (hn : nome.length < 4294967296) (hcpf : cpf.length = 11) (hc : curso.length < 4294967296)
    (hme : mae.length < 4294967296) (hp : pai.length < 4294967296)
    (hm : m < 4294967296) (ha : ano < 4294967296) (hca : ca < 18446744073709551616) :
    ((m = 0 ∨ nome = [] ∨ cpfAllDigits cpf = false ∨ curso = [] ∨ mae = [] ∨ pai = [] ∨
        ano < 1000 ∨ 9999 < ano) →
      ∃ e, deserializeStudent
        (leEncode 4 m ++ (leEncode 4 nome.length ++ (nome ++ (cpf ++ (leEncode 4 curso.length ++
          (curso ++ (leEncode 4 mae.length ++ (mae ++ (leEncode 4 pai.length ++ (pai ++
            (leEncode 4 ano ++ (leEncode 8 ca ++ rest)))))))))))) = .error (.invalid e)) ∧
    (¬ (m = 0 ∨ nome = [] ∨ cpfAllDigits cpf = false ∨ curso = [] ∨ mae = [] ∨ pai = [] ∨
        ano < 1000 ∨ 9999 < ano) →
      deserializeStudent
        (leEncode 4 m ++ (leEncode 4 nome.length ++ (nome ++ (cpf ++ (leEncode 4 curso.length ++
          (curso ++ (leEncode 4 mae.length ++ (mae ++ (leEncode 4 pai.length ++ (pai ++
            (leEncode 4 ano ++ (leEncode 8 ca ++ rest)))))))))))) =
      .ok (Student.TruncateFields ⟨m, nome, cpf, curso, mae, pai, ano, decodeCA ca⟩)) := by
  rw [deserializeStudent_fields m ano ca nome cpf curso mae pai rest hn hcpf hc hme hp hm ha hca]
  have hiff := Student.Validate_eq_none_iff
    (Student.TruncateFields ⟨m, nome, cpf, curso, mae, pai, ano, decodeCA ca⟩)
  simp only [Student.TruncateFields, truncCPF_of_eq _ hcpf] at hiff
  simp only [Student.TruncateFields, truncCPF_of_eq _ hcpf]
  constructor
  · intro hbad
    cases hv : (Student.Validate ⟨truncMatricula m, truncText MaxNomeLength nome, cpf,
        truncText MaxCursoLength curso, truncText MaxFiliacaoLength mae,
        truncText MaxFiliacaoLength pai, ano, truncCA (decodeCA ca)⟩) with
    | some e => exact ⟨e, rfl⟩
    | none =>
      exfalso
      obtain ⟨⟨a1, -⟩, ⟨b1, -⟩, -, d, ⟨e1, -⟩, ⟨f1, -⟩, ⟨g1, -⟩, ⟨h1, h2⟩, -⟩ := hiff.1 hv
      rcases hbad with h | h | h | h | h | h | h | h
      · subst h
        revert a1
        decide
      · subst h; rw [truncText_nil] at b1; simp at b1
      · rw [h] at d; cases d
      · subst h; rw [truncText_nil] at e1; simp at e1
      · subst h; rw [truncText_nil] at f1; simp at f1
      · subst h; rw [truncText_nil] at g1; simp at g1
      · omega
      · omega
  · intro hgood
    simp only [not_or, not_lt, Bool.not_eq_false] at hgood
    obtain ⟨g1, g2, g3, g4, g5, g6, g7, g8⟩ := hgood
    have hk := truncMatricula_uint32 m (by omega) hm
    have hv : (Student.Validate ⟨truncMatricula m, truncText MaxNomeLength nome, cpf,
        truncText MaxCursoLength curso, truncText MaxFiliacaoLength mae,
        truncText MaxFiliacaoLength pai, ano, truncCA (decodeCA ca)⟩) = none := by
      rw [hiff]
      exact ⟨hk, ⟨truncText_length_pos _ _ (by decide) g2, truncText_length_le _ _⟩, hcpf, g3,
        ⟨truncText_length_pos _ _ (by decide) g4, truncText_length_le _ _⟩,
        ⟨truncText_length_pos _ _ (by decide) g5, truncText_length_le _ _⟩,
        ⟨truncText_length_pos _ _ (by decide) g6, truncText_length_le _ _⟩,
        ⟨by omega, by omega⟩, truncCA_valid _⟩
    rw [hv]

theorem C13_variable_decoder_rejections_witness :
    deserializeStudent
        (leEncode 4 1234567890 ++ (leEncode 4 [65, 110, 97].length ++ ([65, 110, 97] ++
          (sampleA.CPF ++ (leEncode 4 [66].length ++ ([66] ++ (leEncode 4 [67].length ++
            ([67] ++ (leEncode 4 [68].length ++ ([68] ++
              (leEncode 4 2020 ++ (leEncode 8 5000 ++ [])))))))))))) =
      .ok (Student.TruncateFields
        ⟨(1234567890 : Nat), [65, 110, 97], sampleA.CPF, [66], [67], [68], (2020 : Nat),
          decodeCA 5000⟩) :=
  (C13_variable_decoder_rejections 1234567890 2020 5000 [65, 110, 97] sampleA.CPF [66] [67]
    [68] [] (by decide) (by decide) (by decide) (by decide) (by decide) (by decide) (by decide)
    (by decide)).2 (by decide)

/-! ## Bounds of the variable-width decoder -/

theorem sliceChecked_of_le (data : List Byte) (lo hi : Nat) (h1 : lo ≤ hi)
    (h2 : hi ≤ data.length) : sliceChecked data lo hi = some (slice data lo hi) := by
  unfold sliceChecked
  rw [if_pos ⟨h1, h2⟩]

theorem readUint32Checked_eq (data : List Byte) (offset : Nat) (err : DecodeError)
    (kc : Nat → Nat → Option (Except DecodeError Student))
    (k : Nat → Nat → Except DecodeError Student)
    (hk : ∀ v o, kc v o = some (k v o)) :
    readUint32Checked data offset err kc = some (readUint32At data offset err k) := by
  unfold readUint32Checked readUint32At
  split_ifs with h
  · rfl
  · rw [sliceChecked_of_le _ _ _ (by omega) (by omega)]
    exact hk _ _

theorem readBytesChecked_eq (data : List Byte) (offset n : Nat) (err : DecodeError)
    (kc : List Byte → Nat → Option (Except DecodeError Student))
    (k : List Byte → Nat → Except DecodeError Student)
    (hk : ∀ v o, kc v o = some (k v o)) :
    readBytesChecked data offset n err kc = some (readBytesAt data offset n err k) := by
  unfold readBytesChecked readBytesAt
  split_ifs with h
  · rfl
  · rw [sliceChecked_of_le _ _ _ (by omega) (by omega)]
    exact hk _ _

/-- No slice expression of `deserializeStudent` reaches outside the input. -/
theorem deserializeStudentChecked_eq (data : List Byte) :
    deserializeStudentChecked data = some (deserializeStudent data) := by
  rw [deserializeStudent_eq_staged]
  unfold deserializeStudentChecked deserializeStudentStaged
  split_ifs with h
  · rfl
  · rw [sliceChecked_of_le _ _ _ (by omega) (by omega)]
    simp only
    refine readUint32Checked_eq _ _ _ _ _ fun nomeLen o1 => ?_
    refine readBytesChecked_eq _ _ _ _ _ _ fun nome o2 => ?_
    refine readBytesChecked_eq _ _ _ _ _ _ fun cpf o3 => ?_
    refine readUint32Checked_eq _ _ _ _ _ fun cursoLen o4 => ?_
    refine readBytesChecked_eq _ _ _ _ _ _ fun curso o5 => ?_
    refine readUint32Checked_eq _ _ _ _ _ fun maeLen o6 => ?_
    refine readBytesChecked_eq _ _ _ _ _ _ fun mae o7 => ?_
    refine readUint32Checked_eq _ _ _ _ _ fun paiLen o8 => ?_
    refine readBytesChecked_eq _ _ _ _ _ _ fun pai o9 => ?_
    refine readUint32Checked_eq _ _ _ _ _ fun ano o10 => ?_
    refine readBytesChecked_eq _ _ _ _ _ _ fun caBytes o11 => ?_
    rfl

theorem slice_length_le (data : List Byte) (lo hi : Nat) : (slice data lo hi).length ≤ hi - lo := by
  unfold slice
  rw [List.length_take]
  omega

theorem slice_drop (data : List Byte) (k lo hi : Nat) :
    slice (data.drop k) lo hi = slice data (k + lo) (k + hi) := by
  unfold slice
  rw [List.drop_drop, show k + hi - (k + lo) = hi - lo by omega]

/-- A successful decode found every field inside the input: the field ends that the length
prefixes give are within the input, and the record is the truncation of the fields read. -/
theorem deserializeStudent_ok_layout (data : List Byte) (s : Student)
    (h : deserializeStudent data = .ok s) :
    ∃ (n c m p : Nat) (nome cpf curso mae pai : List Byte) (ano ca : Nat),
      fieldEnds data = [8 + n, 8 + n + 15 + c, 8 + n + 15 + c + 4 + m,
        8 + n + 15 + c + 4 + m + 4 + p, 8 + n + 15 + c + 4 + m + 4 + p + 4 + 8] ∧
      43 + n + c + m + p ≤ data.length ∧
      nome.length ≤ n ∧ curso.length ≤ c ∧ mae.length ≤ m ∧ pai.length ≤ p ∧
      s = (Student.mk (leDecode (slice data 0 4)) nome cpf curso mae pai ano
        (decodeCA ca)).TruncateFields ∧
      s.Validate = none := by
  rw [deserializeStudent_eq_staged] at h
  unfold deserializeStudentStaged at h
  split_ifs at h
  obtain ⟨n, o1, e1, f1, -, h⟩ := readUint32At_ok _ _ _ _ _ h
  obtain ⟨nome, o2, e2, f2, -, h⟩ := readBytesAt_ok _ _ _ _ _ _ h
  obtain ⟨cpf, o3, e3, f3, -, h⟩ := readBytesAt_ok _ _ _ _ _ _ h
  obtain ⟨c, o4, e4, f4, -, h⟩ := readUint32At_ok _ _ _ _ _ h
  obtain ⟨curso, o5, e5, f5, -, h⟩ := readBytesAt_ok _ _ _ _ _ _ h
  obtain ⟨m, o6, e6, f6, -, h⟩ := readUint32At_ok _ _ _ _ _ h
  obtain ⟨mae, o7, e7, f7, -, h⟩ := readBytesAt_ok _ _ _ _ _ _ h
  obtain ⟨p, o8, e8, f8, -, h⟩ := readUint32At_ok _ _ _ _ _ h
  obtain ⟨pai, o9, e9, f9, -, h⟩ := readBytesAt_ok _ _ _ _ _ _ h
  obtain ⟨ano, o10, e10, f10, -, h⟩ := readUint32At_ok _ _ _ _ _ h
  obtain ⟨caBytes, o11, e11, f11, g11, h⟩ := readBytesAt_ok _ _ _ _ _ _ h
  obtain ⟨h1, h2⟩ := finishDecode_ok _ _ _ _ _ _ _ _ _ h
  have k1 : o1 = 8 := by omega
  have k3 : o3 = 8 + n + 11 := by omega
  have k5 : o5 = 8 + n + 15 + c := by omega
  have k7 : o7 = 8 + n + 15 + c + 4 + m := by omega
  have k9 : o9 = 8 + n + 15 + c + 4 + m + 4 + p := by omega
  refine ⟨n, c, m, p, nome, cpf, curso, mae, pai, ano, leDecode caBytes, ?_, by omega, ?_, ?_,
    ?_, ?_, h1, h2⟩
  · have q1 : leDecode (slice data 4 8) = n := e1.symm
    have q2 : leDecode (slice data (8 + n + 11) (8 + n + 11 + 4)) = c := by
      rw [e4, k3]
    have q3 : leDecode (slice data (8 + n + 15 + c) (8 + n + 15 + c + 4)) = m := by
      rw [e6, k5]
    have q4 : leDecode (slice data (8 + n + 15 + c + 4 + m) (8 + n + 15 + c + 4 + m + 4)) = p := by
      rw [e8, k7]
    simp only [fieldEnds, q1, show 8 + n + 11 + 4 + c = 8 + n + 15 + c by omega, q2, q3, q4]
  · rw [e2]; have := slice_length_le data o1 (o1 + n); omega
  · rw [e5]; have := slice_length_le data o4 (o4 + c); omega
  · rw [e7]; have := slice_length_le data o6 (o6 + m); omega
  · rw [e9]; have := slice_length_le data o8 (o8 + p); omega

theorem deserializeStudentFromBlockChecked_eq (block : List Byte) (offset : Nat) :
    deserializeStudentFromBlockChecked block offset =
      some (deserializeStudentFromBlock block offset) := by
  unfold deserializeStudentFromBlockChecked deserializeStudentFromBlock
  split_ifs with h
  · rfl
  · rw [sliceChecked_of_le _ _ _ (by omega) (le_refl _)]
    simp only
    rw [deserializeStudentChecked_eq]
    unfold slice
    rw [List.take_of_length_le (by rw [List.length_drop])]

/-- C14: `deserializeStudent` is a total function, so it returns a record or an error on
every byte sequence, and it never reads outside its input: the decoder whose slice
expressions are checked as the run time checks them never fails such a check and gives the
same result, also when it is called through `deserializeStudentFromBlock`. The decoder
returns an error whenever the input is shorter than one of the field ends the length
prefixes give, that is, whenever a text length prefix is larger than the number of bytes
that remain or the input ends before the last field. -/
theorem C14_variable_decoder_bounds :
    (∀ data : List Byte, deserializeStudentChecked data = some (deserializeStudent data)) ∧
    (∀ (block : List Byte) (offset : Nat),
      deserializeStudentFromBlockChecked block offset =
        some (deserializeStudentFromBlock block offset)) ∧
    (∀ data : List Byte, (∃ e ∈ fieldEnds data, data.length < e) →
      ∃ err, deserializeStudent data = .error err) := by
  refine ⟨deserializeStudentChecked_eq, deserializeStudentFromBlockChecked_eq, ?_⟩
  rintro data ⟨e, he, hlt⟩
  cases hd : deserializeStudent data with
  | error err => exact ⟨err, rfl⟩
  | ok s =>
    exfalso
    obtain ⟨n, c, m, p, -, -, -, -, -, -, -, hends, hlen, -⟩ := deserializeStudent_ok_layout data s hd
    rw [hends] at he
    simp only [List.mem_cons, List.mem_singleton, List.not_mem_nil, or_false] at he
    omega

theorem C14_variable_decoder_bounds_witness :
    ∃ err, deserializeStudent ((serializeStudent sampleA).take 30) = .error err :=
  C14_variable_decoder_bounds.2.2 ((serializeStudent sampleA).take 30) ⟨33, by decide, by decide⟩

/-! ## Point lookups on arbitrary files -/

theorem getRecordSize_pos (s : Student) : 43 ≤ getRecordSize s := by
  unfold getRecordSize; omega

theorem variable_findInBlock_isSome (bs : Nat) (block : List Byte) (k : Int) :
    ∀ (fuel offset : Nat), 1 ≤ fuel → bs + 1 ≤ offset + fuel →
      ∃ r, VariableStorage.findInBlock bs block k fuel offset = some r := by
  intro fuel
  induction fuel with
  | zero => intro offset h; omega
  | succ f ih =>
    intro offset _ hf
    rw [VariableStorage.findInBlock]
    by_cases h1 : offset < bs
    swap
    · rw [if_pos h1]; exact ⟨_, rfl⟩
    by_cases h2 : offset + 4 > bs
    · rw [if_neg (by omega), if_pos h2]; exact ⟨_, rfl⟩
    rw [if_neg (by omega), if_neg h2]
    simp only
    split
    · exact ⟨_, rfl⟩
    · split
      · exact ⟨_, rfl⟩
      · rename_i student _
        have := getRecordSize_pos student
        exact ih _ (by omega) (by omega)

theorem variable_findInBlock_sound (bs : Nat) (block : List Byte) (k : Int) (s : Student) :
    ∀ (fuel offset : Nat), VariableStorage.findInBlock bs block k fuel offset = some (some s) →
      ∃ o, deserializeStudentFromBlock block o = .ok s ∧
        ((leDecode (slice block o (o + 4)) : Nat) : Int) = k := by
  intro fuel
  induction fuel with
  | zero => intro offset h; simp [VariableStorage.findInBlock] at h
  | succ f ih =>
    intro offset h
    rw [VariableStorage.findInBlock] at h
    by_cases h1 : offset < bs
    swap
    · rw [if_pos h1] at h; cases h
    by_cases h2 : offset + 4 > bs
    · rw [if_neg (by omega), if_pos h2] at h; cases h
    rw [if_neg (by omega), if_neg h2] at h
    simp only at h
    split at h
    · rename_i student hm
      injection h with h
      injection h with h
      subst h
      split_ifs at hm with hk
      refine ⟨offset, ?_, hk⟩
      cases hd : deserializeStudentFromBlock block offset with
      | error e => rw [hd] at hm; simp [Except.toOption] at hm
      | ok s1 =>
        rw [hd] at hm
        simp only [Except.toOption, Option.some.injEq] at hm
        rw [hm]
    · split at h
      · cases h
      · exact ih _ h

/-- On every file the variable-width lookup comes to an end, and its result is the
not-found error or a record that decoded without error at a position whose stored key is
the requested key. -/
theorem VariableStorage.findStudentContiguous_result (bs : Nat) (file : List Byte) (k : Int) :
    ∀ (n blockNum : Nat), ∃ r, VariableStorage.findStudentContiguous bs file k n blockNum = some r ∧
      (r = .error (.notFound k) ∨
        ∃ (s : Student) (b o : Nat), r = .ok s ∧
          deserializeStudentFromBlock (readBlock file bs b) o = .ok s ∧
          ((leDecode (slice (readBlock file bs b) o (o + 4)) : Nat) : Int) = k) := by
  intro n
  induction n with
  | zero => intro blockNum; exact ⟨_, rfl, Or.inl rfl⟩
  | succ n ih =>
    intro blockNum
    rw [VariableStorage.findStudentContiguous]
    obtain ⟨r, hr⟩ := variable_findInBlock_isSome bs (readBlock file bs blockNum) k
      (bs + 1) 0 (by omega) (by omega)
    rw [hr]
    cases r with
    | none => exact ih _
    | some s =>
      obtain ⟨o, ho, hk⟩ := variable_findInBlock_sound bs _ k s _ _ hr
      exact ⟨_, rfl, Or.inr ⟨s, blockNum, o, rfl, ho, hk⟩⟩

theorem fixed_findInBlock_isSome (bs frs : Nat) (hfrs : 0 < frs) (block : List Byte)
    (k : Int) :
    ∀ (fuel offset : Nat), 1 ≤ fuel → bs + 1 ≤ offset + fuel →
      ∃ r, FixedStorage.findInBlock bs frs block k fuel offset = some r := by
  intro fuel
  induction fuel with
  | zero => intro offset h; omega
  | succ f ih =>
    intro offset _ hf
    rw [FixedStorage.findInBlock]
    by_cases h1 : offset + frs ≤ bs
    swap
    · rw [if_pos h1]; exact ⟨_, rfl⟩
    by_cases h2 : offset + 4 > bs
    · rw [if_neg (by omega), if_pos h2]; exact ⟨_, rfl⟩
    rw [if_neg (by omega), if_neg h2]
    simp only
    split
    · exact ⟨_, rfl⟩
    · exact ih _ (by omega) (by omega)

theorem fixed_findInBlock_sound (bs frs : Nat) (block : List Byte) (k : Int)
    (s : Student) :
    ∀ (fuel offset : Nat), FixedStorage.findInBlock bs frs block k fuel offset = some (some s) →
      ∃ o, deserializeStudentFixed frs (ByteSlice.ofBlock block o (o + frs)) = .ok s ∧
        ((leDecode (slice block o (o + 4)) : Nat) : Int) = k := by
  intro fuel
  induction fuel with
  | zero => intro offset h; simp [FixedStorage.findInBlock] at h
  | succ f ih =>
    intro offset h
    rw [FixedStorage.findInBlock] at h
    by_cases h1 : offset + frs ≤ bs
    swap
    · rw [if_pos h1] at h; cases h
    by_cases h2 : offset + 4 > bs
    · rw [if_neg (by omega), if_pos h2] at h; cases h
    rw [if_neg (by omega), if_neg h2] at h
    simp only at h
    split at h
    · rename_i student hm
      injection h with h
      injection h with h
      subst h
      split_ifs at hm with hk
      refine ⟨offset, ?_, hk⟩
      cases hd : deserializeStudentFixed frs (ByteSlice.ofBlock block offset (offset + frs)) with
      | error e => rw [hd] at hm; simp [Except.toOption] at hm
      | ok s1 =>
        rw [hd] at hm
        simp only [Except.toOption, Option.some.injEq] at hm
        rw [hm]
    · exact ih _ h

/-- On every file the fixed-width lookup of a storage object whose record size is set comes
to an end, and its result is the not-found error or a record that decoded without error
from a slot whose stored key is the requested key. -/
theorem FixedStorage.findStudentFixed_result (bs frs : Nat) (hfrs : 0 < frs) (file : List Byte)
    (k : Int) :
    ∀ (n blockNum : Nat), ∃ r, FixedStorage.findStudentFixed bs frs file k n blockNum = some r ∧
      (r = .error (.notFound k) ∨
        ∃ (s : Student) (b o : Nat), r = .ok s ∧
          deserializeStudentFixed frs (ByteSlice.ofBlock (readBlock file bs b) o (o + frs)) =
            .ok s ∧
          ((leDecode (slice (readBlock file bs b) o (o + 4)) : Nat) : Int) = k) := by
  intro n
  induction n with
  | zero => intro blockNum; exact ⟨_, rfl, Or.inl rfl⟩
  | succ n ih =>
    intro blockNum
    rw [FixedStorage.findStudentFixed]
    obtain ⟨r, hr⟩ := fixed_findInBlock_isSome bs frs hfrs (readBlock file bs blockNum) k
      (bs + 1) 0 (by omega) (by omega)
    rw [hr]
    cases r with
    | none => exact ih _
    | some s =>
      obtain ⟨o, ho, hk⟩ := fixed_findInBlock_sound bs frs _ k s _ _ hr
      exact ⟨_, rfl, Or.inr ⟨s, blockNum, o, rfl, ho, hk⟩⟩

theorem fragmented_findInBlock_isSome (bs : Nat) (file : List Byte)
    (total blockNum : Nat) (k : Int) :
    ∀ (fuel offset : Nat), 1 ≤ fuel → bs + 1 ≤ offset + fuel →
      ∃ r, VariableFragmentedStorage.findInBlock bs file total blockNum k fuel offset =
        some r := by
  intro fuel
  induction fuel with
  | zero => intro offset h; omega
  | succ f ih =>
    intro offset _ hf
    rw [VariableFragmentedStorage.findInBlock]
    by_cases h1 : offset < bs
    swap
    · rw [if_pos h1]; exact ⟨_, rfl⟩
    by_cases h2 : offset + 5 > bs
    · rw [if_neg (by omega), if_pos h2]; exact ⟨_, rfl⟩
    rw [if_neg (by omega), if_neg h2]
    split
    · exact ⟨_, rfl⟩
    · split
      · exact ⟨_, rfl⟩
      · refine ih _ (by omega) ?_
        split_ifs <;> omega

theorem fragmented_findInBlock_sound (bs : Nat) (file : List Byte)
    (total blockNum : Nat) (k : Int) (s : Student) :
    ∀ (fuel offset : Nat),
      VariableFragmentedStorage.findInBlock bs file total blockNum k fuel offset =
        some (some s) →
      ∃ (o : Nat) (flag : Byte) (size : Nat) (recordData : List Byte),
        readChain bs file total blockNum o = some (flag, size, recordData) ∧
        deserializeStudent recordData = .ok s ∧
        ((leDecode (slice recordData 0 4) : Nat) : Int) = k := by
  intro fuel
  induction fuel with
  | zero => intro offset h; simp [VariableFragmentedStorage.findInBlock] at h
  | succ f ih =>
    intro offset h
    rw [VariableFragmentedStorage.findInBlock] at h
    by_cases h1 : offset < bs
    swap
    · rw [if_pos h1] at h; cases h
    by_cases h2 : offset + 5 > bs
    · rw [if_neg (by omega), if_pos h2] at h; cases h
    rw [if_neg (by omega), if_neg h2] at h
    split at h
    · cases h
    · rename_i flag size recordData hc
      split at h
      · rename_i student hm
        injection h with h
        injection h with h
        subst h
        split_ifs at hm with hk
        refine ⟨offset, flag, size, recordData, hc, ?_, hk.2⟩
        cases hd : deserializeStudent recordData with
        | error e => rw [hd] at hm; simp [Except.toOption] at hm
        | ok s1 =>
          rw [hd] at hm
          simp only [Except.toOption, Option.some.injEq] at hm
          rw [hm]
      · exact ih _ h

/-- On every file the fragmented lookup comes to an end, and its result is the not-found
error or a record that decoded without error from the bytes gathered at a chunk, the first
four of which hold the requested key. -/
theorem VariableFragmentedStorage.findStudentFragmented_result (bs : Nat) (file : List Byte)
    (total : Nat) (k : Int) :
    ∀ (n blockNum : Nat),
      ∃ r, VariableFragmentedStorage.findStudentFragmented bs file total k n blockNum = some r ∧
      (r = .error (.notFound k) ∨
        ∃ (s : Student) (b o : Nat) (flag : Byte) (size : Nat) (recordData : List Byte),
          r = .ok s ∧ readChain bs file total b o = some (flag, size, recordData) ∧
          deserializeStudent recordData = .ok s ∧
          ((leDecode (slice recordData 0 4) : Nat) : Int) = k) := by
  intro n
  induction n with
  | zero => intro blockNum; exact ⟨_, rfl, Or.inl rfl⟩
  | succ n ih =>
    intro blockNum
    rw [VariableFragmentedStorage.findStudentFragmented]
    obtain ⟨r, hr⟩ := fragmented_findInBlock_isSome bs file total blockNum k
      (bs + 1) 0 (by omega) (by omega)
    rw [hr]
    cases r with
    | none => exact ih _
    | some s =>
      obtain ⟨o, flag, size, rd, hc, ho, hk⟩ :=
        fragmented_findInBlock_sound bs file total blockNum k s _ _ hr
      exact ⟨_, rfl, Or.inr ⟨s, blockNum, o, flag, size, rd, rfl, hc, ho, hk⟩⟩

/-- C11, counterexample: a record whose stored key is 100000001 and whose CPF holds a
letter fails to decode. In each layout the lookup of that key passes over the record: it
returns the not-found error when no later record is reached (in the variable-width layout
also when a valid record with the key follows in the same block, the rest of which is
skipped), and it returns the later record `sampleA` when the scan reaches it. -/
theorem C11_lookup_passes_over_corrupt_record :
    deserializeStudent (serializeStudent sampleBadCPF) = .error (.invalid .cpfDigits) ∧
    deserializeStudentFixed 167 (ByteSlice.ofList (serializeStudentFixed sampleBadCPF)) =
      .error (.invalid .cpfDigits) ∧
    VariableStorage.FindStudentByMatricula ⟨183, StorageStats.empty⟩
      (VariableStorage.WriteStudents ⟨183, StorageStats.empty⟩ [sampleBadCPF, sampleA]).file
      100000001 = some (.error (.notFound 100000001)) ∧
    VariableStorage.FindStudentByMatricula ⟨183, StorageStats.empty⟩
      (fileOf 183 [serializeStudent sampleBadCPF, serializeStudent sampleA]) 100000001 =
      some (.ok sampleA) ∧
    FixedStorage.FindStudentByMatricula
      (FixedStorage.WriteStudents ⟨167, 0, StorageStats.empty⟩ [sampleBadCPF]).1
      (FixedStorage.WriteStudents ⟨167, 0, StorageStats.empty⟩ [sampleBadCPF]).2.file
      100000001 = some (.error (.notFound 100000001)) ∧
    FixedStorage.FindStudentByMatricula
      (FixedStorage.WriteStudents ⟨167, 0, StorageStats.empty⟩ [sampleBadCPF, sampleA]).1
      (FixedStorage.WriteStudents ⟨167, 0, StorageStats.empty⟩ [sampleBadCPF, sampleA]).2.file
      100000001 = some (.ok sampleA) ∧
    VariableFragmentedStorage.FindStudentByMatricula ⟨183, StorageStats.empty⟩
      (fileOf 183 [chunkOf 183 (serializeStudent sampleBadCPF)]) 100000001 =
      some (.error (.notFound 100000001)) ∧
    VariableFragmentedStorage.FindStudentByMatricula ⟨183, StorageStats.empty⟩
      (fileOf 183 [chunkOf 183 (serializeStudent sampleBadCPF),
        chunkOf 183 (serializeStudent sampleA)]) 100000001 = some (.ok sampleA) := by
  refine ⟨?_, ?_, ?_, ?_, ?_, ?_, ?_, ?_⟩ <;> decide!

/-! ## Rounding of the float64 model -/

theorem F64.bitLength_le : ∀ (fuel x K : Nat), x < 2 ^ K → F64.bitLength fuel x ≤ K := by
  intro fuel
  induction fuel with
  | zero => intro x K _; simp [F64.bitLength]
  | succ f ih =>
    intro x K h
    rw [F64.bitLength]
    split_ifs with h0
    · omega
    · cases K with
      | zero => simp at h; omega
      | succ K =>
        have : x / 2 < 2 ^ K := by
          rw [Nat.div_lt_iff_lt_mul (by decide)]
          rw [pow_succ] at h
          exact h
        have := ih (x / 2) K this
        omega

theorem F64.lt_pow_bitLength : ∀ (fuel x : Nat), x ≤ fuel → x < 2 ^ F64.bitLength fuel x := by
  intro fuel
  induction fuel with
  | zero => intro x h; simp [F64.bitLength]; omega
  | succ f ih =>
    intro x h
    rw [F64.bitLength]
    split_ifs with h0
    · subst h0; simp
    · have := ih (x / 2) (by omega)
      rw [pow_succ]
      omega

theorem F64.pow_bitLength_le : ∀ (fuel x : Nat), 1 ≤ x → 2 ^ (F64.bitLength fuel x - 1) ≤ x := by
  intro fuel
  induction fuel with
  | zero => intro x h; simp [F64.bitLength]; omega
  | succ f ih =>
    intro x h
    rw [F64.bitLength]
    rw [if_neg (by omega), Nat.add_sub_cancel]
    by_cases h2 : x / 2 = 0
    · have : F64.bitLength f (x / 2) = 0 := by
        rw [h2]; cases f <;> simp [F64.bitLength]
      rw [this]; simpa using h
    · have i := ih (x / 2) (by omega)
      by_cases hb : F64.bitLength f (x / 2) = 0
      · rw [hb]; simpa using h
      · have e : F64.bitLength f (x / 2) = (F64.bitLength f (x / 2) - 1) + 1 := by omega
        rw [e, pow_succ]
        omega

/-- The shift of `roundDiv` is at most `K - 53` when the quotient is below `2^K`. -/
theorem F64.shift_le (x K : Nat) (h : x < 2 ^ K) : F64.bitLength x x - 53 ≤ K - 53 := by
  have := F64.bitLength_le x x K h
  omega

/-- An upper bound of `roundDiv`: if the quotient lies at least half a grid step below
`B`, the rounded quotient is below `B`. -/
theorem F64.roundDiv_lt (n d B P : Nat) (_hd : 0 < d)
    (hP : 2 ^ (F64.bitLength (n / d) (n / d) - 53) ≤ P)
    (h : 2 * n + P * d < 2 * B * d) : F64.roundDiv n d < B := by
  unfold F64.roundDiv
  simp only
  generalize 2 ^ (F64.bitLength (n / d) (n / d) - 53) = p at hP
  have hpd : d * p ≤ P * d := by
    rw [Nat.mul_comm d p]; exact Nat.mul_le_mul_right d hP
  have key : ∀ k : Nat, 2 * (d * p * k) ≤ 2 * n + d * p → k * p < B := by
    intro k hk
    by_contra hc
    have h1 : B * d ≤ k * p * d := Nat.mul_le_mul_right d (by omega)
    have e1 : k * p * d = d * p * k := by ring
    have e2 : 2 * B * d = 2 * (B * d) := by ring
    rw [e1] at h1
    rw [e2] at h
    generalize d * p * k = X at h1 hk
    generalize d * p = D at hpd hk
    generalize B * d = Y at h1 h
    generalize P * d = Z at hpd h
    omega
  have hdiv := Nat.div_add_mod n (d * p)
  generalize d * p = D at hdiv key ⊢
  generalize n / D = q at hdiv ⊢
  generalize n % D = r at hdiv ⊢
  split_ifs with hc
  · apply key (q + 1)
    have e4 : D * (q + 1) = D * q + D := by ring
    rw [e4]
    generalize D * q = X at hdiv ⊢
    rcases hc with hc | ⟨hc, -⟩ <;> omega
  · apply key q
    generalize D * q = X at hdiv ⊢
    omega

/-- The values of `roundDiv` lie on the grid: a multiple `k * 2^s` of the shift with
`k ≤ 2^53`. -/
theorem F64.roundDiv_grid (n d : Nat) :
    ∃ k, F64.roundDiv n d = k * 2 ^ (F64.bitLength (n / d) (n / d) - 53) ∧ k ≤ 2 ^ 53 := by
  unfold F64.roundDiv
  simp only
  have hx := F64.lt_pow_bitLength (n / d) (n / d) (le_refl _)
  have hq : n / (d * 2 ^ (F64.bitLength (n / d) (n / d) - 53)) < 2 ^ 53 := by
    rw [← Nat.div_div_eq_div_mul, Nat.div_lt_iff_lt_mul (by positivity), ← pow_add]
    exact lt_of_lt_of_le hx (Nat.pow_le_pow_right (by decide) (by omega))
  split_ifs
  · exact ⟨_, rfl, hq⟩
  · exact ⟨_, rfl, le_of_lt hq⟩

/-- A lower bound of `roundDiv`: a quotient of at least one is not rounded to zero. -/
theorem F64.roundDiv_pos (n d : Nat) (hd : 0 < d) (h : d ≤ n) : 0 < F64.roundDiv n d := by
  unfold F64.roundDiv
  simp only
  have hx : 1 ≤ n / d := (Nat.one_le_div_iff hd).2 h
  have hp : 2 ^ (F64.bitLength (n / d) (n / d) - 53) ≤ n / d :=
    le_trans (Nat.pow_le_pow_right (by decide) (Nat.sub_le_sub_left (by decide) _))
      (F64.pow_bitLength_le _ _ hx)
  have hq : 1 ≤ n / (d * 2 ^ (F64.bitLength (n / d) (n / d) - 53)) := by
    rw [← Nat.div_div_eq_div_mul]
    exact (Nat.one_le_div_iff (by positivity)).2 hp
  have hpos : 0 < 2 ^ (F64.bitLength (n / d) (n / d) - 53) := by positivity
  split_ifs
  · exact Nat.mul_pos (by omega) hpos
  · exact Nat.mul_pos (by omega) hpos

/-- The function `roundDiv` is exact on a quotient that needs no rounding: `n = d * x` with
`x` below `2^K` and a multiple of `2^e`, where `K - 53 ≤ e`. -/
theorem F64.roundDiv_exact (d x K e : Nat) (hd : 0 < d) (hK : x < 2 ^ K) (he : K - 53 ≤ e)
    (hdvd : 2 ^ e ∣ x) : F64.roundDiv (d * x) d = x := by
  unfold F64.roundDiv
  simp only
  rw [Nat.mul_div_cancel_left x hd]
  have hs := F64.shift_le x K hK
  obtain ⟨y, hy⟩ : 2 ^ (F64.bitLength x x - 53) ∣ x :=
    Dvd.dvd.trans (pow_dvd_pow 2 (le_trans hs he)) hdvd
  have hpos : 0 < 2 ^ (F64.bitLength x x - 53) := by positivity
  generalize 2 ^ (F64.bitLength x x - 53) = p at hy hpos
  subst hy
  have hD : 0 < d * p := Nat.mul_pos hd hpos
  have e : d * (p * y) = d * p * y := by ring
  rw [e, Nat.mul_div_cancel_left y hD, Nat.mul_mod_right]
  rw [if_neg (by omega)]
  ring

theorem two_pow_lt (a b : Nat) (h : a < b) : 2 ^ a < 2 ^ b :=
  Nat.pow_lt_pow_right (by decide) h

theorem two_pow_le (a b : Nat) (h : a ≤ b) : 2 ^ a ≤ 2 ^ b :=
  Nat.pow_le_pow_right (by decide) h

theorem F64.unit_eq : F64.unit = 2 ^ 1074 := by
  unfold F64.unit; rfl

theorem F64.overflowAt_eq : F64.overflowAt = 2 ^ 2098 := by
  unfold F64.overflowAt; rfl

theorem F64.unit_pos : 0 < F64.unit := by
  rw [F64.unit_eq]; positivity

theorem F64.ofMag_false (v : Nat) (h : v < F64.overflowAt) :
    F64.ofMag false v = F64.fin (v : Int) := by
  unfold F64.ofMag
  rw [if_neg (by omega)]
  simp

theorem F64.div_fin (a b : Nat) (hb : 0 < b)
    (hR : F64.roundDiv (a * F64.unit) b < F64.overflowAt) :
    F64.div (F64.fin (a : Int)) (F64.fin (b : Int)) =
      F64.fin ((F64.roundDiv (a * F64.unit) b : Nat) : Int) := by
  unfold F64.div
  have hb0 : (b : Int) ≠ 0 := by omega
  simp only [hb0, if_false, F64.isNeg, Int.natAbs_ofNat]
  have e1 : decide ((a : Int) < 0) = false := by simp
  have e2 : decide ((b : Int) < 0) = false := by simp
  rw [e1, e2]
  exact F64.ofMag_false _ hR

theorem F64.mul_fin (a b : Nat) (hR : F64.roundDiv (a * b) F64.unit < F64.overflowAt) :
    F64.mul (F64.fin (a : Int)) (F64.fin (b : Int)) =
      F64.fin ((F64.roundDiv (a * b) F64.unit : Nat) : Int) := by
  unfold F64.mul
  simp only [F64.isNeg, Int.natAbs_ofNat]
  have e1 : decide ((a : Int) < 0) = false := by simp
  have e2 : decide ((b : Int) < 0) = false := by simp
  rw [e1, e2]
  exact F64.ofMag_false _ hR

/-- The conversion `float64(k)` is exact below `2^53`. -/
theorem F64.ofNat_exact (k : Nat) (h : k < 2 ^ 53) :
    F64.ofNat k = F64.fin ((k * F64.unit : Nat) : Int) := by
  have hx : k * F64.unit < 2 ^ 1127 := by
    rw [F64.unit_eq, show (1127 : Nat) = 53 + 1074 from rfl, pow_add]
    exact Nat.mul_lt_mul_of_pos_right h (by positivity)
  have hr : F64.roundDiv (k * F64.unit) 1 = k * F64.unit := by
    have := F64.roundDiv_exact 1 (k * F64.unit) 1127 1074 (by decide) hx (by decide)
      (by rw [F64.unit_eq]; exact Nat.dvd_mul_left _ _)
    rw [Nat.one_mul] at this
    exact this
  unfold F64.ofNat
  rw [hr]
  refine F64.ofMag_false _ (lt_trans hx ?_)
  rw [F64.overflowAt_eq]
  exact two_pow_lt 1127 2098 (by decide)

theorem F64.unit_split : F64.unit = 2 ^ 53 * 2 ^ 1021 := by
  rw [F64.unit_eq, ← pow_add]

theorem F64.roundDiv_zero (d : Nat) (hd : 0 < d) : F64.roundDiv 0 d = 0 := by
  have := F64.roundDiv_exact d 0 0 0 hd (by decide) (by decide) (dvd_zero _)
  rw [Nat.mul_zero] at this
  exact this

/-- The quotient `float64(u) / float64(t)` for `0 < u < t < 2^53`, in grid units: it is
positive and at most the greatest float64 below one. -/
theorem F64.quotient_lt_one (u t : Nat) (hu : 0 < u) (hut : u < t) (ht : t < 2 ^ 53) :
    0 < F64.roundDiv (u * F64.unit * F64.unit) (t * F64.unit) ∧
    F64.roundDiv (u * F64.unit * F64.unit) (t * F64.unit) + 2 ^ 1021 ≤ F64.unit := by
  have hU := F64.unit_pos
  have hsplit := F64.unit_split
  have hd : 0 < t * F64.unit := Nat.mul_pos (by omega) hU
  have h53 : 2 ^ 53 ≤ F64.unit := by
    rw [hsplit]; exact Nat.le_mul_of_pos_right _ (by positivity)
  have hx : u * F64.unit * F64.unit / (t * F64.unit) < 2 ^ 1074 := by
    rw [← F64.unit_eq, Nat.div_lt_iff_lt_mul hd]
    have e1 : u * F64.unit * F64.unit = u * (F64.unit * F64.unit) := by ring
    have e2 : F64.unit * (t * F64.unit) = t * (F64.unit * F64.unit) := by ring
    rw [e1, e2]
    exact Nat.mul_lt_mul_of_pos_right hut (Nat.mul_pos hU hU)
  have hs := F64.shift_le _ _ hx
  have hP := two_pow_le _ 1021 hs
  have hgrid := F64.roundDiv_grid (u * F64.unit * F64.unit) (t * F64.unit)
  have hpos := F64.roundDiv_pos (u * F64.unit * F64.unit) (t * F64.unit) hd (by
    have : t ≤ u * F64.unit := le_trans (by omega) (Nat.le_mul_of_pos_left _ hu)
    exact Nat.mul_le_mul_right _ this)
  have hlt : F64.roundDiv (u * F64.unit * F64.unit) (t * F64.unit) < F64.unit := by
    refine F64.roundDiv_lt _ _ _ (2 ^ 1021) hd hP ?_
    have hA : (0 : Nat) < 2 ^ 1021 := by positivity
    generalize (2 : Nat) ^ 1021 = A at hsplit hA
    have hAt : A * t < F64.unit := by
      rw [hsplit, Nat.mul_comm (2 ^ 53) A]
      exact Nat.mul_lt_mul_of_pos_left ht hA
    have h2 : A * t * F64.unit < F64.unit * F64.unit := Nat.mul_lt_mul_of_pos_right hAt hU
    have h3 : (u + 1) * (F64.unit * F64.unit) ≤ t * (F64.unit * F64.unit) :=
      Nat.mul_le_mul_right _ (by omega)
    have e1 : 2 * (u * F64.unit * F64.unit) + A * (t * F64.unit) =
        2 * (u * (F64.unit * F64.unit)) + A * t * F64.unit := by ring
    have e2 : 2 * F64.unit * (t * F64.unit) = 2 * (t * (F64.unit * F64.unit)) := by ring
    have e3 : (u + 1) * (F64.unit * F64.unit) =
        u * (F64.unit * F64.unit) + F64.unit * F64.unit := by ring
    rw [e1, e2]
    rw [e3] at h3
    generalize F64.unit * F64.unit = V at h2 h3 ⊢
    generalize u * V = X at h3 ⊢
    generalize t * V = Y at h3 ⊢
    generalize A * t * F64.unit = Z at h2 ⊢
    omega
  refine ⟨hpos, ?_⟩
  obtain ⟨k, hk, hk53⟩ := hgrid
  generalize F64.roundDiv (u * F64.unit * F64.unit) (t * F64.unit) = R at hk hlt
  generalize F64.bitLength (u * F64.unit * F64.unit / (t * F64.unit))
    (u * F64.unit * F64.unit / (t * F64.unit)) - 53 = s at hk hs
  have hs1 : s ≤ 1021 := by omega
  rcases Nat.lt_or_ge s 1021 with hlt1 | hge1
  · have hp : 2 ^ s ≤ 2 ^ 1020 := two_pow_le s 1020 (by omega)
    have hA2 : (2 : Nat) ^ 1021 = 2 * 2 ^ 1020 := by rw [pow_succ]; ring
    have hR : R ≤ 2 ^ 53 * 2 ^ 1020 := by rw [hk]; exact Nat.mul_le_mul hk53 hp
    rw [hsplit, hA2]
    generalize (2 : Nat) ^ 1020 = A2 at hR
    omega
  · have hs2 : s = 1021 := by omega
    subst hs2
    rw [hsplit] at hlt ⊢
    rw [hk] at hlt ⊢
    have hk1 : k < 2 ^ 53 := Nat.lt_of_mul_lt_mul_right hlt
    have : (k + 1) * 2 ^ 1021 ≤ 2 ^ 53 * 2 ^ 1021 := Nat.mul_le_mul_right _ hk1
    have e : (k + 1) * 2 ^ 1021 = k * 2 ^ 1021 + 2 ^ 1021 := by ring
    rw [e] at this
    exact this

/-- The product of a quotient below one and `100`, in grid units: positive and below
`100`. -/
theorem F64.product_lt_hundred (R : Nat) (hR0 : 0 < R) (hR : R + 2 ^ 1021 ≤ F64.unit) :
    0 < F64.roundDiv (R * (100 * F64.unit)) F64.unit ∧
    F64.roundDiv (R * (100 * F64.unit)) F64.unit < 100 * F64.unit := by
  have hU := F64.unit_pos
  have hsplit := F64.unit_split
  have hA : (0 : Nat) < 2 ^ 1021 := by positivity
  have hq : R * (100 * F64.unit) / F64.unit = R * 100 := by
    have e : R * (100 * F64.unit) = F64.unit * (R * 100) := by ring
    rw [e, Nat.mul_div_cancel_left _ hU]
  have hx : R * (100 * F64.unit) / F64.unit < 2 ^ 1081 := by
    rw [hq, show (1081 : Nat) = 1074 + 7 from rfl, pow_add, ← F64.unit_eq]
    have : R < F64.unit := by omega
    calc R * 100 < F64.unit * 100 := Nat.mul_lt_mul_of_pos_right this (by decide)
      _ ≤ F64.unit * 2 ^ 7 := Nat.mul_le_mul_left _ (by decide)
  have hs := F64.shift_le _ _ hx
  have hP := two_pow_le _ 1028 hs
  have h1028 : (2 : Nat) ^ 1028 = 128 * 2 ^ 1021 := by
    rw [show (1028 : Nat) = 7 + 1021 from rfl, pow_add, show (2 : Nat) ^ 7 = 128 from rfl]
  constructor
  · refine F64.roundDiv_pos _ _ hU ?_
    have e : R * (100 * F64.unit) = (R * 100) * F64.unit := by ring
    rw [e]
    exact Nat.le_mul_of_pos_left _ (by omega)
  · refine F64.roundDiv_lt _ _ _ (2 ^ 1028) hU hP ?_
    rw [h1028]
    generalize (2 : Nat) ^ 1021 = A at hR hA
    have h2 : 200 * R + 128 * A < 200 * F64.unit := by omega
    have h3 := Nat.mul_lt_mul_of_pos_right h2 hU
    have e1 : 2 * (R * (100 * F64.unit)) + 128 * A * F64.unit =
        (200 * R + 128 * A) * F64.unit := by ring
    have e2 : 2 * (100 * F64.unit) * F64.unit = 200 * F64.unit * F64.unit := by ring
    rw [e1, e2]
    exact h3

theorem F64.quotient_one (t : Nat) (ht : 0 < t) :
    F64.roundDiv (t * F64.unit * F64.unit) (t * F64.unit) = F64.unit := by
  refine F64.roundDiv_exact (t * F64.unit) F64.unit 1075 1074 (Nat.mul_pos ht F64.unit_pos) ?_
    (by decide) ?_
  · rw [F64.unit_eq]; exact two_pow_lt 1074 1075 (by decide)
  · rw [F64.unit_eq]

theorem F64.product_hundred :
    F64.roundDiv (F64.unit * (100 * F64.unit)) F64.unit = 100 * F64.unit := by
  refine F64.roundDiv_exact F64.unit (100 * F64.unit) 1081 1074 F64.unit_pos ?_ (by decide) ?_
  · rw [show (1081 : Nat) = 7 + 1074 from rfl, pow_add, ← F64.unit_eq]
    exact Nat.mul_lt_mul_of_pos_right (by decide) F64.unit_pos
  · rw [F64.unit_eq]; exact Nat.dvd_mul_left _ _

/-- The two roundings behind `float64(u) / float64(t) * 100` for `u ≤ t` and
`0 < t < 2^53`, in grid units: the result is positive exactly when `u` is, and below `100`
exactly when `u < t`. -/
theorem F64.percentage_units (u t : Nat) (ht0 : 0 < t) (ht : t < 2 ^ 53) (hu : u ≤ t) :
    F64.roundDiv (u * F64.unit * F64.unit) (t * F64.unit) ≤ F64.unit ∧
    F64.roundDiv (F64.roundDiv (u * F64.unit * F64.unit) (t * F64.unit) * (100 * F64.unit))
      F64.unit ≤ 100 * F64.unit ∧
    (0 < F64.roundDiv (F64.roundDiv (u * F64.unit * F64.unit) (t * F64.unit) * (100 * F64.unit))
      F64.unit ↔ 0 < u) ∧
    (F64.roundDiv (F64.roundDiv (u * F64.unit * F64.unit) (t * F64.unit) * (100 * F64.unit))
      F64.unit < 100 * F64.unit ↔ u < t) := by
  have hU := F64.unit_pos
  rcases Nat.eq_zero_or_pos u with h0 | hpos
  · subst h0
    rw [Nat.zero_mul, Nat.zero_mul, F64.roundDiv_zero _ (Nat.mul_pos ht0 hU), Nat.zero_mul,
      F64.roundDiv_zero _ hU]
    refine ⟨by omega, by omega, by simp, ?_⟩
    constructor
    · intro _; exact ht0
    · intro _; omega
  · rcases Nat.lt_or_ge u t with hlt | hge
    · obtain ⟨q1, q2⟩ := F64.quotient_lt_one u t hpos hlt ht
      obtain ⟨p1, p2⟩ := F64.product_lt_hundred _ q1 q2
      refine ⟨by omega, by omega, ?_, ?_⟩
      · constructor
        · intro _; exact hpos
        · intro _; exact p1
      · constructor
        · intro _; exact hlt
        · intro _; exact p2
    · have hut : u = t := by omega
      subst hut
      rw [F64.quotient_one u hpos, F64.product_hundred]
      refine ⟨le_refl _, le_refl _, ?_, ?_⟩
      · constructor
        · intro _; exact hpos
        · intro _; omega
      · constructor
        · intro h; omega
        · intro h; omega

theorem F64.hundred_units_lt : 100 * F64.unit < F64.overflowAt := by
  rw [F64.overflowAt_eq, show (2098 : Nat) = 1024 + 1074 from rfl, pow_add, ← F64.unit_eq]
  exact Nat.mul_lt_mul_of_pos_right (lt_trans (by decide) (two_pow_lt 7 1024 (by decide)))
    F64.unit_pos

/-- The partial-block test of `recalculateStatsFromFile`, `occupancyRate < 100 &&
occupancyRate > 0`, holds exactly when the used bytes are above 0 and below the block size,
for a block size below `2^53`. -/
theorem percentage_partial (u t : Nat) (ht0 : 0 < t) (ht : t < 2 ^ 53) (hu : u ≤ t) :
    (F64.lt (percentage u t) F64.hundred && F64.lt F64.zero (percentage u t)) =
      decide (0 < u ∧ u < t) := by
  obtain ⟨b1, b2, b3, b4⟩ := F64.percentage_units u t ht0 ht hu
  have hU := F64.unit_pos
  have hov := F64.hundred_units_lt
  have hh : F64.hundred = F64.fin ((100 * F64.unit : Nat) : Int) := by
    unfold F64.hundred; push_cast; rfl
  unfold percentage
  rw [F64.ofNat_exact u (lt_of_le_of_lt hu ht), F64.ofNat_exact t ht,
    F64.div_fin _ _ (Nat.mul_pos ht0 hU) (by omega), hh, F64.mul_fin _ _ (by omega)]
  generalize F64.roundDiv (F64.roundDiv (u * F64.unit * F64.unit) (t * F64.unit) *
    (100 * F64.unit)) F64.unit = Rm at b2 b3 b4
  simp only [F64.lt, F64.zero]
  by_cases h1 : 0 < u
  · by_cases h2 : u < t
    · have i1 := b3.2 h1
      have i2 := b4.2 h2
      simp only [h1, h2, and_self, decide_True, Bool.and_eq_true, decide_eq_true_eq]
      constructor <;> omega
    · have i2 : ¬ Rm < 100 * F64.unit := fun h => h2 (b4.1 h)
      simp only [h1, h2, and_false, decide_False, Bool.and_eq_false_imp, decide_eq_true_eq,
        decide_eq_false_iff_not]
      intro h
      omega
  · have i1 : ¬ 0 < Rm := fun h => h1 (b3.1 h)
    simp only [h1, false_and, decide_False, Bool.and_eq_false_imp, decide_eq_true_eq,
      decide_eq_false_iff_not]
    intro _
    omega

/-! ## Statistics re-derived from the file -/

theorem readBlock_length (file : List Byte) (bs i : Nat) (h : i < file.length / bs) :
    (readBlock file bs i).length = bs := by
  have hbs : 0 < bs := by
    rcases Nat.eq_zero_or_pos bs with h0 | h0
    · subst h0; simp at h
    · exact h0
  have h1 : (i + 1) * bs ≤ file.length := by
    have := (Nat.le_div_iff_mul_le hbs).1 (Nat.succ_le_of_lt h)
    exact this
  have e : (i + 1) * bs = i * bs + bs := by ring
  rw [e] at h1
  unfold readBlock slice
  rw [List.length_take, List.length_drop]
  omega

/-- What the block loop of `recalculateStatsFromFile` adds to the statistics: one entry per
block, in order. -/
theorem statsBlocks_spec (bs : Nat) (file : List Byte)
    (perBlock : List Byte → Option (Nat × Nat)) :
    ∀ (n blockNum tu0 : Nat) (stats : StorageStats) (r : Nat × StorageStats),
      statsBlocks bs file perBlock n blockNum tu0 stats = some r →
      ∃ entries : List BlockStats,
        r.2.BlockStatsList = stats.BlockStatsList ++ entries ∧ entries.length = n ∧
        r.1 = tu0 + (entries.map (fun e => e.BytesUsed)).sum ∧
        r.2.PartialBlocks = stats.PartialBlocks + (entries.filter BlockStats.isPartial).length ∧
        r.2.TotalBlocks = stats.TotalBlocks ∧ r.2.TotalBytesTotal = stats.TotalBytesTotal ∧
        ∀ e ∈ entries, e.BytesTotal = bs ∧ e.OccupancyRate = percentage e.BytesUsed bs ∧
          ∃ i, blockNum ≤ i ∧ i < blockNum + n ∧ e.BlockNumber = i ∧
            perBlock (readBlock file bs i) = some (e.BytesUsed, e.RecordsCount) := by
  intro n
  induction n with
  | zero =>
    intro blockNum tu0 stats r h
    simp only [statsBlocks, Option.some.injEq] at h
    subst h
    exact ⟨[], by simp, rfl, by simp, by simp, rfl, rfl, by simp⟩
  | succ n ih =>
    intro blockNum tu0 stats r h
    rw [statsBlocks] at h
    split at h
    · cases h
    · rename_i u c hp
      obtain ⟨entries, h1, h2, h3, h4, h5, h6, h7⟩ := ih _ _ _ _ h
      refine ⟨⟨blockNum, u, bs, percentage u bs, c⟩ :: entries, ?_, ?_, ?_, ?_, ?_, ?_, ?_⟩
      · rw [h1]; simp [StorageStats.addBlock]
      · simp [h2]
      · rw [h3]; simp only [List.map_cons, List.sum_cons]; omega
      · rw [h4]
        simp only [StorageStats.addBlock, List.filter_cons, BlockStats.isPartial]
        split_ifs with hc
        · simp [hc]; omega
        · simp [hc]
      · rw [h5]; rfl
      · rw [h6]; rfl
      · intro e he
        rw [List.mem_cons] at he
        rcases he with he | he
        · subst he
          exact ⟨rfl, rfl, blockNum, le_refl _, by omega, rfl, hp⟩
        · obtain ⟨a, b, i, i1, i2, i3, i4⟩ := h7 e he
          exact ⟨a, b, i, by omega, by omega, i3, i4⟩

/-- The block loop comes to an end when the inner loop does on every block. -/
theorem statsBlocks_isSome (bs : Nat) (file : List Byte)
    (perBlock : List Byte → Option (Nat × Nat)) (htotal : ∀ block, ∃ r, perBlock block = some r) :
    ∀ (n blockNum tu0 : Nat) (stats : StorageStats),
      ∃ r, statsBlocks bs file perBlock n blockNum tu0 stats = some r := by
  intro n
  induction n with
  | zero => intro blockNum tu0 stats; exact ⟨_, rfl⟩
  | succ n ih =>
    intro blockNum tu0 stats
    rw [statsBlocks]
    obtain ⟨⟨u, c⟩, hr⟩ := htotal (readBlock file bs blockNum)
    rw [hr]
    exact ih _ _ _

/-- What `recalculateStatsFromFile` leaves in the statistics. -/
theorem recalculateStats_spec (bs : Nat) (file : List Byte)
    (perBlock : List Byte → Option (Nat × Nat)) (st : StorageStats)
    (h : recalculateStats bs file perBlock = some st) :
    st.TotalBlocks = file.length / bs ∧
    st.BlockStatsList.length = file.length / bs ∧
    st.TotalBytesTotal = file.length / bs * bs ∧
    st.TotalBytesUsed = (st.BlockStatsList.map (fun e => e.BytesUsed)).sum ∧
    st.PartialBlocks = (st.BlockStatsList.filter BlockStats.isPartial).length ∧
    ∀ e ∈ st.BlockStatsList, e.BytesTotal = bs ∧ e.OccupancyRate = percentage e.BytesUsed bs ∧
      ∃ i, i < file.length / bs ∧ e.BlockNumber = i ∧
        perBlock (readBlock file bs i) = some (e.BytesUsed, e.RecordsCount) := by
  unfold recalculateStats at h
  simp only at h
  split at h
  · cases h
  · rename_i tu st1 hs
    obtain ⟨entries, h1, h2, h3, h4, h5, h6, h7⟩ := statsBlocks_spec _ _ _ _ _ _ _ _ hs
    simp only [List.nil_append, Nat.zero_add] at h1 h3 h4 h5 h6
    injection h with h
    have hf : st.TotalBlocks = st1.TotalBlocks ∧ st.BlockStatsList = st1.BlockStatsList ∧
        st.TotalBytesTotal = st1.TotalBytesTotal ∧ st.TotalBytesUsed = tu ∧
        st.PartialBlocks = st1.PartialBlocks := by
      rw [← h]
      split_ifs <;> exact ⟨rfl, rfl, rfl, rfl, rfl⟩
    obtain ⟨f1, f2, f3, f4, f5⟩ := hf
    rw [f1, f2, f3, f4, f5, h1, h5, h6]
    refine ⟨rfl, h2, rfl, h3, h4, ?_⟩
    intro e he
    obtain ⟨a, b, i, _, i2, i3, i4⟩ := h7 e he
    exact ⟨a, b, i, by omega, i3, i4⟩

theorem recalculateStats_isSome (bs : Nat) (file : List Byte)
    (perBlock : List Byte → Option (Nat × Nat)) (htotal : ∀ block, ∃ r, perBlock block = some r) :
    ∃ st, recalculateStats bs file perBlock = some st := by
  unfold recalculateStats
  simp only
  obtain ⟨⟨tu, st1⟩, hr⟩ := statsBlocks_isSome bs file perBlock htotal (file.length / bs) 0 0
    { TotalBlocks := file.length / bs, TotalBytesUsed := 0,
      TotalBytesTotal := file.length / bs * bs, PartialBlocks := 0,
      EfficiencyRate := F64.zero, BlockStatsList := [] }
  rw [hr]
  exact ⟨_, rfl⟩

theorem sum_map_le (l : List BlockStats) (bs : Nat) (h : ∀ e ∈ l, e.BytesUsed ≤ bs) :
    (l.map (fun e => e.BytesUsed)).sum ≤ l.length * bs := by
  induction l with
  | nil => simp
  | cons a l ih =>
    have h1 := h a (List.mem_cons_self _ _)
    have h2 := ih (fun e he => h e (List.mem_cons_of_mem _ he))
    simp only [List.map_cons, List.sum_cons, List.length_cons]
    have e : (l.length + 1) * bs = l.length * bs + bs := by ring
    rw [e]
    omega

/-- A record decoded from a block lies inside the block: its size, as `getRecordSize`
computes it from the truncated fields, is at most the number of bytes from the offset to
the end of the block. -/
theorem getRecordSize_le_of_decoded (block : List Byte) (offset : Nat) (s : Student)
    (h : deserializeStudentFromBlock block offset = .ok s) :
    offset + getRecordSize s ≤ block.length := by
  unfold deserializeStudentFromBlock at h
  split_ifs at h with hc
  obtain ⟨n, c, m, p, nome, cpf, curso, mae, pai, ano, ca, -, hlen, l1, l2, l3, l4, hs, -⟩ :=
    deserializeStudent_ok_layout _ _ h
  rw [List.length_drop] at hlen
  have t1 := truncText_length_le MaxNomeLength nome
  have t2 := truncText_length_le MaxCursoLength curso
  have t3 := truncText_length_le MaxFiliacaoLength mae
  have t4 := truncText_length_le MaxFiliacaoLength pai
  have u1 : (truncText MaxNomeLength nome).length ≤ nome.length := by
    unfold truncText; split_ifs <;> simp
  have u2 : (truncText MaxCursoLength curso).length ≤ curso.length := by
    unfold truncText; split_ifs <;> simp
  have u3 : (truncText MaxFiliacaoLength mae).length ≤ mae.length := by
    unfold truncText; split_ifs <;> simp
  have u4 : (truncText MaxFiliacaoLength pai).length ≤ pai.length := by
    unfold truncText; split_ifs <;> simp
  rw [hs]
  simp only [getRecordSize, Student.TruncateFields]
  omega

theorem variable_statsBlock_le (bs : Nat) (block : List Byte) (hb : block.length = bs) :
    ∀ (fuel offset used count : Nat) (r : Nat × Nat), used ≤ offset → offset ≤ bs →
      VariableStorage.statsBlock bs block fuel offset used count = some r → r.1 ≤ bs := by
  intro fuel
  induction fuel with
  | zero => intro offset used count r _ _ h; simp [VariableStorage.statsBlock] at h
  | succ f ih =>
    intro offset used count r h1 h2 h
    rw [VariableStorage.statsBlock] at h
    by_cases c1 : offset < bs
    swap
    · rw [if_pos c1] at h; injection h with h; subst h; exact le_trans h1 h2
    by_cases c2 : offset + 4 > bs
    · rw [if_neg (by omega), if_pos c2] at h; injection h with h; subst h; exact le_trans h1 h2
    rw [if_neg (by omega), if_neg c2] at h
    split at h
    · injection h with h; subst h; exact le_trans h1 h2
    · rename_i student hd
      have := getRecordSize_le_of_decoded block offset student hd
      exact ih _ _ _ _ (by omega) (by omega) h

theorem variable_statsBlock_isSome (bs : Nat) (block : List Byte) :
    ∀ (fuel offset used count : Nat), 1 ≤ fuel → bs + 1 ≤ offset + fuel →
      ∃ r, VariableStorage.statsBlock bs block fuel offset used count = some r := by
  intro fuel
  induction fuel with
  | zero => intro offset used count h; omega
  | succ f ih =>
    intro offset used count _ hf
    rw [VariableStorage.statsBlock]
    by_cases c1 : offset < bs
    swap
    · rw [if_pos c1]; exact ⟨_, rfl⟩
    by_cases c2 : offset + 4 > bs
    · rw [if_neg (by omega), if_pos c2]; exact ⟨_, rfl⟩
    rw [if_neg (by omega), if_neg c2]
    split
    · exact ⟨_, rfl⟩
    · rename_i student _
      have := getRecordSize_pos student
      exact ih _ _ _ (by omega) (by omega)

theorem fixed_statsBlock_le (bs frs : Nat) (block : List Byte) :
    ∀ (fuel offset count c : Nat), count * frs ≤ offset → offset ≤ bs →
      FixedStorage.statsBlock bs frs block fuel offset count = some c → c * frs ≤ bs := by
  intro fuel
  induction fuel with
  | zero => intro offset count c _ _ h; simp [FixedStorage.statsBlock] at h
  | succ f ih =>
    intro offset count c h1 h2 h
    rw [FixedStorage.statsBlock] at h
    by_cases c1 : offset + frs ≤ bs
    swap
    · rw [if_pos c1] at h; injection h with h; subst h; exact le_trans h1 h2
    by_cases c2 : offset + 4 > bs
    · rw [if_neg (by omega), if_pos c2] at h; injection h with h; subst h; exact le_trans h1 h2
    rw [if_neg (by omega), if_neg c2] at h
    refine ih _ _ _ ?_ c1 h
    have e : (count + 1) * frs = count * frs + frs := by ring
    split_ifs
    · rw [e]; omega
    · omega

theorem fixed_statsBlock_isSome (bs frs : Nat) (hfrs : 0 < frs) (block : List Byte) :
    ∀ (fuel offset count : Nat), 1 ≤ fuel → bs + 1 ≤ offset + fuel →
      ∃ c, FixedStorage.statsBlock bs frs block fuel offset count = some c := by
  intro fuel
  induction fuel with
  | zero => intro offset count h; omega
  | succ f ih =>
    intro offset count _ hf
    rw [FixedStorage.statsBlock]
    by_cases c1 : offset + frs ≤ bs
    swap
    · rw [if_pos c1]; exact ⟨_, rfl⟩
    by_cases c2 : offset + 4 > bs
    · rw [if_neg (by omega), if_pos c2]; exact ⟨_, rfl⟩
    rw [if_neg (by omega), if_neg c2]
    exact ih _ _ (by omega) (by omega)

/-- On a storage object whose record size is still zero the inner loop of the fixed-width
statistics never advances: no amount of fuel brings it to an end. -/
theorem FixedStorage.statsBlock_zero_record_size (bs : Nat) (block : List Byte) :
    ∀ (fuel offset count : Nat), offset + 4 ≤ bs →
      FixedStorage.statsBlock bs 0 block fuel offset count = none := by
  intro fuel
  induction fuel with
  | zero => intro offset count _; rfl
  | succ f ih =>
    intro offset count h
    rw [FixedStorage.statsBlock, if_neg (by omega), if_neg (by omega)]
    exact ih _ _ h

theorem fragmented_statsBlock_le (bs : Nat) (block : List Byte) :
    ∀ (fuel offset used count : Nat) (r : Nat × Nat), used ≤ offset → offset ≤ bs →
      VariableFragmentedStorage.statsBlock bs block fuel offset used count = some r →
      r.1 ≤ bs := by
  intro fuel
  induction fuel with
  | zero => intro offset used count r _ _ h; simp [VariableFragmentedStorage.statsBlock] at h
  | succ f ih =>
    intro offset used count r h1 h2 h
    rw [VariableFragmentedStorage.statsBlock] at h
    by_cases c1 : offset < bs
    swap
    · rw [if_pos c1] at h; injection h with h; subst h; exact le_trans h1 h2
    by_cases c2 : offset + 5 > bs
    · rw [if_neg (by omega), if_pos c2] at h; injection h with h; subst h; exact le_trans h1 h2
    rw [if_neg (by omega), if_neg c2] at h
    simp only at h
    split_ifs at h with c3 c4
    · injection h with h; subst h; exact le_trans h1 h2
    · exact ih _ _ _ _ (by omega) (by omega) h
    · exact ih _ _ _ _ (by omega) (le_refl _) h

theorem fragmented_statsBlock_isSome (bs : Nat) (block : List Byte) :
    ∀ (fuel offset used count : Nat), 1 ≤ fuel → bs + 1 ≤ offset + fuel →
      ∃ r, VariableFragmentedStorage.statsBlock bs block fuel offset used count = some r := by
  intro fuel
  induction fuel with
  | zero => intro offset used count h; omega
  | succ f ih =>
    intro offset used count _ hf
    rw [VariableFragmentedStorage.statsBlock]
    by_cases c1 : offset < bs
    swap
    · rw [if_pos c1]; exact ⟨_, rfl⟩
    by_cases c2 : offset + 5 > bs
    · rw [if_neg (by omega), if_pos c2]; exact ⟨_, rfl⟩
    rw [if_neg (by omega), if_neg c2]
    simp only
    split_ifs with c3 c4
    · exact ⟨_, rfl⟩
    · exact ih _ _ _ (by omega) (by omega)
    · exact ih _ _ _ (by omega) (by omega)

/-- The statistics `recalculateStatsFromFile` derives with an inner loop that never counts
more than a block of used bytes. -/
theorem recalculateStats_bounds (bs : Nat) (file : List Byte)
    (perBlock : List Byte → Option (Nat × Nat))
    (hbound : ∀ (block : List Byte) (r : Nat × Nat), block.length = bs →
      perBlock block = some r → r.1 ≤ bs)
    (st : StorageStats) (h : recalculateStats bs file perBlock = some st) :
    (∀ e ∈ st.BlockStatsList, e.BytesUsed ≤ e.BytesTotal) ∧
    st.TotalBytesUsed ≤ st.TotalBytesTotal ∧
    (bs < 2 ^ 53 → st.DerivedFrom bs file) := by
  obtain ⟨h1, h2, h3, h4, h5, h6⟩ := recalculateStats_spec bs file perBlock st h
  have hle : ∀ e ∈ st.BlockStatsList, e.BytesUsed ≤ bs := by
    intro e he
    obtain ⟨-, -, i, hi, -, hp⟩ := h6 e he
    exact hbound _ _ (readBlock_length file bs i hi) hp
  refine ⟨?_, ?_, ?_⟩
  · intro e he
    rw [(h6 e he).1]
    exact hle e he
  · rw [h4, h3, ← h2]
    exact sum_map_le _ _ hle
  · intro hbs
    refine ⟨h1, by rw [h2, h1], by rw [h3, h1], h4, ?_⟩
    rw [h5]
    congr 1
    apply List.filter_congr
    intro e he
    obtain ⟨a, b, i, hi, -, -⟩ := h6 e he
    have hpos : 0 < bs := by
      rcases Nat.eq_zero_or_pos bs with h0 | h0
      · subst h0; simp at hi
      · exact h0
    unfold BlockStats.isPartial
    rw [b, a]
    exact percentage_partial _ _ hpos hbs (hle e he)

theorem variable_getStats_spec (vs : VariableStorage) (file : List Byte) :
    ∃ st, vs.GetStats file = some st ∧
      (∀ e ∈ st.BlockStatsList, e.BytesUsed ≤ e.BytesTotal) ∧
      st.TotalBytesUsed ≤ st.TotalBytesTotal ∧
      (vs.blockSize < 2 ^ 53 → st.DerivedFrom vs.blockSize file) := by
  unfold VariableStorage.GetStats
  obtain ⟨st, hst⟩ := recalculateStats_isSome vs.blockSize file
    (fun block => VariableStorage.statsBlock vs.blockSize block (vs.blockSize + 1) 0 0 0)
    (fun block => variable_statsBlock_isSome _ _ _ _ _ _ (by omega) (by omega))
  refine ⟨st, hst, recalculateStats_bounds _ _ _ ?_ st hst⟩
  intro block r hb hr
  exact variable_statsBlock_le _ _ hb _ _ _ _ _ (le_refl _) (Nat.zero_le _) hr

theorem fixed_getStats_spec (fs : FixedStorage) (hfrs : 0 < fs.fixedRecordSize)
    (file : List Byte) :
    ∃ st, fs.GetStats file = some st ∧
      (∀ e ∈ st.BlockStatsList, e.BytesUsed ≤ e.BytesTotal) ∧
      st.TotalBytesUsed ≤ st.TotalBytesTotal ∧
      (fs.blockSize < 2 ^ 53 → st.DerivedFrom fs.blockSize file) := by
  unfold FixedStorage.GetStats
  obtain ⟨st, hst⟩ := recalculateStats_isSome fs.blockSize file
    (fun block =>
      match FixedStorage.statsBlock fs.blockSize fs.fixedRecordSize block (fs.blockSize + 1) 0 0
        with
      | none => none
      | some recordsCount => some (recordsCount * fs.fixedRecordSize, recordsCount))
    (fun block => by
      obtain ⟨c, hc⟩ := fixed_statsBlock_isSome fs.blockSize fs.fixedRecordSize hfrs block
        (fs.blockSize + 1) 0 0 (by omega) (by omega)
      simp only [hc]
      exact ⟨_, rfl⟩)
  refine ⟨st, hst, recalculateStats_bounds _ _ _ ?_ st hst⟩
  intro block r _ hr
  simp only at hr
  split at hr
  · cases hr
  · rename_i c hc
    injection hr with hr
    subst hr
    exact fixed_statsBlock_le _ _ _ _ _ _ _ (by simp) (Nat.zero_le _) hc

theorem fragmented_getStats_spec (vfs : VariableFragmentedStorage)
    (file : List Byte) :
    ∃ st, vfs.GetStats file = some st ∧
      (∀ e ∈ st.BlockStatsList, e.BytesUsed ≤ e.BytesTotal) ∧
      st.TotalBytesUsed ≤ st.TotalBytesTotal ∧
      (vfs.blockSize < 2 ^ 53 → st.DerivedFrom vfs.blockSize file) := by
  unfold VariableFragmentedStorage.GetStats
  obtain ⟨st, hst⟩ := recalculateStats_isSome vfs.blockSize file
    (fun block =>
      VariableFragmentedStorage.statsBlock vfs.blockSize block (vfs.blockSize + 1) 0 0 0)
    (fun block => fragmented_statsBlock_isSome _ _ _ _ _ _ (by omega) (by omega))
  refine ⟨st, hst, recalculateStats_bounds _ _ _ ?_ st hst⟩
  intro block r _ hr
  exact fragmented_statsBlock_le _ _ _ _ _ _ _ (le_refl _) (Nat.zero_le _) hr

/-- C19: in every layout (for FixedStorage once its record size is set), on every file
content, `GetStats` returns statistics in which every block entry has
`BytesUsed ≤ BytesTotal` and in which `TotalBytesUsed ≤ TotalBytesTotal`. -/
theorem C19_used_never_exceeds_available (file : List Byte) :
    (∀ vs : VariableStorage, ∃ st, vs.GetStats file = some st ∧
      (∀ e ∈ st.BlockStatsList, e.BytesUsed ≤ e.BytesTotal) ∧
      st.TotalBytesUsed ≤ st.TotalBytesTotal) ∧
    (∀ fs : FixedStorage, 0 < fs.fixedRecordSize → ∃ st, fs.GetStats file = some st ∧
      (∀ e ∈ st.BlockStatsList, e.BytesUsed ≤ e.BytesTotal) ∧
      st.TotalBytesUsed ≤ st.TotalBytesTotal) ∧
    (∀ vfs : VariableFragmentedStorage, ∃ st, vfs.GetStats file = some st ∧
      (∀ e ∈ st.BlockStatsList, e.BytesUsed ≤ e.BytesTotal) ∧
      st.TotalBytesUsed ≤ st.TotalBytesTotal) := by
  refine ⟨fun vs => ?_, fun fs h => ?_, fun vfs => ?_⟩
  · obtain ⟨st, h1, h2, h3, -⟩ := variable_getStats_spec vs file
    exact ⟨st, h1, h2, h3⟩
  · obtain ⟨st, h1, h2, h3, -⟩ := fixed_getStats_spec fs h file
    exact ⟨st, h1, h2, h3⟩
  · obtain ⟨st, h1, h2, h3, -⟩ := fragmented_getStats_spec vfs file
    exact ⟨st, h1, h2, h3⟩

theorem C19_used_never_exceeds_available_witness :
    (0 : Nat) < 167 ∧
    ∃ st, FixedStorage.GetStats ⟨200, 167, StorageStats.empty⟩ (List.replicate 450 1) = some st ∧
      (∀ e ∈ st.BlockStatsList, e.BytesUsed ≤ e.BytesTotal) ∧
      st.TotalBytesUsed ≤ st.TotalBytesTotal :=
  ⟨by decide, (C19_used_never_exceeds_available (List.replicate 450 1)).2.1
    ⟨200, 167, StorageStats.empty⟩ (by decide)⟩

/-- In every layout (for FixedStorage once its record size is set), on every file and
for a block size below `2^53` (a block is allocated in memory, so its size is far below
that), `GetStats` returns statistics whose `TotalBlocks` is the file size divided by the
block size, rounded down, and the number of block entries, whose `TotalBytesTotal` is
`TotalBlocks` times the block size, whose `TotalBytesUsed` is the sum of `BytesUsed` over
the entries, and whose `PartialBlocks` is the number of entries with
`0 < BytesUsed < BytesTotal`. -/
theorem getStats_aggregates_derived (file : List Byte) :
    (∀ vs : VariableStorage, vs.blockSize < 2 ^ 53 →
      ∃ st, vs.GetStats file = some st ∧ st.DerivedFrom vs.blockSize file) ∧
    (∀ fs : FixedStorage, 0 < fs.fixedRecordSize → fs.blockSize < 2 ^ 53 →
      ∃ st, fs.GetStats file = some st ∧ st.DerivedFrom fs.blockSize file) ∧
    (∀ vfs : VariableFragmentedStorage, vfs.blockSize < 2 ^ 53 →
      ∃ st, vfs.GetStats file = some st ∧ st.DerivedFrom vfs.blockSize file) := by
  refine ⟨fun vs hb => ?_, fun fs h hb => ?_, fun vfs hb => ?_⟩
  · obtain ⟨st, h1, -, -, h4⟩ := variable_getStats_spec vs file
    exact ⟨st, h1, h4 hb⟩
  · obtain ⟨st, h1, -, -, h4⟩ := fixed_getStats_spec fs h file
    exact ⟨st, h1, h4 hb⟩
  · obtain ⟨st, h1, -, -, h4⟩ := fragmented_getStats_spec vfs file
    exact ⟨st, h1, h4 hb⟩

/-- C20, evaluated on FixedStorage with block size 200 and the file written from `sampleA`
and `sampleB` (two blocks). On the object that wrote the file `GetStats` returns statistics
whose aggregates are derived from the two entries: 2 blocks and 2 entries, 400 bytes in
total, 334 bytes used, which is the sum over the entries, and 2 partial blocks, which is the
number of entries with `0 < BytesUsed < BytesTotal`. On the object `NewFixedStorage`
returns, whose record size is 0, the inner loop of `recalculateStatsFromFile` never
advances, whatever the fuel, and `GetStats` returns nothing for the same file. -/
theorem C20_fixed_aggregates_on_new_object :
    NewFixedStorage 200 = .ok ⟨200, 0, StorageStats.empty⟩ ∧
    (FixedStorage.WriteStudents ⟨200, 0, StorageStats.empty⟩ [sampleA, sampleB]).2.file.length
      / 200 = 2 ∧
    ((FixedStorage.WriteStudents ⟨200, 0, StorageStats.empty⟩ [sampleA, sampleB]).1.GetStats
        (FixedStorage.WriteStudents ⟨200, 0, StorageStats.empty⟩ [sampleA, sampleB]).2.file).map
      (fun st => (st.TotalBlocks, st.BlockStatsList.length, st.TotalBytesTotal)) =
      some (2, 2, 400) ∧
    ((FixedStorage.WriteStudents ⟨200, 0, StorageStats.empty⟩ [sampleA, sampleB]).1.GetStats
        (FixedStorage.WriteStudents ⟨200, 0, StorageStats.empty⟩ [sampleA, sampleB]).2.file).map
      (fun st => (st.TotalBytesUsed, (st.BlockStatsList.map (fun e => e.BytesUsed)).sum,
        st.PartialBlocks,
        (st.BlockStatsList.filter
          (fun e => decide (0 < e.BytesUsed ∧ e.BytesUsed < e.BytesTotal))).length)) =
      some (334, 334, 2, 2) ∧
    FixedStorage.GetStats ⟨200, 0, StorageStats.empty⟩
      (FixedStorage.WriteStudents ⟨200, 0, StorageStats.empty⟩ [sampleA, sampleB]).2.file = none ∧
    (∀ (block : List Byte) (fuel : Nat), FixedStorage.statsBlock 200 0 block fuel 0 0 = none) := by
  refine ⟨by decide, by decide!, by decide!, by decide!, by decide!, ?_⟩
  intro block fuel
  exact FixedStorage.statsBlock_zero_record_size 200 block fuel 0 0 (by decide)

/-- C18, evaluated on FixedStorage with block size 200 and the file written from `sampleA`
and `sampleB`: the storage object that wrote the file has its record size set to 167, and
its `GetStats` returns statistics (2 blocks, 334 bytes used, 2 partial blocks). A newly constructed object
with the same block size has the record size 0; on it the inner loop of
`recalculateStatsFromFile` never advances, whatever the fuel, so `GetStats` returns nothing.
In the two variable-width layouts `GetStats` does not read the state of the object, so
there the two calls agree. -/
theorem C18_fixed_stats_on_new_object :
    NewFixedStorage 200 = .ok ⟨200, 0, StorageStats.empty⟩ ∧
    (FixedStorage.WriteStudents ⟨200, 0, StorageStats.empty⟩ [sampleA, sampleB]).1.fixedRecordSize
      = 167 ∧
    ((FixedStorage.WriteStudents ⟨200, 0, StorageStats.empty⟩ [sampleA, sampleB]).1.GetStats
        (FixedStorage.WriteStudents ⟨200, 0, StorageStats.empty⟩ [sampleA, sampleB]).2.file).map
      (fun st => (st.TotalBlocks, st.TotalBytesUsed, st.PartialBlocks)) = some (2, 334, 2) ∧
    FixedStorage.GetStats ⟨200, 0, StorageStats.empty⟩
      (FixedStorage.WriteStudents ⟨200, 0, StorageStats.empty⟩ [sampleA, sampleB]).2.file = none ∧
    (∀ (block : List Byte) (fuel : Nat), FixedStorage.statsBlock 200 0 block fuel 0 0 = none) ∧
    (∀ (vs : VariableStorage) (stats : StorageStats) (file : List Byte),
      VariableStorage.GetStats ⟨vs.blockSize, stats⟩ file = vs.GetStats file) ∧
    (∀ (vfs : VariableFragmentedStorage) (stats : StorageStats) (file : List Byte),
      VariableFragmentedStorage.GetStats ⟨vfs.blockSize, stats⟩ file = vfs.GetStats file) := by
  refine ⟨by decide, by decide, by decide!, by decide!, ?_, fun _ _ _ => rfl, fun _ _ _ => rfl⟩
  intro block fuel
  exact FixedStorage.statsBlock_zero_record_size 200 block fuel 0 0 (by decide)

/-! ## The byte layouts of the two encoders -/

theorem leEncode_mod (w n : Nat) : leEncode w (n % 256 ^ w) = leEncode w n := by
  induction w generalizing n with
  | zero => rfl
  | succ w ih =>
    have h1 : byteOf (n % 256 ^ (w + 1)) = byteOf n := by
      unfold byteOf
      congr 1
      rw [pow_succ, Nat.mul_comm]
      exact Nat.mod_mul_right_mod n 256 (256 ^ w)
    have h2 : n % 256 ^ (w + 1) / 256 = n / 256 % 256 ^ w := by
      rw [pow_succ, Nat.mul_comm, Nat.mod_mul_right_div_self]
    simp only [leEncode, h1, h2, ih]

theorem padField_eq (n : Nat) (pad : Byte) (t : List Byte) :
    padField n pad t = t.take n ++ List.replicate (n - t.length) pad := by
  simp only [padField]
  split_ifs with h
  · rw [List.length_take, show min n t.length = n by omega, Nat.sub_self,
      show n - t.length = 0 by omega]
  · rw [List.take_of_length_le (by omega)]

/-- C29: for every record, whatever its field lengths, `serializeStudentFixed` returns
exactly 167 bytes, laid out in this order: bytes 0..3 the key modulo `2^32` in little-endian,
bytes 4..53 the first 50 bytes of the name padded on the right with `'#'`, bytes 54..64 the
first 11 bytes of the CPF padded on the right with `'0'`, bytes 65..94, 95..124 and 125..154
the first 30 bytes of the course and of the two guardian names padded on the right with
`'#'`, bytes 155..158 the year modulo `2^32` in little-endian, and bytes 159..166 the score
integer in little-endian. -/
theorem C29_fixed_width_layout (r : Student) :
    (serializeStudentFixed r).length = 167 ∧
    slice (serializeStudentFixed r) 0 4 = leEncode 4 (r.Matricula % 4294967296).toNat ∧
    slice (serializeStudentFixed r) 4 54 =
      r.Nome.take 50 ++ List.replicate (50 - r.Nome.length) 35 ∧
    slice (serializeStudentFixed r) 54 65 =
      r.CPF.take 11 ++ List.replicate (11 - r.CPF.length) 48 ∧
    slice (serializeStudentFixed r) 65 95 =
      r.Curso.take 30 ++ List.replicate (30 - r.Curso.length) 35 ∧
    slice (serializeStudentFixed r) 95 125 =
      r.FiliacaoMae.take 30 ++ List.replicate (30 - r.FiliacaoMae.length) 35 ∧
    slice (serializeStudentFixed r) 125 155 =
      r.FiliacaoPai.take 30 ++ List.replicate (30 - r.FiliacaoPai.length) 35 ∧
    slice (serializeStudentFixed r) 155 159 = leEncode 4 (r.AnoIngresso % 4294967296).toNat ∧
    slice (serializeStudentFixed r) 159 167 = leEncode 8 (encodeCA r.CA) := by
  have l1 := padField_length MaxNomeLength 35 r.Nome
  have l2 := padField_length CPFLength 48 r.CPF
  have l3 := padField_length MaxCursoLength 35 r.Curso
  have l4 := padField_length MaxFiliacaoLength 35 r.FiliacaoMae
  have l5 := padField_length MaxFiliacaoLength 35 r.FiliacaoPai
  have e1 := padField_eq MaxNomeLength 35 r.Nome
  have e2 := padField_eq CPFLength 48 r.CPF
  have e3 := padField_eq MaxCursoLength 35 r.Curso
  have e4 := padField_eq MaxFiliacaoLength 35 r.FiliacaoMae
  have e5 := padField_eq MaxFiliacaoLength 35 r.FiliacaoPai
  simp only [MaxNomeLength, CPFLength, MaxCursoLength, MaxFiliacaoLength] at l1 l2 l3 l4 l5
  simp only [MaxNomeLength, CPFLength, MaxCursoLength, MaxFiliacaoLength] at e1 e2 e3 e4 e5
  refine ⟨serializeStudentFixed_length r, ?_, ?_, ?_, ?_, ?_, ?_, ?_, ?_⟩
  all_goals unfold serializeStudentFixed
  all_goals simp only [MaxNomeLength, CPFLength, MaxCursoLength, MaxFiliacaoLength, uint32]
  · simp only [List.append_assoc]
    exact slice_head _ _ _ (by rw [leEncode_length])
  · rw [← e1]
    simp only [List.append_assoc]
    exact slice_mid _ _ _ _ _ (by rw [leEncode_length]) (by rw [l1])
  · rw [← e2]
    generalize padField 50 35 r.Nome = a at l1
    generalize padField 11 48 r.CPF = b at l2
    have := slice_mid (leEncode 4 (r.Matricula % 4294967296).toNat ++ a) b
      (padField 30 35 r.Curso ++ (padField 30 35 r.FiliacaoMae ++
        (padField 30 35 r.FiliacaoPai ++ (leEncode 4 (r.AnoIngresso % 4294967296).toNat ++
          leEncode 8 (encodeCA r.CA))))) 54 65
      (by rw [List.length_append, leEncode_length, l1]) (by rw [l2])
    simpa only [List.append_assoc] using this
  · rw [← e3]
    generalize padField 50 35 r.Nome = a at l1
    generalize padField 11 48 r.CPF = b at l2
    generalize padField 30 35 r.Curso = c at l3
    have := slice_mid (leEncode 4 (r.Matricula % 4294967296).toNat ++ a ++ b) c
      (padField 30 35 r.FiliacaoMae ++
        (padField 30 35 r.FiliacaoPai ++ (leEncode 4 (r.AnoIngresso % 4294967296).toNat ++
          leEncode 8 (encodeCA r.CA)))) 65 95
      (by simp only [List.length_append, leEncode_length, l1, l2]) (by rw [l3])
    simpa only [List.append_assoc] using this
  · rw [← e4]
    generalize padField 50 35 r.Nome = a at l1
    generalize padField 11 48 r.CPF = b at l2
    generalize padField 30 35 r.Curso = c at l3
    generalize padField 30 35 r.FiliacaoMae = d at l4
    have := slice_mid (leEncode 4 (r.Matricula % 4294967296).toNat ++ a ++ b ++ c) d
      (padField 30 35 r.FiliacaoPai ++ (leEncode 4 (r.AnoIngresso % 4294967296).toNat ++
          leEncode 8 (encodeCA r.CA))) 95 125
      (by simp only [List.length_append, leEncode_length, l1, l2, l3]) (by rw [l4])
    simpa only [List.append_assoc] using this
  · rw [← e5]
    generalize padField 50 35 r.Nome = a at l1
    generalize padField 11 48 r.CPF = b at l2
    generalize padField 30 35 r.Curso = c at l3
    generalize padField 30 35 r.FiliacaoMae = d at l4
    generalize padField 30 35 r.FiliacaoPai = e at l5
    have := slice_mid (leEncode 4 (r.Matricula % 4294967296).toNat ++ a ++ b ++ c ++ d) e
      (leEncode 4 (r.AnoIngresso % 4294967296).toNat ++ leEncode 8 (encodeCA r.CA)) 125 155
      (by simp only [List.length_append, leEncode_length, l1, l2, l3, l4]) (by rw [l5])
    simpa only [List.append_assoc] using this
  · generalize padField 50 35 r.Nome = a at l1
    generalize padField 11 48 r.CPF = b at l2
    generalize padField 30 35 r.Curso = c at l3
    generalize padField 30 35 r.FiliacaoMae = d at l4
    generalize padField 30 35 r.FiliacaoPai = e at l5
    have := slice_mid (leEncode 4 (r.Matricula % 4294967296).toNat ++ a ++ b ++ c ++ d ++ e)
      (leEncode 4 (r.AnoIngresso % 4294967296).toNat) (leEncode 8 (encodeCA r.CA)) 155 159
      (by simp only [List.length_append, leEncode_length, l1, l2, l3, l4, l5])
      (by rw [leEncode_length])
    simpa only [List.append_assoc] using this
  · generalize padField 50 35 r.Nome = a at l1
    generalize padField 11 48 r.CPF = b at l2
    generalize padField 30 35 r.Curso = c at l3
    generalize padField 30 35 r.FiliacaoMae = d at l4
    generalize padField 30 35 r.FiliacaoPai = e at l5
    have := slice_mid (leEncode 4 (r.Matricula % 4294967296).toNat ++ a ++ b ++ c ++ d ++ e ++
        leEncode 4 (r.AnoIngresso % 4294967296).toNat)
      (leEncode 8 (encodeCA r.CA)) [] 159 167
      (by simp only [List.length_append, leEncode_length, l1, l2, l3, l4, l5])
      (by rw [leEncode_length])
    simpa only [List.append_assoc, List.append_nil] using this

/-- C30: for every record `r`, `serializeStudent r` is the key modulo `2^32` in 4 bytes
little-endian, then the name, after the CPF the course and the two guardian names, each
text with its length in 4 bytes little-endian before it and the CPF as it is, then the year
in 4 bytes and the score integer in 8 bytes. Its length is 32 plus the lengths of the CPF
and of the four texts, which is `getRecordSize r` whenever the CPF has 11 bytes. The
encoder of `VariableFragmentedStorage` returns the same bytes. -/
theorem C30_variable_width_layout (r : Student) :
    serializeStudent r =
      leEncode 4 (r.Matricula % 4294967296).toNat ++ leEncode 4 r.Nome.length ++ r.Nome ++
        r.CPF ++ leEncode 4 r.Curso.length ++ r.Curso ++
        leEncode 4 r.FiliacaoMae.length ++ r.FiliacaoMae ++
        leEncode 4 r.FiliacaoPai.length ++ r.FiliacaoPai ++
        leEncode 4 (r.AnoIngresso % 4294967296).toNat ++ leEncode 8 (encodeCA r.CA) ∧
    (serializeStudent r).length =
      32 + r.CPF.length + r.Nome.length + r.Curso.length + r.FiliacaoMae.length +
        r.FiliacaoPai.length ∧
    (r.CPF.length = 11 → (serializeStudent r).length = getRecordSize r) ∧
    VariableFragmentedStorage.serializeStudent r = serializeStudent r := by
  have hmod : ∀ n : Nat, leEncode 4 (n % 4294967296) = leEncode 4 n := fun n => leEncode_mod 4 n
  refine ⟨?_, serializeStudent_length r, ?_, ?_⟩
  · simp only [serializeStudent, lenPrefixed, hmod, uint32, List.append_assoc]
  · intro h
    rw [serializeStudent_length, h]
    unfold getRecordSize
    omega
  · simp only [VariableFragmentedStorage.serializeStudent, serializeStudent, lenPrefixed,
      encodeCA, List.nil_append, List.append_assoc]

theorem C30_variable_width_layout_witness :
    sampleA.CPF.length = 11 ∧ (serializeStudent sampleA).length = getRecordSize sampleA :=
  ⟨by decide, (C30_variable_width_layout sampleA).2.2.1 (by decide)⟩

/-! ## Chunk chains in the file and in the statistics -/

/-- C21, evaluated on the record `sample356` (356 bytes, two chunks of 178 payload bytes
with flags 1 and 0) and block size 183. On the file that holds exactly the two chunk
blocks, `GetStats` reports the record counts 0 and 1: the record is counted in the block of
its final chunk, not of its first. On the file `WriteStudents` produces (the final chunk
block is in it twice) `GetStats` reports 0, 1, 1, whereas the statistics kept while writing
attribute the record to its first chunk (1, 0, 0). -/
theorem C21_fragmented_record_counted_at_final_chunk :
    (chunkBuffers 183 356 (serializeStudent sample356)).map (fun b => b.take 1) = [[1], [0]] ∧
    (VariableFragmentedStorage.GetStats ⟨183, StorageStats.empty⟩
        (fileOf 183 (chunkBuffers 183 356 (serializeStudent sample356)))).map
      (fun st => st.BlockStatsList.map (fun e => e.RecordsCount)) = some [0, 1] ∧
    (VariableFragmentedStorage.WriteStudents ⟨183, StorageStats.empty⟩ [sample356]).map
      (fun r => r.written.map (fun b => b.take 1)) = some [[1], [0], [0]] ∧
    (VariableFragmentedStorage.WriteStudents ⟨183, StorageStats.empty⟩ [sample356]).bind
      (fun r => (VariableFragmentedStorage.GetStats ⟨183, StorageStats.empty⟩ r.file).map
        (fun st => st.BlockStatsList.map (fun e => e.RecordsCount))) = some [0, 1, 1] ∧
    (VariableFragmentedStorage.WriteStudents ⟨183, StorageStats.empty⟩ [sample356]).map
      (fun r => r.stats.BlockStatsList.map (fun e => e.RecordsCount)) = some [1, 0, 0] := by
  refine ⟨?_, ?_, ?_, ?_, ?_⟩ <;> decide!

/-- C22, evaluated on three valid records of 100 bytes each and block size 183. The first
record fills block 0; the second and the third do not fit in what is left of the current
block, so each is written as a chunk chain (of one chunk). The chunk block of the second
record is written to the file twice (blocks 1 and 2): the chunk loop hands it to
`writeBlock` and leaves it as the current block, which the next call flushes again. So the
chain of the third record starts in block 3, two blocks after block 1, and its chunk block
is written twice as well (blocks 3 and 4). The same happens with chains of several chunks
(`sample356` followed by `sample250`). -/
theorem C22_final_chunk_block_written_twice :
    sample100.Validate = none ∧ sample100b.Validate = none ∧ sample100c.Validate = none ∧
    (VariableFragmentedStorage.WriteStudents ⟨183, StorageStats.empty⟩
        [sample100, sample100b, sample100c]).map (fun r => r.written) =
      some [serializeStudent sample100,
        chunkOf 183 (serializeStudent sample100b), chunkOf 183 (serializeStudent sample100b),
        chunkOf 183 (serializeStudent sample100c), chunkOf 183 (serializeStudent sample100c)] ∧
    (VariableFragmentedStorage.WriteStudents ⟨183, StorageStats.empty⟩
        [sample100, sample100b, sample100c]).map
      (fun r => (decide (readBlock r.file 183 1 = readBlock r.file 183 2),
        r.file.length)) = some (true, 5 * 183) ∧
    (VariableFragmentedStorage.WriteStudents ⟨183, StorageStats.empty⟩
        [sample356, sample250]).map (fun r => r.written) =
      some [chunkOf 183 (serializeStudent sample356),
        chunkOf 183 ((serializeStudent sample356).drop 178),
        chunkOf 183 ((serializeStudent sample356).drop 178),
        chunkOf 183 (serializeStudent sample250),
        chunkOf 183 ((serializeStudent sample250).drop 178),
        chunkOf 183 ((serializeStudent sample250).drop 178)] := by
  refine ⟨?_, ?_, ?_, ?_, ?_, ?_⟩ <;> decide!

/-! ## The chunk loop of the fragmented writer -/

theorem writeChunks_isSome (bs : Nat) (hbs : 5 < bs) :
    ∀ (fuel : Nat) (rem : List Byte) (first : Bool) (w : Writer), rem.length ≤ fuel →
      ∃ w1, writeChunks bs fuel rem first w = some w1 := by
  intro fuel
  induction fuel with
  | zero =>
    intro rem first w hf
    refine ⟨w, ?_⟩
    simp only [writeChunks]
    rw [if_neg (by omega)]
  | succ f ih =>
    intro rem first w hf
    simp only [writeChunks]
    by_cases hr : rem.length > 0
    · rw [if_neg (by omega)]
      apply ih
      simp only [List.length_drop]
      split_ifs <;> omega
    · rw [if_pos (by omega)]
      exact ⟨w, rfl⟩

theorem chunkBuffers_nil (bs fuel : Nat) : chunkBuffers bs fuel [] = [] := by
  cases fuel <;> simp [chunkBuffers]

theorem chunkOf_length (bs : Nat) (d : List Byte) :
    (chunkOf bs d).length = 5 + chunkSizeOf bs d := by
  unfold chunkOf
  simp only [List.length_append, List.length_cons, List.length_nil, leEncode_length,
    List.length_take]
  have : chunkSizeOf bs d ≤ d.length := by
    unfold chunkSizeOf; split_ifs <;> omega
  omega

/-- The number of chunk blocks of a record of `L` bytes is `L / (blockSize - 5)` rounded
up. -/
theorem chunkBuffers_length (bs : Nat) (hbs : 5 < bs) :
    ∀ (fuel : Nat) (d : List Byte), d.length ≤ fuel →
      (chunkBuffers bs fuel d).length = (d.length + (bs - 5) - 1) / (bs - 5) := by
  intro fuel
  induction fuel with
  | zero =>
    intro d hf
    have : d.length = 0 := by omega
    rw [this]
    simp only [chunkBuffers, List.length_nil]
    exact (Nat.div_eq_of_lt (by omega)).symm
  | succ f ih =>
    intro d hf
    simp only [chunkBuffers]
    by_cases hr : d.length > 0
    · rw [if_pos hr, List.length_cons]
      by_cases hc : d.length > bs - 5
      · have hs : chunkSizeOf bs d = bs - 5 := by unfold chunkSizeOf; rw [if_pos hc]
        rw [hs, ih _ (by rw [List.length_drop]; omega), List.length_drop]
        have e : d.length + (bs - 5) - 1 = (d.length - (bs - 5) + (bs - 5) - 1) + (bs - 5) := by
          omega
        rw [e, Nat.add_div_right _ (by omega)]
      · have hs : chunkSizeOf bs d = d.length := by unfold chunkSizeOf; rw [if_neg hc]
        rw [hs, List.drop_length, chunkBuffers_nil, List.length_nil]
        have h1 : (d.length + (bs - 5) - 1) / (bs - 5) = 1 := by
          apply Nat.div_eq_of_lt_le <;> omega
        rw [h1]
    · rw [if_neg hr, List.length_nil]
      have : d.length = 0 := by omega
      rw [this]
      exact (Nat.div_eq_of_lt (by omega)).symm

/-- The chunk buffers of a record: every chunk holds the 5-byte header and at least one
payload byte and is at most a block long, and the payloads laid end to end are the
record. -/
theorem chunkBuffers_payload (bs : Nat) (hbs : 5 < bs) :
    ∀ (fuel : Nat) (d : List Byte), d.length ≤ fuel →
      ((chunkBuffers bs fuel d).map (List.drop 5)).flatten = d ∧
      ∀ c ∈ chunkBuffers bs fuel d, 6 ≤ c.length ∧ c.length ≤ bs := by
  intro fuel
  induction fuel with
  | zero =>
    intro d hf
    have : d = [] := List.length_eq_zero.1 (by omega)
    subst this
    simp [chunkBuffers]
  | succ f ih =>
    intro d hf
    simp only [chunkBuffers]
    by_cases hr : d.length > 0
    · rw [if_pos hr]
      have hs : 1 ≤ chunkSizeOf bs d ∧ chunkSizeOf bs d ≤ bs - 5 ∧ chunkSizeOf bs d ≤ d.length := by
        unfold chunkSizeOf; split_ifs <;> omega
      obtain ⟨i1, i2⟩ := ih (d.drop (chunkSizeOf bs d)) (by rw [List.length_drop]; omega)
      refine ⟨?_, ?_⟩
      · simp only [List.map_cons, List.flatten_cons, i1]
        have : (chunkOf bs d).drop 5 = d.take (chunkSizeOf bs d) := by
          unfold chunkOf
          rw [List.drop_append_of_le_length (by simp [leEncode_length])]
          rw [List.drop_of_length_le (by simp [leEncode_length]), List.nil_append]
        rw [this, List.take_append_drop]
      · intro c hc
        rw [List.mem_cons] at hc
        rcases hc with hc | hc
        · subst hc
          rw [chunkOf_length]
          omega
        · exact i2 c hc
    · rw [if_neg hr]
      have : d = [] := List.length_eq_zero.1 (by omega)
      subst this
      simp

/-- The continuation flags of the chunk buffers of a non-empty record: every chunk but the
last has the flag 1 and fills its block, the last has the flag 0. -/
theorem chunkBuffers_flags (bs : Nat) (hbs : 5 < bs) :
    ∀ (fuel : Nat) (d : List Byte), d.length ≤ fuel → 0 < d.length →
      ∃ (init : List (List Byte)) (last : List Byte),
        chunkBuffers bs fuel d = init ++ [last] ∧
        (∀ c ∈ init, c.head? = some 1 ∧ c.length = bs) ∧ last.head? = some 0 := by
  intro fuel
  induction fuel with
  | zero => intro d hf hd; omega
  | succ f ih =>
    intro d hf hd
    simp only [chunkBuffers]
    rw [if_pos hd]
    by_cases hc : d.length > bs - 5
    · have hs : chunkSizeOf bs d = bs - 5 := by unfold chunkSizeOf; rw [if_pos hc]
      obtain ⟨init, last, e1, e2, e3⟩ := ih (d.drop (chunkSizeOf bs d))
        (by rw [List.length_drop]; omega) (by rw [List.length_drop]; omega)
      refine ⟨chunkOf bs d :: init, last, by rw [e1]; rfl, ?_, e3⟩
      intro c hcm
      rw [List.mem_cons] at hcm
      rcases hcm with hcm | hcm
      · subst hcm
        refine ⟨?_, by rw [chunkOf_length, hs]; omega⟩
        unfold chunkOf
        simp only [List.singleton_append, List.cons_append, List.head?_cons]
        rw [if_neg (by omega)]
      · exact e2 c hcm
    · have hs : chunkSizeOf bs d = d.length := by unfold chunkSizeOf; rw [if_neg hc]
      refine ⟨[], chunkOf bs d, ?_, by simp, ?_⟩
      · rw [hs, List.drop_length, chunkBuffers_nil]; rfl
      · unfold chunkOf
        simp only [List.singleton_append, List.cons_append, List.head?_cons]
        rw [if_pos (by omega)]

/-- A record that does not fit in the current block: the current block is handed to
`writeBlock` as it is when it is not empty, and the whole record follows as chunk
buffers. -/
theorem writeFragmentedRecord_written (bs : Nat) (hbs : 5 < bs) (w : Writer) (d : List Byte)
    (hfit : bs - w.currentBlock.length < d.length) :
    ∃ w1, writeFragmentedRecord bs w d = some w1 ∧
      w1.written =
        (if w.currentBlock.length > 0 then w.written ++ [w.currentBlock] else w.written) ++
          chunkBuffers bs d.length d := by
  unfold writeFragmentedRecord
  simp only
  rw [if_neg (by omega)]
  obtain ⟨w1, h1⟩ := writeChunks_isSome bs hbs d.length d true
    (if w.currentBlock.length > 0 then w.flush true else w) (le_refl _)
  refine ⟨w1, h1, ?_⟩
  rw [(writeChunks_written bs _ _ _ _ _ h1).1]
  split_ifs
  · rw [Writer.flush_written]
  · rfl

/-- C27, counterexample: block size 183 and two valid records of 100 bytes. The second
record does not fit in the 83 free bytes of block 0. Block 0 is written with the first
record alone, its free space left as zero padding, and the whole second record is written
in block 1 as one chunk with the continuation flag 0: no chunk with flag 1 fills block 0. -/
theorem C27_free_space_left_unused :
    sample100.Validate = none ∧ sample100b.Validate = none ∧
    (serializeStudent sample100).length = 100 ∧ (serializeStudent sample100b).length = 100 ∧
    (VariableFragmentedStorage.WriteStudents ⟨183, StorageStats.empty⟩
        [sample100, sample100b]).map (fun r => r.written) =
      some [serializeStudent sample100, chunkOf 183 (serializeStudent sample100b),
        chunkOf 183 (serializeStudent sample100b)] ∧
    (VariableFragmentedStorage.WriteStudents ⟨183, StorageStats.empty⟩
        [sample100, sample100b]).map (fun r => readBlock r.file 183 0) =
      some (serializeStudent sample100 ++ List.replicate 83 0) ∧
    chunkOf 183 (serializeStudent sample100b) =
      [0] ++ leEncode 4 100 ++ serializeStudent sample100b := by
  refine ⟨?_, ?_, ?_, ?_, ?_, ?_, ?_⟩ <;> decide!

/-- C27, amended: for a block size above 5, when a record's encoding does not fit in the
free space of the current non-empty block, `writeFragmentedRecord` hands the current block
to `writeBlock` as it is, its free space unused, and writes the whole record as a chain of
chunks in new blocks: the payloads (after the 5-byte headers) laid end to end are the
record, every chunk but the last has the continuation flag 1 and fills its block, and the
last chunk has the flag 0. -/
theorem C27_record_written_in_new_blocks (bs : Nat) (hbs : 5 < bs) (w : Writer)
    (d : List Byte) (hne : 0 < w.currentBlock.length)
    (hfit : bs - w.currentBlock.length < d.length) :
    ∃ w1, writeFragmentedRecord bs w d = some w1 ∧
      w1.written = w.written ++ [w.currentBlock] ++ chunkBuffers bs d.length d ∧
      ((chunkBuffers bs d.length d).map (List.drop 5)).flatten = d ∧
      ∃ (init : List (List Byte)) (last : List Byte),
        chunkBuffers bs d.length d = init ++ [last] ∧
        (∀ c ∈ init, c.head? = some 1 ∧ c.length = bs) ∧ last.head? = some 0 := by
  obtain ⟨w1, h1, h2⟩ := writeFragmentedRecord_written bs hbs w d hfit
  rw [if_pos hne] at h2
  exact ⟨w1, h1, h2, (chunkBuffers_payload bs hbs _ d (le_refl _)).1,
    chunkBuffers_flags bs hbs _ d (le_refl _) (by omega)⟩

theorem C27_record_written_in_new_blocks_witness :
    ∃ w1, writeFragmentedRecord 183
        { Writer.init 183 StorageStats.empty with currentBlock := serializeStudent sample100 }
        (serializeStudent sample100b) = some w1 ∧
      w1.written = [] ++ [serializeStudent sample100] ++
        chunkBuffers 183 (serializeStudent sample100b).length (serializeStudent sample100b) ∧
      ((chunkBuffers 183 (serializeStudent sample100b).length
        (serializeStudent sample100b)).map (List.drop 5)).flatten = serializeStudent sample100b ∧
      ∃ (init : List (List Byte)) (last : List Byte),
        chunkBuffers 183 (serializeStudent sample100b).length (serializeStudent sample100b) =
          init ++ [last] ∧
        (∀ c ∈ init, c.head? = some 1 ∧ c.length = 183) ∧ last.head? = some 0 :=
  C27_record_written_in_new_blocks 183 (by decide)
    { Writer.init 183 StorageStats.empty with currentBlock := serializeStudent sample100 }
    (serializeStudent sample100b) (by decide!) (by decide!)

/-- C28: for every block size above 5 and every record encoding, `writeFragmentedRecord`
returns (the chunk loop ends within the fuel it is given), and so does the chunk loop on
any remaining bytes. For a record of `L` bytes that does not fit, the chunk loop hands
`writeBlock` exactly `L / (blockSize - 5)` rounded up blocks, after the current block when
that is not empty, and every one of them holds the 5-byte header and at least one payload
byte. -/
theorem C28_forward_progress (bs : Nat) (hbs : 5 < bs) (w : Writer) (d : List Byte) :
    (∃ w1, writeFragmentedRecord bs w d = some w1) ∧
    (∀ (rem : List Byte) (first : Bool), ∃ w1, writeChunks bs rem.length rem first w = some w1) ∧
    (bs - w.currentBlock.length < d.length →
      ∃ w1, writeFragmentedRecord bs w d = some w1 ∧
        w1.written =
          (if w.currentBlock.length > 0 then w.written ++ [w.currentBlock] else w.written) ++
            chunkBuffers bs d.length d ∧
        (chunkBuffers bs d.length d).length = (d.length + (bs - 5) - 1) / (bs - 5) ∧
        ∀ c ∈ chunkBuffers bs d.length d, 6 ≤ c.length ∧ c.length ≤ bs) := by
  refine ⟨?_, ?_, ?_⟩
  · by_cases hfit : bs - w.currentBlock.length < d.length
    · obtain ⟨w1, h1, -⟩ := writeFragmentedRecord_written bs hbs w d hfit
      exact ⟨w1, h1⟩
    · unfold writeFragmentedRecord
      simp only
      rw [if_pos (by omega)]
      exact ⟨_, rfl⟩
  · intro rem first
    exact writeChunks_isSome bs hbs rem.length rem first w (le_refl _)
  · intro hfit
    obtain ⟨w1, h1, h2⟩ := writeFragmentedRecord_written bs hbs w d hfit
    exact ⟨w1, h1, h2, chunkBuffers_length bs hbs _ d (le_refl _),
      (chunkBuffers_payload bs hbs _ d (le_refl _)).2⟩

theorem C28_forward_progress_witness :
    (5 : Nat) < 6 ∧
    ∃ w1, writeFragmentedRecord 6 (Writer.init 6 StorageStats.empty)
        (serializeStudent sampleA) = some w1 ∧
      w1.written =
        (if (Writer.init 6 StorageStats.empty).currentBlock.length > 0 then
            (Writer.init 6 StorageStats.empty).written ++
              [(Writer.init 6 StorageStats.empty).currentBlock]
          else (Writer.init 6 StorageStats.empty).written) ++
          chunkBuffers 6 (serializeStudent sampleA).length (serializeStudent sampleA) ∧
      (chunkBuffers 6 (serializeStudent sampleA).length (serializeStudent sampleA)).length =
        ((serializeStudent sampleA).length + (6 - 5) - 1) / (6 - 5) ∧
      ∀ c ∈ chunkBuffers 6 (serializeStudent sampleA).length (serializeStudent sampleA),
        6 ≤ c.length ∧ c.length ≤ 6 :=
  ⟨by decide, (C28_forward_progress 6 (by decide) (Writer.init 6 StorageStats.empty)
    (serializeStudent sampleA)).2.2 (by decide!)⟩

/-! ## Greedy packing of the variable-width layout -/

theorem startsNewBlock_concat (bs : Nat) (x g : List Student) (s : Student) (hg : g ≠ [])
    (h : StartsNewBlock bs x g) : StartsNewBlock bs x (g ++ [s]) := by
  intro r hr
  apply h
  cases g with
  | nil => exact absurd rfl hg
  | cons a rest => simpa using hr

theorem foldl_writeContiguous_greedy (bs : Nat) (students : List Student) :
    ∀ (w : Writer) (groups : List (List Student)) (g : List Student),
      w.written = groups.map encGroup → w.currentBlock = encGroup g →
      (g = [] → groups = []) → (∀ x ∈ groups, x ≠ []) →
      List.Chain' (StartsNewBlock bs) (groups ++ [g]) →
      ∃ (groups1 : List (List Student)) (g1 : List Student),
        (students.foldl (fun acc s => writeContiguousRecord bs acc (serializeStudent s))
          w).written = groups1.map encGroup ∧
        (students.foldl (fun acc s => writeContiguousRecord bs acc (serializeStudent s))
          w).currentBlock = encGroup g1 ∧
        groups1.flatten ++ g1 = groups.flatten ++ g ++ students ∧
        (g1 = [] → groups1 = []) ∧ (∀ x ∈ groups1, x ≠ []) ∧
        List.Chain' (StartsNewBlock bs) (groups1 ++ [g1]) := by
  induction students with
  | nil =>
    intro w groups g hw hc h0 hne hch
    exact ⟨groups, g, hw, hc, by simp, h0, hne, hch⟩
  | cons s rest ih =>
    intro w groups g hw hc h0 hne hch
    simp only [List.foldl_cons]
    by_cases h1 : w.currentBlock.length + (serializeStudent s).length > bs
    · by_cases h2 : w.currentBlock.length > 0
      · have hg : g ≠ [] := by
          intro hg
          rw [hc, hg] at h2
          simp [encGroup] at h2
        obtain ⟨groups1, g1, e1, e2, e3, e4, e5, e6⟩ :=
          ih (writeContiguousRecord bs w (serializeStudent s)) (groups ++ [g]) [s]
            (by rw [writeContiguousRecord_written, if_pos ⟨h1, h2⟩, hw, hc]; simp)
            (by rw [writeContiguousRecord_currentBlock, if_pos h1]; simp [encGroup])
            (by simp)
            (by
              intro x hx
              rcases List.mem_append.1 hx with hx | hx
              · exact hne x hx
              · rw [List.mem_singleton.1 hx]; exact hg)
            (by
              refine List.chain'_append.2 ⟨hch, List.chain'_singleton _, ?_⟩
              intro x hx y hy
              rw [List.getLast?_concat] at hx
              simp only [Option.mem_def, Option.some.injEq] at hx
              simp only [List.head?_cons, Option.mem_def, Option.some.injEq] at hy
              subst hx hy
              intro r hr
              simp only [List.head?_cons, Option.mem_def, Option.some.injEq] at hr
              subst hr
              rw [← hc]
              exact h1)
        exact ⟨groups1, g1, e1, e2, by rw [e3]; simp, e4, e5, e6⟩
      · have hg : g = [] := by
          apply encGroup_eq_nil
          rw [← hc]
          exact List.length_eq_zero.1 (by omega)
        have hgr := h0 hg
        subst hg hgr
        obtain ⟨groups1, g1, e1, e2, e3, e4, e5, e6⟩ :=
          ih (writeContiguousRecord bs w (serializeStudent s)) [] [s]
            (by rw [writeContiguousRecord_written, if_neg (by tauto), hw])
            (by rw [writeContiguousRecord_currentBlock, if_pos h1]; simp [encGroup])
            (by simp) (by simp) (by simp)
        exact ⟨groups1, g1, e1, e2, by rw [e3]; simp, e4, e5, e6⟩
    · obtain ⟨groups1, g1, e1, e2, e3, e4, e5, e6⟩ :=
        ih (writeContiguousRecord bs w (serializeStudent s)) groups (g ++ [s])
          (by rw [writeContiguousRecord_written, if_neg (by tauto), hw])
          (by rw [writeContiguousRecord_currentBlock, if_neg h1, hc, encGroup_concat])
          (by simp) hne
          (by
            by_cases hg : g = []
            · have hgr := h0 hg
              subst hg hgr
              simp
            · obtain ⟨c1, -, c3⟩ := List.chain'_append.1 hch
              refine List.chain'_append.2 ⟨c1, List.chain'_singleton _, ?_⟩
              intro x hx y hy
              simp only [List.head?_cons, Option.mem_def, Option.some.injEq] at hy
              subst hy
              exact startsNewBlock_concat bs x g s hg (c3 x hx g (by simp)))
      exact ⟨groups1, g1, e1, e2, by rw [e3]; simp, e4, e5, e6⟩

theorem flatten_map_encGroup (groups : List (List Student)) :
    (groups.map encGroup).flatten = (groups.flatten.map serializeStudent).flatten := by
  induction groups with
  | nil => rfl
  | cons g rest ih =>
    simp only [List.map_cons, List.flatten_cons, List.map_append, List.flatten_append, ih]
    rfl

/-- C26: for every record list on which `VariableStorage.WriteStudents` succeeds, the
buffers handed to `writeBlock` are the encodings of consecutive non-empty groups of the
records, in input order, so that the unpadded block contents laid end to end are the record
encodings laid end to end and every record lies wholly inside one block; every buffer is at
most a block long; and a group ends exactly where the next record no longer fits: the first
record of every following group exceeds the free space left by the group before it, while
inside a group every record fitted. -/
theorem C26_greedy_contiguous_packing (vs : VariableStorage) (students : List Student)
    (hok : (vs.WriteStudents students).err = none) :
    ∃ groups : List (List Student),
      (vs.WriteStudents students).written = groups.map encGroup ∧
      (vs.WriteStudents students).file = fileOf vs.blockSize (groups.map encGroup) ∧
      groups.flatten = students ∧
      (vs.WriteStudents students).written.flatten = (students.map serializeStudent).flatten ∧
      (∀ g ∈ groups, g ≠ [] ∧ (encGroup g).length ≤ vs.blockSize) ∧
      List.Chain' (StartsNewBlock vs.blockSize) groups := by
  have hall : ∀ s ∈ students, (serializeStudent s).length ≤ vs.blockSize := by
    intro s hs
    by_contra hlt
    exact (VariableStorage.WriteStudents_err_iff vs students).2 ⟨s, hs, by omega⟩ hok
  have hb := foldl_writeContiguous_bounded vs.blockSize students hall _
    (Writer.init_bounded vs.blockSize vs.stats)
  obtain ⟨groups1, g1, e1, e2, e3, e4, e5, e6⟩ := foldl_writeContiguous_greedy vs.blockSize
    students (Writer.init vs.blockSize vs.stats) [] [] rfl rfl (fun _ => rfl) (by simp) (by simp)
  have hwr : (vs.WriteStudents students).written =
      (students.foldl (fun acc s => writeContiguousRecord vs.blockSize acc
        (serializeStudent s)) (Writer.init vs.blockSize vs.stats)).finish.written ∧
      (vs.WriteStudents students).file = fileOf vs.blockSize
        (students.foldl (fun acc s => writeContiguousRecord vs.blockSize acc
          (serializeStudent s)) (Writer.init vs.blockSize vs.stats)).finish.written := by
    unfold VariableStorage.WriteStudents
    rw [VariableStorage.writeLoop_none _ _ _ _ hall]
    exact ⟨rfl, rfl⟩
  rw [hwr.1, hwr.2]
  generalize students.foldl (fun acc s => writeContiguousRecord vs.blockSize acc
    (serializeStudent s)) (Writer.init vs.blockSize vs.stats) = w at hb e1 e2
  have hfin := Writer.finish_bounded _ _ hb
  simp only [List.flatten_nil, List.nil_append] at e3
  by_cases hc : w.currentBlock.length > 0
  · have hg1 : g1 ≠ [] := by
      intro hg
      rw [e2, hg] at hc
      simp [encGroup] at hc
    have hw : w.finish.written = (groups1 ++ [g1]).map encGroup := by
      rw [Writer.finish_written, if_pos hc, e1, e2]; simp
    have hflat : (groups1 ++ [g1]).flatten = students := by simpa using e3
    refine ⟨groups1 ++ [g1], hw, by rw [hw], hflat, ?_, ?_, e6⟩
    · rw [hw, flatten_map_encGroup, hflat]
    · intro g hg
      refine ⟨?_, hfin _ (by rw [hw]; exact List.mem_map_of_mem _ hg)⟩
      rcases List.mem_append.1 hg with hg | hg
      · exact e5 g hg
      · rw [List.mem_singleton.1 hg]; exact hg1
  · have hg : g1 = [] := by
      apply encGroup_eq_nil
      rw [← e2]
      exact List.length_eq_zero.1 (by omega)
    have hgr := e4 hg
    subst hg hgr
    have hw : w.finish.written = ([] : List (List Student)).map encGroup := by
      rw [Writer.finish_written, if_neg hc, e1]
    simp only [List.flatten_nil, List.append_nil] at e3
    refine ⟨[], hw, by rw [hw], e3, ?_, by simp, by simp⟩
    rw [hw, ← e3]
    rfl

theorem C26_greedy_contiguous_packing_witness :
    (VariableStorage.WriteStudents ⟨183, StorageStats.empty⟩
      [sampleA, sampleB, sample178]).err = none ∧
    ∃ groups : List (List Student),
      (VariableStorage.WriteStudents ⟨183, StorageStats.empty⟩
        [sampleA, sampleB, sample178]).written = groups.map encGroup ∧
      (VariableStorage.WriteStudents ⟨183, StorageStats.empty⟩
        [sampleA, sampleB, sample178]).file = fileOf 183 (groups.map encGroup) ∧
      groups.flatten = [sampleA, sampleB, sample178] ∧
      (VariableStorage.WriteStudents ⟨183, StorageStats.empty⟩
        [sampleA, sampleB, sample178]).written.flatten =
          ([sampleA, sampleB, sample178].map serializeStudent).flatten ∧
      (∀ g ∈ groups, g ≠ [] ∧ (encGroup g).length ≤ 183) ∧
      List.Chain' (StartsNewBlock 183) groups :=
  ⟨by decide!, C26_greedy_contiguous_packing ⟨183, StorageStats.empty⟩
    [sampleA, sampleB, sample178] (by decide!)⟩

/-! ## Packing of the fixed-width layout -/

theorem slice_append_left (b z : List Byte) (lo hi : Nat) (h : hi ≤ b.length) :
    slice (b ++ z) lo hi = slice b lo hi := by
  unfold slice
  by_cases hlo : lo ≤ b.length
  · rw [List.drop_append_of_le_length hlo, List.take_append_of_le_length]
    rw [List.length_drop]; omega
  · have e1 : hi - lo = 0 := by omega
    rw [e1, List.take_zero, List.take_zero]

theorem fixedPacked_step (bs : Nat) (hbs : 167 ≤ bs) (done : List (List Byte)) (w : Writer)
    (e : List Byte) (he : e.length = 167) (h : FixedPacked bs done w) :
    FixedPacked bs (done ++ [e]) (writeContiguousRecord bs w e) := by
  unfold FixedPacked at h ⊢
  obtain ⟨i1, i2, i3, i4, i5⟩ := h
  have hk : 1 ≤ bs / 167 := by omega
  have hk1 : bs / 167 * 167 ≤ bs := by omega
  have hk2 : bs < (bs / 167 + 1) * 167 := by omega
  generalize hkk : bs / 167 = k at *
  generalize hB : w.written.length = B at *
  have hlen : (done ++ [e]).length = done.length + 1 := by simp
  have hmB : k * B ≤ done.length := by
    rcases i1 with ⟨a, b⟩ | a
    · rw [b] at hB; subst hB; rw [a]; simp
    · omega
  by_cases hov : w.currentBlock.length + e.length > bs
  · -- the current block is full: it is flushed and the record opens a new block
    have hc : done.length - k * B = k := by
      by_contra hne
      have : done.length - k * B + 1 ≤ k := by omega
      have := Nat.mul_le_mul_right 167 this
      rw [i3, he] at hov
      have e1 : (done.length - k * B + 1) * 167 = (done.length - k * B) * 167 + 167 := by ring
      omega
    have hpos : w.currentBlock.length > 0 := by rw [i3, hc]; omega
    have hwr : (writeContiguousRecord bs w e).written = w.written ++ [w.currentBlock] := by
      rw [writeContiguousRecord_written, if_pos ⟨hov, hpos⟩]
    have hcu : (writeContiguousRecord bs w e).currentBlock = e := by
      rw [writeContiguousRecord_currentBlock, if_pos hov]
    have hB1 : (w.written ++ [w.currentBlock]).length = B + 1 := by simp [hB]
    have hmul : k * (B + 1) = k * B + k := by ring
    refine ⟨?_, ?_, ?_, ?_, ?_⟩
    · right; rw [hwr, hB1, hlen, hmul]; omega
    · rw [hwr, hB1, hlen, hmul]; omega
    · rw [hwr, hB1, hlen, hmul, hcu, he]
      have : done.length + 1 - (k * B + k) = 1 := by omega
      rw [this]
    · intro b hb
      rw [hwr] at hb
      rcases List.mem_append.1 hb with hb | hb
      · exact i4 b hb
      · rw [List.mem_singleton.1 hb, i3, hc]
    · intro j p x hp hx
      rw [hwr, hcu]
      rcases Nat.lt_or_ge (k * j + p) done.length with hlt | hge
      · rw [List.getElem?_append_left hlt] at hx
        have hj : j < B + 1 := by
          by_contra hj
          have := Nat.mul_le_mul_left k (show B + 1 ≤ j by omega)
          rw [hmul] at this
          omega
        have := i5 j p x hp hx
        rw [List.getD_append _ _ _ _ (by rw [hB1]; exact hj)]
        exact this
      · have hidx : k * j + p = done.length := by
          have := List.getElem?_eq_some_iff.1 hx
          obtain ⟨hl, -⟩ := this
          rw [hlen] at hl
          omega
        rw [hidx, List.getElem?_concat_length] at hx
        injection hx with hx
        subst hx
        have hj : j = B + 1 := by
          have e1 : k * j + p = k * (B + 1) := by rw [hmul]; omega
          rcases Nat.lt_trichotomy j (B + 1) with hlt | heq | hgt
          · have := Nat.mul_le_mul_left k (show j + 1 ≤ B + 1 by omega)
            have e2 : k * (j + 1) = k * j + k := by ring
            omega
          · exact heq
          · have := Nat.mul_le_mul_left k (show B + 1 + 1 ≤ j by omega)
            have e2 : k * (B + 1 + 1) = k * (B + 1) + k := by ring
            omega
        have hp0 : p = 0 := by
          subst hj
          omega
        subst hj hp0
        rw [List.getD_append_right _ _ _ _ (by rw [hB1])]
        simp only [hB1, Nat.sub_self, List.getD_cons_zero, Nat.zero_mul, Nat.zero_add]
        rw [← he]
        have := slice_head e [] e.length rfl
        simpa using this
  · -- the record fits: it is appended to the current block
    have hc : done.length - k * B < k := by
      by_contra hne
      have hge : k ≤ done.length - k * B := by omega
      have := Nat.mul_le_mul_right 167 hge
      rw [i3, he] at hov
      have e1 : (k + 1) * 167 = k * 167 + 167 := by ring
      omega
    have hwr : (writeContiguousRecord bs w e).written = w.written := by
      rw [writeContiguousRecord_written, if_neg (by tauto)]
    have hcu : (writeContiguousRecord bs w e).currentBlock = w.currentBlock ++ e := by
      rw [writeContiguousRecord_currentBlock, if_neg hov]
    refine ⟨?_, ?_, ?_, ?_, ?_⟩
    · right; rw [hwr, hB, hlen]; omega
    · rw [hwr, hB, hlen]; omega
    · rw [hwr, hB, hlen, hcu, List.length_append, i3, he]
      have e1 : done.length + 1 - k * B = (done.length - k * B) + 1 := by omega
      rw [e1]; ring
    · intro b hb
      rw [hwr] at hb
      exact i4 b hb
    · intro j p x hp hx
      rw [hwr, hcu]
      rcases Nat.lt_or_ge (k * j + p) done.length with hlt | hge
      · rw [List.getElem?_append_left hlt] at hx
        have := i5 j p x hp hx
        have hj : j < B + 1 := by
          by_contra hj
          have := Nat.mul_le_mul_left k (show B + 1 ≤ j by omega)
          have hmul : k * (B + 1) = k * B + k := by ring
          omega
        rcases Nat.lt_or_ge j B with hjB | hjB
        · rw [List.getD_append _ _ _ _ (by rw [hB]; exact hjB)]
          rw [List.getD_append _ _ _ _ (by rw [hB]; exact hjB)] at this
          exact this
        · have hjeq : j = B := by omega
          subst hjeq
          rw [List.getD_append_right _ _ _ _ (by rw [hB])] at this ⊢
          simp only [hB, Nat.sub_self, List.getD_cons_zero] at this ⊢
          have hin : p * 167 + 167 ≤ w.currentBlock.length := by
            rw [i3]
            have h1 := Nat.mul_le_mul_right 167 (show p + 1 ≤ done.length - k * j by omega)
            have e1 : (p + 1) * 167 = p * 167 + 167 := by ring
            omega
          rw [slice_append_left _ _ _ _ hin]
          exact this
      · have hidx : k * j + p = done.length := by
          have := List.getElem?_eq_some_iff.1 hx
          obtain ⟨hl, -⟩ := this
          rw [hlen] at hl
          omega
        rw [hidx, List.getElem?_concat_length] at hx
        injection hx with hx
        subst hx
        have hj : j = B := by
          rcases Nat.lt_trichotomy j B with hlt | heq | hgt
          · have := Nat.mul_le_mul_left k (show j + 1 ≤ B by omega)
            have e2 : k * (j + 1) = k * j + k := by ring
            omega
          · exact heq
          · have := Nat.mul_le_mul_left k (show B + 1 ≤ j by omega)
            have e2 : k * (B + 1) = k * B + k := by ring
            omega
        subst hj
        rw [List.getD_append_right _ _ _ _ (by rw [hB])]
        simp only [hB, Nat.sub_self, List.getD_cons_zero]
        have hpc : p * 167 = w.currentBlock.length := by
          rw [i3]; congr 1; omega
        rw [hpc, ← he]
        have := slice_mid w.currentBlock e [] w.currentBlock.length
          (w.currentBlock.length + e.length) rfl rfl
        simpa using this

theorem fixedPacked_writeLoop (bs : Nat) (hbs : 167 ≤ bs) (students : List Student) :
    ∀ (done : List (List Byte)) (w : Writer), FixedPacked bs done w →
      FixedPacked bs (done ++ students.map serializeStudentFixed)
        (FixedStorage.writeLoop bs students w) := by
  induction students with
  | nil => intro done w h; simpa [FixedStorage.writeLoop] using h
  | cons s rest ih =>
    intro done w h
    have := ih (done ++ [serializeStudentFixed s]) _
      (fixedPacked_step bs hbs done w _ (serializeStudentFixed_length s) h)
    simpa [FixedStorage.writeLoop] using this

theorem fixedPacked_init (bs : Nat) (stats : StorageStats) :
    FixedPacked bs [] (Writer.init bs stats) := by
  unfold FixedPacked
  refine ⟨Or.inl ⟨rfl, rfl⟩, by simp, by simp [Writer.init], by simp [Writer.init], ?_⟩
  intro j p e _ h
  simp at h

theorem readBlock_fileOf_getD (bs : Nat) :
    ∀ (l : List (List Byte)) (j : Nat), j < l.length →
      readBlock (fileOf bs l) bs j = writeBlock bs (l.getD j []) := by
  intro l
  induction l with
  | nil => intro j h; simp at h
  | cons b rest ih =>
    intro j h
    cases j with
    | zero => rw [readBlock_fileOf_zero]; rfl
    | succ i =>
      rw [readBlock_fileOf_succ, ih i (by simpa using h)]
      rfl

theorem slice_writeBlock (bs : Nat) (b e : List Byte) (lo hi : Nat) (hb : b.length ≤ bs)
    (he : 0 < e.length) (hl : e.length = hi - lo) (h : slice b lo hi = e) :
    slice (writeBlock bs b) lo hi = e := by
  have hlen : (slice b lo hi).length = e.length := by rw [h]
  unfold slice at hlen
  rw [List.length_take, List.length_drop] at hlen
  unfold writeBlock
  rw [List.take_of_length_le hb, slice_append_left _ _ _ _ (by omega)]
  exact h

/-- The buffers and the file `FixedStorage.WriteStudents` produces, for a block size of at
least 167 and `k = blockSize / 167`. -/
theorem fixed_writeStudents_packed (fs : FixedStorage) (students : List Student)
    (hbs : 167 ≤ fs.blockSize) :
    (fs.WriteStudents students).2.written.length =
      (students.length + fs.blockSize / 167 - 1) / (fs.blockSize / 167) ∧
    (fs.WriteStudents students).2.file =
      fileOf fs.blockSize (fs.WriteStudents students).2.written ∧
    (∀ b ∈ (fs.WriteStudents students).2.written, b.length ≤ fs.blockSize / 167 * 167) ∧
    (∀ j, j + 1 < (fs.WriteStudents students).2.written.length →
      ((fs.WriteStudents students).2.written.getD j []).length = fs.blockSize / 167 * 167) ∧
    ∀ (i : Nat) (s : Student), students[i]? = some s →
      i / (fs.blockSize / 167) < (fs.WriteStudents students).2.written.length ∧
      slice ((fs.WriteStudents students).2.written.getD (i / (fs.blockSize / 167)) [])
        (i % (fs.blockSize / 167) * 167) (i % (fs.blockSize / 167) * 167 + 167) =
          serializeStudentFixed s := by
  have hinv := fixedPacked_writeLoop fs.blockSize hbs students [] _
    (fixedPacked_init fs.blockSize fs.stats)
  have hwr : (fs.WriteStudents students).2.written =
      (FixedStorage.writeLoop fs.blockSize students
        (Writer.init fs.blockSize fs.stats)).finish.written := rfl
  have hfile : (fs.WriteStudents students).2.file =
      fileOf fs.blockSize (fs.WriteStudents students).2.written := rfl
  rw [hwr] at *
  generalize FixedStorage.writeLoop fs.blockSize students (Writer.init fs.blockSize fs.stats) = w
    at hinv hfile ⊢
  rw [List.nil_append] at hinv
  unfold FixedPacked at hinv
  obtain ⟨i1, i2, i3, i4, i5⟩ := hinv
  rw [List.length_map] at i1 i2 i3
  have hk : 1 ≤ fs.blockSize / 167 := by omega
  generalize fs.blockSize / 167 = k at *
  generalize hB : w.written.length = B at *
  have hmul : k * (B + 1) = k * B + k := by ring
  rcases i1 with ⟨a, b⟩ | hlt
  · -- no record: no block
    have hs : students = [] := by simpa using a
    subst hs
    have hcur : ¬ w.currentBlock.length > 0 := by rw [i3]; simp
    have hfw : w.finish.written = [] := by rw [Writer.finish_written, if_neg hcur, b]
    rw [hfw] at hfile ⊢
    refine ⟨?_, hfile, by simp, by simp, by simp⟩
    simp only [List.length_nil, Nat.zero_add]
    exact (Nat.div_eq_of_lt (by omega)).symm
  · have hcur : w.currentBlock.length > 0 := by
      rw [i3]
      exact Nat.mul_pos (by omega) (by decide)
    have hfw : w.finish.written = w.written ++ [w.currentBlock] := by
      rw [Writer.finish_written, if_pos hcur]
    rw [hfw] at hfile ⊢
    have hlen : (w.written ++ [w.currentBlock]).length = B + 1 := by simp [hB]
    have hcurle : w.currentBlock.length ≤ k * 167 := by
      rw [i3]
      exact Nat.mul_le_mul_right 167 (by omega)
    refine ⟨?_, hfile, ?_, ?_, ?_⟩
    · rw [hlen]
      symm
      apply Nat.div_eq_of_lt_le
      · rw [Nat.mul_comm, hmul]; omega
      · rw [Nat.mul_comm]
        have e2 : k * (B + 1 + 1) = k * B + k + k := by ring
        rw [e2]; omega
    · intro b hb
      rcases List.mem_append.1 hb with hb | hb
      · rw [i4 b hb]
      · rw [List.mem_singleton.1 hb]; exact hcurle
    · intro j hj
      rw [hlen] at hj
      rw [List.getD_append _ _ _ _ (by rw [hB]; omega)]
      apply i4
      rw [List.getD_eq_getElem _ _ (by rw [hB]; omega)]
      exact List.getElem_mem _
    · intro i s hs
      have hdm := Nat.div_add_mod i k
      have hpk : i % k < k := Nat.mod_lt _ (by omega)
      have hi : i < students.length := (List.getElem?_eq_some_iff.1 hs).1
      have hj : i / k < B + 1 := by
        by_contra hj
        have := Nat.mul_le_mul_left k (show B + 1 ≤ i / k by omega)
        omega
      refine ⟨by rw [hlen]; exact hj, ?_⟩
      apply i5 (i / k) (i % k) _ hpk
      rw [hdm, List.getElem?_map, hs]
      rfl

/-- C25: for every block size `b ≥ 167` and every list of `n` records, with `k = b / 167`
rounded down, `FixedStorage.WriteStudents` produces exactly `n / k` rounded up blocks;
record `i` (from 0) occupies the bytes `(i mod k) * 167 .. (i mod k) * 167 + 166` of block
`i / k` of the file, a range that lies inside the block; and every block before the last
holds `k * 167` bytes of records, that is, exactly `k` records. -/
theorem C25_fixed_packing (fs : FixedStorage) (students : List Student)
    (hbs : 167 ≤ fs.blockSize) :
    (fs.WriteStudents students).2.written.length =
      (students.length + fs.blockSize / 167 - 1) / (fs.blockSize / 167) ∧
    (fs.WriteStudents students).2.file.length =
      fs.blockSize * ((students.length + fs.blockSize / 167 - 1) / (fs.blockSize / 167)) ∧
    (∀ (i : Nat) (s : Student), students[i]? = some s →
      i % (fs.blockSize / 167) * 167 + 167 ≤ fs.blockSize ∧
      slice (readBlock (fs.WriteStudents students).2.file fs.blockSize (i / (fs.blockSize / 167)))
        (i % (fs.blockSize / 167) * 167) (i % (fs.blockSize / 167) * 167 + 167) =
          serializeStudentFixed s) ∧
    (∀ j, j + 1 < (fs.WriteStudents students).2.written.length →
      ((fs.WriteStudents students).2.written.getD j []).length = fs.blockSize / 167 * 167) := by
  obtain ⟨h1, h2, h3, h4, h5⟩ := fixed_writeStudents_packed fs students hbs
  refine ⟨h1, by rw [h2, fileOf_length, h1], ?_, h4⟩
  intro i s hs
  obtain ⟨hj, hsl⟩ := h5 i s hs
  have hpk : i % (fs.blockSize / 167) < fs.blockSize / 167 := Nat.mod_lt _ (by omega)
  have hkb : fs.blockSize / 167 * 167 ≤ fs.blockSize := by omega
  have hin : i % (fs.blockSize / 167) * 167 + 167 ≤ fs.blockSize / 167 * 167 := by
    have := Nat.mul_le_mul_right 167 (show i % (fs.blockSize / 167) + 1 ≤ fs.blockSize / 167 by
      omega)
    have e1 : (i % (fs.blockSize / 167) + 1) * 167 = i % (fs.blockSize / 167) * 167 + 167 := by
      ring
    omega
  refine ⟨by omega, ?_⟩
  rw [h2, readBlock_fileOf_getD _ _ _ hj]
  refine slice_writeBlock _ _ _ _ _ ?_ (by rw [serializeStudentFixed_length]; decide)
    (by rw [serializeStudentFixed_length]; omega) hsl
  have hmem : (fs.WriteStudents students).2.written.getD (i / (fs.blockSize / 167)) [] ∈
      (fs.WriteStudents students).2.written := by
    rw [List.getD_eq_getElem _ _ hj]
    exact List.getElem_mem _
  exact le_trans (h3 _ hmem) hkb

theorem C25_fixed_packing_witness :
    (FixedStorage.WriteStudents ⟨400, 0, StorageStats.empty⟩
        [sampleA, sampleB, sample178]).2.written.length = (3 + 400 / 167 - 1) / (400 / 167) ∧
    slice (readBlock (FixedStorage.WriteStudents ⟨400, 0, StorageStats.empty⟩
        [sampleA, sampleB, sample178]).2.file 400 (1 / (400 / 167)))
        (1 % (400 / 167) * 167) (1 % (400 / 167) * 167 + 167) = serializeStudentFixed sampleB :=
  ⟨(C25_fixed_packing ⟨400, 0, StorageStats.empty⟩ [sampleA, sampleB, sample178]
      (by decide)).1,
    ((C25_fixed_packing ⟨400, 0, StorageStats.empty⟩ [sampleA, sampleB, sample178]
      (by decide)).2.2.1 1 sampleB rfl).2⟩

/-! ## Scenario A -/

theorem uint32_pos_of_valid (r : Student) (hv : r.Validate = none) : 0 < uint32 r.Matricula := by
  obtain ⟨⟨a1, a2⟩, -⟩ := (Student.Validate_eq_none_iff r).1 hv
  have h9 := itoa_length_le_nine r.Matricula a1 a2
  unfold uint32
  omega

/-- The inner loop of the fixed-width statistics on a block of 200 bytes that holds the
encoding of one valid record: one record is counted. -/
theorem fixed_statsBlock_one_record (r : Student) (hv : r.Validate = none) :
    FixedStorage.statsBlock 200 167 (writeBlock 200 (serializeStudentFixed r)) 201 0 0 =
      some 1 := by
  have hkey : leDecode (slice (writeBlock 200 (serializeStudentFixed r)) 0 (0 + 4)) =
      uint32 r.Matricula := by
    have h1 : slice (serializeStudentFixed r) 0 4 = leEncode 4 (uint32 r.Matricula) := by
      unfold serializeStudentFixed
      simp only [List.append_assoc]
      exact slice_head _ _ _ (by rw [leEncode_length])
    rw [slice_writeBlock 200 _ _ 0 (0 + 4) (by rw [serializeStudentFixed_length]; decide)
      (by rw [leEncode_length]; decide) (by rw [leEncode_length]) h1]
    exact leDecode_leEncode_of_lt 4 _ (uint32_lt _)
  have hpos := uint32_pos_of_valid r hv
  rw [FixedStorage.statsBlock, if_neg (by decide), if_neg (by decide)]
  simp only
  rw [hkey, if_pos hpos, FixedStorage.statsBlock, if_pos (by decide)]

/-- C24, counterexample: block size 200 and the three valid records `sampleA`, `sampleB`,
`sample178`. `WriteStudents` produces three blocks of one record each, and `GetStats`
reports every block as 167 of 200 bytes used with the occupancy 83.5, not 140 bytes and
70: the fixed record size is 4+50+11+30+30+30+4+8 = 167. -/
theorem C24_scenario_a_counterexample :
    (FixedStorage.WriteStudents ⟨200, 0, StorageStats.empty⟩
        [sampleA, sampleB, sample178]).2.written =
      [serializeStudentFixed sampleA, serializeStudentFixed sampleB,
        serializeStudentFixed sample178] ∧
    ((FixedStorage.WriteStudents ⟨200, 0, StorageStats.empty⟩
        [sampleA, sampleB, sample178]).1.GetStats
      (FixedStorage.WriteStudents ⟨200, 0, StorageStats.empty⟩
        [sampleA, sampleB, sample178]).2.file).map
      (fun st => st.BlockStatsList.map
        (fun e => (e.BytesUsed, e.BytesTotal, e.OccupancyRate, e.RecordsCount))) =
      some [(167, 200, F64.ofRatio 835 10, 1), (167, 200, F64.ofRatio 835 10, 1),
        (167, 200, F64.ofRatio 835 10, 1)] ∧
    F64.ofRatio 835 10 ≠ F64.ofNat 70 := by
  refine ⟨?_, ?_, ?_⟩ <;> decide!

/-- C24, amended: with block size 200, `FixedStorage.WriteStudents` of three records that
pass `Validate` produces three blocks, each holding exactly one record, and `GetStats`
returns three block entries, each with 167 of 200 bytes used, the occupancy 83.5 and one
record. -/
theorem C24_scenario_a_amended (stats : StorageStats) (r1 r2 r3 : Student)
    (h1 : r1.Validate = none) (h2 : r2.Validate = none) (h3 : r3.Validate = none) :
    (FixedStorage.WriteStudents ⟨200, 0, stats⟩ [r1, r2, r3]).2.written =
      [serializeStudentFixed r1, serializeStudentFixed r2, serializeStudentFixed r3] ∧
    (FixedStorage.WriteStudents ⟨200, 0, stats⟩ [r1, r2, r3]).2.file.length = 3 * 200 ∧
    ∃ st, (FixedStorage.WriteStudents ⟨200, 0, stats⟩ [r1, r2, r3]).1.GetStats
        (FixedStorage.WriteStudents ⟨200, 0, stats⟩ [r1, r2, r3]).2.file = some st ∧
      st.TotalBlocks = 3 ∧ st.BlockStatsList.length = 3 ∧
      ∀ e ∈ st.BlockStatsList, e.BytesUsed = 167 ∧ e.BytesTotal = 200 ∧
        e.OccupancyRate = F64.ofRatio 835 10 ∧ e.RecordsCount = 1 := by
  have l1 := serializeStudentFixed_length r1
  have l2 := serializeStudentFixed_length r2
  have l3 := serializeStudentFixed_length r3
  have hwr : (FixedStorage.WriteStudents ⟨200, 0, stats⟩ [r1, r2, r3]).2.written =
      [serializeStudentFixed r1, serializeStudentFixed r2, serializeStudentFixed r3] := by
    simp only [FixedStorage.WriteStudents, FixedStorage.calculateFixedRecordSize,
      FixedStorage.writeLoop, Writer.finish_written, writeContiguousRecord_written,
      writeContiguousRecord_currentBlock, Writer.init, List.length_nil, List.nil_append, l1, l2,
      l3]
    simp [l1, l2, l3]
  have hfile : (FixedStorage.WriteStudents ⟨200, 0, stats⟩ [r1, r2, r3]).2.file =
      fileOf 200 [serializeStudentFixed r1, serializeStudentFixed r2,
        serializeStudentFixed r3] := by
    have := (fixed_writeStudents_packed ⟨200, 0, stats⟩ [r1, r2, r3]
      (show (167 : Nat) ≤ 200 by decide)).2.1
    rw [hwr] at this
    exact this
  refine ⟨hwr, by rw [hfile, fileOf_length]; simp, ?_⟩
  have hfs : (FixedStorage.WriteStudents ⟨200, 0, stats⟩ [r1, r2, r3]).1.blockSize = 200 ∧
      (FixedStorage.WriteStudents ⟨200, 0, stats⟩ [r1, r2, r3]).1.fixedRecordSize = 167 := by
    simp only [FixedStorage.WriteStudents, FixedStorage.calculateFixedRecordSize, MaxNomeLength,
      CPFLength, MaxCursoLength, MaxFiliacaoLength, and_self]
  generalize (FixedStorage.WriteStudents ⟨200, 0, stats⟩ [r1, r2, r3]).1 = fs at hfs
  rw [hfile]
  obtain ⟨st, hst, -⟩ := fixed_getStats_spec fs (by rw [hfs.2]; decide)
    (fileOf 200 [serializeStudentFixed r1, serializeStudentFixed r2, serializeStudentFixed r3])
  refine ⟨st, hst, ?_⟩
  unfold FixedStorage.GetStats at hst
  rw [hfs.1, hfs.2] at hst
  obtain ⟨s1, s2, -, -, -, s6⟩ := recalculateStats_spec _ _ _ _ hst
  rw [fileOf_totalBlocks 200 (by decide)] at s1 s2 s6
  refine ⟨s1, s2, ?_⟩
  intro e he
  obtain ⟨a, b, i, hi, -, hp⟩ := s6 e he
  have hblock : ∃ r : Student, r.Validate = none ∧
      readBlock (fileOf 200 [serializeStudentFixed r1, serializeStudentFixed r2,
        serializeStudentFixed r3]) 200 i = writeBlock 200 (serializeStudentFixed r) := by
    rw [readBlock_fileOf_getD _ _ _ hi]
    simp only [List.length_cons, List.length_nil] at hi
    interval_cases i
    · exact ⟨r1, h1, rfl⟩
    · exact ⟨r2, h2, rfl⟩
    · exact ⟨r3, h3, rfl⟩
  obtain ⟨r, hr, hb⟩ := hblock
  rw [hb, fixed_statsBlock_one_record r hr] at hp
  simp only [Option.some.injEq, Prod.mk.injEq] at hp
  refine ⟨hp.1.symm, a, ?_, hp.2.symm⟩
  rw [b, ← hp.1]
  decide!

theorem C24_scenario_a_amended_witness :
    (FixedStorage.WriteStudents ⟨200, 0, StorageStats.empty⟩ [sampleA, sampleB, sample178]).2.written
      = [serializeStudentFixed sampleA, serializeStudentFixed sampleB,
        serializeStudentFixed sample178] ∧
    (FixedStorage.WriteStudents ⟨200, 0, StorageStats.empty⟩
      [sampleA, sampleB, sample178]).2.file.length = 3 * 200 ∧
    ∃ st, (FixedStorage.WriteStudents ⟨200, 0, StorageStats.empty⟩
        [sampleA, sampleB, sample178]).1.GetStats
        (FixedStorage.WriteStudents ⟨200, 0, StorageStats.empty⟩
          [sampleA, sampleB, sample178]).2.file = some st ∧
      st.TotalBlocks = 3 ∧ st.BlockStatsList.length = 3 ∧
      ∀ e ∈ st.BlockStatsList, e.BytesUsed = 167 ∧ e.BytesTotal = 200 ∧
        e.OccupancyRate = F64.ofRatio 835 10 ∧ e.RecordsCount = 1 :=
  C24_scenario_a_amended StorageStats.empty sampleA sampleB sample178 (by decide!) (by decide!)
    (by decide!)

/-! ## Full scans over a block with a record that fails to decode -/

/-- The scan of `GetAllStudents` over a block that holds the encodings of the valid records
`g` from `pre.length` on, followed by bytes at which the decoder fails: every record of `g`
is appended, as decoded, and the scan leaves the block there. -/
theorem scanBlock_group_then_error (bs : Nat) (g : List Student) :
    ∀ (pre rest : List Byte) (fuel : Nat) (acc : List Student), (∀ r ∈ g, r.Validate = none) →
      pre.length + (encGroup g).length + rest.length = bs → g.length < fuel →
      (∃ e, deserializeStudentFromBlock (pre ++ (encGroup g ++ rest))
        (pre.length + (encGroup g).length) = .error e) →
      VariableStorage.scanBlock bs (pre ++ (encGroup g ++ rest)) fuel pre.length acc =
        some (acc ++ g.map storedVariable) := by
  induction g with
  | nil =>
    intro pre rest fuel acc _ hlen hf hbad
    obtain ⟨f, rfl⟩ : ∃ f, fuel = f + 1 := ⟨fuel - 1, by simp at hf; omega⟩
    obtain ⟨e, he⟩ := hbad
    simp only [encGroup_nil, List.nil_append, List.length_nil, Nat.add_zero] at he
    simp only [encGroup_nil, List.nil_append, List.map_nil, List.append_nil,
      VariableStorage.scanBlock]
    by_cases h1 : pre.length < bs
    · by_cases h2 : pre.length + 4 > bs
      · rw [if_neg (by omega), if_pos h2]
      · rw [if_neg (by omega), if_neg h2, he]
    · rw [if_pos h1]
  | cons r g ih =>
    intro pre rest fuel acc hv hlen hf hbad
    obtain ⟨f, rfl⟩ : ∃ f, fuel = f + 1 := ⟨fuel - 1, by simp at hf; omega⟩
    have hr := hv r (List.mem_cons_self _ _)
    have hl := serializeStudent_length r
    have hval := (Student.Validate_eq_none_iff r).1 hr
    rw [encGroup_cons, List.length_append] at hlen
    rw [encGroup_cons, List.append_assoc]
    simp only [VariableStorage.scanBlock]
    rw [if_neg (by omega), if_neg (by omega), deserializeStudentFromBlock_record pre _ r hr]
    simp only
    rw [getRecordSize_storedVariable r hval.2.2.1]
    have hpos : (storedVariable r).Matricula > 0 := by
      have := hval.1.1
      simp only [storedVariable]
      omega
    rw [if_pos hpos]
    have := ih (pre ++ serializeStudent r) rest f (acc ++ [storedVariable r])
      (fun x hx => hv x (List.mem_cons_of_mem _ hx))
      (by rw [List.length_append]; omega) (by simp at hf; omega)
      (by
        obtain ⟨e, he⟩ := hbad
        refine ⟨e, ?_⟩
        rw [encGroup_cons, List.length_append, List.append_assoc] at he
        rw [List.append_assoc, List.length_append, Nat.add_assoc]
        exact he)
    rw [List.length_append, List.append_assoc] at this
    rw [this]
    simp

theorem scanBuffers_append (bs : Nat) (l1 l2 : List (List Byte)) :
    ∀ acc : List Student,
      scanBuffers bs (l1 ++ l2) acc = (scanBuffers bs l1 acc).bind (scanBuffers bs l2) := by
  induction l1 with
  | nil => intro acc; rfl
  | cons b rest ih =>
    intro acc
    simp only [List.cons_append, scanBuffers]
    cases VariableStorage.scanBlock bs (writeBlock bs b) (bs + 1) 0 acc with
    | none => rfl
    | some acc1 => exact ih acc1

set_option maxRecDepth 1000000 in
/-- C23, counterexample: block size 183. The records `sampleBadCPF` (whose encoding fails
to decode), `sampleA` and `sample178` are written: block 0 holds the first two, block 1 the
third. `GetAllStudents` returns `sample178` alone: `sampleA`, stored after the corrupt
record in the same block, is omitted as well. With block size 200 and `sampleB` written
first (block 0 then holds `sampleB`, the corrupt record and `sampleA`) it returns `sampleB`
and `sample178`. -/
theorem C23_records_after_corrupt_one_omitted :
    deserializeStudent (serializeStudent sampleBadCPF) = .error (.invalid .cpfDigits) ∧
    sampleA.Validate = none ∧ sampleB.Validate = none ∧ sample178.Validate = none ∧
    (VariableStorage.WriteStudents ⟨183, StorageStats.empty⟩
        [sampleBadCPF, sampleA, sample178]).written =
      [serializeStudent sampleBadCPF ++ serializeStudent sampleA, serializeStudent sample178] ∧
    VariableStorage.GetAllStudents ⟨183, StorageStats.empty⟩
      (VariableStorage.WriteStudents ⟨183, StorageStats.empty⟩
        [sampleBadCPF, sampleA, sample178]).file = some [sample178] ∧
    VariableStorage.GetAllStudents ⟨200, StorageStats.empty⟩
      (VariableStorage.WriteStudents ⟨200, StorageStats.empty⟩
        [sampleB, sampleBadCPF, sampleA, sample178]).file = some [sampleB, sample178] := by
  refine ⟨?_, ?_, ?_, ?_, ?_, ?_, ?_⟩ <;> decide!

/-- C23, amended: a file of the variable-width layout whose blocks hold the encodings of
valid records, one block holding after its valid records `g1` further bytes `tail` at which
the decoder fails (a corrupt record and whatever is stored after it). `GetAllStudents`
returns, in file order, the records of the blocks before, the records `g1` stored before
the corrupt one in its block, and the records of the blocks after; everything stored after
the corrupt record in the same block is omitted with it. Each record comes back as the
decoder returns it. -/
theorem C23_scan_leaves_block_at_corrupt_record (vs : VariableStorage)
    (before after : List (List Student)) (g1 : List Student) (tail : List Byte)
    (hb : ∀ g ∈ before, (∀ r ∈ g, r.Validate = none) ∧ (encGroup g).length ≤ vs.blockSize)
    (ha : ∀ g ∈ after, (∀ r ∈ g, r.Validate = none) ∧ (encGroup g).length ≤ vs.blockSize)
    (hg : ∀ r ∈ g1, r.Validate = none)
    (hlen : (encGroup g1).length + tail.length ≤ vs.blockSize)
    (hbs : 0 < vs.blockSize)
    (hbad : ∃ e, deserializeStudentFromBlock (writeBlock vs.blockSize (encGroup g1 ++ tail))
      (encGroup g1).length = .error e) :
    vs.GetAllStudents
        (fileOf vs.blockSize (before.map encGroup ++ [encGroup g1 ++ tail] ++ after.map encGroup)) =
      some ((before.flatten ++ g1 ++ after.flatten).map storedVariable) := by
  unfold VariableStorage.GetAllStudents
  simp only
  rw [fileOf_totalBlocks _ hbs, scanBlocks_fileOf, scanBuffers_append, scanBuffers_append,
    scanBuffers_groups vs.blockSize before [] (fun g h => (hb g h).1) (fun g h => (hb g h).2)]
  simp only [Option.some_bind, List.nil_append, scanBuffers]
  have hw : writeBlock vs.blockSize (encGroup g1 ++ tail) =
      [] ++ (encGroup g1 ++ (tail ++ List.replicate
        (vs.blockSize - (encGroup g1 ++ tail).length) 0)) := by
    rw [writeBlock_of_le _ _ (by rw [List.length_append]; exact hlen)]
    simp
  have hscan := scanBlock_group_then_error vs.blockSize g1 []
    (tail ++ List.replicate (vs.blockSize - (encGroup g1 ++ tail).length) 0)
    (vs.blockSize + 1) (before.flatten.map storedVariable) hg
    (by simp only [List.length_nil, List.length_append, List.length_replicate]; omega)
    (by have := length_le_encGroup_length g1; omega)
    (by
      obtain ⟨e, he⟩ := hbad
      rw [hw] at he
      exact ⟨e, by simpa using he⟩)
  rw [hw]
  simp only [List.length_nil] at hscan
  rw [hscan]
  simp only [Option.some_bind]
  rw [scanBuffers_groups vs.blockSize after _ (fun g h => (ha g h).1) (fun g h => (ha g h).2)]
  simp

set_option maxRecDepth 1000000 in
theorem C23_scan_leaves_block_at_corrupt_record_witness :
    VariableStorage.GetAllStudents ⟨183, StorageStats.empty⟩
        (fileOf 183 ([[sampleB]].map encGroup ++
          [encGroup [sampleA] ++ serializeStudent sampleBadCPF] ++ [[sample178]].map encGroup)) =
      some (([[sampleB]].flatten ++ [sampleA] ++ [[sample178]].flatten).map storedVariable) :=
  C23_scan_leaves_block_at_corrupt_record ⟨183, StorageStats.empty⟩ [[sampleB]] [[sample178]]
    [sampleA] (serializeStudent sampleBadCPF) (by decide!) (by decide!) (by decide!) (by decide!)
    (by decide) ⟨.invalid .cpfDigits, by decide!⟩
/-! ## Statistics of a file written by VariableStorage -/

/-- The inner loop of the variable-width statistics over a block that holds the encodings of
the valid records `g` from `pre.length` on, followed by zero padding: the encoded bytes of
`g` are added to the used bytes and the records of `g` are counted. -/
theorem variable_statsBlock_group (bs : Nat) (g : List Student) :
    ∀ (pre : List Byte) (z fuel used count : Nat), (∀ r ∈ g, r.Validate = none) →
      pre.length + (encGroup g).length + z = bs → g.length < fuel →
      VariableStorage.statsBlock bs (pre ++ (encGroup g ++ List.replicate z 0)) fuel pre.length
          used count = some (used + (encGroup g).length, count + g.length) := by
  induction g with
  | nil =>
    intro pre z fuel used count _ hlen hf
    obtain ⟨f, rfl⟩ : ∃ f, fuel = f + 1 := ⟨fuel - 1, by simp at hf; omega⟩
    simp only [encGroup_nil, List.nil_append, List.length_nil, Nat.add_zero,
      VariableStorage.statsBlock]
    by_cases h1 : pre.length < bs
    · by_cases h2 : pre.length + 4 > bs
      · rw [if_neg (by omega), if_pos h2]
      · obtain ⟨e, he⟩ := deserializeStudentFromBlock_padding pre z
        rw [if_neg (by omega), if_neg h2, he]
    · rw [if_pos h1]
  | cons r g ih =>
    intro pre z fuel used count hv hlen hf
    obtain ⟨f, rfl⟩ : ∃ f, fuel = f + 1 := ⟨fuel - 1, by simp at hf; omega⟩
    have hr := hv r (List.mem_cons_self _ _)
    have hl := serializeStudent_length r
    have hval := (Student.Validate_eq_none_iff r).1 hr
    rw [encGroup_cons, List.length_append] at hlen
    rw [encGroup_cons, List.append_assoc]
    simp only [VariableStorage.statsBlock]
    rw [if_neg (by omega), if_neg (by omega), deserializeStudentFromBlock_record pre _ r hr]
    simp only
    rw [getRecordSize_storedVariable r hval.2.2.1]
    have := ih (pre ++ serializeStudent r) z f (used + (serializeStudent r).length) (count + 1)
      (fun x hx => hv x (List.mem_cons_of_mem _ hx))
      (by rw [List.length_append]; omega) (by simp at hf; omega)
    rw [List.length_append, List.append_assoc] at this
    rw [this, List.length_append, List.length_cons]
    congr 2 <;> omega

/-- The block loop of `recalculateStatsFromFile` when the inner loop gives `v i` on block
`i`: the entries of the blocks are appended in block order and their used bytes are added
up. -/
theorem statsBlocks_of_values (bs : Nat) (file : List Byte)
    (perBlock : List Byte → Option (Nat × Nat)) (v : Nat → Nat × Nat) :
    ∀ (n blockNum tu0 : Nat) (stats : StorageStats),
      (∀ j, j < n → perBlock (readBlock file bs (blockNum + j)) = some (v (blockNum + j))) →
      ∃ st1, statsBlocks bs file perBlock n blockNum tu0 stats =
          some (tu0 + ((List.range' blockNum n).map (fun i => (v i).1)).sum, st1) ∧
        st1.BlockStatsList = stats.BlockStatsList ++
          (List.range' blockNum n).map (fun i =>
            { BlockNumber := i, BytesUsed := (v i).1, BytesTotal := bs,
              OccupancyRate := percentage (v i).1 bs, RecordsCount := (v i).2 }) := by
  intro n
  induction n with
  | zero =>
    intro blockNum tu0 stats _
    exact ⟨stats, by simp [statsBlocks], by simp⟩
  | succ n ih =>
    intro blockNum tu0 stats h
    have h0 := h 0 (by omega)
    rw [Nat.add_zero] at h0
    rw [statsBlocks, h0]
    simp only
    obtain ⟨st1, e1, e2⟩ := ih (blockNum + 1) (tu0 + (v blockNum).1)
      (stats.addBlock bs blockNum (v blockNum).1 (v blockNum).2) (fun j hj => by
        have := h (j + 1) (by omega)
        rw [show blockNum + 1 + j = blockNum + (j + 1) by omega]
        exact this)
    refine ⟨st1, ?_, ?_⟩
    · rw [e1, List.range'_succ, List.map_cons, List.sum_cons, Nat.add_assoc]
    · rw [e2, List.range'_succ, List.map_cons]
      simp [StorageStats.addBlock]

/-- The statistics `recalculateStatsFromFile` leaves when the inner loop gives `v i` on
block `i` of the file: one entry per block in block order, and the sum of their used
bytes. -/
theorem recalculateStats_of_values (bs : Nat) (file : List Byte)
    (perBlock : List Byte → Option (Nat × Nat)) (v : Nat → Nat × Nat)
    (h : ∀ j, j < file.length / bs → perBlock (readBlock file bs j) = some (v j)) :
    ∃ st, recalculateStats bs file perBlock = some st ∧
      st.TotalBlocks = file.length / bs ∧
      st.BlockStatsList = (List.range (file.length / bs)).map (fun i =>
        { BlockNumber := i, BytesUsed := (v i).1, BytesTotal := bs,
          OccupancyRate := percentage (v i).1 bs, RecordsCount := (v i).2 }) ∧
      st.TotalBytesUsed = ((List.range (file.length / bs)).map (fun i => (v i).1)).sum := by
  unfold recalculateStats
  simp only
  obtain ⟨st1, e1, e2⟩ := statsBlocks_of_values bs file perBlock v (file.length / bs) 0 0
    { TotalBlocks := file.length / bs, TotalBytesUsed := 0,
      TotalBytesTotal := file.length / bs * bs, PartialBlocks := 0,
      EfficiencyRate := F64.zero, BlockStatsList := [] }
    (fun j hj => by rw [Nat.zero_add]; exact h j hj)
  have e3 := (statsBlocks_spec _ _ _ _ _ _ _ _ e1).choose_spec.2.2.2.2.1
  simp only at e3
  rw [e1]
  simp only [Nat.zero_add, List.nil_append, ← List.range_eq_range'] at e2 ⊢
  refine ⟨_, rfl, ?_, ?_, ?_⟩
  · split_ifs <;> exact e3
  · split_ifs <;> exact e2
  · split_ifs <;> rfl
theorem encGroup_length (g : List Student) :
    (encGroup g).length = (g.map (fun r => (serializeStudent r).length)).sum := by
  induction g with
  | nil => rfl
  | cons r g ih => rw [encGroup_cons, List.length_append, ih, List.map_cons, List.sum_cons]

theorem sum_map_range_getD {α : Type} (f : List α → Nat) :
    ∀ groups : List (List α),
      ((List.range groups.length).map (fun i => f (groups.getD i []))).sum =
        (groups.map f).sum := by
  intro groups
  induction groups with
  | nil => rfl
  | cons g rest ih =>
    rw [List.length_cons, List.range_succ_eq_map, List.map_cons, List.sum_cons, List.map_map,
      List.map_cons, List.sum_cons, ← ih]
    rfl

/-- C31: for every block size of at least 183 and every list of valid records,
`WriteStudents` of VariableStorage succeeds and packs the records, in order, into groups,
one group per block; `GetStats` on the written file then returns statistics with one entry
per block, in block order, whose `BytesUsed` is the sum of the encoded lengths of the
records of the block and whose `RecordsCount` is the number of those records. Hence
`TotalBytesUsed` is the sum of the encoded lengths of all records and the record counts add
up to the number of records. -/
theorem C31_variable_stats_match_written (vs : VariableStorage) (students : List Student)
    (hbs : 183 ≤ vs.blockSize) (hvalid : ∀ s ∈ students, s.Validate = none) :
    ∃ (groups : List (List Student)) (st : StorageStats),
      (vs.WriteStudents students).err = none ∧
      (vs.WriteStudents students).written = groups.map encGroup ∧
      groups.flatten = students ∧
      vs.GetStats (vs.WriteStudents students).file = some st ∧
      st.TotalBlocks = groups.length ∧
      st.BlockStatsList.map (fun e => (e.BlockNumber, e.BytesUsed, e.RecordsCount)) =
        (List.range groups.length).map (fun i =>
          (i, ((groups.getD i []).map (fun r => (serializeStudent r).length)).sum,
            (groups.getD i []).length)) ∧
      st.TotalBytesUsed = (students.map (fun r => (serializeStudent r).length)).sum ∧
      (st.BlockStatsList.map (fun e => e.RecordsCount)).sum = students.length := by
  have hall : ∀ s ∈ students, (serializeStudent s).length ≤ vs.blockSize := fun s hs =>
    le_trans (serializeStudent_length_le_of_valid s (hvalid s hs)) hbs
  obtain ⟨groups, hw, hfile, herr, hflat, hbound⟩ :=
    VariableStorage.WriteStudents_groups vs students hall
  have htb : (fileOf vs.blockSize (groups.map encGroup)).length / vs.blockSize =
      groups.length := by
    rw [fileOf_totalBlocks _ (by omega), List.length_map]
  have hvals : ∀ j, j < (fileOf vs.blockSize (groups.map encGroup)).length / vs.blockSize →
      (fun block => VariableStorage.statsBlock vs.blockSize block (vs.blockSize + 1) 0 0 0)
        (readBlock (fileOf vs.blockSize (groups.map encGroup)) vs.blockSize j) =
      some ((fun i => ((encGroup (groups.getD i [])).length, (groups.getD i []).length)) j) := by
    intro j hj
    rw [htb] at hj
    have hmem : groups.getD j [] ∈ groups := by
      rw [List.getD_eq_getElem _ _ hj]
      exact List.getElem_mem _
    have hg := hbound _ hmem
    rw [readBlock_fileOf_getD _ _ _ (by rw [List.length_map]; exact hj)]
    have hget : (groups.map encGroup).getD j [] = encGroup (groups.getD j []) := by
      rw [List.getD_eq_getElem _ _ (by rw [List.length_map]; exact hj),
        List.getD_eq_getElem _ _ hj, List.getElem_map]
    rw [hget, writeBlock_of_le _ _ hg]
    have := variable_statsBlock_group vs.blockSize (groups.getD j []) []
      (vs.blockSize - (encGroup (groups.getD j [])).length) (vs.blockSize + 1) 0 0
      (fun r hr => hvalid r (by rw [← hflat]; exact List.mem_flatten.2 ⟨_, hmem, hr⟩))
      (by simp only [List.length_nil]; omega)
      (by have := length_le_encGroup_length (groups.getD j []); omega)
    simp only [List.length_nil, List.nil_append, Nat.zero_add] at this
    exact this
  obtain ⟨st, hst, ht, hlist, hused⟩ := recalculateStats_of_values vs.blockSize
    (fileOf vs.blockSize (groups.map encGroup))
    (fun block => VariableStorage.statsBlock vs.blockSize block (vs.blockSize + 1) 0 0 0)
    (fun i => ((encGroup (groups.getD i [])).length, (groups.getD i []).length)) hvals
  rw [htb] at ht hlist hused
  refine ⟨groups, st, herr, hw, hflat, ?_, ht, ?_, ?_, ?_⟩
  · rw [hfile]; exact hst
  · rw [hlist, List.map_map]
    apply List.map_congr_left
    intro i _
    simp only [Function.comp, encGroup_length]
  · rw [hused]
    simp only
    rw [sum_map_range_getD (fun g => (encGroup g).length) groups, ← hflat, List.map_flatten,
      List.sum_flatten, List.map_map]
    congr 1
    apply List.map_congr_left
    intro g _
    simp only [Function.comp, encGroup_length]
  · rw [hlist, List.map_map]
    simp only [Function.comp_def]
    rw [sum_map_range_getD (fun g => g.length) groups, ← hflat, List.length_flatten]

theorem C31_variable_stats_match_written_witness :
    ∃ (groups : List (List Student)) (st : StorageStats),
      (VariableStorage.WriteStudents ⟨183, StorageStats.empty⟩ [sampleA, sampleB, sample178]).err
        = none ∧
      (VariableStorage.WriteStudents ⟨183, StorageStats.empty⟩
        [sampleA, sampleB, sample178]).written = groups.map encGroup ∧
      groups.flatten = [sampleA, sampleB, sample178] ∧
      VariableStorage.GetStats ⟨183, StorageStats.empty⟩
        (VariableStorage.WriteStudents ⟨183, StorageStats.empty⟩
          [sampleA, sampleB, sample178]).file = some st ∧
      st.TotalBlocks = groups.length ∧
      st.BlockStatsList.map (fun e => (e.BlockNumber, e.BytesUsed, e.RecordsCount)) =
        (List.range groups.length).map (fun i =>
          (i, ((groups.getD i []).map (fun r => (serializeStudent r).length)).sum,
            (groups.getD i []).length)) ∧
      st.TotalBytesUsed =
        ([sampleA, sampleB, sample178].map (fun r => (serializeStudent r).length)).sum ∧
      (st.BlockStatsList.map (fun e => e.RecordsCount)).sum =
        [sampleA, sampleB, sample178].length :=
  C31_variable_stats_match_written ⟨183, StorageStats.empty⟩ [sampleA, sampleB, sample178]
    (by decide) (by decide!)
/-! ## The full scan of FixedStorage -/

theorem slice_take (d : List Byte) (n lo hi : Nat) (h : hi ≤ n) :
    slice (d.take n) lo hi = slice d lo hi := by
  unfold slice
  rw [List.drop_take, List.take_take, Nat.min_eq_left (by omega)]

theorem slice_slice (d : List Byte) (o n lo hi : Nat) (h : hi ≤ n) :
    slice (slice d o (o + n)) lo hi = slice d (o + lo) (o + hi) := by
  have hs : slice d o (o + n) = (d.drop o).take n := by
    unfold slice
    rw [show o + n - o = n by omega]
  rw [hs, slice_take _ _ _ _ h, slice_drop]

/-- The decoder reads the slot alone: on the slice expression `block[o:o+167]` of a block
that holds the slot it gives what it gives on the 167 bytes of the slot. -/
theorem deserializeStudentFixed_slot (block : List Byte) (o : Nat)
    (h : o + 167 ≤ block.length) :
    deserializeStudentFixed 167 (ByteSlice.ofBlock block o (o + 167)) =
      deserializeStudentFixed 167 (ByteSlice.ofList (slice block o (o + 167))) := by
  have hs : slice block o (o + 167) = (block.drop o).take 167 := by
    unfold slice
    rw [show o + 167 - o = 167 by omega]
  have hl : ((block.drop o).take 167).length = 167 := by
    rw [List.length_take, List.length_drop]; omega
  have hd : (block.drop o).length = block.length - o := List.length_drop _ _
  unfold deserializeStudentFixed
  simp only [ByteSlice.ofBlock, ByteSlice.ofList, hs, hl, hd, MaxNomeLength, CPFLength,
    MaxCursoLength, MaxFiliacaoLength]
  rw [if_neg (by omega), if_neg (by omega), if_neg (by omega), if_neg (by omega)]
  rw [slice_take _ 167 0 (0 + 4) (by decide), slice_take _ 167 (0 + 4) (0 + 4 + 50) (by decide),
    slice_take _ 167 (0 + 4 + 50) (0 + 4 + 50 + 11) (by decide),
    slice_take _ 167 (0 + 4 + 50 + 11) (0 + 4 + 50 + 11 + 30) (by decide),
    slice_take _ 167 (0 + 4 + 50 + 11 + 30) (0 + 4 + 50 + 11 + 30 + 30) (by decide),
    slice_take _ 167 (0 + 4 + 50 + 11 + 30 + 30) (0 + 4 + 50 + 11 + 30 + 30 + 30) (by decide),
    slice_take _ 167 (0 + 4 + 50 + 11 + 30 + 30 + 30) (0 + 4 + 50 + 11 + 30 + 30 + 30 + 4)
      (by decide),
    slice_take _ 167 (0 + 4 + 50 + 11 + 30 + 30 + 30 + 4)
      (0 + 4 + 50 + 11 + 30 + 30 + 30 + 4 + 8) (by decide)]

theorem deserializeStudentFixed_ok_key (frs : Nat) (data : ByteSlice) (s : Student)
    (h : deserializeStudentFixed frs data = .ok s) :
    s.Matricula = ((leDecode (slice data.cells 0 (0 + 4)) : Nat) : Int) := by
  unfold deserializeStudentFixed at h
  split_ifs at h
  simp only at h
  split at h
  · cases h
  · cases h
    rfl

/-- A slot whose key field is 0 does not decode. -/
theorem decodeSlot_key_pos (block : List Byte) (p : Nat) (s : Student)
    (h : FixedStorage.decodeSlot block p = some s) :
    0 < leDecode (slice block (p * 167) (p * 167 + 4)) := by
  unfold FixedStorage.decodeSlot at h
  cases hd : deserializeStudentFixed 167
      (ByteSlice.ofList (slice block (p * 167) (p * 167 + 167))) with
  | error e => rw [hd] at h; cases h
  | ok s1 =>
    have hk := deserializeStudentFixed_ok_key _ _ _ hd
    have hv := (Student.Validate_eq_none_iff s1).1 (deserializeStudentFixed_ok_valid _ _ _ hd)
    simp only [ByteSlice.ofList] at hk
    rw [slice_slice _ _ _ _ _ (by decide)] at hk
    have := hv.1.1
    simp only [Nat.add_zero, Nat.zero_add] at hk
    omega

/-- The inner loop of `FixedStorage.GetAllStudents` on a full block, from slot `p` on: the
successful decodes of the remaining slots are appended in slot order. -/
theorem fixed_scanBlock_slots (bs : Nat) (block : List Byte) (hb : block.length = bs) :
    ∀ (fuel p : Nat) (acc : List Student), 1 ≤ fuel → bs + 1 ≤ p * 167 + fuel →
      FixedStorage.scanBlock bs 167 block fuel (p * 167) acc =
        some (acc ++ (List.range' p (bs / 167 - p)).filterMap (FixedStorage.decodeSlot block)) := by
  intro fuel
  induction fuel with
  | zero => intro p acc h; omega
  | succ f ih =>
    intro p acc _ h
    rw [FixedStorage.scanBlock]
    by_cases h1 : p * 167 + 167 ≤ bs
    · have hp : p + 1 ≤ bs / 167 := by
        rw [Nat.le_div_iff_mul_le (by decide)]
        omega
      have hstep : p * 167 + 167 = (p + 1) * 167 := by ring
      rw [if_neg (by omega), if_neg (by omega), deserializeStudentFixed_slot block _ (by omega)]
      cases hd : deserializeStudentFixed 167
          (ByteSlice.ofList (slice block (p * 167) (p * 167 + 167))) with
      | error e =>
        have hslot : FixedStorage.decodeSlot block p = none := by
          unfold FixedStorage.decodeSlot; rw [hd]; rfl
        simp only
        rw [hstep, ih (p + 1) _ (by omega) (by omega),
          show bs / 167 - p = (bs / 167 - (p + 1)) + 1 by omega, List.range'_succ,
          List.filterMap_cons]
        simp only [hslot]
      | ok s =>
        have hslot : FixedStorage.decodeSlot block p = some s := by
          unfold FixedStorage.decodeSlot; rw [hd]; rfl
        have hv := (Student.Validate_eq_none_iff s).1 (deserializeStudentFixed_ok_valid _ _ _ hd)
        have hpos : s.Matricula > 0 := by have := hv.1.1; omega
        simp only
        rw [if_pos hpos, hstep, ih (p + 1) _ (by omega) (by omega),
          show bs / 167 - p = (bs / 167 - (p + 1)) + 1 by omega, List.range'_succ,
          List.filterMap_cons]
        simp only [hslot, List.append_assoc, List.singleton_append]
    · have hp : bs / 167 - p = 0 := by
        have : bs / 167 ≤ p := by
          by_contra hc
          have h2 : (p + 1) * 167 ≤ bs / 167 * 167 := Nat.mul_le_mul_right 167 (by omega)
          have h3 : bs / 167 * 167 ≤ bs := Nat.div_mul_le_self bs 167
          omega
        omega
      rw [if_pos h1, hp]
      simp

/-- The block loop of `FixedStorage.GetAllStudents`: the decoded slots of the blocks are
appended in block order. -/
theorem fixed_scanBlocks_slots (bs : Nat) (file : List Byte) :
    ∀ (n blockNum : Nat) (acc : List Student), blockNum + n ≤ file.length / bs →
      FixedStorage.scanBlocks bs 167 file n blockNum acc =
        some (acc ++ ((List.range' blockNum n).map (fun i =>
          FixedStorage.decodedSlots bs (readBlock file bs i))).flatten) := by
  intro n
  induction n with
  | zero => intro blockNum acc _; simp [FixedStorage.scanBlocks]
  | succ n ih =>
    intro blockNum acc h
    have hb := readBlock_length file bs blockNum (by omega)
    have := fixed_scanBlock_slots bs _ hb (bs + 1) 0 acc (by omega) (by omega)
    rw [Nat.zero_mul, Nat.sub_zero, ← List.range_eq_range'] at this
    rw [FixedStorage.scanBlocks, this]
    simp only
    rw [ih (blockNum + 1) _ (by omega), List.range'_succ, List.map_cons, List.flatten_cons,
      List.append_assoc]
    rfl

/-- C32: for every file and a FixedStorage whose record size is 167, `GetAllStudents`
returns, block after block and within a block slot after slot, exactly the successful
decodes of the `blockSize / 167` slots of 167 bytes of each block. A slot that fails to
decode is left out and the scan goes on with the next slot and the next block; a slot whose
key field is 0 never decodes. -/
theorem C32_fixed_full_scan (fs : FixedStorage) (file : List Byte)
    (hfrs : fs.fixedRecordSize = 167) :
    fs.GetAllStudents file =
      some (((List.range (file.length / fs.blockSize)).map (fun i =>
        (List.range (fs.blockSize / 167)).filterMap (fun p =>
          (deserializeStudentFixed 167 (ByteSlice.ofList
            (slice (readBlock file fs.blockSize i) (p * 167) (p * 167 + 167)))).toOption))).flatten)
    ∧ ∀ (i p : Nat), leDecode (slice (readBlock file fs.blockSize i) (p * 167) (p * 167 + 4)) = 0 →
        (deserializeStudentFixed 167 (ByteSlice.ofList
          (slice (readBlock file fs.blockSize i) (p * 167) (p * 167 + 167)))).toOption = none := by
  constructor
  · unfold FixedStorage.GetAllStudents
    simp only
    rw [hfrs, fixed_scanBlocks_slots fs.blockSize file _ 0 [] (by omega), List.nil_append,
      ← List.range_eq_range']
    rfl
  · intro i p h
    cases hd : (deserializeStudentFixed 167 (ByteSlice.ofList
        (slice (readBlock file fs.blockSize i) (p * 167) (p * 167 + 167)))).toOption with
    | none => rfl
    | some s =>
      have := decodeSlot_key_pos (readBlock file fs.blockSize i) p s hd
      omega

theorem C32_fixed_full_scan_witness :
    ∃ students, FixedStorage.GetAllStudents ⟨200, 167, StorageStats.empty⟩
        (fileOf 200 [serializeStudentFixed sampleBadCPF, serializeStudentFixed sampleA]) =
      some students :=
  ⟨_, (C32_fixed_full_scan ⟨200, 167, StorageStats.empty⟩
    (fileOf 200 [serializeStudentFixed sampleBadCPF, serializeStudentFixed sampleA]) rfl).1⟩
/-! ## The statistics of FixedStorage and the decoder -/

set_option maxRecDepth 1000000 in
/-- C34, evaluated on a stored key of ten digits. `sampleKey10` has the key 1234567890, which
fits in the four key bytes. In the file VariableStorage writes from it (block size 183), the
lookup of 1234567890 finds the stored key equal to the requested one, decodes the record,
and returns it with the key 123456789, because the decoder cuts the key to nine digits; the
lookup of 123456789, the key that `GetAllStudents` lists, reports not found. The same
happens in the fragmented layout on the file written from `sampleKey10Long`, a record of two
chunks with that key. FixedStorage, whose decoder does not cut the key, rejects the stored
record and reports not found for 1234567890. -/
theorem C34_lookup_returns_other_key :
    (VariableStorage.WriteStudents ⟨183, StorageStats.empty⟩ [sampleKey10]).err = none ∧
    VariableStorage.FindStudentByMatricula ⟨183, StorageStats.empty⟩
      (VariableStorage.WriteStudents ⟨183, StorageStats.empty⟩ [sampleKey10]).file 1234567890 =
      some (.ok { sampleKey10 with Matricula := 123456789 }) ∧
    VariableStorage.FindStudentByMatricula ⟨183, StorageStats.empty⟩
      (VariableStorage.WriteStudents ⟨183, StorageStats.empty⟩ [sampleKey10]).file 123456789 =
      some (.error (.notFound 123456789)) ∧
    VariableStorage.GetAllStudents ⟨183, StorageStats.empty⟩
      (VariableStorage.WriteStudents ⟨183, StorageStats.empty⟩ [sampleKey10]).file =
      some [{ sampleKey10 with Matricula := 123456789 }] ∧
    (VariableFragmentedStorage.WriteStudents ⟨183, StorageStats.empty⟩ [sampleKey10Long]).map
      (fun r => (VariableFragmentedStorage.FindStudentByMatricula ⟨183, StorageStats.empty⟩
          r.file 1234567890,
        VariableFragmentedStorage.FindStudentByMatricula ⟨183, StorageStats.empty⟩
          r.file 123456789)) =
      some (some (.ok { sampleKey10 with Matricula := 123456789, Nome := List.replicate 50 65 }),
        some (.error (.notFound 123456789))) ∧
    FixedStorage.FindStudentByMatricula ⟨200, 167, StorageStats.empty⟩
      (FixedStorage.WriteStudents ⟨200, 0, StorageStats.empty⟩ [sampleKey10]).2.file 1234567890 =
      some (.error (.notFound 1234567890)) := by
  refine ⟨by decide!, by decide!, by decide!, by decide!, by decide!, by decide!⟩

/-! ## The advance of the contiguous scanners -/

set_option maxRecDepth 1000000 in
/-- C35, evaluated on a record with a name of 51 bytes. The decoder succeeds on the 110 bytes
of the encoding of `sampleName51` and has then read all 110 of them, but it returns the
record with the name cut to 50 bytes, and `getRecordSize` of that record is 109. In the
file VariableStorage writes from `sampleName51` and `sampleB` (block size 183, one block of
172 bytes) the scanners therefore go on at offset 109, the last byte of the first record,
where no record decodes, instead of offset 110, where `sampleB` is: `GetAllStudents`
returns the first record only, `GetStats` reports one record and 109 used bytes, and the
lookup of the key of `sampleB` reports not found. -/
theorem C35_scan_advance_short_of_bytes_consumed :
    deserializeStudent (serializeStudent sampleName51) =
      .ok { sampleA with Nome := List.replicate 50 65 } ∧
    bytesConsumed (serializeStudent sampleName51) = 110 ∧
    (serializeStudent sampleName51).length = 110 ∧
    getRecordSize { sampleA with Nome := List.replicate 50 65 } = 109 ∧
    (VariableStorage.WriteStudents ⟨183, StorageStats.empty⟩ [sampleName51, sampleB]).err = none ∧
    (VariableStorage.WriteStudents ⟨183, StorageStats.empty⟩ [sampleName51, sampleB]).written =
      [serializeStudent sampleName51 ++ serializeStudent sampleB] ∧
    deserializeStudentFromBlock
      (VariableStorage.WriteStudents ⟨183, StorageStats.empty⟩ [sampleName51, sampleB]).file 109 =
      .error .insufficientNome ∧
    deserializeStudentFromBlock
      (VariableStorage.WriteStudents ⟨183, StorageStats.empty⟩ [sampleName51, sampleB]).file 110 =
      .ok sampleB ∧
    VariableStorage.GetAllStudents ⟨183, StorageStats.empty⟩
      (VariableStorage.WriteStudents ⟨183, StorageStats.empty⟩ [sampleName51, sampleB]).file =
      some [{ sampleA with Nome := List.replicate 50 65 }] ∧
    (VariableStorage.GetStats ⟨183, StorageStats.empty⟩
      (VariableStorage.WriteStudents ⟨183, StorageStats.empty⟩ [sampleName51, sampleB]).file).map
        (fun st => st.BlockStatsList.map (fun e => (e.BlockNumber, e.BytesUsed, e.RecordsCount)))
      = some [(0, 109, 1)] ∧
    VariableStorage.FindStudentByMatricula ⟨183, StorageStats.empty⟩
      (VariableStorage.WriteStudents ⟨183, StorageStats.empty⟩ [sampleName51, sampleB]).file
        100000002 = some (.error (.notFound 100000002)) := by
  refine ⟨by decide!, by decide!, by decide!, by decide!, by decide!, by decide!, by decide!,
    by decide!, by decide!, by decide!, by decide!⟩
/-! ## Scans of FixedStorage on a newly constructed object -/

/-- On a storage object whose record size is still zero the inner loop of the fixed-width
full scan never advances: no amount of fuel brings it to an end. -/
theorem fixed_scanBlock_zero_record_size (bs : Nat) (block : List Byte) :
    ∀ (fuel offset : Nat) (students : List Student), offset + 4 ≤ bs →
      FixedStorage.scanBlock bs 0 block fuel offset students = none := by
  intro fuel
  induction fuel with
  | zero => intro offset students _; rfl
  | succ f ih =>
    intro offset students h
    rw [FixedStorage.scanBlock, if_neg (by omega), if_neg (by omega)]
    exact ih _ _ h

/-- On a storage object whose record size is still zero the inner loop of the fixed-width
lookup never advances: unless the slot it stands on holds the requested key and decodes, no
amount of fuel brings it to an end. -/
theorem fixed_findInBlock_zero_record_size (bs : Nat) (block : List Byte) (k : Int)
    (offset : Nat) (h : offset + 4 ≤ bs)
    (hk : (if ((leDecode (slice block offset (offset + 4)) : Nat) : Int) = k then
        (deserializeStudentFixed 0 (ByteSlice.ofBlock block offset (offset + 0))).toOption
      else none) = none) :
    ∀ fuel : Nat, FixedStorage.findInBlock bs 0 block k fuel offset = none := by
  intro fuel
  induction fuel with
  | zero => rfl
  | succ f ih =>
    rw [FixedStorage.findInBlock, if_neg (by omega), if_neg (by omega)]
    simp only
    rw [hk]
    exact ih

set_option maxRecDepth 1000000 in
/-- C36, evaluated on FixedStorage with block size 200 and the file written from `sampleA`
and `sampleB` (two blocks of one record each). The object `NewFixedStorage` returns has the
record size 0, which only `WriteStudents` sets. On such an object the inner loops of
`GetAllStudents` and of `GetStats` stay at offset 0 of any block, whatever the fuel, and so
does the inner loop of the lookup of the key of `sampleB` on block 0, which holds
`sampleA`: the three operations return nothing. Only a lookup of the key stored at the
start of block 0 returns. On the object that wrote the file the same calls return the
records. -/
theorem C36_fixed_scans_on_new_object :
    NewFixedStorage 200 = .ok ⟨200, 0, StorageStats.empty⟩ ∧
    (FixedStorage.WriteStudents ⟨200, 0, StorageStats.empty⟩ [sampleA, sampleB]).1.fixedRecordSize
      = 167 ∧
    (FixedStorage.WriteStudents ⟨200, 0, StorageStats.empty⟩ [sampleA, sampleB]).2.file.length
      = 400 ∧
    (∀ (block : List Byte) (fuel : Nat) (students : List Student),
      FixedStorage.scanBlock 200 0 block fuel 0 students = none) ∧
    (∀ (block : List Byte) (fuel : Nat), FixedStorage.statsBlock 200 0 block fuel 0 0 = none) ∧
    (∀ fuel : Nat, FixedStorage.findInBlock 200 0
      (readBlock (FixedStorage.WriteStudents ⟨200, 0, StorageStats.empty⟩
        [sampleA, sampleB]).2.file 200 0) 100000002 fuel 0 = none) ∧
    FixedStorage.GetAllStudents ⟨200, 0, StorageStats.empty⟩
      (FixedStorage.WriteStudents ⟨200, 0, StorageStats.empty⟩ [sampleA, sampleB]).2.file = none ∧
    FixedStorage.GetStats ⟨200, 0, StorageStats.empty⟩
      (FixedStorage.WriteStudents ⟨200, 0, StorageStats.empty⟩ [sampleA, sampleB]).2.file = none ∧
    FixedStorage.FindStudentByMatricula ⟨200, 0, StorageStats.empty⟩
      (FixedStorage.WriteStudents ⟨200, 0, StorageStats.empty⟩ [sampleA, sampleB]).2.file
        100000002 = none ∧
    FixedStorage.FindStudentByMatricula ⟨200, 0, StorageStats.empty⟩
      (FixedStorage.WriteStudents ⟨200, 0, StorageStats.empty⟩ [sampleA, sampleB]).2.file
        100000001 = some (.ok sampleA) ∧
    (FixedStorage.WriteStudents ⟨200, 0, StorageStats.empty⟩ [sampleA, sampleB]).1.GetAllStudents
      (FixedStorage.WriteStudents ⟨200, 0, StorageStats.empty⟩ [sampleA, sampleB]).2.file =
      some [sampleA, sampleB] ∧
    (FixedStorage.WriteStudents ⟨200, 0, StorageStats.empty⟩
        [sampleA, sampleB]).1.FindStudentByMatricula
      (FixedStorage.WriteStudents ⟨200, 0, StorageStats.empty⟩ [sampleA, sampleB]).2.file
        100000002 = some (.ok sampleB) := by
  refine ⟨by decide, by decide, by decide!, ?_, ?_, ?_, by decide!, by decide!, by decide!,
    by decide!, by decide!, by decide!⟩
  · intro block fuel students
    exact fixed_scanBlock_zero_record_size 200 block fuel 0 students (by decide)
  · intro block fuel
    exact FixedStorage.statsBlock_zero_record_size 200 block fuel 0 0 (by decide)
  · exact fixed_findInBlock_zero_record_size 200 _ 100000002 0 (by decide) (by decide!)
/-! ## Continuation blocks under the fragmented readers -/

set_option maxRecDepth 1000000 in
/-- C37, evaluated on block size 183 and the record `sampleCarrier`, whose encoding of 291
bytes the chunk loop cuts into a head chunk (flag 1, 178 bytes) and a final chunk (flag 0,
113 bytes) whose payload starts with the encoding of `sampleB`. In the file of these two
blocks the chain from the head chunk in block 0 runs through block 1 and yields the 291
bytes. `GetAllStudents` then reads block 1 again from its first byte as the start of a
record and returns `sampleB`, which is decoded from the continuation chunk alone, after the
record of the chain; the lookup of the key of `sampleB` returns it as well. On the file
`WriteStudents` produces from `sampleCarrier`, where the final chunk block is written
twice, `GetAllStudents` returns `sampleB` twice. -/
theorem C37_continuation_block_read_as_record :
    chunkBuffers 183 291 (serializeStudent sampleCarrier) =
      [chunkOf 183 (serializeStudent sampleCarrier),
        chunkOf 183 ((serializeStudent sampleCarrier).drop 178)] ∧
    (chunkBuffers 183 291 (serializeStudent sampleCarrier)).map (fun b => (b.take 1, b.length)) =
      [([1], 183), ([0], 118)] ∧
    readChain 183 (fileOf 183 (chunkBuffers 183 291 (serializeStudent sampleCarrier))) 2 0 0 =
      some (1, 178, serializeStudent sampleCarrier) ∧
    readChain 183 (fileOf 183 (chunkBuffers 183 291 (serializeStudent sampleCarrier))) 2 1 0 =
      some (0, 113, (serializeStudent sampleCarrier).drop 178) ∧
    deserializeStudent ((serializeStudent sampleCarrier).drop 178) = .ok sampleB ∧
    VariableFragmentedStorage.GetAllStudents ⟨183, StorageStats.empty⟩
      (fileOf 183 (chunkBuffers 183 291 (serializeStudent sampleCarrier))) =
      some [{ sampleA with Nome := List.replicate 50 65 }, sampleB] ∧
    VariableFragmentedStorage.FindStudentByMatricula ⟨183, StorageStats.empty⟩
      (fileOf 183 (chunkBuffers 183 291 (serializeStudent sampleCarrier))) 100000002 =
      some (.ok sampleB) ∧
    (VariableFragmentedStorage.WriteStudents ⟨183, StorageStats.empty⟩ [sampleCarrier]).map
      (fun r => (r.written, VariableFragmentedStorage.GetAllStudents ⟨183, StorageStats.empty⟩
        r.file)) =
      some ([chunkOf 183 (serializeStudent sampleCarrier),
          chunkOf 183 ((serializeStudent sampleCarrier).drop 178),
          chunkOf 183 ((serializeStudent sampleCarrier).drop 178)],
        some [{ sampleA with Nome := List.replicate 50 65 }, sampleB, sampleB]) := by
  refine ⟨by decide!, by decide!, by decide!, by decide!, by decide!, by decide!, by decide!,
    by decide!⟩
/-! ## The exact result of the lookups -/

theorem findSome?_range'_succ (f : Nat → Option Student) (b n : Nat) :
    (List.range' b (n + 1)).findSome? f =
      (match f b with
        | some s => some s
        | none => (List.range' (b + 1) n).findSome? f) := by
  rw [List.range'_succ, List.findSome?_cons]
  cases f b <;> rfl

/-- The inner loop of the contiguous lookup returns the first record found at a visited
offset. -/
theorem variable_findInBlock_visited (bs : Nat) (block : List Byte) (k : Int) :
    ∀ (fuel offset : Nat), 1 ≤ fuel → bs + 1 ≤ offset + fuel →
      VariableStorage.findInBlock bs block k fuel offset =
        some ((VariableStorage.visitedOffsets bs block fuel offset).findSome?
          (VariableStorage.matchAt block k)) := by
  intro fuel
  induction fuel with
  | zero => intro offset h; omega
  | succ f ih =>
    intro offset _ hf
    rw [VariableStorage.findInBlock, VariableStorage.visitedOffsets]
    by_cases h1 : offset < bs
    swap
    · rw [if_pos h1, if_pos h1]; rfl
    by_cases h2 : offset + 4 > bs
    · rw [if_neg (by omega), if_pos h2, if_neg (by omega), if_pos h2]; rfl
    rw [if_neg (by omega), if_neg h2, if_neg (by omega), if_neg h2, List.findSome?_cons]
    simp only
    cases hd : deserializeStudentFromBlock block offset with
    | error e =>
      have hm : VariableStorage.matchAt block k offset = none := by
        unfold VariableStorage.matchAt
        rw [hd]
        split_ifs <;> rfl
      have hm1 : (if ((leDecode (slice block offset (offset + 4)) : Nat) : Int) = k then
          (Except.error e : Except DecodeError Student).toOption else none) = none := by
        split_ifs <;> rfl
      rw [hm, hm1]
      rfl
    | ok s =>
      by_cases hk : ((leDecode (slice block offset (offset + 4)) : Nat) : Int) = k
      · have hm : VariableStorage.matchAt block k offset = some s := by
          unfold VariableStorage.matchAt
          rw [hd, if_pos hk]
          rfl
        rw [hm, if_pos hk]
        rfl
      · have hm : VariableStorage.matchAt block k offset = none := by
          unfold VariableStorage.matchAt
          rw [if_neg hk]
        rw [hm, if_neg hk]
        simp only
        have := getRecordSize_pos s
        exact ih _ (by omega) (by omega)

/-- The block loop of the contiguous lookup returns the record of the first block whose
inner loop returns one. -/
theorem variable_findStudent_firstHit (bs : Nat) (file : List Byte) (k : Int) :
    ∀ (n blockNum : Nat),
      VariableStorage.findStudentContiguous bs file k n blockNum =
        some (match (List.range' blockNum n).findSome? (fun b =>
            (VariableStorage.visitedOffsets bs (readBlock file bs b) (bs + 1) 0).findSome?
              (VariableStorage.matchAt (readBlock file bs b) k)) with
          | some s => .ok s
          | none => .error (.notFound k)) := by
  intro n
  induction n with
  | zero => intro blockNum; rfl
  | succ n ih =>
    intro blockNum
    rw [VariableStorage.findStudentContiguous,
      variable_findInBlock_visited bs _ k (bs + 1) 0 (by omega) (by omega),
      findSome?_range'_succ]
    cases (VariableStorage.visitedOffsets bs (readBlock file bs blockNum) (bs + 1) 0).findSome?
        (VariableStorage.matchAt (readBlock file bs blockNum) k) with
    | some s => rfl
    | none => exact ih _

/-- In the contiguous layout a visited offset where no record decodes is the last one of its
block: the scan leaves the block there. -/
theorem variable_visitedOffsets_error_last (bs : Nat) (block : List Byte) :
    ∀ (fuel offset : Nat) (l1 l2 : List Nat) (o : Nat),
      VariableStorage.visitedOffsets bs block fuel offset = l1 ++ o :: l2 →
      (deserializeStudentFromBlock block o).toOption = none → l2 = [] := by
  intro fuel
  induction fuel with
  | zero =>
    intro offset l1 l2 o h _
    rw [VariableStorage.visitedOffsets] at h
    exact absurd h.symm (List.append_ne_nil_of_right_ne_nil _ (List.cons_ne_nil _ _))
  | succ f ih =>
    intro offset l1 l2 o h herr
    rw [VariableStorage.visitedOffsets] at h
    by_cases h1 : offset < bs
    swap
    · rw [if_pos h1] at h
      exact absurd h.symm (List.append_ne_nil_of_right_ne_nil _ (List.cons_ne_nil _ _))
    by_cases h2 : offset + 4 > bs
    · rw [if_neg (by omega), if_pos h2] at h
      exact absurd h.symm (List.append_ne_nil_of_right_ne_nil _ (List.cons_ne_nil _ _))
    rw [if_neg (by omega), if_neg h2] at h
    cases l1 with
    | nil =>
      rw [List.nil_append] at h
      injection h with ho ht
      subst ho
      cases hd : deserializeStudentFromBlock block offset with
      | error e => rw [hd] at ht; exact ht.symm
      | ok s => rw [hd] at herr; cases herr
    | cons a l1 =>
      rw [List.cons_append] at h
      injection h with ho ht
      cases hd : deserializeStudentFromBlock block offset with
      | error e =>
        rw [hd] at ht
        exact absurd ht.symm (List.append_ne_nil_of_right_ne_nil _ (List.cons_ne_nil _ _))
      | ok s =>
        rw [hd] at ht
        exact ih _ l1 l2 o ht herr

/-- The inner loop of the fixed-width lookup on a full block, from slot `p` on, returns the
first record found at a slot. -/
theorem fixed_findInBlock_slots (bs : Nat) (block : List Byte) (hb : block.length = bs)
    (k : Int) :
    ∀ (fuel p : Nat), 1 ≤ fuel → bs + 1 ≤ p * 167 + fuel →
      FixedStorage.findInBlock bs 167 block k fuel (p * 167) =
        some ((List.range' p (bs / 167 - p)).findSome? (FixedStorage.matchAt block k)) := by
  intro fuel
  induction fuel with
  | zero => intro p h; omega
  | succ f ih =>
    intro p _ h
    rw [FixedStorage.findInBlock]
    by_cases h1 : p * 167 + 167 ≤ bs
    · have hp : p + 1 ≤ bs / 167 := by
        rw [Nat.le_div_iff_mul_le (by decide)]
        omega
      have hstep : p * 167 + 167 = (p + 1) * 167 := by ring
      rw [if_neg (by omega), if_neg (by omega), deserializeStudentFixed_slot block _ (by omega),
        show bs / 167 - p = (bs / 167 - (p + 1)) + 1 by omega, findSome?_range'_succ]
      simp only
      have hm : FixedStorage.matchAt block k p =
          (if ((leDecode (slice block (p * 167) (p * 167 + 4)) : Nat) : Int) = k then
            (deserializeStudentFixed 167
              (ByteSlice.ofList (slice block (p * 167) (p * 167 + 167)))).toOption
          else none) := rfl
      rw [hm]
      cases hc : (if ((leDecode (slice block (p * 167) (p * 167 + 4)) : Nat) : Int) = k then
            (deserializeStudentFixed 167
              (ByteSlice.ofList (slice block (p * 167) (p * 167 + 167)))).toOption
          else none) with
      | some s => rfl
      | none =>
        simp only
        rw [hstep]
        exact ih (p + 1) (by omega) (by omega)
    · have hp : bs / 167 - p = 0 := by
        have : bs / 167 ≤ p := by
          by_contra hc
          have h2 : (p + 1) * 167 ≤ bs / 167 * 167 := Nat.mul_le_mul_right 167 (by omega)
          have h3 : bs / 167 * 167 ≤ bs := Nat.div_mul_le_self bs 167
          omega
        omega
      rw [if_pos h1, hp]
      rfl

/-- The block loop of the fixed-width lookup returns the record of the first block whose
inner loop returns one. -/
theorem fixed_findStudent_firstHit (bs : Nat) (file : List Byte) (k : Int) :
    ∀ (n blockNum : Nat), blockNum + n ≤ file.length / bs →
      FixedStorage.findStudentFixed bs 167 file k n blockNum =
        some (match (List.range' blockNum n).findSome? (fun b =>
            (List.range (bs / 167)).findSome?
              (FixedStorage.matchAt (readBlock file bs b) k)) with
          | some s => .ok s
          | none => .error (.notFound k)) := by
  intro n
  induction n with
  | zero => intro blockNum _; rfl
  | succ n ih =>
    intro blockNum h
    have hb := readBlock_length file bs blockNum (by omega)
    have := fixed_findInBlock_slots bs _ hb k (bs + 1) 0 (by omega) (by omega)
    rw [Nat.zero_mul, Nat.sub_zero, ← List.range_eq_range'] at this
    rw [FixedStorage.findStudentFixed, this, findSome?_range'_succ]
    cases (List.range (bs / 167)).findSome?
        (FixedStorage.matchAt (readBlock file bs blockNum) k) with
    | some s => rfl
    | none => exact ih _ (by omega)

/-- The inner loop of the fragmented lookup returns the first record found at a visited
chunk. -/
theorem fragmented_findInBlock_visited (bs : Nat) (file : List Byte) (total blockNum : Nat)
    (k : Int) :
    ∀ (fuel offset : Nat), 1 ≤ fuel → bs + 1 ≤ offset + fuel →
      VariableFragmentedStorage.findInBlock bs file total blockNum k fuel offset =
        some ((VariableFragmentedStorage.visitedOffsets bs file total blockNum fuel
          offset).findSome? (VariableFragmentedStorage.matchAt bs file total blockNum k)) := by
  intro fuel
  induction fuel with
  | zero => intro offset h; omega
  | succ f ih =>
    intro offset _ hf
    rw [VariableFragmentedStorage.findInBlock, VariableFragmentedStorage.visitedOffsets]
    by_cases h1 : offset < bs
    swap
    · rw [if_pos h1, if_pos h1]; rfl
    by_cases h2 : offset + 5 > bs
    · rw [if_neg (by omega), if_pos h2, if_neg (by omega), if_pos h2]; rfl
    rw [if_neg (by omega), if_neg h2, if_neg (by omega), if_neg h2]
    cases hc : readChain bs file total blockNum offset with
    | none => rfl
    | some r =>
      obtain ⟨flag, size, recordData⟩ := r
      simp only
      rw [List.findSome?_cons]
      have hm : VariableFragmentedStorage.matchAt bs file total blockNum k offset =
          (if recordData.length ≥ 4 ∧
              ((leDecode (slice recordData 0 4) : Nat) : Int) = k then
            (deserializeStudent recordData).toOption
          else none) := by
        unfold VariableFragmentedStorage.matchAt
        rw [hc]
      rw [hm]
      cases hx : (if recordData.length ≥ 4 ∧
              ((leDecode (slice recordData 0 4) : Nat) : Int) = k then
            (deserializeStudent recordData).toOption
          else none) with
      | some s => rfl
      | none =>
        simp only
        refine ih _ (by omega) ?_
        split_ifs <;> omega

/-- The block loop of the fragmented lookup returns the record of the first block whose
inner loop returns one. -/
theorem fragmented_findStudent_firstHit (bs : Nat) (file : List Byte) (total : Nat) (k : Int) :
    ∀ (n blockNum : Nat),
      VariableFragmentedStorage.findStudentFragmented bs file total k n blockNum =
        some (match (List.range' blockNum n).findSome? (fun b =>
            (VariableFragmentedStorage.visitedOffsets bs file total b (bs + 1) 0).findSome?
              (VariableFragmentedStorage.matchAt bs file total b k)) with
          | some s => .ok s
          | none => .error (.notFound k)) := by
  intro n
  induction n with
  | zero => intro blockNum; rfl
  | succ n ih =>
    intro blockNum
    rw [VariableFragmentedStorage.findStudentFragmented,
      fragmented_findInBlock_visited bs file total blockNum k (bs + 1) 0 (by omega) (by omega),
      findSome?_range'_succ]
    cases (VariableFragmentedStorage.visitedOffsets bs file total blockNum (bs + 1)
        0).findSome? (VariableFragmentedStorage.matchAt bs file total blockNum k) with
    | some s => rfl
    | none => exact ih _

/-- The fuel of `VariableStorage.visitedOffsets` does not cut the list short: from a fuel
above the block size on, more fuel gives the same offsets. -/
theorem variable_visitedOffsets_fuel (bs : Nat) (block : List Byte) :
    ∀ (fuel offset : Nat), 1 ≤ fuel → bs + 1 ≤ offset + fuel →
      VariableStorage.visitedOffsets bs block (fuel + 1) offset =
        VariableStorage.visitedOffsets bs block fuel offset := by
  intro fuel
  induction fuel with
  | zero => intro offset h; omega
  | succ f ih =>
    intro offset _ hf
    rw [VariableStorage.visitedOffsets]
    conv_rhs => rw [VariableStorage.visitedOffsets]
    by_cases h1 : offset < bs
    swap
    · rw [if_pos h1, if_pos h1]
    by_cases h2 : offset + 4 > bs
    · rw [if_neg (by omega), if_pos h2, if_neg (by omega), if_pos h2]
    rw [if_neg (by omega), if_neg h2, if_neg (by omega), if_neg h2]
    cases hd : deserializeStudentFromBlock block offset with
    | error e => rfl
    | ok s =>
      simp only
      have := getRecordSize_pos s
      rw [ih _ (by omega) (by omega)]

/-- The fuel of `VariableFragmentedStorage.visitedOffsets` does not cut the list short: from
a fuel above the block size on, more fuel gives the same offsets. -/
theorem fragmented_visitedOffsets_fuel (bs : Nat) (file : List Byte) (total blockNum : Nat) :
    ∀ (fuel offset : Nat), 1 ≤ fuel → bs + 1 ≤ offset + fuel →
      VariableFragmentedStorage.visitedOffsets bs file total blockNum (fuel + 1) offset =
        VariableFragmentedStorage.visitedOffsets bs file total blockNum fuel offset := by
  intro fuel
  induction fuel with
  | zero => intro offset h; omega
  | succ f ih =>
    intro offset _ hf
    rw [VariableFragmentedStorage.visitedOffsets]
    conv_rhs => rw [VariableFragmentedStorage.visitedOffsets]
    by_cases h1 : offset < bs
    swap
    · rw [if_pos h1, if_pos h1]
    by_cases h2 : offset + 5 > bs
    · rw [if_neg (by omega), if_pos h2, if_neg (by omega), if_pos h2]
    rw [if_neg (by omega), if_neg h2, if_neg (by omega), if_neg h2]
    cases hc : readChain bs file total blockNum offset with
    | none => rfl
    | some r =>
      obtain ⟨flag, size, recordData⟩ := r
      simp only
      rw [ih _ (by omega) (by split_ifs <;> omega)]

/-- C11, amended: in no layout does `FindStudentByMatricula` report a decode failure. On
every file the lookup comes to an end and returns the first record, in scan order, that is
found at a position whose stored key is the requested key and whose record decodes
(`matchAt`), and the not-found error when no position gives one. The scan goes through the
blocks in order; within a block it goes through the slots (fixed-width layout, record size
167), through the offsets reached by moving past each decoded record (contiguous layout),
or through the chunks (fragmented layout). A position whose stored key is the requested key
but whose record fails to decode gives nothing, like a position with another key, and the
scan goes on: with the next slot, with the next chunk, or, in the contiguous layout, with
the next block, a position that fails to decode being the last one visited in its block.
For FixedStorage with any record size above 0 the lookup also comes to an end, and in every
layout a returned record decoded without error at a position whose stored key is the
requested key. -/
theorem C11_lookup_result (file : List Byte) (k : Int) :
    (∀ vs : VariableStorage,
      vs.FindStudentByMatricula file k =
        some (firstHit k (file.length / vs.blockSize) (fun b =>
          (VariableStorage.visitedOffsets vs.blockSize (readBlock file vs.blockSize b)
            (vs.blockSize + 1) 0).findSome?
              (VariableStorage.matchAt (readBlock file vs.blockSize b) k)))) ∧
    (∀ (vs : VariableStorage) (b : Nat) (l1 l2 : List Nat) (o : Nat),
      VariableStorage.visitedOffsets vs.blockSize (readBlock file vs.blockSize b)
        (vs.blockSize + 1) 0 = l1 ++ o :: l2 →
      (deserializeStudentFromBlock (readBlock file vs.blockSize b) o).toOption = none →
      l2 = []) ∧
    (∀ fs : FixedStorage, fs.fixedRecordSize = 167 →
      fs.FindStudentByMatricula file k =
        some (firstHit k (file.length / fs.blockSize) (fun b =>
          (List.range (fs.blockSize / 167)).findSome?
            (FixedStorage.matchAt (readBlock file fs.blockSize b) k)))) ∧
    (∀ vfs : VariableFragmentedStorage,
      vfs.FindStudentByMatricula file k =
        some (firstHit k (file.length / vfs.blockSize) (fun b =>
          (VariableFragmentedStorage.visitedOffsets vfs.blockSize file
            (file.length / vfs.blockSize) b (vfs.blockSize + 1) 0).findSome?
              (VariableFragmentedStorage.matchAt vfs.blockSize file
                (file.length / vfs.blockSize) b k)))) ∧
    (∀ vs : VariableStorage, ∃ r, vs.FindStudentByMatricula file k = some r ∧
      (r = .error (.notFound k) ∨
        ∃ (s : Student) (b o : Nat), r = .ok s ∧
          deserializeStudentFromBlock (readBlock file vs.blockSize b) o = .ok s ∧
          ((leDecode (slice (readBlock file vs.blockSize b) o (o + 4)) : Nat) : Int) = k)) ∧
    (∀ fs : FixedStorage, 0 < fs.fixedRecordSize →
      ∃ r, fs.FindStudentByMatricula file k = some r ∧
      (r = .error (.notFound k) ∨
        ∃ (s : Student) (b o : Nat), r = .ok s ∧
          deserializeStudentFixed fs.fixedRecordSize
            (ByteSlice.ofBlock (readBlock file fs.blockSize b) o (o + fs.fixedRecordSize)) =
              .ok s ∧
          ((leDecode (slice (readBlock file fs.blockSize b) o (o + 4)) : Nat) : Int) = k)) ∧
    (∀ vfs : VariableFragmentedStorage, ∃ r, vfs.FindStudentByMatricula file k = some r ∧
      (r = .error (.notFound k) ∨
        ∃ (s : Student) (b o : Nat) (flag : Byte) (size : Nat) (recordData : List Byte),
          r = .ok s ∧
          readChain vfs.blockSize file (file.length / vfs.blockSize) b o =
            some (flag, size, recordData) ∧
          deserializeStudent recordData = .ok s ∧
          ((leDecode (slice recordData 0 4) : Nat) : Int) = k)) := by
  refine ⟨fun vs => ?_, fun vs b l1 l2 o h herr => ?_, fun fs hfrs => ?_, fun vfs => ?_,
    fun vs => VariableStorage.findStudentContiguous_result vs.blockSize file k _ _,
    fun fs h => FixedStorage.findStudentFixed_result fs.blockSize fs.fixedRecordSize h file k _ _,
    fun vfs => VariableFragmentedStorage.findStudentFragmented_result vfs.blockSize file _ k _ _⟩
  · unfold VariableStorage.FindStudentByMatricula firstHit
    simp only
    rw [variable_findStudent_firstHit, ← List.range_eq_range']
  · exact variable_visitedOffsets_error_last _ _ _ _ l1 l2 o h herr
  · unfold FixedStorage.FindStudentByMatricula firstHit
    simp only
    rw [hfrs, fixed_findStudent_firstHit _ _ _ _ 0 (by omega), ← List.range_eq_range']
  · unfold VariableFragmentedStorage.FindStudentByMatricula firstHit
    simp only
    rw [fragmented_findStudent_firstHit, ← List.range_eq_range']

set_option maxRecDepth 1000000 in
theorem C11_lookup_result_witness :
    ∃ r, FixedStorage.FindStudentByMatricula ⟨167, 167, StorageStats.empty⟩
        (fileOf 167 [serializeStudentFixed sampleBadCPF, serializeStudentFixed sampleA])
        100000001 = some r ∧ r = .ok sampleA :=
  ⟨_, (C11_lookup_result (fileOf 167 [serializeStudentFixed sampleBadCPF,
      serializeStudentFixed sampleA]) 100000001).2.2.1 ⟨167, 167, StorageStats.empty⟩ rfl,
    by decide!⟩

/-! ## The score conversion on a negative score -/

/-- The stored score integer of the score -1.5: the product -150 is kept in two's
complement, `2^64 - 150`. -/
theorem encodeCA_negative :
    encodeCA (F64.fin (-((3 * 2 ^ 1073 : Nat) : Int))) = 2 ^ 64 - 150 := by
  decide!

end Tp1
